import Mathlib

/-! Adaptive radix tree (`art.hpp`): shallow embedding

The tree of `art::art_trie` is embedded as an inductive type: a child reference
(`art_node*`, possibly tagged as a leaf, possibly `NULL`) is a `Node`, and the memory it
points to is the constructor's payload.  In-place writes through `art_node **ref` become
functions that return the new content of `*ref`.

* Bytes, lengths, indices and value handles are natural numbers; the value handle `0`
  is the `NULL` pointer.  `num_children` is the only counter of the source that wraps in
  practice (`uint8_t`), and is reduced modulo 256 where the source increments and
  decrements it on a `NODE256`.
* A fixed-size C array is a function from indices; `calloc` gives the all-zero array.
* A query key is the pair of the caller's buffer `key : Nat → Nat` (the bytes found at
  `key[i]`, whatever `i`) and `key_len`.  The source indexes `key[depth]` without
  comparing `depth` to `key_len`; the embedding returns what the buffer holds there.
* A leaf owns a copy of exactly `key_len` bytes; a read of `l->key[i]` past the copy gives
  `0` (the leaf is `calloc`ed with `sizeof(art_leaf) + key_len` bytes, which leaves zero
  bytes behind the copy).
* A function that can end in a `NULL` dereference on a tree the interface reaches returns
  an `Option`, `none` standing for the call that does not return (`art_iter_prefix`,
  `art_size_in_bytes`).  `prefix_mismatch` reads the key of the leaf that `minimum` returns;
  for a node without a leftmost leaf it keeps the index reached in the cached bytes, and
  every statement about it asks for that leaf.
* The two builds of the 16-way node (`__i386__`/`__amd64__` with SSE2, and the scalar
  fallback) are selected by the flag `simd`.
-/

namespace Art

/-! ## Data model -/

/-- The constant `MAX_PREFIX_LEN`. -/
def MAX_PREFIX_LEN : Nat := 10

/-- The node type tags `NODE4`, `NODE16`, `NODE48`, `NODE256`. -/
inductive NodeType where
  | NODE4
  | NODE16
  | NODE48
  | NODE256
deriving DecidableEq, Repr

/-- The header `art_node` shared by the four inner node layouts; the field `partial_`
is the array `partial[MAX_PREFIX_LEN]`. -/
structure art_node where
  partial_len : Nat
  type : NodeType
  num_children : Nat
  partial_ : Nat → Nat

/-- The record `art_leaf`: the value handle and the copied key (`key_len` is the length of
the copy). -/
structure art_leaf where
  value : Nat
  key : List Nat
deriving DecidableEq, Repr

/-- The field `key_len` of a leaf. -/
def art_leaf.key_len (l : art_leaf) : Nat := l.key.length

/-- The read `l->key[i]`. -/
def art_leaf.byte (l : art_leaf) (i : Nat) : Nat := l.key.getD i 0

/-- A child reference together with what it points to: `NULL`, a tagged leaf pointer, or an
inner node (`art_node4`, `art_node16`, `art_node48` or `art_node256` according to
`n.type`; `keys` is `keys[4]`, `keys[16]` or `keys[256]`, `children` is `children[4]`,
`children[16]`, `children[48]` or `children[256]`). -/
inductive Node where
  | null : Node
  | leaf (l : art_leaf) : Node
  | inner (n : art_node) (keys : Nat → Nat) (children : Nat → Node) : Node

/-- The memory of an inner node. -/
structure Inner where
  n : art_node
  keys : Nat → Nat
  children : Nat → Node

/-- The reference to an inner node. -/
def Inner.toNode (x : Inner) : Node := Node.inner x.n x.keys x.children

/-- The test `!n` on a child reference. -/
def Node.isNull : Node → Bool
  | Node.null => true
  | _ => false

/-- The struct `art_tree`. -/
structure art_tree where
  root : Node
  size : Nat

/-- A visitor `art_callback`: from the context `data`, the key (with its length) and the
value to the returned `int` and the context afterwards. -/
abbrev art_callback (σ : Type) := σ → List Nat → Nat → Int × σ

/-! ## Array and loop primitives -/

/-- The assignment `a[i] = v`. -/
def upd {α : Type} (a : Nat → α) (i : Nat) (v : α) : Nat → α :=
  fun j => if j = i then v else a j

/-- The calls `memcpy(dest + doff, src + soff, len)` and `memmove(dest + doff, src + soff,
len)` (counted in elements); `src` is the source array as it is before the call. -/
def memcpy {α : Type} (dest : Nat → α) (doff : Nat) (src : Nat → α) (soff : Nat)
    (len : Nat) : Nat → α :=
  fun j => if doff ≤ j ∧ j < doff + len then src (soff + (j - doff)) else dest j

/-- The loop `for (; idx < bound; idx++) if (p idx) break;` run for at most `count`
iterations from `idx`: the index at which it stops. -/
def scan_up (p : Nat → Bool) : Nat → Nat → Nat
  | idx, 0 => idx
  | idx, count + 1 => if p idx then idx else scan_up p (idx + 1) count

/-- The loop `while (!p idx) idx--;` started at `bound - 1`, stopped below index `0`. -/
def scan_down (p : Nat → Bool) : Nat → Option Nat
  | 0 => none
  | bound + 1 => if p bound then some bound else scan_down p bound

/-- The loop `for (i = 0; i < 16; ++i) if (lane i) bitfield |= (1 << i);`, which is also
what `_mm_movemask_epi8` returns for sixteen lanes that are all-ones where `lane` holds. -/
def movemask16 (lane : Nat → Bool) : Nat :=
  (List.range 16).foldl (fun b i => if lane i then b ||| (1 <<< i) else b) 0

/-- The value of a byte read as a signed 8-bit lane. -/
def int8 (b : Nat) : Int := if b % 256 < 128 then ((b % 256 : Nat) : Int) else ((b % 256 : Nat) : Int) - 256

/-- The lanes of `_mm_cmpeq_epi8(_mm_set1_epi8(c), keys)`. -/
def mm_cmpeq_epi8 (c : Nat) (keys : Nat → Nat) : Nat → Bool :=
  fun i => decide (int8 c = int8 (keys i))

/-- The lanes of `_mm_cmplt_epi8(_mm_set1_epi8(c), keys)`: a signed comparison. -/
def mm_cmplt_epi8 (c : Nat) (keys : Nat → Nat) : Nat → Bool :=
  fun i => decide (int8 c < int8 (keys i))

/-- The builtin `__builtin_ctz` on a nonzero 32-bit value. -/
def ctz (x : Nat) : Nat := scan_up (fun i => x.testBit i) 0 32

/-- The loop with early exit `for (i = from; ...; i++) { res = body i; if (res) return res; }`
over `count` indices, threading the visitor context; `0` when it runs to the end. -/
def iter_for {σ : Type} (body : Nat → σ → Int × σ) : Nat → Nat → σ → Int × σ
  | _, 0, data => (0, data)
  | i, count + 1, data =>
    let r := body i data
    if r.1 ≠ 0 then r else iter_for body (i + 1) count r.2

/-! ## Node primitives -/

/-- The allocator `alloc_node`: a zeroed node of the given type. -/
def alloc_node (type : NodeType) : Inner :=
  { n := { partial_len := 0, type := type, num_children := 0, partial_ := fun _ => 0 }
    keys := fun _ => 0
    children := fun _ => Node.null }

/-- The function `find_child`: the index of the child slot for byte `c`, if any. -/
def find_child (simd : Bool) (x : Inner) (c : Nat) : Option Nat :=
  match x.n.type with
  | NodeType.NODE4 =>
    let i := scan_up (fun i => x.keys i == c) 0 x.n.num_children
    if i < x.n.num_children then some i else none
  | NodeType.NODE16 =>
    let mask := (1 <<< x.n.num_children) - 1
    let bitfield :=
      (if simd then movemask16 (mm_cmpeq_epi8 c x.keys)
       else movemask16 (fun i => x.keys i == c)) &&& mask
    if bitfield ≠ 0 then some (ctz bitfield) else none
  | NodeType.NODE48 =>
    let i := x.keys c
    if i ≠ 0 then some (i - 1) else none
  | NodeType.NODE256 =>
    if (x.children c).isNull then none else some c

/-- The function `check_prefix`: the number of cached prefix bytes that match the key. -/
def check_prefix (n : art_node) (key : Nat → Nat) (key_len depth : Nat) : Nat :=
  let max_cmp := min (min n.partial_len MAX_PREFIX_LEN) (key_len - depth)
  scan_up (fun idx => n.partial_ idx != key (depth + idx)) 0 max_cmp

/-- The function `leaf_matches`: `0` when the leaf holds exactly the key. -/
def leaf_matches (l : art_leaf) (key : Nat → Nat) (key_len : Nat) (_depth : Nat) : Nat :=
  if l.key_len ≠ key_len then 1
  else if (List.range key_len).all (fun i => l.byte i == key i) then 0 else 1

/-- The function `minimum`: the leftmost leaf under a node (`none` is `NULL`; the scans of
`NODE48` and `NODE256` stop at the end of the array). -/
def minimum : Node → Option art_leaf
  | Node.null => none
  | Node.leaf l => some l
  | Node.inner n keys children =>
    match n.type with
    | NodeType.NODE4 => minimum (children 0)
    | NodeType.NODE16 => minimum (children 0)
    | NodeType.NODE48 =>
      let idx := scan_up (fun i => keys i != 0) 0 256
      if idx < 256 then minimum (children (keys idx - 1)) else none
    | NodeType.NODE256 =>
      let idx := scan_up (fun i => !(children i).isNull) 0 256
      if idx < 256 then minimum (children idx) else none

/-- The function `maximum`: the rightmost leaf under a node. -/
def maximum : Node → Option art_leaf
  | Node.null => none
  | Node.leaf l => some l
  | Node.inner n keys children =>
    match n.type with
    | NodeType.NODE4 => maximum (children (n.num_children - 1))
    | NodeType.NODE16 => maximum (children (n.num_children - 1))
    | NodeType.NODE48 =>
      match scan_down (fun i => keys i != 0) 256 with
      | some idx => maximum (children (keys idx - 1))
      | none => none
    | NodeType.NODE256 =>
      match scan_down (fun i => !(children i).isNull) 256 with
      | some idx => maximum (children idx)
      | none => none

/-- The function `make_leaf`: a leaf with a copy of the first `key_len` bytes of `key`. -/
def make_leaf (key : Nat → Nat) (key_len : Nat) (value : Nat) : art_leaf :=
  { value := value, key := (List.range key_len).map key }

/-- The function `longest_common_prefix` of two leaves from `depth` on. -/
def longest_common_prefix (l1 l2 : art_leaf) (depth : Nat) : Nat :=
  let max_cmp := min l1.key_len l2.key_len - depth
  scan_up (fun idx => l1.byte (depth + idx) != l2.byte (depth + idx)) 0 max_cmp

/-- The function `copy_header`. -/
def copy_header (dest src : art_node) : art_node :=
  { dest with
    num_children := src.num_children
    partial_len := src.partial_len
    partial_ := memcpy dest.partial_ 0 src.partial_ 0 (min MAX_PREFIX_LEN src.partial_len) }

/-- The function `add_child256`; the result is the node `*ref` points to afterwards. -/
def add_child256 (x : Inner) (c : Nat) (child : Node) : Inner :=
  { x with
    n := { x.n with num_children := (x.n.num_children + 1) % 256 }
    children := upd x.children c child }

/-- The function `add_child48`. -/
def add_child48 (x : Inner) (c : Nat) (child : Node) : Inner :=
  if x.n.num_children < 48 then
    let pos := scan_up (fun p => (x.children p).isNull) 0 48
    { n := { x.n with num_children := x.n.num_children + 1 }
      keys := upd x.keys c (pos + 1)
      children := upd x.children pos child }
  else
    let new_node := alloc_node NodeType.NODE256
    let new_node : Inner :=
      { n := copy_header new_node.n x.n
        keys := new_node.keys
        children := fun i =>
          if i < 256 ∧ x.keys i ≠ 0 then x.children (x.keys i - 1) else new_node.children i }
    add_child256 new_node c child

/-- The function `add_child16`; `simd` selects the SSE2 comparison. -/
def add_child16 (simd : Bool) (x : Inner) (c : Nat) (child : Node) : Inner :=
  if x.n.num_children < 16 then
    let mask := (1 <<< x.n.num_children) - 1
    let bitfield :=
      (if simd then movemask16 (mm_cmplt_epi8 c x.keys)
       else movemask16 (fun i => decide (c < x.keys i))) &&& mask
    if bitfield ≠ 0 then
      let idx := ctz bitfield
      let keys := memcpy x.keys (idx + 1) x.keys idx (x.n.num_children - idx)
      let children := memcpy x.children (idx + 1) x.children idx (x.n.num_children - idx)
      { n := { x.n with num_children := x.n.num_children + 1 }
        keys := upd keys idx c
        children := upd children idx child }
    else
      let idx := x.n.num_children
      { n := { x.n with num_children := x.n.num_children + 1 }
        keys := upd x.keys idx c
        children := upd x.children idx child }
  else
    let new_node := alloc_node NodeType.NODE48
    let new_node : Inner :=
      { n := copy_header new_node.n x.n
        keys := (List.range x.n.num_children).foldl
          (fun ks i => upd ks (x.keys i) (i + 1)) new_node.keys
        children := memcpy new_node.children 0 x.children 0 x.n.num_children }
    add_child48 new_node c child

/-- The function `add_child4`. -/
def add_child4 (simd : Bool) (x : Inner) (c : Nat) (child : Node) : Inner :=
  if x.n.num_children < 4 then
    let idx := scan_up (fun idx => decide (c < x.keys idx)) 0 x.n.num_children
    let keys := memcpy x.keys (idx + 1) x.keys idx (x.n.num_children - idx)
    let children := memcpy x.children (idx + 1) x.children idx (x.n.num_children - idx)
    { n := { x.n with num_children := x.n.num_children + 1 }
      keys := upd keys idx c
      children := upd children idx child }
  else
    let new_node := alloc_node NodeType.NODE16
    let new_node : Inner :=
      { n := copy_header new_node.n x.n
        keys := memcpy new_node.keys 0 x.keys 0 x.n.num_children
        children := memcpy new_node.children 0 x.children 0 x.n.num_children }
    add_child16 simd new_node c child

/-- The function `add_child`. -/
def add_child (simd : Bool) (x : Inner) (c : Nat) (child : Node) : Inner :=
  match x.n.type with
  | NodeType.NODE4 => add_child4 simd x c child
  | NodeType.NODE16 => add_child16 simd x c child
  | NodeType.NODE48 => add_child48 x c child
  | NodeType.NODE256 => add_child256 x c child

/-- The function `prefix_mismatch`: the index at which the node's prefix and the key
differ, read from the cached bytes and then from the leftmost leaf.  The source reads that
leaf without a `NULL` test; where `minimum` finds none the index reached in the cached bytes
is kept. -/
def prefix_mismatch (x : Inner) (key : Nat → Nat) (key_len depth : Nat) : Nat :=
  let max_cmp := min (min MAX_PREFIX_LEN x.n.partial_len) (key_len - depth)
  let idx := scan_up (fun idx => x.n.partial_ idx != key (depth + idx)) 0 max_cmp
  if idx < max_cmp then idx
  else if x.n.partial_len > MAX_PREFIX_LEN then
    match minimum x.toNode with
    | some l =>
      let max_cmp := min l.key_len key_len - depth
      scan_up (fun idx => l.byte (idx + depth) != key (depth + idx)) idx (max_cmp - idx)
    | none => idx
  else idx

/-! ## Insertion -/

/-- The function `recursive_insert`.  The result is the content of `*ref` afterwards, the
returned old value, and whether `*old` was set. -/
def recursive_insert (simd : Bool) (key : Nat → Nat) (key_len value : Nat) (replace : Bool) :
    Node → Nat → Node × Nat × Bool
  | Node.null, _ => (Node.leaf (make_leaf key key_len value), 0, false)
  | Node.leaf l, depth =>
    if leaf_matches l key key_len depth = 0 then
      (Node.leaf (if replace then { l with value := value } else l), l.value, true)
    else
      let new_node := alloc_node NodeType.NODE4
      let l2 := make_leaf key key_len value
      let longest_prefix := longest_common_prefix l l2 depth
      let new_node : Inner :=
        { new_node with
          n := { new_node.n with
            partial_len := longest_prefix
            partial_ := memcpy new_node.n.partial_ 0 key depth
              (min MAX_PREFIX_LEN longest_prefix) } }
      let new_node := add_child4 simd new_node (l.byte (depth + longest_prefix)) (Node.leaf l)
      let new_node := add_child4 simd new_node (l2.byte (depth + longest_prefix)) (Node.leaf l2)
      (new_node.toNode, 0, false)
  | Node.inner n keys children, depth =>
    let x : Inner := { n := n, keys := keys, children := children }
    let prefix_diff := prefix_mismatch x key key_len depth
    if n.partial_len ≠ 0 ∧ prefix_diff < n.partial_len then
      let new_node := alloc_node NodeType.NODE4
      let new_node : Inner :=
        { new_node with
          n := { new_node.n with
            partial_len := prefix_diff
            partial_ := memcpy new_node.n.partial_ 0 n.partial_ 0
              (min MAX_PREFIX_LEN prefix_diff) } }
      let new_node :=
        if n.partial_len ≤ MAX_PREFIX_LEN then
          let n2 : art_node :=
            { n with
              partial_len := n.partial_len - (prefix_diff + 1)
              partial_ := memcpy n.partial_ 0 n.partial_ (prefix_diff + 1)
                (min MAX_PREFIX_LEN (n.partial_len - (prefix_diff + 1))) }
          add_child4 simd new_node (n.partial_ prefix_diff) (Node.inner n2 keys children)
        else
          match minimum x.toNode with
          | some l =>
            let n2 : art_node :=
              { n with
                partial_len := n.partial_len - (prefix_diff + 1)
                partial_ := memcpy n.partial_ 0 l.byte (depth + prefix_diff + 1)
                  (min MAX_PREFIX_LEN (n.partial_len - (prefix_diff + 1))) }
            add_child4 simd new_node (l.byte (depth + prefix_diff)) (Node.inner n2 keys children)
          | none => new_node
      let l := make_leaf key key_len value
      let new_node := add_child4 simd new_node (key (depth + prefix_diff)) (Node.leaf l)
      (new_node.toNode, 0, false)
    else
      let depth := depth + n.partial_len
      match find_child simd x (key depth) with
      | some slot =>
        let r := recursive_insert simd key key_len value replace (children slot) (depth + 1)
        (Node.inner n keys (upd children slot r.1), r.2)
      | none =>
        let l := make_leaf key key_len value
        ((add_child simd x (key depth) (Node.leaf l)).toNode, 0, false)

/-! ## Removal -/

/-- The function `remove_child256`; the result is the content of `*ref` afterwards.  The
state of the copying loop is `(pos, keys, children)` of the new node. -/
def remove_child256 (x : Inner) (c : Nat) : Node :=
  let children := upd x.children c Node.null
  let n : art_node := { x.n with num_children := (x.n.num_children + 255) % 256 }
  if n.num_children = 37 then
    let new_node := alloc_node NodeType.NODE48
    let hdr := copy_header new_node.n n
    let st := (List.range 256).foldl
      (fun (st : Nat × (Nat → Nat) × (Nat → Node)) i =>
        if !(children i).isNull then
          (st.1 + 1, upd st.2.1 i (st.1 + 1), upd st.2.2 st.1 (children i))
        else st)
      (0, new_node.keys, new_node.children)
    Node.inner hdr st.2.1 st.2.2
  else Node.inner n x.keys children

/-- The function `remove_child48`.  The state of the copying loop is `(child, keys,
children)` of the new node. -/
def remove_child48 (x : Inner) (c : Nat) : Node :=
  let pos := x.keys c
  let keys := upd x.keys c 0
  let children := upd x.children (pos - 1) Node.null
  let n : art_node := { x.n with num_children := (x.n.num_children + 255) % 256 }
  if n.num_children = 12 then
    let new_node := alloc_node NodeType.NODE16
    let hdr := copy_header new_node.n n
    let st := (List.range 256).foldl
      (fun (st : Nat × (Nat → Nat) × (Nat → Node)) i =>
        if keys i != 0 then
          (st.1 + 1, upd st.2.1 st.1 i, upd st.2.2 st.1 (children (keys i - 1)))
        else st)
      (0, new_node.keys, new_node.children)
    Node.inner hdr st.2.1 st.2.2
  else Node.inner n keys children

/-- The function `remove_child16`; `pos` is the index `l - n->children` of the slot. -/
def remove_child16 (x : Inner) (pos : Nat) : Node :=
  let keys := memcpy x.keys pos x.keys (pos + 1) (x.n.num_children - 1 - pos)
  let children := memcpy x.children pos x.children (pos + 1) (x.n.num_children - 1 - pos)
  let n : art_node := { x.n with num_children := (x.n.num_children + 255) % 256 }
  if n.num_children = 3 then
    let new_node := alloc_node NodeType.NODE4
    Node.inner (copy_header new_node.n n)
      (memcpy new_node.keys 0 keys 0 4) (memcpy new_node.children 0 children 0 4)
  else Node.inner n keys children

/-- The function `remove_child4`, with the collapse of a node left with one child. -/
def remove_child4 (x : Inner) (pos : Nat) : Node :=
  let keys := memcpy x.keys pos x.keys (pos + 1) (x.n.num_children - 1 - pos)
  let children := memcpy x.children pos x.children (pos + 1) (x.n.num_children - 1 - pos)
  let n : art_node := { x.n with num_children := (x.n.num_children + 255) % 256 }
  if n.num_children = 1 then
    match children 0 with
    | Node.inner cn ckeys cchildren =>
      let pfx := n.partial_len
      let part1 := if pfx < MAX_PREFIX_LEN then upd n.partial_ pfx (keys 0) else n.partial_
      let pfx1 := if pfx < MAX_PREFIX_LEN then pfx + 1 else pfx
      let sub_prefix := min cn.partial_len (MAX_PREFIX_LEN - pfx1)
      let part2 :=
        if pfx1 < MAX_PREFIX_LEN then memcpy part1 pfx1 cn.partial_ 0 sub_prefix else part1
      let pfx2 := if pfx1 < MAX_PREFIX_LEN then pfx1 + sub_prefix else pfx1
      Node.inner
        { cn with
          partial_ := memcpy cn.partial_ 0 part2 0 (min pfx2 MAX_PREFIX_LEN)
          partial_len := cn.partial_len + (n.partial_len + 1) }
        ckeys cchildren
    | child => child
  else Node.inner n keys children

/-- The function `remove_child`; `l` is the index of the child slot found by `find_child`. -/
def remove_child (x : Inner) (c : Nat) (l : Nat) : Node :=
  match x.n.type with
  | NodeType.NODE4 => remove_child4 x l
  | NodeType.NODE16 => remove_child16 x l
  | NodeType.NODE48 => remove_child48 x c
  | NodeType.NODE256 => remove_child256 x c

/-- The function `recursive_delete`: the content of `*ref` afterwards and the removed
leaf. -/
def recursive_delete (simd : Bool) (key : Nat → Nat) (key_len : Nat) :
    Node → Nat → Node × Option art_leaf
  | Node.null, _ => (Node.null, none)
  | Node.leaf l, depth =>
    if leaf_matches l key key_len depth = 0 then (Node.null, some l) else (Node.leaf l, none)
  | Node.inner n keys children, depth =>
    let x : Inner := { n := n, keys := keys, children := children }
    if n.partial_len ≠ 0 ∧
        check_prefix n key key_len depth ≠ min MAX_PREFIX_LEN n.partial_len then
      (Node.inner n keys children, none)
    else
      let depth := depth + n.partial_len
      match find_child simd x (key depth) with
      | none => (Node.inner n keys children, none)
      | some slot =>
        match children slot with
        | Node.leaf l =>
          if leaf_matches l key key_len depth = 0 then
            (remove_child x (key depth) slot, some l)
          else (Node.inner n keys children, none)
        | _ =>
          let r := recursive_delete simd key key_len (children slot) (depth + 1)
          (Node.inner n keys (upd children slot r.1), r.2)

/-! ## Iteration -/

/-- The function `recursive_iter`. -/
def recursive_iter {σ : Type} (cb : art_callback σ) : Node → σ → Int × σ
  | Node.null, data => (0, data)
  | Node.leaf l, data => cb data l.key l.value
  | Node.inner n keys children, data =>
    match n.type with
    | NodeType.NODE4 =>
      iter_for (fun i d => recursive_iter cb (children i) d) 0 n.num_children data
    | NodeType.NODE16 =>
      iter_for (fun i d => recursive_iter cb (children i) d) 0 n.num_children data
    | NodeType.NODE48 =>
      iter_for (fun i d =>
        if keys i = 0 then (0, d) else recursive_iter cb (children (keys i - 1)) d) 0 256 data
    | NodeType.NODE256 =>
      iter_for (fun i d =>
        if (children i).isNull then (0, d) else recursive_iter cb (children i) d) 0 256 data

/-- The function `leaf_prefix_matches`: `0` when the leaf's key starts with the prefix. -/
def leaf_prefix_matches (l : art_leaf) (pfx : Nat → Nat) (prefix_len : Nat) : Nat :=
  if l.key_len < prefix_len then 1
  else if (List.range prefix_len).all (fun i => l.byte i == pfx i) then 0 else 1

/-! ## Public operations -/

/-- The function `art_tree_init`. -/
def art_tree_init : art_tree := { root := Node.null, size := 0 }

/-- The function `art_size`. -/
def art_size (t : art_tree) : Nat := t.size

/-- The function `art_insert`: the tree afterwards and the returned old value. -/
def art_insert (simd : Bool) (t : art_tree) (key : Nat → Nat) (key_len value : Nat) :
    art_tree × Nat :=
  let r := recursive_insert simd key key_len value true t.root 0
  ({ root := r.1, size := if r.2.2 then t.size else t.size + 1 }, r.2.1)

/-- The function `art_insert_no_replace`. -/
def art_insert_no_replace (simd : Bool) (t : art_tree) (key : Nat → Nat)
    (key_len value : Nat) : art_tree × Nat :=
  let r := recursive_insert simd key key_len value false t.root 0
  ({ root := r.1, size := if r.2.2 then t.size else t.size + 1 }, r.2.1)

/-- The function `art_delete`: the tree afterwards and the returned value. -/
def art_delete (simd : Bool) (t : art_tree) (key : Nat → Nat) (key_len : Nat) :
    art_tree × Nat :=
  let r := recursive_delete simd key key_len t.root 0
  match r.2 with
  | some l => ({ root := r.1, size := t.size - 1 }, l.value)
  | none => ({ root := r.1, size := t.size }, 0)

/-- The loop of `art_search`, from the node `n` at `depth`. -/
def art_search_loop (simd : Bool) (key : Nat → Nat) (key_len : Nat) : Node → Nat → Nat
  | Node.null, _ => 0
  | Node.leaf l, depth => if leaf_matches l key key_len depth = 0 then l.value else 0
  | Node.inner n keys children, depth =>
    if n.partial_len ≠ 0 ∧
        check_prefix n key key_len depth ≠ min MAX_PREFIX_LEN n.partial_len then 0
    else
      let depth := depth + n.partial_len
      match find_child simd { n := n, keys := keys, children := children } (key depth) with
      | some slot => art_search_loop simd key key_len (children slot) (depth + 1)
      | none => 0

/-- The function `art_search`. -/
def art_search (simd : Bool) (t : art_tree) (key : Nat → Nat) (key_len : Nat) : Nat :=
  art_search_loop simd key key_len t.root 0

/-- The function `art_minimum`. -/
def art_minimum (t : art_tree) : Option art_leaf := minimum t.root

/-- The function `art_maximum`. -/
def art_maximum (t : art_tree) : Option art_leaf := maximum t.root

/-- The function `art_iter`. -/
def art_iter {σ : Type} (t : art_tree) (cb : art_callback σ) (data : σ) : Int × σ :=
  recursive_iter cb t.root data

/-- The loop of `art_iter_prefix`, from the node `n` at `depth`.  The result is `none` where
the source does not return: at `depth == key_len` it passes the leaf that `minimum` gives to
`leaf_prefix_matches`, which dereferences it, also when `minimum` gave `NULL`. -/
def art_iter_prefix_loop {σ : Type} (simd : Bool) (key : Nat → Nat) (key_len : Nat)
    (cb : art_callback σ) : Node → Nat → σ → Option (Int × σ)
  | Node.null, _, data => some (0, data)
  | Node.leaf l, _, data =>
    if leaf_prefix_matches l key key_len = 0 then some (cb data l.key l.value)
    else some (0, data)
  | Node.inner n keys children, depth, data =>
    let x : Inner := { n := n, keys := keys, children := children }
    if depth = key_len then
      match minimum x.toNode with
      | some l =>
        if leaf_prefix_matches l key key_len = 0 then some (recursive_iter cb x.toNode data)
        else some (0, data)
      | none => none
    else
      let prefix_len := prefix_mismatch x key key_len depth
      let prefix_len := if prefix_len > n.partial_len then n.partial_len else prefix_len
      if n.partial_len ≠ 0 ∧ prefix_len = 0 then some (0, data)
      else if n.partial_len ≠ 0 ∧ depth + prefix_len = key_len then
        some (recursive_iter cb x.toNode data)
      else
        let depth := depth + n.partial_len
        match find_child simd x (key depth) with
        | some slot => art_iter_prefix_loop simd key key_len cb (children slot) (depth + 1) data
        | none => some (0, data)

/-- The function `art_iter_prefix`; `none` where the source does not return. -/
def art_iter_prefix {σ : Type} (simd : Bool) (t : art_tree) (key : Nat → Nat)
    (key_len : Nat) (cb : art_callback σ) (data : σ) : Option (Int × σ) :=
  art_iter_prefix_loop simd key key_len cb t.root 0 data

open NodeType

/-! ## Specification vocabulary -/

/-- The key a call designates: the first `key_len` bytes of the buffer. -/
def key_bytes (key : Nat → Nat) (key_len : Nat) : List Nat := (List.range key_len).map key

/-- The visitor that records every pair it is shown and returns `0`. -/
def collect : art_callback (List (List Nat × Nat)) :=
  fun data key value => (0, data ++ [(key, value)])

/-- Lexicographic order on keys as unsigned bytes (a proper prefix comes first). -/
def key_lt : List Nat → List Nat → Bool
  | [], [] => false
  | [], _ :: _ => true
  | _ :: _, [] => false
  | a :: as, b :: bs => decide (a < b) || (a == b && key_lt as bs)

/-- Neither key is a proper prefix of the other. -/
def prefix_free (k1 k2 : List Nat) : Prop :=
  (k1 <+: k2 → k1 = k2) ∧ (k2 <+: k1 → k1 = k2)

/-- A key as the trie files it: followed by the zero byte that a read behind the key copy of
a leaf returns. -/
def ext (k : List Nat) : List Nat := k ++ [0]

/-- Neither key, followed by a zero byte, is a prefix of the other: the two keys can be
filed in one trie. Two keys neither of which is a proper prefix of the other are so, and so
are two keys without zero bytes. -/
def term_free (k1 k2 : List Nat) : Prop := prefix_free (ext k1) (ext k2)

/-- The live child slots of an inner node, as pairs (key byte, slot index), in the order in
which `recursive_iter` visits them. -/
def slots (x : Inner) : List (Nat × Nat) :=
  match x.n.type with
  | NodeType.NODE4 => (List.range x.n.num_children).map (fun i => (x.keys i, i))
  | NodeType.NODE16 => (List.range x.n.num_children).map (fun i => (x.keys i, i))
  | NodeType.NODE48 =>
    ((List.range 256).filter (fun c => x.keys c != 0)).map (fun c => (c, x.keys c - 1))
  | NodeType.NODE256 =>
    ((List.range 256).filter (fun c => !(x.children c).isNull)).map (fun c => (c, c))

/-- The children of an inner node with their key bytes, in iteration order. -/
def entries (x : Inner) : List (Nat × Node) := (slots x).map (fun p => (p.1, x.children p.2))

/-- The (key, value) pairs stored under a node, in the order of `recursive_iter`. -/
def leaves : Node → List (List Nat × Nat)
  | Node.null => []
  | Node.leaf l => [(l.key, l.value)]
  | Node.inner n keys children =>
    match n.type with
    | NodeType.NODE4 => (List.range n.num_children).flatMap (fun i => leaves (children i))
    | NodeType.NODE16 => (List.range n.num_children).flatMap (fun i => leaves (children i))
    | NodeType.NODE48 =>
      (List.range 256).flatMap (fun i => if keys i = 0 then [] else leaves (children (keys i - 1)))
    | NodeType.NODE256 =>
      (List.range 256).flatMap (fun i => if (children i).isNull then [] else leaves (children i))

/-- The least number of children a node of each type has between operations. -/
def min_children : NodeType → Nat
  | NodeType.NODE4 => 2
  | NodeType.NODE16 => 4
  | NodeType.NODE48 => 13
  | NodeType.NODE256 => 38

/-- The layout-specific part of the node invariant. -/
def Layout (x : Inner) : Prop :=
  match x.n.type with
  | NodeType.NODE4 => x.n.num_children ≤ 4
  | NodeType.NODE16 => x.n.num_children ≤ 16
  | NodeType.NODE48 =>
    x.n.num_children = (slots x).length ∧ x.n.num_children ≤ 48 ∧
    (∀ c, c < 256 → x.keys c ≤ 48) ∧
    (∀ c c', c < 256 → c' < 256 → x.keys c ≠ 0 → x.keys c = x.keys c' → c = c') ∧
    (∀ p, p < 48 → (x.children p).isNull = false → ∃ c, c < 256 ∧ x.keys c = p + 1)
  | NodeType.NODE256 => x.n.num_children = (slots x).length % 256

/-- The local invariant of an inner node: live key bytes are bytes and pairwise distinct,
live children are not `NULL`, the layout is consistent; with `ord`, the key bytes are also
in ascending order of iteration. -/
structure Shape (ord : Bool) (x : Inner) : Prop where
  byte_lt : ∀ p, p ∈ slots x → p.1 < 256
  child_ne : ∀ p, p ∈ slots x → (x.children p.2).isNull = false
  keys_nodup : ((slots x).map Prod.fst).Nodup
  sorted : ord = true → ((slots x).map Prod.fst).Pairwise (fun a b => a < b)
  layout : Layout x

/-- The copy of a full 48-way node into a 256-way node made by `add_child48`. -/
def grow48 (x : Inner) : Inner :=
  { n := copy_header (alloc_node NodeType.NODE256).n x.n
    keys := (alloc_node NodeType.NODE256).keys
    children := fun i =>
      if i < 256 ∧ x.keys i ≠ 0 then x.children (x.keys i - 1)
      else (alloc_node NodeType.NODE256).children i }

/-- The copy of a full 16-way node into a 48-way node made by `add_child16`. -/
def grow16 (x : Inner) : Inner :=
  { n := copy_header (alloc_node NodeType.NODE48).n x.n
    keys := (List.range x.n.num_children).foldl
      (fun ks i => upd ks (x.keys i) (i + 1)) (alloc_node NodeType.NODE48).keys
    children := memcpy (alloc_node NodeType.NODE48).children 0 x.children 0 x.n.num_children }

/-- The copy of a full 4-way node into a 16-way node made by `add_child4`. -/
def grow4 (x : Inner) : Inner :=
  { n := copy_header (alloc_node NodeType.NODE16).n x.n
    keys := memcpy (alloc_node NodeType.NODE16).keys 0 x.keys 0 x.n.num_children
    children := memcpy (alloc_node NodeType.NODE16).children 0 x.children 0 x.n.num_children }

/-- The in-place insertion shared by `add_child4` and `add_child16`: the slots from `idx`
on move up by one and the new key and child are written at `idx`. -/
def insert_at (x : Inner) (idx c : Nat) (child : Node) : Inner :=
  { n := { x.n with num_children := x.n.num_children + 1 }
    keys := upd (memcpy x.keys (idx + 1) x.keys idx (x.n.num_children - idx)) idx c
    children :=
      upd (memcpy x.children (idx + 1) x.children idx (x.n.num_children - idx)) idx child }

/-- The in-place removal shared by `remove_child4` and `remove_child16`: the slots above
`pos` move down by one. -/
def erase_at (x : Inner) (pos : Nat) : Inner :=
  { n := { x.n with num_children := (x.n.num_children + 255) % 256 }
    keys := memcpy x.keys pos x.keys (pos + 1) (x.n.num_children - 1 - pos)
    children := memcpy x.children pos x.children (pos + 1) (x.n.num_children - 1 - pos) }

/-- The in-place part of `remove_child48`. -/
def clear48 (x : Inner) (c : Nat) : Inner :=
  { n := { x.n with num_children := (x.n.num_children + 255) % 256 }
    keys := upd x.keys c 0
    children := upd x.children (x.keys c - 1) Node.null }

/-- The in-place part of `remove_child256`. -/
def clear256 (x : Inner) (c : Nat) : Inner :=
  { n := { x.n with num_children := (x.n.num_children + 255) % 256 }
    keys := x.keys
    children := upd x.children c Node.null }

/-- The copy of a 16-way node into a 4-way node made by `remove_child16`. -/
def shrink16 (z : Inner) : Inner :=
  { n := copy_header (alloc_node NodeType.NODE4).n z.n
    keys := memcpy (alloc_node NodeType.NODE4).keys 0 z.keys 0 4
    children := memcpy (alloc_node NodeType.NODE4).children 0 z.children 0 4 }

/-- The copy of a 48-way node into a 16-way node made by `remove_child48`. -/
def shrink48 (z : Inner) : Inner :=
  let st := (List.range 256).foldl
    (fun (st : Nat × (Nat → Nat) × (Nat → Node)) i =>
      if z.keys i != 0 then
        (st.1 + 1, upd st.2.1 st.1 i, upd st.2.2 st.1 (z.children (z.keys i - 1)))
      else st)
    (0, (alloc_node NodeType.NODE16).keys, (alloc_node NodeType.NODE16).children)
  { n := copy_header (alloc_node NodeType.NODE16).n z.n, keys := st.2.1, children := st.2.2 }

/-- The copy of a 256-way node into a 48-way node made by `remove_child256`. -/
def shrink256 (z : Inner) : Inner :=
  let st := (List.range 256).foldl
    (fun (st : Nat × (Nat → Nat) × (Nat → Node)) i =>
      if !(z.children i).isNull then
        (st.1 + 1, upd st.2.1 i (st.1 + 1), upd st.2.2 st.1 (z.children i))
      else st)
    (0, (alloc_node NodeType.NODE48).keys, (alloc_node NodeType.NODE48).children)
  { n := copy_header (alloc_node NodeType.NODE48).n z.n, keys := st.2.1, children := st.2.2 }

/-- The header `remove_child4` gives the only remaining child `cn` of a node with header
`n`, reached by key byte `k0`: the two prefixes are concatenated around `k0`. -/
def collapse_header (n : art_node) (k0 : Nat) (cn : art_node) : art_node :=
  let pfx := n.partial_len
  let part1 := if pfx < MAX_PREFIX_LEN then upd n.partial_ pfx k0 else n.partial_
  let pfx1 := if pfx < MAX_PREFIX_LEN then pfx + 1 else pfx
  let sub_prefix := min cn.partial_len (MAX_PREFIX_LEN - pfx1)
  let part2 :=
    if pfx1 < MAX_PREFIX_LEN then memcpy part1 pfx1 cn.partial_ 0 sub_prefix else part1
  let pfx2 := if pfx1 < MAX_PREFIX_LEN then pfx1 + sub_prefix else pfx1
  { cn with
    partial_ := memcpy cn.partial_ 0 part2 0 (min pfx2 MAX_PREFIX_LEN)
    partial_len := cn.partial_len + (n.partial_len + 1) }

/-- The number of live indices below `m`. -/
def rank (live : Nat → Bool) (m : Nat) : Nat := ((List.range m).filter live).length

/-- The contract of adding the child `child` under the new byte `c` to `x`, giving `x'`. -/
structure AddSpec (ord : Bool) (x : Inner) (c : Nat) (child : Node) (x' : Inner) : Prop where
  shape : Shape ord x'
  mem : ∀ e, e ∈ entries x' ↔ e = (c, child) ∨ e ∈ entries x
  len : (slots x').length = (slots x).length + 1
  plen : x'.n.partial_len = x.n.partial_len
  pbytes : ∀ i, i < MAX_PREFIX_LEN → i < x.n.partial_len → x'.n.partial_ i = x.n.partial_ i
  big : min_children x.n.type ≤ (slots x).length + 1 → min_children x'.n.type ≤ (slots x').length

/-- The contract of removing the child under byte `c` from `x`, giving the node `x'`. -/
structure RemSpec (ord : Bool) (x : Inner) (c : Nat) (x' : Inner) : Prop where
  shape : Shape ord x'
  mem : ∀ e, e ∈ entries x' ↔ e ∈ entries x ∧ e.1 ≠ c
  len : (slots x').length + 1 = (slots x).length
  plen : x'.n.partial_len = x.n.partial_len
  pbytes : ∀ i, i < MAX_PREFIX_LEN → i < x.n.partial_len → x'.n.partial_ i = x.n.partial_ i

/-- The condition on the caller's buffer: whenever at least two of the stored keys `l` start
with the key, the byte behind the key in the buffer is zero. -/
def ZeroBehind (key : Nat → Nat) (key_len : Nat) (l : List (List Nat × Nat)) : Prop :=
  ∀ a b, a ∈ l → b ∈ l → a.1 ≠ b.1 →
    key_bytes key key_len <+: a.1 → key_bytes key key_len <+: b.1 → key key_len = 0

/-- The condition under which an insert keeps the key bytes of the nodes in ascending order:
the scalar build, or bytes below 128 in the inserted key and in the stored keys `l`. -/
def AscOk (simd ord : Bool) (key : Nat → Nat) (key_len : Nat)
    (l : List (List Nat × Nat)) : Prop :=
  ord = true → simd = false ∨
    ((∀ i, i < key_len → key i < 128) ∧ ∀ kv, kv ∈ l → ∀ b, b ∈ kv.1 → b < 128)

/-- The condition under which `add_child` of the byte `c` keeps the key bytes of a node in
ascending order: the scalar build, or key bytes below 128, on which the signed comparison of
the SSE2 build agrees with the unsigned one. -/
def OrdOk (simd ord : Bool) (x : Inner) (c : Nat) : Prop :=
  ord = true → simd = false ∨ (c < 128 ∧ ∀ p, p ∈ slots x → p.1 < 128)

/-- The invariant of a subtree reached along the key bytes `path`: every leaf's key,
followed by a zero byte, starts with `path`, every inner node is well shaped and has at
least the minimum number of children of its type, and its `partial_len` and cached prefix
bytes are those of a prefix `P` that, followed by the child's key byte, continues the
path. -/
def WF (ord : Bool) : Node → List Nat → Prop
  | Node.null, _ => False
  | Node.leaf l, path => path <+: ext l.key ∧ ∀ b, b ∈ l.key → b < 256
  | Node.inner n keys children, path =>
    Shape ord { n := n, keys := keys, children := children } ∧
    min_children n.type ≤ (slots { n := n, keys := keys, children := children }).length ∧
    ∃ P : List Nat, P.length = n.partial_len ∧
      (∀ i, i < MAX_PREFIX_LEN → i < P.length → n.partial_ i = P.getD i 0) ∧
      ∀ b s, (b, s) ∈ slots { n := n, keys := keys, children := children } →
        WF ord (children s) (path ++ P ++ [b])

/-- The invariant of a tree: the root is `NULL` or a well-formed subtree at depth 0, and
`size` counts the leaves. -/
def WFtree (ord : Bool) (t : art_tree) : Prop :=
  (t.root = Node.null ∨ WF ord t.root []) ∧ t.size = (leaves t.root).length

/-- The pairs a full `art_iter` shows to its visitor. -/
def art_pairs (t : art_tree) : List (List Nat × Nat) := (art_iter t collect []).2

/-- The keys stored in a tree, in the order of a full iteration. -/
def art_keys (t : art_tree) : List (List Nat) := (art_pairs t).map Prod.fst

/-! ## Auxiliary definitions of the proofs -/

/-- The first live slot of a node, as `minimum` selects it. -/
def first_slot (x : Inner) : Nat :=
  match x.n.type with
  | NodeType.NODE4 => 0
  | NodeType.NODE16 => 0
  | NodeType.NODE48 => x.keys (scan_up (fun i => x.keys i != 0) 0 256) - 1
  | NodeType.NODE256 => scan_up (fun i => !(x.children i).isNull) 0 256

/-- The node `x` with the content of slot `s` replaced. -/
def set_child (x : Inner) (s : Nat) (ch : Node) : Inner :=
  { n := x.n, keys := x.keys, children := upd x.children s ch }

/-- What `recursive_insert` guarantees on a well-formed subtree: the result is well formed,
holds the key with the new value (or the old one, without `replace`) next to the other
leaves, and reports the old value exactly when the key was stored. -/
structure InsertOk (ord : Bool) (n : Node) (path K : List Nat) (value : Nat) (replace : Bool)
    (r : Node × Nat × Bool) : Prop where
  wf : WF ord r.1 path
  perm : (leaves r.1).Perm
    ((K, if r.2.2 && !replace then r.2.1 else value) ::
      (leaves n).filter (fun kv => decide (kv.1 ≠ K)))
  old : ∀ v, (K, v) ∈ leaves n → r.2.2 = true ∧ r.2.1 = v
  fresh : (∀ v, (K, v) ∉ leaves n) → r.2.2 = false ∧ r.2.1 = 0

/-- The fresh 4-way node `recursive_insert` allocates when it splits: no children, prefix
length `pl`, cached prefix copied from `src + soff`. -/
def split_node (pl : Nat) (src : Nat → Nat) (soff : Nat) : Inner :=
  { alloc_node NodeType.NODE4 with
    n := { (alloc_node NodeType.NODE4).n with
      partial_len := pl
      partial_ := memcpy (alloc_node NodeType.NODE4).n.partial_ 0 src soff
        (min MAX_PREFIX_LEN pl) } }

/-- The old node after a prefix split at `pd`, with its prefix shortened and the cache
refilled from `src + soff`. -/
def shortened (n : art_node) (pd : Nat) (src : Nat → Nat) (soff : Nat) : art_node :=
  { n with
    partial_len := n.partial_len - (pd + 1)
    partial_ := memcpy n.partial_ 0 src soff (min MAX_PREFIX_LEN (n.partial_len - (pd + 1))) }

/-- What `recursive_delete` guarantees on a well-formed subtree that stores the key. -/
structure DeleteOk (ord : Bool) (n : Node) (path K : List Nat) (v : Nat)
    (r : Node × Option art_leaf) : Prop where
  found : ∃ l, r.2 = some l ∧ l.key = K ∧ l.value = v
  perm : (leaves r.1).Perm ((leaves n).filter (fun kv => decide (kv.1 ≠ K)))
  wf : (∀ l, n ≠ Node.leaf l) → WF ord r.1 path

/-- The value a list of (key, value) pairs holds under the key `K`, if any. -/
def stored (M : List (List Nat × Nat)) (K : List Nat) : Option Nat :=
  (M.find? (fun kv => decide (kv.1 = K))).map Prod.snd

/-- The pairs after an insert of `K` with `value`: the pair of `K` is replaced (or kept,
without `replace`), every other pair stays. -/
def m_insert (M : List (List Nat × Nat)) (K : List Nat) (value : Nat) (replace : Bool) :
    List (List Nat × Nat) :=
  (K, if replace then value else (stored M K).getD value) ::
    M.filter (fun kv => decide (kv.1 ≠ K))

/-- The pairs after a delete of `K`. -/
def m_delete (M : List (List Nat × Nat)) (K : List Nat) : List (List Nat × Nat) :=
  M.filter (fun kv => decide (kv.1 ≠ K))

/-- The tries reachable from the empty trie by `art_insert`, `art_insert_no_replace` and
`art_delete`, together with the pairs they store, where every inserted key is neither a
proper prefix nor a proper extension of a key stored at that moment.  The key buffers hold
bytes. -/
inductive Reach (simd : Bool) : art_tree → List (List Nat × Nat) → Prop
  | init : Reach simd art_tree_init []
  | insert (t : art_tree) (M : List (List Nat × Nat)) (key : Nat → Nat)
      (key_len value : Nat) :
      Reach simd t M → (∀ i, key i < 256) →
      (∀ kv, kv ∈ M → prefix_free kv.1 (key_bytes key key_len)) →
      Reach simd (art_insert simd t key key_len value).1
        (m_insert M (key_bytes key key_len) value true)
  | insert_no_replace (t : art_tree) (M : List (List Nat × Nat)) (key : Nat → Nat)
      (key_len value : Nat) :
      Reach simd t M → (∀ i, key i < 256) →
      (∀ kv, kv ∈ M → prefix_free kv.1 (key_bytes key key_len)) →
      Reach simd (art_insert_no_replace simd t key key_len value).1
        (m_insert M (key_bytes key key_len) value false)
  | delete (t : art_tree) (M : List (List Nat × Nat)) (key : Nat → Nat) (key_len : Nat) :
      Reach simd t M → (∀ i, key i < 256) →
      Reach simd (art_delete simd t key key_len).1 (m_delete M (key_bytes key key_len))

/-- The tries reachable from the empty trie by `art_insert`, `art_insert_no_replace` and
`art_delete`, together with the pairs they store, where every call gets a key that can be
filed with the stored keys: at an insert neither the key nor a stored key, followed by a
zero byte, is a prefix of the other, and at every call the byte behind the key in the
caller's buffer is zero when at least two stored keys start with the key.  Zero-terminated
keys without zero bytes are such keys, and so are keys none of which is a proper prefix of
another, from any buffer.  The key buffers hold bytes, and the inserted keys bytes below
`B`. -/
inductive ReachT (simd : Bool) (B : Nat) : art_tree → List (List Nat × Nat) → Prop
  | init : ReachT simd B art_tree_init []
  | insert (t : art_tree) (M : List (List Nat × Nat)) (key : Nat → Nat)
      (key_len value : Nat) :
      ReachT simd B t M → (∀ i, key i < 256) → (∀ i, i < key_len → key i < B) →
      (∀ kv, kv ∈ M → term_free kv.1 (key_bytes key key_len)) →
      ZeroBehind key key_len M →
      ReachT simd B (art_insert simd t key key_len value).1
        (m_insert M (key_bytes key key_len) value true)
  | insert_no_replace (t : art_tree) (M : List (List Nat × Nat)) (key : Nat → Nat)
      (key_len value : Nat) :
      ReachT simd B t M → (∀ i, key i < 256) → (∀ i, i < key_len → key i < B) →
      (∀ kv, kv ∈ M → term_free kv.1 (key_bytes key key_len)) →
      ZeroBehind key key_len M →
      ReachT simd B (art_insert_no_replace simd t key key_len value).1
        (m_insert M (key_bytes key key_len) value false)
  | delete (t : art_tree) (M : List (List Nat × Nat)) (key : Nat → Nat) (key_len : Nat) :
      ReachT simd B t M → (∀ i, key i < 256) → ZeroBehind key key_len M →
      ReachT simd B (art_delete simd t key key_len).1 (m_delete M (key_bytes key key_len))

/-- A caller's buffer holding the bytes `l`, zero behind them. -/
def buf (l : List Nat) : Nat → Nat := fun i => l.getD i 0

instance prefix_free_decidable (k1 k2 : List Nat) : Decidable (prefix_free k1 k2) := by
  unfold prefix_free
  infer_instance

instance term_free_decidable (k1 k2 : List Nat) : Decidable (term_free k1 k2) := by
  unfold term_free
  infer_instance

/-- The trie holding "abc" ↦ 1. -/
def trie_abc : art_tree := (art_insert false art_tree_init (buf [97, 98, 99]) 3 1).1

/-- The trie holding "abc" ↦ 1 and "abd" ↦ 2. -/
def trie_abd : art_tree := (art_insert false trie_abc (buf [97, 98, 100]) 3 2).1

/-- The trie `trie_abc` after `art_insert` of the key "ab" with value 7, the key being the
first two bytes of the caller's buffer "abc". -/
def trie_abc_ab : art_tree := (art_insert false trie_abc (buf [97, 98, 99]) 2 7).1

/-- The trie holding "abcX" ↦ 1 and "abcY" ↦ 2. -/
def trie_XY : art_tree :=
  (art_insert false (art_insert false art_tree_init (buf [97, 98, 99, 88]) 4 1).1
    (buf [97, 98, 99, 89]) 4 2).1

/-- The trie `trie_XY` after `art_insert` of the key "ab" with value 3, the key being the
first two bytes of the caller's buffer "abx". -/
def trie_XY_ab : art_tree := (art_insert false trie_XY (buf [97, 98, 120]) 2 3).1

/-- The trie holding "abcdeX12p" ↦ 1, "abcdeX12q" ↦ 2 and "abcdeYzz" ↦ 3. -/
def trie_deep : art_tree :=
  (art_insert false (art_insert false (art_insert false art_tree_init
    (buf [97, 98, 99, 100, 101, 88, 49, 50, 112]) 9 1).1
    (buf [97, 98, 99, 100, 101, 88, 49, 50, 113]) 9 2).1
    (buf [97, 98, 99, 100, 101, 89, 122, 122]) 8 3).1

/-- The trie holding "a" ↦ 1, after `art_insert` of the key "a" followed by a zero byte
with value 2. -/
def trie_a_a0 : art_tree :=
  (art_insert false (art_insert false art_tree_init (buf [97]) 1 1).1 (buf [97, 0]) 2 2).1

/-- The `sizeof` values the footprint walk adds up: the trie handle `art_tree`, the leaf
header `art_leaf`, and the four inner records. -/
structure Sizes where
  tree : Nat
  leaf : Nat
  n4 : Nat
  n16 : Nat
  n48 : Nat
  n256 : Nat

/-- The `sizeof` values of the structs on an LP64 target. -/
def sizes_lp64 : Sizes := { tree := 16, leaf := 16, n4 := 56, n16 := 160, n48 := 656, n256 := 2064 }

/-- The record size of an inner node of the given type. -/
def node_size (sz : Sizes) : NodeType → Nat
  | NodeType.NODE4 => sz.n4
  | NodeType.NODE16 => sz.n16
  | NodeType.NODE48 => sz.n48
  | NodeType.NODE256 => sz.n256

/-- The sum `size += ...` of the footprint walk, where both parts have a value. -/
def add_size (size c : Option Nat) : Option Nat :=
  match size, c with
  | some s, some k => some (s + k)
  | _, _ => none

/-- The function `art_size_in_bytes_at`.  The source reads `n->type` of its argument without
a `NULL` test (only the N256 loop tests the child before the call): the result is `none`
where the walk gets to a `NULL` node. -/
def art_size_in_bytes_at (sz : Sizes) : Node → Option Nat
  | Node.null => none
  | Node.leaf _ => some sz.leaf
  | Node.inner n keys children =>
    match n.type with
    | NodeType.NODE4 =>
      (List.range n.num_children).foldl
        (fun size i => add_size size (art_size_in_bytes_at sz (children i))) (some sz.n4)
    | NodeType.NODE16 =>
      (List.range n.num_children).foldl
        (fun size i => add_size size (art_size_in_bytes_at sz (children i))) (some sz.n16)
    | NodeType.NODE48 =>
      (List.range 256).foldl
        (fun size i =>
          if keys i = 0 then size
          else add_size size (art_size_in_bytes_at sz (children (keys i - 1))))
        (some sz.n48)
    | NodeType.NODE256 =>
      (List.range 256).foldl
        (fun size i =>
          if (children i).isNull then size
          else add_size size (art_size_in_bytes_at sz (children i)))
        (some sz.n256)

/-- The function `art_size_in_bytes`. -/
def art_size_in_bytes (sz : Sizes) (t : art_tree) : Option Nat :=
  if t.root.isNull then some sz.tree
  else add_size (some sz.tree) (art_size_in_bytes_at sz t.root)

/-- The inner nodes reachable from a node, parents first, children in iteration order. -/
def inner_nodes : Node → List Inner
  | Node.null => []
  | Node.leaf _ => []
  | Node.inner n keys children =>
    { n := n, keys := keys, children := children } ::
      match n.type with
      | NodeType.NODE4 => (List.range n.num_children).flatMap (fun i => inner_nodes (children i))
      | NodeType.NODE16 => (List.range n.num_children).flatMap (fun i => inner_nodes (children i))
      | NodeType.NODE48 =>
        (List.range 256).flatMap
          (fun i => if keys i = 0 then [] else inner_nodes (children (keys i - 1)))
      | NodeType.NODE256 =>
        (List.range 256).flatMap
          (fun i => if (children i).isNull then [] else inner_nodes (children i))

/-- The number of non-null entries of the `children[256]` array of a node. -/
def occupied256 (x : Inner) : Nat :=
  ((List.range 256).filter (fun c => !(x.children c).isNull)).length

/-- The conditions of the specification on an inner node: an N4 has at most 4 and an N16 at
most 16 children, with `keys[0..num_children)` strictly ascending (asked for with `asc`) and
`children[i]` present; an N48 has at most 48 children, exactly `num_children` nonzero
entries in `keys[256]`, all distinct and within `[1, 48]`, and `children[p-1]` is non-null
exactly when `p` occurs in `keys`. -/
def node_ok (asc : Bool) (x : Inner) : Prop :=
  match x.n.type with
  | NodeType.NODE4 =>
    x.n.num_children ≤ 4 ∧
    (asc = true → ∀ i j, i < j → j < x.n.num_children → x.keys i < x.keys j) ∧
    ∀ i, i < x.n.num_children → (x.children i).isNull = false
  | NodeType.NODE16 =>
    x.n.num_children ≤ 16 ∧
    (asc = true → ∀ i j, i < j → j < x.n.num_children → x.keys i < x.keys j) ∧
    ∀ i, i < x.n.num_children → (x.children i).isNull = false
  | NodeType.NODE48 =>
    x.n.num_children ≤ 48 ∧
    ((List.range 256).filter (fun c => x.keys c != 0)).length = x.n.num_children ∧
    (∀ c, c < 256 → x.keys c ≠ 0 → 1 ≤ x.keys c ∧ x.keys c ≤ 48) ∧
    (∀ c c', c < 256 → c' < 256 → x.keys c ≠ 0 → x.keys c = x.keys c' → c = c') ∧
    (∀ p, p < 48 → ((x.children p).isNull = false ↔ ∃ c, c < 256 ∧ x.keys c = p + 1))
  | NodeType.NODE256 => True

/-- A call of one of the three mutating operations, with the caller's key buffer. -/
inductive Op where
  | insert (key : Nat → Nat) (key_len value : Nat)
  | insert_no_replace (key : Nat → Nat) (key_len value : Nat)
  | delete (key : Nat → Nat) (key_len : Nat)

/-- The key of a call. -/
def Op.key : Op → List Nat
  | Op.insert key key_len _ => key_bytes key key_len
  | Op.insert_no_replace key key_len _ => key_bytes key key_len
  | Op.delete key key_len => key_bytes key key_len

/-- The buffer of a call holds bytes. -/
def Op.bytes : Op → Prop
  | Op.insert key _ _ => ∀ i, key i < 256
  | Op.insert_no_replace key _ _ => ∀ i, key i < 256
  | Op.delete key _ => ∀ i, key i < 256

/-- One call on the trie: the trie afterwards and the returned value. -/
def step (simd : Bool) (t : art_tree) : Op → art_tree × Nat
  | Op.insert key key_len value => art_insert simd t key key_len value
  | Op.insert_no_replace key key_len value => art_insert_no_replace simd t key key_len value
  | Op.delete key key_len => art_delete simd t key key_len

/-- One call on the finite map, kept as a list of pairs with distinct keys: the map
afterwards and the returned value (the previous or removed value, `0` for absent). -/
def m_step (M : List (List Nat × Nat)) : Op → List (List Nat × Nat) × Nat
  | Op.insert key key_len value =>
    (m_insert M (key_bytes key key_len) value true, (stored M (key_bytes key key_len)).getD 0)
  | Op.insert_no_replace key key_len value =>
    (m_insert M (key_bytes key key_len) value false, (stored M (key_bytes key key_len)).getD 0)
  | Op.delete key key_len =>
    (m_delete M (key_bytes key key_len), (stored M (key_bytes key key_len)).getD 0)

/-- A sequence of calls from the empty trie: the trie afterwards and the returned values. -/
def run (simd : Bool) (ops : List Op) : art_tree × List Nat :=
  ops.foldl (fun s op => ((step simd s.1 op).1, s.2 ++ [(step simd s.1 op).2]))
    (art_tree_init, [])

/-- The same sequence of calls on the finite map. -/
def m_run (ops : List Op) : List (List Nat × Nat) × List Nat :=
  ops.foldl (fun s op => ((m_step s.1 op).1, s.2 ++ [(m_step s.1 op).2])) ([], [])

/-- The distinct keys that the inserts of a sequence of calls name. -/
def inserted_keys (ops : List Op) : List (List Nat) :=
  (ops.filterMap (fun op =>
    match op with
    | Op.insert key key_len _ => some (key_bytes key key_len)
    | Op.insert_no_replace key key_len _ => some (key_bytes key key_len)
    | Op.delete _ _ => none)).dedup

/-- The number of `art_delete` calls of a sequence, run from the empty trie, that return a
value. -/
def successful_deletes (simd : Bool) (ops : List Op) : Nat :=
  ((ops.zip (run simd ops).2).filter (fun p =>
    match p.1 with
    | Op.delete _ _ => p.2 != 0
    | _ => false)).length

/-- After every call of the sequence, started with the pairs `M`, no stored key is a proper
prefix of another stored key. -/
def PrefixFreeRun : List (List Nat × Nat) → List Op → Prop
  | _, [] => True
  | M, op :: rest =>
    ((m_step M op).1.map Prod.fst).Pairwise prefix_free ∧ PrefixFreeRun (m_step M op).1 rest

/-- The calls insert("abc", 1), insert_no_replace("abd", 2), insert("abc", 5), delete("abc"),
delete("zz"). -/
def ops_example : List Op :=
  [Op.insert (buf [97, 98, 99]) 3 1, Op.insert_no_replace (buf [97, 98, 100]) 3 2,
   Op.insert (buf [97, 98, 99]) 3 5, Op.delete (buf [97, 98, 99]) 3,
   Op.delete (buf [122, 122]) 2]

/-- The trie after `art_insert` of each of the keys in turn, the `i`-th with value `i + 1`,
the buffers holding the key and zeros behind it. -/
def trie_of (simd : Bool) (keys : List (List Nat)) : art_tree :=
  (List.range keys.length).foldl
    (fun t i => (art_insert simd t (buf (keys.getD i [])) (keys.getD i []).length (i + 1)).1)
    art_tree_init

/-- The trie after `art_insert` of each of the keys in turn into the trie `t`, the `i`-th
with value `v0 + i`, the buffers holding the key and zeros behind it. -/
def insert_all (simd : Bool) (t : art_tree) (keys : List (List Nat)) (v0 : Nat) : art_tree :=
  (List.range keys.length).foldl
    (fun t i => (art_insert simd t (buf (keys.getD i [])) (keys.getD i []).length (v0 + i)).1)
    t

/-- The trie after `art_delete` of each of the keys in turn. -/
def delete_all (simd : Bool) (t : art_tree) (keys : List (List Nat)) : art_tree :=
  keys.foldl (fun t k => (art_delete simd t (buf k) k.length).1) t

/-- The seventeen keys "a", "a\0", "a\x01", ..., "a\x0f". -/
def keys_a : List (List Nat) :=
  [97] :: [97, 0] :: (List.range 15).map (fun i => [97, i + 1])

/-- The trie after the inserts of `keys_a` and the deletes of "a\x01", ..., "a\x0f". -/
def trie_one_slot : art_tree :=
  delete_all false (trie_of false keys_a) ((List.range 15).map (fun i => [97, i + 1]))

/-- The trie holding "abcX" ↦ 1, "abcY" ↦ 2 and their proper prefix "abc" ↦ 3, inserted
from a zero-terminated buffer. -/
def trie_XY_abc : art_tree := (art_insert false trie_XY (buf [97, 98, 99]) 3 3).1

/-- The trie after the inserts of "a" ↦ 1, "a\0\0" ↦ 2, "a\0\x01" ↦ 3 and the delete of
"a": it holds the two three-byte keys. -/
def trie_zero_pair : art_tree :=
  delete_all false (trie_of false [[97], [97, 0, 0], [97, 0, 1]]) [[97]]

/-- The trie after the inserts of `keys_a`, the deletes of "a" and "a\x01", ..., "a\x05"
and the inserts of "a\x20", ..., "a\x23": it holds fifteen two-byte keys. -/
def trie_fifteen : art_tree :=
  insert_all false
    (delete_all false (trie_of false keys_a) ([97] :: (List.range 5).map (fun i => [97, i + 1])))
    ((List.range 4).map (fun i => [97, 32 + i])) 18

/-- The trie holding "abX" ↦ 1 and "abY" ↦ 2 after `art_insert` of the key "a" with
value 3, the key being the first byte of the caller's buffer "ab". -/
def trie_dup : art_tree :=
  (art_insert false (trie_of false [[97, 98, 88], [97, 98, 89]]) (buf [97, 98]) 1 3).1

/-- The trie `trie_dup` after the inserts of "a\x01", ..., "a\x0f". -/
def trie_dup_48 : art_tree :=
  insert_all false trie_dup ((List.range 15).map (fun i => [97, i + 1])) 4

/-- The trie `trie_dup_48` after the deletes of "a\x01", ..., "a\x0f". -/
def trie_dup_one_slot : art_tree :=
  delete_all false trie_dup_48 ((List.range 15).map (fun i => [97, i + 1]))

/-- The trie after the inserts of "abX", "abY", twice of the key "ab", from the buffers "abx"
and "aby", and the deletes of "abX" and "abY". -/
def trie_twice : art_tree :=
  delete_all false
    (art_insert false (art_insert false (trie_of false [[97, 98, 88], [97, 98, 89]])
      (buf [97, 98, 120]) 2 3).1 (buf [97, 98, 121]) 2 4).1
    [[97, 98, 88], [97, 98, 89]]

/-- The trie `trie_dup` after the inserts of "a\x01", ..., "a\x2f". -/
def trie_dup_256 : art_tree :=
  insert_all false trie_dup ((List.range 47).map (fun i => [97, i + 1])) 4

/-- The trie after the inserts of "a", "a\0", "a\x01", ..., "a\x2f". -/
def trie_zero_256 : art_tree :=
  trie_of false (keys_a ++ (List.range 32).map (fun i => [97, 16 + i]))

/-- The trie holding the sixty one-byte keys 0, ..., 59. -/
def trie_sixty : art_tree := trie_of false ((List.range 60).map (fun i => [i]))

/-- The trie holding the 256 one-byte keys. -/
def trie_full : art_tree := trie_of false ((List.range 256).map (fun i => [i]))

/-- The child `find_child` gives for the key byte `b`, `NULL` when it gives none: the
byte-to-child mapping of the node as a lookup sees it. -/
def child_at (simd : Bool) (x : Inner) (b : Nat) : Node :=
  match find_child simd x b with
  | some s => x.children s
  | none => Node.null

/-- The root of the trie holding "a", "b", "c" and "d": a full 4-way node. -/
def node_abcd : Inner :=
  (inner_nodes (trie_of false [[97], [98], [99], [100]]).root).headD (alloc_node NodeType.NODE4)

/-- The root of the trie after the inserts of "a" to "e" and the delete of "e": a 16-way
node with four children. -/
def node16_abcd : Inner :=
  (inner_nodes (delete_all false
    (trie_of false [[97], [98], [99], [100], [101]]) [[101]]).root).headD
    (alloc_node NodeType.NODE4)

/-- The root of the trie after the inserts of "a", "a\0", "a\x01", ..., "a\x0e": a full
16-way node whose first two key bytes are both 0, for the leaves of "a" and of "a\0". -/
def node16_zero_twice : Inner :=
  (inner_nodes (trie_of false (keys_a.take 16)).root).headD (alloc_node NodeType.NODE4)

/-- The twelve bytes 1, ..., 12. -/
def bytes12 : List Nat := [1, 2, 3, 4, 5, 6, 7, 8, 9, 10, 11, 12]

/-- The eleven bytes 21, ..., 31. -/
def bytes11 : List Nat := [21, 22, 23, 24, 25, 26, 27, 28, 29, 30, 31]

/-- The root of the trie holding `bytes12 ++ [1] ++ bytes11 ++ [1]`, `bytes12 ++ [1] ++
bytes11 ++ [2]` and `bytes12 ++ [2]`: a 4-way node with the prefix `bytes12`, an inner child
with the prefix `bytes11` under the byte 1 and a leaf under the byte 2. -/
def node_long : Inner :=
  (inner_nodes (trie_of false
    [bytes12 ++ [1] ++ bytes11 ++ [1], bytes12 ++ [1] ++ bytes11 ++ [2], bytes12 ++ [2]]).root).headD
    (alloc_node NodeType.NODE4)

/-- The child slot `maximum` selects in a node, `none` when its downward scan of a 48-way
or 256-way node finds no entry. -/
def last_slot (x : Inner) : Option Nat :=
  match x.n.type with
  | NodeType.NODE4 => some (x.n.num_children - 1)
  | NodeType.NODE16 => some (x.n.num_children - 1)
  | NodeType.NODE48 => (scan_down (fun i => x.keys i != 0) 256).map (fun idx => x.keys idx - 1)
  | NodeType.NODE256 => scan_down (fun i => !(x.children i).isNull) 256

/-- The trie `trie_one_slot` after the insert of "ab" with value 40 and the delete of
"a\0". -/
def trie_null_first : art_tree :=
  (art_delete false (art_insert false trie_one_slot (buf [97, 98]) 2 40).1 (buf [97, 0]) 2).1

/-- The eleven bytes 1, ..., 11. -/
def bytes_q : List Nat := [1, 2, 3, 4, 5, 6, 7, 8, 9, 10, 11]

/-- The trie made like `trie_null_first` with the eleven bytes `bytes_q` in front of every
key: the inserts of `bytes_q ++ k` for the seventeen keys `k` of `keys_a`, the deletes of
`bytes_q ++ "a\x01"`, ..., `bytes_q ++ "a\x0f"`, the insert of `bytes_q ++ "ab"` with value 40
and the delete of `bytes_q ++ "a\0"`. -/
def trie_null_long : art_tree :=
  (art_delete false
    (art_insert false
      (delete_all false (trie_of false (keys_a.map (fun k => bytes_q ++ k)))
        ((List.range 15).map (fun i => bytes_q ++ [97, i + 1])))
      (buf (bytes_q ++ [97, 98])) 13 40).1
    (buf (bytes_q ++ [97, 0])) 13).1

/-- The root of `trie_null_long`: a 4-way node with the twelve-byte prefix `bytes_q ++ "a"`
whose first child is null. -/
def node_null_long : Inner :=
  (inner_nodes trie_null_long.root).headD (alloc_node NodeType.NODE4)

/-- The root of the trie holding the one-byte keys 1, 2, 3, 200 and 201, built with the
scalar insert: a 16-way node with its five key bytes in ascending order. -/
def node16_high : Inner :=
  (inner_nodes (trie_of false [[1], [2], [3], [200], [201]]).root).headD
    (alloc_node NodeType.NODE4)

/-- Path consistency below a node at depth `d`: for an inner node with prefix length `p`,
every leaf `L` below it, reached through the child with key byte `b`, has more than `d + p`
key bytes, `L.key[d + i]` is the cached byte `partial[i]` for `i < min(p, 10)`, `L.key[d + p]`
is `b`, all leaves below the node agree on `key[d .. d + p)`, and the same holds below every
child at depth `d + p + 1`. -/
def PathOk : Node → Nat → Prop
  | Node.null, _ => True
  | Node.leaf _, _ => True
  | Node.inner n keys children, d =>
    (∀ p, p ∈ slots { n := n, keys := keys, children := children } →
      ∀ kv, kv ∈ leaves (children p.2) →
        d + n.partial_len < kv.1.length ∧
        (∀ i, i < min n.partial_len MAX_PREFIX_LEN → kv.1.getD (d + i) 0 = n.partial_ i) ∧
        kv.1.getD (d + n.partial_len) 0 = p.1) ∧
    (∀ kv kv2, kv ∈ leaves (Node.inner n keys children) →
      kv2 ∈ leaves (Node.inner n keys children) →
      ∀ i, i < n.partial_len → kv.1.getD (d + i) 0 = kv2.1.getD (d + i) 0) ∧
    ∀ p, p ∈ slots { n := n, keys := keys, children := children } →
      PathOk (children p.2) (d + n.partial_len + 1)

/-! ## Loop primitives -/

theorem scan_up_ge (p : Nat → Bool) (idx count : Nat) : idx ≤ scan_up p idx count := by
  induction count generalizing idx with
  | zero => simp [scan_up]
  | succ k ih =>
    simp only [scan_up]
    split
    · exact Nat.le_refl _
    · exact Nat.le_trans (Nat.le_succ _) (ih (idx + 1))

theorem scan_up_le (p : Nat → Bool) (idx count : Nat) : scan_up p idx count ≤ idx + count := by
  induction count generalizing idx with
  | zero => simp [scan_up]
  | succ k ih =>
    simp only [scan_up]
    split
    · omega
    · have := ih (idx + 1); omega

theorem scan_up_hit (p : Nat → Bool) (idx count : Nat) (h : scan_up p idx count < idx + count) :
    p (scan_up p idx count) = true := by
  induction count generalizing idx with
  | zero => simp [scan_up] at h
  | succ k ih =>
    simp only [scan_up] at h ⊢
    split
    · assumption
    · rename_i hp
      rw [if_neg hp] at h
      exact ih (idx + 1) (by omega)

theorem scan_up_before (p : Nat → Bool) (idx count j : Nat) (h1 : idx ≤ j)
    (h2 : j < scan_up p idx count) : p j = false := by
  induction count generalizing idx with
  | zero => simp [scan_up] at h2; omega
  | succ k ih =>
    simp only [scan_up] at h2
    split at h2
    · omega
    · rename_i hp
      by_cases hj : j = idx
      · subst hj; simpa using hp
      · exact ih (idx + 1) (by omega) h2

theorem scan_up_eq (p : Nat → Bool) (idx count r : Nat) (h1 : idx ≤ r) (h2 : r ≤ idx + count)
    (h3 : r < idx + count → p r = true) (h4 : ∀ j, idx ≤ j → j < r → p j = false) :
    scan_up p idx count = r := by
  have a := scan_up_le p idx count
  have b := scan_up_ge p idx count
  rcases Nat.lt_trichotomy (scan_up p idx count) r with h | h | h
  · have := scan_up_hit p idx count (by omega)
    have := h4 _ b h
    simp_all
  · exact h
  · have := scan_up_before p idx count r h1 h
    have := h3 (by omega)
    simp_all

theorem scan_up_congr (p q : Nat → Bool) (idx count : Nat)
    (h : ∀ j, idx ≤ j → j < idx + count → p j = q j) :
    scan_up p idx count = scan_up q idx count := by
  induction count generalizing idx with
  | zero => simp [scan_up]
  | succ k ih =>
    simp only [scan_up]
    rw [h idx (Nat.le_refl _) (by omega), ih (idx + 1) (fun j h1 h2 => h j (by omega) (by omega))]

theorem scan_down_some (p : Nat → Bool) (bound r : Nat) :
    scan_down p bound = some r ↔ (r < bound ∧ p r = true ∧ ∀ j, r < j → j < bound → p j = false) := by
  induction bound with
  | zero => simp [scan_down]
  | succ k ih =>
    simp only [scan_down]
    split
    · rename_i hp
      constructor
      · intro h
        have : k = r := by simpa using h
        subst this
        exact ⟨by omega, hp, fun j h1 h2 => by omega⟩
      · rintro ⟨h1, h2, h3⟩
        by_cases hr : r = k
        · simp [hr]
        · have := h3 k (by omega) (by omega)
          simp_all
    · rename_i hp
      rw [ih]
      constructor
      · rintro ⟨h1, h2, h3⟩
        refine ⟨by omega, h2, fun j h4 h5 => ?_⟩
        by_cases hj : j = k
        · subst hj; simpa using hp
        · exact h3 j h4 (by omega)
      · rintro ⟨h1, h2, h3⟩
        have hr : r ≠ k := by rintro rfl; simp_all
        exact ⟨by omega, h2, fun j h4 h5 => h3 j h4 (by omega)⟩

theorem scan_down_none (p : Nat → Bool) (bound : Nat) :
    scan_down p bound = none ↔ ∀ j, j < bound → p j = false := by
  induction bound with
  | zero => simp [scan_down]
  | succ k ih =>
    simp only [scan_down]
    split
    · rename_i hp
      constructor
      · intro h; cases h
      · intro h
        have := h k (by omega)
        simp_all
    · rename_i hp
      rw [ih]
      constructor
      · intro h j hj
        by_cases hjk : j = k
        · subst hjk; simpa using hp
        · exact h j (by omega)
      · intro h j hj
        exact h j (by omega)

/-! ## Bit fields of the 16-way node -/

theorem testBit_foldl_lanes (lane : Nat → Bool) (n i : Nat) :
    ((List.range n).foldl (fun b i => if lane i then b ||| (1 <<< i) else b) 0).testBit i
      = (decide (i < n) && lane i) := by
  induction n with
  | zero => simp
  | succ k ih =>
    rw [List.range_succ, List.foldl_append]
    simp only [List.foldl_cons, List.foldl_nil]
    generalize (List.range k).foldl (fun b i => if lane i then b ||| (1 <<< i) else b) 0 = F at ih ⊢
    by_cases hl : lane k = true
    · rw [if_pos hl, Nat.testBit_or, ih, Nat.one_shiftLeft, Nat.testBit_two_pow]
      by_cases hik : i = k
      · subst hik; simp [hl]
      · have h1 : ¬ k = i := fun h => hik h.symm
        by_cases hlt : i < k
        · have : i < k + 1 := by omega
          simp [*]
        · have : ¬ i < k + 1 := by omega
          simp [*]
    · rw [if_neg hl, ih]
      by_cases hik : i = k
      · subst hik; simp [hl]
      · by_cases hlt : i < k
        · have : i < k + 1 := by omega
          simp [*]
        · have : ¬ i < k + 1 := by omega
          simp [*]

theorem testBit_movemask16 (lane : Nat → Bool) (i : Nat) :
    (movemask16 lane).testBit i = (decide (i < 16) && lane i) :=
  testBit_foldl_lanes lane 16 i

theorem testBit_masked (lane : Nat → Bool) (n i : Nat) :
    (movemask16 lane &&& ((1 <<< n) - 1)).testBit i
      = (decide (i < 16) && lane i && decide (i < n)) := by
  rw [Nat.testBit_and, testBit_movemask16, Nat.one_shiftLeft, Nat.testBit_two_pow_sub_one]

theorem masked_lt (lane : Nat → Bool) (n : Nat) :
    movemask16 lane &&& ((1 <<< n) - 1) < 2 ^ 16 := by
  apply Nat.lt_pow_two_of_testBit
  intro i hi
  rw [testBit_masked]
  have : ¬ i < 16 := by omega
  simp [this]

/-- The masked bit field of a 16-way node is nonzero exactly when a live lane holds, and
then `ctz` is the first such lane. -/
theorem masked_scan (lane : Nat → Bool) (n : Nat) (hn : n ≤ 16) :
    (movemask16 lane &&& ((1 <<< n) - 1) ≠ 0 ↔ scan_up lane 0 n < n) ∧
    (movemask16 lane &&& ((1 <<< n) - 1) ≠ 0 →
      ctz (movemask16 lane &&& ((1 <<< n) - 1)) = scan_up lane 0 n) := by
  set x := movemask16 lane &&& ((1 <<< n) - 1) with hx
  have tb : ∀ i, x.testBit i = (decide (i < 16) && lane i && decide (i < n)) :=
    fun i => testBit_masked lane n i
  have hiff : x ≠ 0 ↔ scan_up lane 0 n < n := by
    constructor
    · intro h
      obtain ⟨i, hi⟩ := Nat.ne_zero_implies_bit_true h
      rw [tb] at hi
      simp only [Bool.and_eq_true, decide_eq_true_eq] at hi
      by_contra hc
      have := scan_up_before lane 0 n i (Nat.zero_le _) (by
        have := scan_up_le lane 0 n
        have := scan_up_ge lane 0 n
        omega)
      simp_all
    · intro h hz
      have h1 := scan_up_hit lane 0 n (by omega)
      have h2 := tb (scan_up lane 0 n)
      rw [hz] at h2
      have : scan_up lane 0 n < 16 := by omega
      simp [h1, h, this] at h2
  refine ⟨hiff, fun h => ?_⟩
  have hlt := hiff.1 h
  unfold ctz
  apply scan_up_eq
  · exact Nat.zero_le _
  · omega
  · intro _
    rw [tb]
    have h1 := scan_up_hit lane 0 n (by omega)
    have : scan_up lane 0 n < 16 := by omega
    simp [h1, hlt, this]
  · intro j _ hj
    rw [tb]
    have := scan_up_before lane 0 n j (Nat.zero_le _) hj
    simp [this]

theorem ctz_testBit (x : Nat) (hx : x ≠ 0) (hlt : x < 2 ^ 32) : x.testBit (ctz x) = true := by
  obtain ⟨i, hi⟩ := Nat.ne_zero_implies_bit_true hx
  have hi32 : i < 32 := by
    by_contra hc
    have h1 : x < 2 ^ i := Nat.lt_of_lt_of_le hlt (Nat.pow_le_pow_right (by omega) (by omega))
    rw [Nat.testBit_lt_two_pow h1] at hi
    cases hi
  unfold ctz
  apply scan_up_hit
  by_contra hc
  have h1 := scan_up_before (fun i => x.testBit i) 0 32 i (Nat.zero_le _) (by
    have := scan_up_le (fun i => x.testBit i) 0 32
    omega)
  simp [hi] at h1

theorem int8_inj (a b : Nat) (ha : a < 256) (hb : b < 256) : int8 a = int8 b ↔ a = b := by
  unfold int8
  rw [Nat.mod_eq_of_lt ha, Nat.mod_eq_of_lt hb]
  split <;> split <;> omega

/-! ## Arrays -/

@[simp] theorem upd_same {α : Type} (a : Nat → α) (i : Nat) (v : α) : upd a i v i = v := by
  simp [upd]

theorem upd_other {α : Type} (a : Nat → α) (i j : Nat) (v : α) (h : j ≠ i) :
    upd a i v j = a j := by
  simp [upd, h]

theorem upd_self {α : Type} (a : Nat → α) (i : Nat) : upd a i (a i) = a := by
  funext j
  unfold upd
  split
  · subst_vars; rfl
  · rfl

/-! ## Live slots -/

theorem mem_slots_4 (x : Inner) (h : x.n.type = NODE4) (b s : Nat) :
    (b, s) ∈ slots x ↔ s < x.n.num_children ∧ x.keys s = b := by
  unfold slots; rw [h]
  simp only [List.mem_map, List.mem_range, Prod.mk.injEq]
  constructor
  · rintro ⟨i, hi, h1, h2⟩; subst h2; exact ⟨hi, h1⟩
  · rintro ⟨h1, h2⟩; exact ⟨s, h1, h2, rfl⟩

theorem mem_slots_16 (x : Inner) (h : x.n.type = NODE16) (b s : Nat) :
    (b, s) ∈ slots x ↔ s < x.n.num_children ∧ x.keys s = b := by
  unfold slots; rw [h]
  simp only [List.mem_map, List.mem_range, Prod.mk.injEq]
  constructor
  · rintro ⟨i, hi, h1, h2⟩; subst h2; exact ⟨hi, h1⟩
  · rintro ⟨h1, h2⟩; exact ⟨s, h1, h2, rfl⟩

theorem mem_slots_48 (x : Inner) (h : x.n.type = NODE48) (b s : Nat) :
    (b, s) ∈ slots x ↔ b < 256 ∧ x.keys b ≠ 0 ∧ s = x.keys b - 1 := by
  unfold slots; rw [h]
  simp only [List.mem_map, List.mem_filter, List.mem_range, Prod.mk.injEq, bne_iff_ne]
  constructor
  · rintro ⟨i, ⟨hi, h0⟩, h1, h2⟩; subst h1; exact ⟨hi, h0, h2.symm⟩
  · rintro ⟨h1, h2, h3⟩; exact ⟨b, ⟨h1, h2⟩, rfl, h3.symm⟩

theorem mem_slots_256 (x : Inner) (h : x.n.type = NODE256) (b s : Nat) :
    (b, s) ∈ slots x ↔ b < 256 ∧ s = b ∧ (x.children b).isNull = false := by
  unfold slots; rw [h]
  simp only [List.mem_map, List.mem_filter, List.mem_range, Prod.mk.injEq, Bool.not_eq_true']
  constructor
  · rintro ⟨i, ⟨hi, h0⟩, h1, h2⟩; subst h1; exact ⟨hi, h2.symm, h0⟩
  · rintro ⟨h1, h2, h3⟩; exact ⟨b, ⟨h1, h3⟩, rfl, h2.symm⟩

theorem slots_fst_unique {ord : Bool} {x : Inner} (h : Shape ord x) {b s s' : Nat}
    (h1 : (b, s) ∈ slots x) (h2 : (b, s') ∈ slots x) : s = s' := by
  have := List.inj_on_of_nodup_map h.keys_nodup h1 h2 rfl
  exact (Prod.mk.inj this).2

theorem mem_entries (x : Inner) (b : Nat) (ch : Node) :
    (b, ch) ∈ entries x ↔ ∃ s, (b, s) ∈ slots x ∧ ch = x.children s := by
  unfold entries
  simp only [List.mem_map, Prod.mk.injEq, Prod.exists]
  constructor
  · rintro ⟨b', s, h1, h2, h3⟩; subst h2; exact ⟨s, h1, h3.symm⟩
  · rintro ⟨s, h1, h2⟩; exact ⟨b, s, h1, rfl, h2.symm⟩

theorem entries_fst (x : Inner) : (entries x).map Prod.fst = (slots x).map Prod.fst := by
  unfold entries
  rw [List.map_map]
  rfl

theorem entries_length (x : Inner) : (entries x).length = (slots x).length := by
  unfold entries; simp

/-! ## `find_child` -/

/-- On the 4-way and 16-way layouts both builds of `find_child` are the linear scan for the
first live key equal to `c`. -/
theorem find_child_small (simd : Bool) (x : Inner) (c : Nat)
    (ht : x.n.type = NODE4 ∨ (x.n.type = NODE16 ∧ x.n.num_children ≤ 16 ∧ c < 256 ∧
      ∀ i, i < x.n.num_children → x.keys i < 256)) :
    find_child simd x c =
      if scan_up (fun i => x.keys i == c) 0 x.n.num_children < x.n.num_children
      then some (scan_up (fun i => x.keys i == c) 0 x.n.num_children) else none := by
  rcases ht with ht | ⟨ht, hn, hc, hk⟩
  · unfold find_child; rw [ht]
  · unfold find_child; rw [ht]
    simp only
    have key : ∀ lane : Nat → Bool, (∀ j, j < x.n.num_children → lane j = (x.keys j == c)) →
        (if movemask16 lane &&& ((1 <<< x.n.num_children) - 1) ≠ 0
          then some (ctz (movemask16 lane &&& ((1 <<< x.n.num_children) - 1))) else none) =
        if scan_up (fun i => x.keys i == c) 0 x.n.num_children < x.n.num_children
        then some (scan_up (fun i => x.keys i == c) 0 x.n.num_children) else none := by
      intro lane hl
      have hs : scan_up lane 0 x.n.num_children
          = scan_up (fun i => x.keys i == c) 0 x.n.num_children :=
        scan_up_congr _ _ _ _ (fun j _ h2 => hl j (by omega))
      obtain ⟨h1, h2⟩ := masked_scan lane x.n.num_children hn
      by_cases hz : movemask16 lane &&& ((1 <<< x.n.num_children) - 1) ≠ 0
      · rw [if_pos hz, h2 hz, hs, if_pos (hs ▸ h1.1 hz)]
      · rw [if_neg hz, if_neg (fun h => hz (h1.2 (hs ▸ h)))]
    cases simd
    · simpa using key (fun i => x.keys i == c) (fun _ _ => rfl)
    · simp only [if_true]
      apply key
      intro j hj
      unfold mm_cmpeq_epi8
      have := int8_inj c (x.keys j) hc (hk j hj)
      by_cases h : x.keys j = c
      · simp [h]
      · have h' : ¬ c = x.keys j := fun e => h e.symm
        simp [h, this, h']

theorem find_child_iff (simd ord : Bool) (x : Inner) (h : Shape ord x) (c : Nat) (hc : c < 256)
    (s : Nat) : find_child simd x c = some s ↔ (c, s) ∈ slots x := by
  rcases ht : x.n.type with _ | _ | _ | _
  · -- NODE4
    rw [find_child_small simd x c (Or.inl ht), mem_slots_4 x ht]
    have hle := scan_up_le (fun i => x.keys i == c) 0 x.n.num_children
    constructor
    · intro h1
      split at h1
      · rename_i hlt
        have := scan_up_hit (fun i => x.keys i == c) 0 x.n.num_children (by omega)
        simp only [Option.some.injEq] at h1
        subst h1
        exact ⟨hlt, by simpa using this⟩
      · cases h1
    · rintro ⟨h1, h2⟩
      have hr : scan_up (fun i => x.keys i == c) 0 x.n.num_children = s := by
        apply scan_up_eq
        · omega
        · omega
        · intro _; simpa using h2
        · intro j _ hj
          by_contra hne
          have hj' : x.keys j = c := by simpa using hne
          have m1 : (c, j) ∈ slots x := (mem_slots_4 x ht c j).2 ⟨by omega, hj'⟩
          have m2 : (c, s) ∈ slots x := (mem_slots_4 x ht c s).2 ⟨h1, h2⟩
          have := slots_fst_unique h m1 m2
          omega
      rw [hr, if_pos h1]
  · -- NODE16
    have hlay := h.layout
    unfold Layout at hlay; rw [ht] at hlay; simp only at hlay
    have hk : ∀ i, i < x.n.num_children → x.keys i < 256 := fun i hi =>
      h.byte_lt (x.keys i, i) ((mem_slots_16 x ht _ _).2 ⟨hi, rfl⟩)
    rw [find_child_small simd x c (Or.inr ⟨ht, hlay, hc, hk⟩), mem_slots_16 x ht]
    have hle := scan_up_le (fun i => x.keys i == c) 0 x.n.num_children
    constructor
    · intro h1
      split at h1
      · rename_i hlt
        have := scan_up_hit (fun i => x.keys i == c) 0 x.n.num_children (by omega)
        simp only [Option.some.injEq] at h1
        subst h1
        exact ⟨hlt, by simpa using this⟩
      · cases h1
    · rintro ⟨h1, h2⟩
      have hr : scan_up (fun i => x.keys i == c) 0 x.n.num_children = s := by
        apply scan_up_eq
        · omega
        · omega
        · intro _; simpa using h2
        · intro j _ hj
          by_contra hne
          have hj' : x.keys j = c := by simpa using hne
          have m1 : (c, j) ∈ slots x := (mem_slots_16 x ht c j).2 ⟨by omega, hj'⟩
          have m2 : (c, s) ∈ slots x := (mem_slots_16 x ht c s).2 ⟨h1, h2⟩
          have := slots_fst_unique h m1 m2
          omega
      rw [hr, if_pos h1]
  · -- NODE48
    rw [mem_slots_48 x ht]
    unfold find_child; rw [ht]; simp only
    constructor
    · intro h1
      split at h1
      · rename_i hne
        simp only [Option.some.injEq] at h1
        exact ⟨hc, hne, h1.symm⟩
      · cases h1
    · rintro ⟨_, h2, h3⟩
      rw [if_pos h2, h3]
  · -- NODE256
    rw [mem_slots_256 x ht]
    unfold find_child; rw [ht]; simp only
    constructor
    · intro h1
      split at h1
      · cases h1
      · rename_i hne
        simp only [Option.some.injEq] at h1
        exact ⟨hc, h1.symm, by simpa using hne⟩
    · rintro ⟨_, h2, h3⟩
      rw [h3, h2]; simp

theorem find_child_none (simd ord : Bool) (x : Inner) (h : Shape ord x) (c : Nat) (hc : c < 256) :
    find_child simd x c = none ↔ ∀ s, (c, s) ∉ slots x := by
  constructor
  · intro h1 s hs
    rw [← find_child_iff simd ord x h c hc, h1] at hs
    cases hs
  · intro h1
    cases hf : find_child simd x c with
    | none => rfl
    | some s => exact absurd ((find_child_iff simd ord x h c hc s).1 hf) (h1 s)

/-- Whatever the node, a slot returned by `find_child` for a byte is one the iteration
visits. -/
theorem find_child_live (simd : Bool) (x : Inner) (c : Nat) (hc : c < 256) (s : Nat)
    (h : find_child simd x c = some s) : ∃ b, (b, s) ∈ slots x := by
  rcases ht : x.n.type with _ | _ | _ | _
  · refine ⟨c, ?_⟩
    rw [find_child_small simd x c (Or.inl ht)] at h
    rw [mem_slots_4 x ht]
    split at h
    · rename_i hlt
      have := scan_up_hit (fun i => x.keys i == c) 0 x.n.num_children (by omega)
      simp only [Option.some.injEq] at h
      subst h
      exact ⟨hlt, by simpa using this⟩
    · cases h
  · refine ⟨x.keys s, ?_⟩
    rw [mem_slots_16 x ht]
    refine ⟨?_, rfl⟩
    unfold find_child at h; rw [ht] at h
    have key : ∀ lane : Nat → Bool,
        (if movemask16 lane &&& ((1 <<< x.n.num_children) - 1) ≠ 0
          then some (ctz (movemask16 lane &&& ((1 <<< x.n.num_children) - 1))) else none)
          = some s → s < x.n.num_children := by
      intro lane hl
      split at hl
      · rename_i hne
        simp only [Option.some.injEq] at hl
        have h1 := ctz_testBit _ hne
          (Nat.lt_of_lt_of_le (masked_lt lane x.n.num_children)
            (Nat.pow_le_pow_right (by omega) (by omega)))
        rw [hl, testBit_masked] at h1
        simp only [Bool.and_eq_true, decide_eq_true_eq] at h1
        exact h1.2
      · cases hl
    cases simd
    · exact key _ (by simpa using h)
    · exact key _ (by simpa using h)
  · refine ⟨c, ?_⟩
    rw [mem_slots_48 x ht]
    unfold find_child at h; rw [ht] at h; simp only at h
    split at h
    · rename_i hne
      simp only [Option.some.injEq] at h
      exact ⟨hc, hne, h.symm⟩
    · cases h
  · refine ⟨c, ?_⟩
    rw [mem_slots_256 x ht]
    unfold find_child at h; rw [ht] at h; simp only at h
    split at h
    · cases h
    · rename_i hne
      simp only [Option.some.injEq] at h
      exact ⟨hc, h.symm, by simpa using hne⟩

/-! ## Lists over index ranges -/

theorem flatMap_ite {α β : Type} (l : List α) (p : α → Bool) (f : α → List β) :
    l.flatMap (fun a => if p a = true then f a else []) = (l.filter p).flatMap f := by
  induction l with
  | nil => rfl
  | cons a t ih =>
    simp only [List.flatMap_cons, List.filter_cons]
    by_cases h : p a = true
    · simp [h, ih]
    · simp [h, ih]

theorem range_filter_sorted (p : Nat → Bool) (n : Nat) :
    ((List.range n).filter p).Pairwise (fun a b => a < b) :=
  List.Pairwise.sublist (List.filter_sublist _) (List.pairwise_lt_range n)

theorem range_filter_nodup (p : Nat → Bool) (n : Nat) : ((List.range n).filter p).Nodup :=
  (List.nodup_range n).sublist (List.filter_sublist _)

theorem slots_nodup {ord : Bool} {x : Inner} (h : Shape ord x) : (slots x).Nodup :=
  List.Nodup.of_map _ h.keys_nodup

theorem entries_nodup {ord : Bool} {x : Inner} (h : Shape ord x) : (entries x).Nodup := by
  apply List.Nodup.of_map Prod.fst
  rw [entries_fst]
  exact h.keys_nodup

theorem slots_fst_48 (x : Inner) (h : x.n.type = NODE48) :
    (slots x).map Prod.fst = (List.range 256).filter (fun c => x.keys c != 0) := by
  unfold slots; rw [h]
  simp only [List.map_map]
  exact List.map_id _

theorem slots_fst_256 (x : Inner) (h : x.n.type = NODE256) :
    (slots x).map Prod.fst = (List.range 256).filter (fun c => !(x.children c).isNull) := by
  unfold slots; rw [h]
  simp only [List.map_map]
  exact List.map_id _

theorem slots_fst_4 (x : Inner) (h : x.n.type = NODE4) :
    (slots x).map Prod.fst = (List.range x.n.num_children).map x.keys := by
  unfold slots; rw [h]
  simp only [List.map_map]
  rfl

theorem slots_fst_16 (x : Inner) (h : x.n.type = NODE16) :
    (slots x).map Prod.fst = (List.range x.n.num_children).map x.keys := by
  unfold slots; rw [h]
  simp only [List.map_map]
  rfl

theorem slots_length_4 (x : Inner) (h : x.n.type = NODE4) :
    (slots x).length = x.n.num_children := by
  unfold slots; rw [h]; simp

theorem slots_length_16 (x : Inner) (h : x.n.type = NODE16) :
    (slots x).length = x.n.num_children := by
  unfold slots; rw [h]; simp

/-! ## What `add_child` guarantees -/

theorem length_of_mem_cons {α : Type} {l l' : List α} {a : α} (h1 : l.Nodup) (h2 : l'.Nodup)
    (ha : a ∉ l) (h : ∀ e, e ∈ l' ↔ e = a ∨ e ∈ l) : l'.length = l.length + 1 := by
  have hp : l'.Perm (a :: l) := by
    rw [List.perm_ext_iff_of_nodup h2 (List.nodup_cons.2 ⟨ha, h1⟩)]
    intro e
    rw [h e, List.mem_cons]
  simpa using hp.length_eq

/-- Growth first copies `x` into a larger node `y` with the same children; adding to `y`
then adds to `x`. -/
theorem AddSpec_of_copy {ord : Bool} {x y x' : Inner} {c : Nat} {child : Node}
    (h : AddSpec ord y c child x')
    (hmem : ∀ e, e ∈ entries y ↔ e ∈ entries x) (hlen : (slots y).length = (slots x).length)
    (hpl : y.n.partial_len = x.n.partial_len)
    (hpb : ∀ i, i < MAX_PREFIX_LEN → i < x.n.partial_len → y.n.partial_ i = x.n.partial_ i)
    (hbig : min_children y.n.type ≤ (slots y).length + 1) :
    AddSpec ord x c child x' where
  shape := h.shape
  mem := fun e => by rw [h.mem, hmem]
  len := by rw [h.len, hlen]
  plen := by rw [h.plen, hpl]
  pbytes := fun i h1 h2 => by rw [h.pbytes i h1 (by omega), hpb i h1 h2]
  big := fun _ => h.big hbig

theorem copy_header_len (d s : art_node) : (copy_header d s).partial_len = s.partial_len := rfl

theorem copy_header_nc (d s : art_node) : (copy_header d s).num_children = s.num_children := rfl

theorem copy_header_type (d s : art_node) : (copy_header d s).type = d.type := rfl

theorem copy_header_bytes (d s : art_node) (i : Nat) (h1 : i < MAX_PREFIX_LEN)
    (h2 : i < s.partial_len) : (copy_header d s).partial_ i = s.partial_ i := by
  unfold copy_header memcpy
  simp only
  rw [if_pos ⟨Nat.zero_le _, by omega⟩]
  simp

/-! ### `add_child256` -/

theorem add_child256_spec (ord : Bool) (x : Inner) (c : Nat) (child : Node)
    (ht : x.n.type = NODE256) (h : Shape ord x) (hc : c < 256)
    (hnew : ∀ s, (c, s) ∉ slots x) (hch : child.isNull = false) :
    AddSpec ord x c child (add_child256 x c child) := by
  have ht' : (add_child256 x c child).n.type = NODE256 := ht
  have hcnull : (x.children c).isNull = true := by
    by_contra hne
    exact hnew c ((mem_slots_256 x ht c c).2 ⟨hc, rfl, by simpa using hne⟩)
  have hch' : ∀ b, (add_child256 x c child).children b = if b = c then child else x.children b :=
    fun b => rfl
  have hsl : ∀ b s, (b, s) ∈ slots (add_child256 x c child) ↔ (b = c ∧ s = c) ∨ (b, s) ∈ slots x := by
    intro b s
    rw [mem_slots_256 _ ht', mem_slots_256 _ ht, hch']
    by_cases hb : b = c
    · subst hb; simp [hch, hc, hcnull]
    · simp [hb]
  have hsc : ∀ b s, (b, s) ∈ slots x → s ≠ c := by
    intro b s hm hs
    obtain ⟨_, h2, h3⟩ := (mem_slots_256 x ht b s).1 hm
    rw [← h2, hs, hcnull] at h3
    cases h3
  have hfst := slots_fst_256 _ ht'
  have hnd : ((slots (add_child256 x c child)).map Prod.fst).Nodup := by
    rw [hfst]; exact range_filter_nodup _ _
  have hmem : ∀ e, e ∈ entries (add_child256 x c child) ↔ e = (c, child) ∨ e ∈ entries x := by
    rintro ⟨b, ch⟩
    rw [mem_entries, mem_entries]
    constructor
    · rintro ⟨s, h1, h2⟩
      rcases (hsl b s).1 h1 with ⟨rfl, rfl⟩ | h3
      · left; rw [h2, hch']; simp
      · right
        refine ⟨s, h3, ?_⟩
        rw [h2, hch']
        have : s ≠ c := hsc b s h3
        simp [this]
    · rintro (h1 | ⟨s, h1, h2⟩)
      · obtain ⟨rfl, rfl⟩ := Prod.mk.inj h1
        exact ⟨b, (hsl b b).2 (Or.inl ⟨rfl, rfl⟩), by rw [hch']; simp⟩
      · refine ⟨s, (hsl b s).2 (Or.inr h1), ?_⟩
        rw [h2, hch']
        have : s ≠ c := hsc b s h1
        simp [this]
  have hlen : (slots (add_child256 x c child)).length = (slots x).length + 1 := by
    apply length_of_mem_cons (slots_nodup h) (List.Nodup.of_map _ hnd) (hnew c) (a := (c, c))
    rintro ⟨b, s⟩
    rw [hsl]
    simp
  refine ⟨⟨?_, ?_, hnd, ?_, ?_⟩, hmem, hlen, rfl, fun _ _ _ => rfl, ?_⟩
  · rintro ⟨b, s⟩ hp
    exact ((mem_slots_256 _ ht' b s).1 hp).1
  · rintro ⟨b, s⟩ hp
    have := (mem_slots_256 _ ht' b s).1 hp
    rw [this.2.1]; exact this.2.2
  · intro _
    rw [hfst]; exact range_filter_sorted _ _
  · unfold Layout; rw [ht']; simp only
    rw [hlen]
    have hl := h.layout
    unfold Layout at hl; rw [ht] at hl; simp only at hl
    show (x.n.num_children + 1) % 256 = _
    rw [hl]; omega
  · intro hb
    rw [hlen, ht']
    rw [ht] at hb
    exact hb

/-! ### `add_child48` -/

theorem layout_48 {ord : Bool} {x : Inner} (h : Shape ord x) (ht : x.n.type = NODE48) :
    x.n.num_children = (slots x).length ∧ x.n.num_children ≤ 48 ∧
    (∀ c, c < 256 → x.keys c ≤ 48) ∧
    (∀ c c', c < 256 → c' < 256 → x.keys c ≠ 0 → x.keys c = x.keys c' → c = c') ∧
    (∀ p, p < 48 → (x.children p).isNull = false → ∃ c, c < 256 ∧ x.keys c = p + 1) := by
  have hl := h.layout
  unfold Layout at hl; rw [ht] at hl
  exact hl

/-- A 48-way node with fewer than 48 children has a free child slot, and the scan of
`add_child48` stops at it. -/
theorem free_slot_48 {ord : Bool} {x : Inner} (h : Shape ord x) (ht : x.n.type = NODE48)
    (hn : x.n.num_children < 48) :
    scan_up (fun p => (x.children p).isNull) 0 48 < 48 ∧
    (x.children (scan_up (fun p => (x.children p).isNull) 0 48)).isNull = true := by
  obtain ⟨l1, l2, l3, l4, l5⟩ := layout_48 h ht
  have hlt : scan_up (fun p => (x.children p).isNull) 0 48 < 48 := by
    by_contra hc
    have hall : ∀ p, p < 48 → (x.children p).isNull = false := fun p hp =>
      scan_up_before (fun p => (x.children p).isNull) 0 48 p (Nat.zero_le _) (by omega)
    have hsub : List.range 48 ⊆ (slots x).map Prod.snd := by
      intro p hp
      have hp' : p < 48 := List.mem_range.1 hp
      obtain ⟨c, hc1, hc2⟩ := l5 p hp' (hall p hp')
      exact List.mem_map.2 ⟨(c, p), (mem_slots_48 x ht c p).2 ⟨hc1, by omega, by omega⟩, rfl⟩
    have := ((List.nodup_range 48).subperm hsub).length_le
    simp at this
    omega
  exact ⟨hlt, scan_up_hit (fun p => (x.children p).isNull) 0 48 (by omega)⟩

theorem add_child48_room (ord : Bool) (x : Inner) (c : Nat) (child : Node)
    (ht : x.n.type = NODE48) (h : Shape ord x) (hc : c < 256)
    (hnew : ∀ s, (c, s) ∉ slots x) (hch : child.isNull = false) (hn : x.n.num_children < 48) :
    AddSpec ord x c child (add_child48 x c child) := by
  obtain ⟨l1, l2, l3, l4, l5⟩ := layout_48 h ht
  obtain ⟨hpos, hposnull⟩ := free_slot_48 h ht hn
  generalize hposdef : scan_up (fun p => (x.children p).isNull) 0 48 = pos at hpos hposnull
  have hx' : add_child48 x c child =
      { n := { x.n with num_children := x.n.num_children + 1 }
        keys := upd x.keys c (pos + 1)
        children := upd x.children pos child } := by
    unfold add_child48
    rw [if_pos hn]
    simp only [hposdef]
  rw [hx']
  set x' : Inner := { n := { x.n with num_children := x.n.num_children + 1 }
                      keys := upd x.keys c (pos + 1)
                      children := upd x.children pos child } with hx'def
  have ht' : x'.n.type = NODE48 := ht
  have hkc : x.keys c = 0 := by
    by_contra hne
    exact hnew _ ((mem_slots_48 x ht c _).2 ⟨hc, hne, rfl⟩)
  have hk' : ∀ b, x'.keys b = if b = c then pos + 1 else x.keys b := fun b => rfl
  have hc' : ∀ s, x'.children s = if s = pos then child else x.children s := fun s => rfl
  have hnc' : x'.n.num_children = x.n.num_children + 1 := rfl
  have hpl' : x'.n.partial_len = x.n.partial_len := rfl
  have hpb' : x'.n.partial_ = x.n.partial_ := rfl
  have htt' : x'.n.type = x.n.type := rfl
  clear hx'def hx'
  clear_value x'
  have hsp : ∀ b s, (b, s) ∈ slots x → s ≠ pos ∧ b ≠ c := by
    intro b s hm
    constructor
    · rintro rfl
      have := h.child_ne _ hm
      simp only at this
      rw [hposnull] at this
      cases this
    · rintro rfl
      exact hnew s hm
  have hsl : ∀ b s, (b, s) ∈ slots x' ↔ (b = c ∧ s = pos) ∨ (b, s) ∈ slots x := by
    intro b s
    rw [mem_slots_48 _ ht', mem_slots_48 _ ht, hk']
    by_cases hb : b = c
    · subst hb
      simp only [if_true, hkc]
      constructor
      · rintro ⟨_, _, h3⟩; left; exact ⟨trivial, by omega⟩
      · rintro (⟨_, h2⟩ | ⟨_, h2, _⟩)
        · exact ⟨hc, by omega, by omega⟩
        · exact absurd rfl h2
    · simp [hb]
  have hfst := slots_fst_48 _ ht'
  have hnd : ((slots x').map Prod.fst).Nodup := by
    rw [hfst]; exact range_filter_nodup _ _
  have hmem : ∀ e, e ∈ entries x' ↔ e = (c, child) ∨ e ∈ entries x := by
    rintro ⟨b, ch⟩
    rw [mem_entries, mem_entries]
    constructor
    · rintro ⟨s, h1, h2⟩
      rcases (hsl b s).1 h1 with ⟨rfl, rfl⟩ | h3
      · left; rw [h2, hc']; simp
      · right
        refine ⟨s, h3, ?_⟩
        rw [h2, hc', if_neg (hsp b s h3).1]
    · rintro (h1 | ⟨s, h1, h2⟩)
      · obtain ⟨rfl, rfl⟩ := Prod.mk.inj h1
        exact ⟨pos, (hsl b pos).2 (Or.inl ⟨rfl, rfl⟩), by rw [hc']; simp⟩
      · refine ⟨s, (hsl b s).2 (Or.inr h1), ?_⟩
        rw [h2, hc', if_neg (hsp b s h1).1]
  have hlen : (slots x').length = (slots x).length + 1 := by
    apply length_of_mem_cons (slots_nodup h) (List.Nodup.of_map _ hnd) (hnew pos) (a := (c, pos))
    rintro ⟨b, s⟩
    rw [hsl]
    simp
  refine ⟨⟨?_, ?_, hnd, ?_, ?_⟩, hmem, hlen, hpl', fun _ _ _ => by rw [hpb'], ?_⟩
  · rintro ⟨b, s⟩ hp
    exact ((mem_slots_48 _ ht' b s).1 hp).1
  · rintro ⟨b, s⟩ hp
    rcases (hsl b s).1 hp with ⟨rfl, rfl⟩ | h3
    · simp only [hc', if_true]; exact hch
    · simp only [hc', if_neg (hsp b s h3).1]
      exact h.child_ne _ h3
  · intro _
    rw [hfst]; exact range_filter_sorted _ _
  · unfold Layout; rw [ht']; simp only
    refine ⟨?_, ?_, ?_, ?_, ?_⟩
    · rw [hlen, ← l1, hnc']
    · rw [hnc']
      omega
    · intro b hb
      rw [hk']
      split
      · omega
      · exact l3 b hb
    · intro b b' hb hb' hne heq
      rw [hk'] at hne heq
      rw [hk'] at heq
      by_cases e1 : b = c <;> by_cases e2 : b' = c
      · rw [e1, e2]
      · rw [if_pos e1, if_neg e2] at heq
        have := (hsp b' pos ((mem_slots_48 x ht b' pos).2 ⟨hb', by omega, by omega⟩)).1
        exact absurd rfl this
      · rw [if_neg e1, if_pos e2] at heq
        have := (hsp b pos ((mem_slots_48 x ht b pos).2 ⟨hb, by omega, by omega⟩)).1
        exact absurd rfl this
      · rw [if_neg e1] at hne
        rw [if_neg e1, if_neg e2] at heq
        exact l4 b b' hb hb' hne heq
    · intro p hp hnn
      rw [hc'] at hnn
      by_cases e : p = pos
      · exact ⟨c, hc, by rw [hk', if_pos rfl, e]⟩
      · rw [if_neg e] at hnn
        obtain ⟨b, hb1, hb2⟩ := l5 p hp hnn
        refine ⟨b, hb1, ?_⟩
        rw [hk', if_neg]
        · exact hb2
        · rintro rfl
          omega
  · intro hb
    rw [hlen, htt']
    exact hb

theorem add_child48_full (x : Inner) (c : Nat) (child : Node) (hn : ¬ x.n.num_children < 48) :
    add_child48 x c child = add_child256 (grow48 x) c child := by
  unfold add_child48
  rw [if_neg hn]
  rfl

theorem grow48_slots {ord : Bool} {x : Inner} (h : Shape ord x) (ht : x.n.type = NODE48)
    (b s : Nat) : (b, s) ∈ slots (grow48 x) ↔ s = b ∧ ∃ s', (b, s') ∈ slots x := by
  have ht' : (grow48 x).n.type = NODE256 := rfl
  rw [mem_slots_256 _ ht']
  have hch : (grow48 x).children b =
      if b < 256 ∧ x.keys b ≠ 0 then x.children (x.keys b - 1) else Node.null := rfl
  rw [hch]
  constructor
  · rintro ⟨h1, h2, h3⟩
    refine ⟨h2, x.keys b - 1, (mem_slots_48 x ht _ _).2 ⟨h1, ?_, rfl⟩⟩
    intro h0
    rw [if_neg (by simp [h0])] at h3
    cases h3
  · rintro ⟨h1, s', h2⟩
    obtain ⟨h3, h4, h5⟩ := (mem_slots_48 x ht _ _).1 h2
    refine ⟨h3, h1, ?_⟩
    rw [if_pos ⟨h3, h4⟩, ← h5]
    exact h.child_ne _ h2

theorem grow48_child {x : Inner} (ht : x.n.type = NODE48) (b s : Nat) (hm : (b, s) ∈ slots x) :
    (grow48 x).children b = x.children s := by
  obtain ⟨h3, h4, h5⟩ := (mem_slots_48 x ht _ _).1 hm
  show (if b < 256 ∧ x.keys b ≠ 0 then x.children (x.keys b - 1) else Node.null) = _
  rw [if_pos ⟨h3, h4⟩, h5]

theorem grow48_entries {ord : Bool} {x : Inner} (h : Shape ord x) (ht : x.n.type = NODE48)
    (e : Nat × Node) : e ∈ entries (grow48 x) ↔ e ∈ entries x := by
  obtain ⟨b, ch⟩ := e
  rw [mem_entries, mem_entries]
  constructor
  · rintro ⟨s, h1, h2⟩
    obtain ⟨rfl, s', hs'⟩ := (grow48_slots h ht b s).1 h1
    exact ⟨s', hs', by rw [h2, grow48_child ht _ _ hs']⟩
  · rintro ⟨s, h1, h2⟩
    exact ⟨b, (grow48_slots h ht b b).2 ⟨rfl, s, h1⟩, by rw [h2, grow48_child ht _ _ h1]⟩

theorem grow48_fst {ord : Bool} {x : Inner} (h : Shape ord x) (ht : x.n.type = NODE48) :
    (slots (grow48 x)).map Prod.fst = (slots x).map Prod.fst := by
  have ht' : (grow48 x).n.type = NODE256 := rfl
  rw [slots_fst_256 _ ht', slots_fst_48 _ ht]
  apply List.filter_congr
  intro b hb
  have hb' := List.mem_range.1 hb
  show (!(if b < 256 ∧ x.keys b ≠ 0 then x.children (x.keys b - 1) else Node.null).isNull) = _
  by_cases h0 : x.keys b = 0
  · rw [if_neg (by simp [h0])]
    simp [h0, Node.isNull]
  · rw [if_pos ⟨hb', h0⟩]
    have := h.child_ne _ ((mem_slots_48 x ht b _).2 ⟨hb', h0, rfl⟩)
    simp only at this
    simp [this, h0]

theorem grow48_shape {ord : Bool} {x : Inner} (h : Shape ord x) (ht : x.n.type = NODE48) :
    Shape ord (grow48 x) := by
  have ht' : (grow48 x).n.type = NODE256 := rfl
  have hlen : (slots (grow48 x)).length = (slots x).length := by
    have := congrArg List.length (grow48_fst h ht)
    simpa using this
  refine ⟨?_, ?_, ?_, ?_, ?_⟩
  · rintro ⟨b, s⟩ hp
    exact ((mem_slots_256 _ ht' b s).1 hp).1
  · rintro ⟨b, s⟩ hp
    have := (mem_slots_256 _ ht' b s).1 hp
    rw [this.2.1]; exact this.2.2
  · rw [grow48_fst h ht]; exact h.keys_nodup
  · intro ho; rw [grow48_fst h ht]; exact h.sorted ho
  · unfold Layout; rw [ht']; simp only
    rw [hlen]
    obtain ⟨l1, l2, _⟩ := layout_48 h ht
    show x.n.num_children = _
    rw [← l1]
    omega

theorem add_child48_spec (ord : Bool) (x : Inner) (c : Nat) (child : Node)
    (ht : x.n.type = NODE48) (h : Shape ord x) (hc : c < 256)
    (hnew : ∀ s, (c, s) ∉ slots x) (hch : child.isNull = false) :
    AddSpec ord x c child (add_child48 x c child) := by
  by_cases hn : x.n.num_children < 48
  · exact add_child48_room ord x c child ht h hc hnew hch hn
  · rw [add_child48_full x c child hn]
    have ht' : (grow48 x).n.type = NODE256 := rfl
    have hlen : (slots (grow48 x)).length = (slots x).length := by
      have := congrArg List.length (grow48_fst h ht)
      simpa using this
    obtain ⟨l1, l2, _⟩ := layout_48 h ht
    apply AddSpec_of_copy (add_child256_spec ord (grow48 x) c child ht' (grow48_shape h ht) hc
      (fun s hs => by
        obtain ⟨_, s', hs'⟩ := (grow48_slots h ht c s).1 hs
        exact hnew s' hs') hch)
      (grow48_entries h ht) hlen rfl (fun i h1 h2 => copy_header_bytes _ _ i h1 h2)
    rw [ht', hlen, ← l1]
    show 38 ≤ _
    omega

/-! ### In-place insertion on the 4-way and 16-way layouts -/

theorem pairwise_map_range {α : Type} (R : α → α → Prop) (f : Nat → α) (n : Nat) :
    ((List.range n).map f).Pairwise R ↔ ∀ i j, i < j → j < n → R (f i) (f j) := by
  induction n with
  | zero => simp
  | succ k ih =>
    rw [List.range_succ, List.map_append, List.pairwise_append, ih]
    simp only [List.map_cons, List.map_nil, List.pairwise_cons, List.not_mem_nil,
      IsEmpty.forall_iff, implies_true, List.Pairwise.nil, and_self, true_and, List.mem_map,
      List.mem_range, List.mem_singleton, forall_exists_index, and_imp, forall_apply_eq_imp_iff₂,
      forall_eq]
    constructor
    · rintro ⟨h1, h2⟩ i j hij hj
      by_cases hjk : j = k
      · subst hjk; exact h2 i hij
      · exact h1 i j hij (by omega)
    · intro h
      exact ⟨fun i j hij hj => h i j hij (by omega), fun i hi => h i k hi (by omega)⟩

theorem nodup_map_range {α : Type} (f : Nat → α) (n : Nat) :
    ((List.range n).map f).Nodup ↔ ∀ i j, i < n → j < n → f i = f j → i = j := by
  rw [List.nodup_map_iff_inj_on (List.nodup_range n)]
  simp only [List.mem_range]
  constructor
  · intro h i j hi hj e; exact h i hi j hj e
  · intro h i hi j hj e; exact h i j hi hj e

theorem small_type_cases (x : Inner) (ht : x.n.type = NODE4 ∨ x.n.type = NODE16) (b s : Nat) :
    (b, s) ∈ slots x ↔ s < x.n.num_children ∧ x.keys s = b := by
  rcases ht with ht | ht
  · exact mem_slots_4 x ht b s
  · exact mem_slots_16 x ht b s

theorem slots_fst_small (x : Inner) (ht : x.n.type = NODE4 ∨ x.n.type = NODE16) :
    (slots x).map Prod.fst = (List.range x.n.num_children).map x.keys := by
  rcases ht with ht | ht
  · exact slots_fst_4 x ht
  · exact slots_fst_16 x ht

theorem slots_length_small (x : Inner) (ht : x.n.type = NODE4 ∨ x.n.type = NODE16) :
    (slots x).length = x.n.num_children := by
  rcases ht with ht | ht
  · exact slots_length_4 x ht
  · exact slots_length_16 x ht

theorem mem_entries_small (x : Inner) (ht : x.n.type = NODE4 ∨ x.n.type = NODE16)
    (e : Nat × Node) :
    e ∈ entries x ↔ ∃ s, s < x.n.num_children ∧ e = (x.keys s, x.children s) := by
  obtain ⟨b, ch⟩ := e
  rw [mem_entries]
  constructor
  · rintro ⟨s, h1, h2⟩
    obtain ⟨h3, h4⟩ := (small_type_cases x ht b s).1 h1
    exact ⟨s, h3, by rw [h4, h2]⟩
  · rintro ⟨s, h1, h2⟩
    obtain ⟨rfl, rfl⟩ := Prod.mk.inj h2
    exact ⟨s, (small_type_cases x ht _ s).2 ⟨h1, rfl⟩, rfl⟩

theorem insert_at_keys (x : Inner) (idx c : Nat) (child : Node) (i : Nat)
    (hidx : idx ≤ x.n.num_children) (hi : i < x.n.num_children + 1) :
    (insert_at x idx c child).keys i =
      if i = idx then c else if i < idx then x.keys i else x.keys (i - 1) := by
  show upd (memcpy x.keys (idx + 1) x.keys idx (x.n.num_children - idx)) idx c i = _
  unfold upd memcpy
  by_cases h1 : i = idx
  · simp [h1]
  · rw [if_neg h1, if_neg h1]
    by_cases h2 : i < idx
    · rw [if_neg (by omega), if_pos h2]
    · rw [if_pos ⟨by omega, by omega⟩, if_neg h2]
      congr 1
      omega

theorem insert_at_children (x : Inner) (idx c : Nat) (child : Node) (i : Nat)
    (hidx : idx ≤ x.n.num_children) (hi : i < x.n.num_children + 1) :
    (insert_at x idx c child).children i =
      if i = idx then child else if i < idx then x.children i else x.children (i - 1) := by
  show upd (memcpy x.children (idx + 1) x.children idx (x.n.num_children - idx)) idx child i = _
  unfold upd memcpy
  by_cases h1 : i = idx
  · simp [h1]
  · rw [if_neg h1, if_neg h1]
    by_cases h2 : i < idx
    · rw [if_neg (by omega), if_pos h2]
    · rw [if_pos ⟨by omega, by omega⟩, if_neg h2]
      congr 1
      omega

theorem insert_at_spec (ord : Bool) (x : Inner) (idx c : Nat) (child : Node)
    (ht : x.n.type = NODE4 ∨ x.n.type = NODE16) (h : Shape ord x) (hc : c < 256)
    (hnew : ∀ s, (c, s) ∉ slots x) (hch : child.isNull = false)
    (hidx : idx ≤ x.n.num_children)
    (hcap : (x.n.type = NODE4 → x.n.num_children < 4) ∧ (x.n.type = NODE16 → x.n.num_children < 16))
    (hpos : ord = true → (∀ j, j < idx → x.keys j < c) ∧
      (∀ j, idx ≤ j → j < x.n.num_children → c < x.keys j)) :
    AddSpec ord x c child (insert_at x idx c child) := by
  have ht' : (insert_at x idx c child).n.type = NODE4 ∨ (insert_at x idx c child).n.type = NODE16 := ht
  have htt : (insert_at x idx c child).n.type = x.n.type := rfl
  have hnc : (insert_at x idx c child).n.num_children = x.n.num_children + 1 := rfl
  have hk := insert_at_keys x idx c child
  have hch' := insert_at_children x idx c child
  have hpl : (insert_at x idx c child).n.partial_len = x.n.partial_len := rfl
  have hpb : (insert_at x idx c child).n.partial_ = x.n.partial_ := rfl
  generalize insert_at x idx c child = x' at *
  have hkc : ∀ s, s < x.n.num_children → x.keys s ≠ c := fun s hs e =>
    hnew s ((small_type_cases x ht c s).2 ⟨hs, e⟩)
  have hinj : ∀ i j, i < x.n.num_children → j < x.n.num_children → x.keys i = x.keys j → i = j := by
    have := h.keys_nodup
    rw [slots_fst_small x ht, nodup_map_range] at this
    exact this
  have hfst := slots_fst_small x' ht'
  have hlen : (slots x').length = (slots x).length + 1 := by
    rw [slots_length_small x' ht', slots_length_small x ht, hnc]
  have hmem : ∀ e, e ∈ entries x' ↔ e = (c, child) ∨ e ∈ entries x := by
    intro e
    rw [mem_entries_small x' ht', mem_entries_small x ht, hnc]
    constructor
    · rintro ⟨s, h1, h2⟩
      rw [hk s hidx h1, hch' s hidx h1] at h2
      by_cases e1 : s = idx
      · left; rw [h2, if_pos e1, if_pos e1]
      · right
        rw [if_neg e1, if_neg e1] at h2
        by_cases e2 : s < idx
        · rw [if_pos e2, if_pos e2] at h2
          exact ⟨s, by omega, h2⟩
        · rw [if_neg e2, if_neg e2] at h2
          exact ⟨s - 1, by omega, h2⟩
    · rintro (h1 | ⟨s, h1, h2⟩)
      · refine ⟨idx, by omega, ?_⟩
        rw [hk idx hidx (by omega), hch' idx hidx (by omega), if_pos rfl, if_pos rfl, h1]
      · by_cases e2 : s < idx
        · refine ⟨s, by omega, ?_⟩
          have e1 : ¬ s = idx := by omega
          rw [hk s hidx (by omega), hch' s hidx (by omega), if_neg e1, if_neg e1,
            if_pos e2, if_pos e2, h2]
        · refine ⟨s + 1, by omega, ?_⟩
          have e1 : ¬ s + 1 = idx := by omega
          have e3 : ¬ s + 1 < idx := by omega
          rw [hk (s + 1) hidx (by omega), hch' (s + 1) hidx (by omega), if_neg e1,
            if_neg e1, if_neg e3, if_neg e3, h2]
          rfl
  refine ⟨⟨?_, ?_, ?_, ?_, ?_⟩, hmem, hlen, hpl, fun _ _ _ => by rw [hpb], ?_⟩
  · rintro ⟨b, s⟩ hp
    obtain ⟨h1, h2⟩ := (small_type_cases x' ht' b s).1 hp
    rw [hnc] at h1
    rw [hk s hidx h1] at h2
    simp only
    rw [← h2]
    split
    · exact hc
    · split
      · exact h.byte_lt (x.keys s, s) ((small_type_cases x ht _ s).2 ⟨by omega, rfl⟩)
      · exact h.byte_lt (x.keys (s - 1), s - 1) ((small_type_cases x ht _ _).2 ⟨by omega, rfl⟩)
  · rintro ⟨b, s⟩ hp
    obtain ⟨h1, h2⟩ := (small_type_cases x' ht' b s).1 hp
    rw [hnc] at h1
    simp only
    rw [hch' s hidx h1]
    split
    · exact hch
    · split
      · exact h.child_ne (x.keys s, s) ((small_type_cases x ht _ s).2 ⟨by omega, rfl⟩)
      · exact h.child_ne (x.keys (s - 1), s - 1) ((small_type_cases x ht _ _).2 ⟨by omega, rfl⟩)
  · rw [hfst, nodup_map_range, hnc]
    intro i j hi hj e
    rw [hk i hidx hi, hk j hidx hj] at e
    by_cases i1 : i = idx <;> by_cases j1 : j = idx
    · omega
    · rw [if_pos i1, if_neg j1] at e
      split at e
      · exact absurd e.symm (hkc j (by omega))
      · exact absurd e.symm (hkc (j - 1) (by omega))
    · rw [if_neg i1, if_pos j1] at e
      split at e
      · exact absurd e (hkc i (by omega))
      · exact absurd e (hkc (i - 1) (by omega))
    · rw [if_neg i1, if_neg j1] at e
      split at e <;> split at e
      · exact hinj i j (by omega) (by omega) e
      · have := hinj i (j - 1) (by omega) (by omega) e; omega
      · have := hinj (i - 1) j (by omega) (by omega) e; omega
      · have := hinj (i - 1) (j - 1) (by omega) (by omega) e; omega
  · intro ho
    obtain ⟨p1, p2⟩ := hpos ho
    have hs := h.sorted ho
    rw [slots_fst_small x ht, pairwise_map_range] at hs
    rw [hfst, pairwise_map_range, hnc]
    intro i j hij hj
    rw [hk i hidx (by omega), hk j hidx hj]
    by_cases i1 : i = idx
    · have j1 : ¬ j = idx := by omega
      have j2 : ¬ j < idx := by omega
      rw [if_pos i1, if_neg j1, if_neg j2]
      exact p2 (j - 1) (by omega) (by omega)
    · rw [if_neg i1]
      by_cases i2 : i < idx
      · rw [if_pos i2]
        by_cases j1 : j = idx
        · rw [if_pos j1]; exact p1 i i2
        · rw [if_neg j1]
          by_cases j2 : j < idx
          · rw [if_pos j2]; exact hs i j hij (by omega)
          · rw [if_neg j2]
            exact hs i (j - 1) (by omega) (by omega)
      · have j1 : ¬ j = idx := by omega
        have j2 : ¬ j < idx := by omega
        rw [if_neg i2, if_neg j1, if_neg j2]
        exact hs (i - 1) (j - 1) (by omega) (by omega)
  · have hl := h.layout
    unfold Layout at hl ⊢
    rcases ht with ht | ht
    · rw [htt, ht]; rw [ht] at hl; simp only at hl ⊢
      rw [hnc]; have := hcap.1 ht; omega
    · rw [htt, ht]; rw [ht] at hl; simp only at hl ⊢
      rw [hnc]; have := hcap.2 ht; omega
  · intro hb
    rw [hlen, htt]
    exact hb

theorem memcpy_zero {α : Type} (d : Nat → α) (o : Nat) (s : Nat → α) (so : Nat) :
    memcpy d o s so 0 = d := by
  funext j
  unfold memcpy
  rw [if_neg (by omega)]

theorem memcpy_front {α : Type} (d s : Nat → α) (n i : Nat) (h : i < n) :
    memcpy d 0 s 0 n i = s i := by
  unfold memcpy
  rw [if_pos ⟨Nat.zero_le _, by omega⟩]
  simp

theorem memcpy_back {α : Type} (d s : Nat → α) (n i : Nat) (h : ¬ i < n) :
    memcpy d 0 s 0 n i = d i := by
  unfold memcpy
  rw [if_neg (by omega)]

theorem perm_length_of_mem {α : Type} {l l' : List α} (h1 : l.Nodup) (h2 : l'.Nodup)
    (h : ∀ e, e ∈ l' ↔ e ∈ l) : l'.length = l.length :=
  ((List.perm_ext_iff_of_nodup h2 h1).2 h).length_eq

/-! ### `add_child16` -/

theorem add_child16_lane (x : Inner) (c : Nat) (child : Node) (lane : Nat → Bool)
    (hn : x.n.num_children < 16) :
    (if movemask16 lane &&& ((1 <<< x.n.num_children) - 1) ≠ 0 then
      ({ n := { x.n with num_children := x.n.num_children + 1 }
         keys := upd (memcpy x.keys
            (ctz (movemask16 lane &&& ((1 <<< x.n.num_children) - 1)) + 1) x.keys
            (ctz (movemask16 lane &&& ((1 <<< x.n.num_children) - 1)))
            (x.n.num_children - ctz (movemask16 lane &&& ((1 <<< x.n.num_children) - 1))))
            (ctz (movemask16 lane &&& ((1 <<< x.n.num_children) - 1))) c
         children := upd (memcpy x.children
            (ctz (movemask16 lane &&& ((1 <<< x.n.num_children) - 1)) + 1) x.children
            (ctz (movemask16 lane &&& ((1 <<< x.n.num_children) - 1)))
            (x.n.num_children - ctz (movemask16 lane &&& ((1 <<< x.n.num_children) - 1))))
            (ctz (movemask16 lane &&& ((1 <<< x.n.num_children) - 1))) child } : Inner)
    else
      { n := { x.n with num_children := x.n.num_children + 1 }
        keys := upd x.keys x.n.num_children c
        children := upd x.children x.n.num_children child }) =
    insert_at x (scan_up lane 0 x.n.num_children) c child := by
  obtain ⟨h1, h2⟩ := masked_scan lane x.n.num_children (by omega)
  split
  · rename_i hne
    rw [h2 hne]
    rfl
  · rename_i hz
    have hs : scan_up lane 0 x.n.num_children = x.n.num_children := by
      have := scan_up_le lane 0 x.n.num_children
      have h3 : ¬ scan_up lane 0 x.n.num_children < x.n.num_children :=
        fun h => hz (h1.2 h)
      omega
    rw [hs]
    unfold insert_at
    rw [Nat.sub_self, memcpy_zero, memcpy_zero]

theorem add_child16_room (simd : Bool) (x : Inner) (c : Nat) (child : Node)
    (hn : x.n.num_children < 16) :
    add_child16 simd x c child =
      insert_at x (scan_up (if simd then mm_cmplt_epi8 c x.keys
        else fun i => decide (c < x.keys i)) 0 x.n.num_children) c child := by
  unfold add_child16
  rw [if_pos hn]
  cases simd
  · exact add_child16_lane x c child _ hn
  · exact add_child16_lane x c child _ hn

theorem add_child16_full (simd : Bool) (x : Inner) (c : Nat) (child : Node)
    (hn : ¬ x.n.num_children < 16) :
    add_child16 simd x c child = add_child48 (grow16 x) c child := by
  unfold add_child16
  rw [if_neg hn]
  rfl

/-- Where the scalar scan for the first larger key stops, the new key keeps an ascending
array ascending. -/
theorem scan_position (x : Inner) (c : Nat)
    (hs : ∀ i j, i < j → j < x.n.num_children → x.keys i < x.keys j)
    (hkc : ∀ s, s < x.n.num_children → x.keys s ≠ c) :
    (∀ j, j < scan_up (fun i => decide (c < x.keys i)) 0 x.n.num_children → x.keys j < c) ∧
    (∀ j, scan_up (fun i => decide (c < x.keys i)) 0 x.n.num_children ≤ j →
      j < x.n.num_children → c < x.keys j) := by
  have hle := scan_up_le (fun i => decide (c < x.keys i)) 0 x.n.num_children
  constructor
  · intro j hj
    have := scan_up_before (fun i => decide (c < x.keys i)) 0 x.n.num_children j
      (Nat.zero_le _) hj
    have h1 : ¬ c < x.keys j := by simpa using this
    have := hkc j (by omega)
    omega
  · intro j h1 h2
    have := scan_up_hit (fun i => decide (c < x.keys i)) 0 x.n.num_children (by omega)
    have h3 : c < x.keys (scan_up (fun i => decide (c < x.keys i)) 0 x.n.num_children) := by
      simpa using this
    by_cases e : scan_up (fun i => decide (c < x.keys i)) 0 x.n.num_children = j
    · rw [← e]; exact h3
    · have := hs (scan_up (fun i => decide (c < x.keys i)) 0 x.n.num_children) j (by omega) h2
      omega

theorem foldl_upd_keys (a z : Nat → Nat) (n : Nat)
    (hinj : ∀ i j, i < n → j < n → a i = a j → i = j) :
    (∀ i, i < n → (List.range n).foldl (fun ks i => upd ks (a i) (i + 1)) z (a i) = i + 1) ∧
    (∀ b, (∀ i, i < n → a i ≠ b) →
      (List.range n).foldl (fun ks i => upd ks (a i) (i + 1)) z b = z b) := by
  induction n with
  | zero => simp
  | succ k ih =>
    obtain ⟨ih1, ih2⟩ := ih (fun i j hi hj => hinj i j (by omega) (by omega))
    rw [List.range_succ, List.foldl_append]
    simp only [List.foldl_cons, List.foldl_nil]
    constructor
    · intro i hi
      by_cases e : i = k
      · subst e; simp
      · have : a i ≠ a k := fun h => e (hinj i k (by omega) (by omega) h)
        rw [upd_other _ _ _ _ this]
        exact ih1 i (by omega)
    · intro b hb
      rw [upd_other _ _ _ _ (fun h => hb k (by omega) h.symm)]
      exact ih2 b (fun i hi => hb i (by omega))

theorem layout_16 {ord : Bool} {x : Inner} (h : Shape ord x) (ht : x.n.type = NODE16) :
    x.n.num_children ≤ 16 := by
  have hl := h.layout
  unfold Layout at hl; rw [ht] at hl
  exact hl

theorem layout_4 {ord : Bool} {x : Inner} (h : Shape ord x) (ht : x.n.type = NODE4) :
    x.n.num_children ≤ 4 := by
  have hl := h.layout
  unfold Layout at hl; rw [ht] at hl
  exact hl

theorem keys_inj_small {ord : Bool} {x : Inner} (h : Shape ord x)
    (ht : x.n.type = NODE4 ∨ x.n.type = NODE16) :
    ∀ i j, i < x.n.num_children → j < x.n.num_children → x.keys i = x.keys j → i = j := by
  have := h.keys_nodup
  rw [slots_fst_small x ht, nodup_map_range] at this
  exact this

theorem grow16_slots {ord : Bool} {x : Inner} (h : Shape ord x) (ht : x.n.type = NODE16)
    (b s : Nat) : (b, s) ∈ slots (grow16 x) ↔ (b, s) ∈ slots x := by
  have ht' : (grow16 x).n.type = NODE48 := rfl
  obtain ⟨f1, f2⟩ := foldl_upd_keys x.keys (alloc_node NodeType.NODE48).keys x.n.num_children
    (keys_inj_small h (Or.inr ht))
  have hk : (grow16 x).keys = (List.range x.n.num_children).foldl
      (fun ks i => upd ks (x.keys i) (i + 1)) (alloc_node NodeType.NODE48).keys := rfl
  rw [mem_slots_48 _ ht', mem_slots_16 _ ht, hk]
  constructor
  · rintro ⟨h1, h2, h3⟩
    by_cases hex : ∃ i, i < x.n.num_children ∧ x.keys i = b
    · obtain ⟨i, hi, rfl⟩ := hex
      rw [f1 i hi] at h3
      have : s = i := by omega
      subst this
      exact ⟨hi, rfl⟩
    · exfalso
      apply h2
      rw [f2 b (fun i hi e => hex ⟨i, hi, e⟩)]
      rfl
  · rintro ⟨h1, rfl⟩
    rw [f1 s h1]
    exact ⟨h.byte_lt (x.keys s, s) ((mem_slots_16 x ht _ _).2 ⟨h1, rfl⟩), by omega, by omega⟩

theorem grow16_entries {ord : Bool} {x : Inner} (h : Shape ord x) (ht : x.n.type = NODE16)
    (e : Nat × Node) : e ∈ entries (grow16 x) ↔ e ∈ entries x := by
  obtain ⟨b, ch⟩ := e
  rw [mem_entries, mem_entries]
  have hc : ∀ s, (b, s) ∈ slots x → (grow16 x).children s = x.children s := by
    intro s hs
    exact memcpy_front _ _ _ _ ((mem_slots_16 x ht b s).1 hs).1
  constructor
  · rintro ⟨s, h1, h2⟩
    have h3 := (grow16_slots h ht b s).1 h1
    exact ⟨s, h3, by rw [h2, hc s h3]⟩
  · rintro ⟨s, h1, h2⟩
    exact ⟨s, (grow16_slots h ht b s).2 h1, by rw [h2, hc s h1]⟩

theorem grow16_shape {ord : Bool} {x : Inner} (h : Shape ord x) (ht : x.n.type = NODE16)
    (hn : ¬ x.n.num_children < 16) :
    Shape ord (grow16 x) ∧ (slots (grow16 x)).length = (slots x).length := by
  have ht' : (grow16 x).n.type = NODE48 := rfl
  have hnc : x.n.num_children = 16 := by have := layout_16 h ht; omega
  have hfst := slots_fst_48 _ ht'
  have hnd : ((slots (grow16 x)).map Prod.fst).Nodup := by
    rw [hfst]; exact range_filter_nodup _ _
  have hlen : (slots (grow16 x)).length = (slots x).length :=
    perm_length_of_mem (slots_nodup h) (List.Nodup.of_map _ hnd)
      (fun e => grow16_slots h ht e.1 e.2)
  obtain ⟨f1, f2⟩ := foldl_upd_keys x.keys (alloc_node NodeType.NODE48).keys x.n.num_children
    (keys_inj_small h (Or.inr ht))
  have hk : (grow16 x).keys = (List.range x.n.num_children).foldl
      (fun ks i => upd ks (x.keys i) (i + 1)) (alloc_node NodeType.NODE48).keys := rfl
  have hkv : ∀ b, (grow16 x).keys b = 0 ∨ ∃ i, i < x.n.num_children ∧ x.keys i = b ∧
      (grow16 x).keys b = i + 1 := by
    intro b
    by_cases hex : ∃ i, i < x.n.num_children ∧ x.keys i = b
    · obtain ⟨i, hi, rfl⟩ := hex
      exact Or.inr ⟨i, hi, rfl, by rw [hk]; exact f1 i hi⟩
    · left
      rw [hk, f2 b (fun i hi e => hex ⟨i, hi, e⟩)]
      rfl
  refine ⟨⟨?_, ?_, hnd, ?_, ?_⟩, hlen⟩
  · rintro ⟨b, s⟩ hp
    exact ((mem_slots_48 _ ht' b s).1 hp).1
  · rintro ⟨b, s⟩ hp
    have h3 := (grow16_slots h ht b s).1 hp
    have : (grow16 x).children s = x.children s :=
      memcpy_front _ _ _ _ ((mem_slots_16 x ht b s).1 h3).1
    simp only
    rw [this]
    exact h.child_ne _ h3
  · intro _
    rw [hfst]; exact range_filter_sorted _ _
  · unfold Layout; rw [ht']; simp only
    refine ⟨?_, ?_, ?_, ?_, ?_⟩
    · rw [hlen, slots_length_16 x ht]; rfl
    · show x.n.num_children ≤ 48
      omega
    · intro b _
      rcases hkv b with h0 | ⟨i, hi, _, he⟩
      · omega
      · omega
    · intro b b' _ _ hne heq
      rcases hkv b with h0 | ⟨i, hi, hb, he⟩
      · exact absurd h0 hne
      · rcases hkv b' with h0' | ⟨i', hi', hb', he'⟩
        · omega
        · have : i = i' := by omega
          subst this
          rw [← hb, ← hb']
    · intro p hp hnn
      have hp16 : p < x.n.num_children := by
        by_contra hge
        have : (grow16 x).children p = Node.null := memcpy_back _ _ _ _ hge
        rw [this] at hnn
        cases hnn
      refine ⟨x.keys p, h.byte_lt (x.keys p, p) ((mem_slots_16 x ht _ _).2 ⟨hp16, rfl⟩), ?_⟩
      rw [hk]
      exact f1 p hp16

/-- On bytes below 128 the signed comparison of the SSE2 build is the unsigned one. -/
theorem signed_lt_small (c : Nat) (keys : Nat → Nat) (j : Nat) (hc : c < 128)
    (hk : keys j < 128) : mm_cmplt_epi8 c keys j = decide (c < keys j) := by
  have e1 : int8 c = (c : Int) := by
    unfold int8
    rw [Nat.mod_eq_of_lt (by omega : c < 256), if_pos hc]
  have e2 : int8 (keys j) = (keys j : Int) := by
    unfold int8
    rw [Nat.mod_eq_of_lt (by omega : keys j < 256), if_pos hk]
  simp only [mm_cmplt_epi8, e1, e2, Nat.cast_lt]

theorem add_child16_spec (simd ord : Bool) (x : Inner) (c : Nat) (child : Node)
    (ht : x.n.type = NODE16) (h : Shape ord x) (hc : c < 256)
    (hnew : ∀ s, (c, s) ∉ slots x) (hch : child.isNull = false)
    (hord : OrdOk simd ord x c) :
    AddSpec ord x c child (add_child16 simd x c child) := by
  by_cases hn : x.n.num_children < 16
  · rw [add_child16_room simd x c child hn]
    have hle := scan_up_le (if simd then mm_cmplt_epi8 c x.keys
        else fun i => decide (c < x.keys i)) 0 x.n.num_children
    apply insert_at_spec ord x _ c child (Or.inr ht) h hc hnew hch (by omega)
    · exact ⟨fun h4 => (by rw [ht] at h4; cases h4), fun _ => hn⟩
    · intro ho
      have hs := h.sorted ho
      rw [slots_fst_16 x ht, pairwise_map_range] at hs
      have hscan : scan_up (if simd then mm_cmplt_epi8 c x.keys
          else fun i => decide (c < x.keys i)) 0 x.n.num_children =
          scan_up (fun i => decide (c < x.keys i)) 0 x.n.num_children := by
        rcases hord ho with e | ⟨hc7, hk7⟩
        · rw [e]
          simp only [Bool.false_eq_true, if_false]
        · apply scan_up_congr
          intro j _ hj
          have hkj : x.keys j < 128 :=
            hk7 (x.keys j, j) ((mem_slots_16 x ht _ _).2 ⟨by omega, rfl⟩)
          cases simd with
          | false => rfl
          | true =>
            simp only [if_true]
            exact signed_lt_small c x.keys j hc7 hkj
      rw [hscan]
      exact scan_position x c hs (fun s hs e => hnew s ((mem_slots_16 x ht c s).2 ⟨hs, e⟩))
  · rw [add_child16_full simd x c child hn]
    have ht' : (grow16 x).n.type = NODE48 := rfl
    obtain ⟨hsh, hlen⟩ := grow16_shape h ht hn
    have hnc : x.n.num_children = 16 := by have := layout_16 h ht; omega
    apply AddSpec_of_copy (add_child48_spec ord (grow16 x) c child ht' hsh hc
      (fun s hs => hnew s ((grow16_slots h ht c s).1 hs)) hch)
      (grow16_entries h ht) hlen rfl (fun i h1 h2 => copy_header_bytes _ _ i h1 h2)
    rw [ht', hlen, slots_length_16 x ht, hnc]
    show 13 ≤ _
    omega

/-! ### `add_child4` -/

theorem add_child4_room (simd : Bool) (x : Inner) (c : Nat) (child : Node)
    (hn : x.n.num_children < 4) :
    add_child4 simd x c child =
      insert_at x (scan_up (fun i => decide (c < x.keys i)) 0 x.n.num_children) c child := by
  unfold add_child4
  rw [if_pos hn]
  rfl

theorem add_child4_full (simd : Bool) (x : Inner) (c : Nat) (child : Node)
    (hn : ¬ x.n.num_children < 4) :
    add_child4 simd x c child = add_child16 simd (grow4 x) c child := by
  unfold add_child4
  rw [if_neg hn]
  rfl

theorem grow4_slots (x : Inner) (ht : x.n.type = NODE4) : slots (grow4 x) = slots x := by
  have ht' : (grow4 x).n.type = NODE16 := rfl
  unfold slots
  rw [ht, ht']
  simp only
  apply List.map_congr_left
  intro i hi
  have hi' : i < x.n.num_children := List.mem_range.1 hi
  have : (grow4 x).keys i = x.keys i := memcpy_front _ _ _ _ hi'
  rw [this]

theorem grow4_entries (x : Inner) (ht : x.n.type = NODE4) : entries (grow4 x) = entries x := by
  unfold entries
  rw [grow4_slots x ht]
  apply List.map_congr_left
  rintro ⟨b, s⟩ hp
  have hs := ((mem_slots_4 x ht b s).1 hp).1
  have : (grow4 x).children s = x.children s := memcpy_front _ _ _ _ hs
  simp only [this]

theorem grow4_shape {ord : Bool} {x : Inner} (h : Shape ord x) (ht : x.n.type = NODE4) :
    Shape ord (grow4 x) := by
  have ht' : (grow4 x).n.type = NODE16 := rfl
  have hs := grow4_slots x ht
  refine ⟨?_, ?_, ?_, ?_, ?_⟩
  · rw [hs]; exact h.byte_lt
  · rw [hs]
    rintro ⟨b, s⟩ hp
    have hs' := ((mem_slots_4 x ht b s).1 hp).1
    have : (grow4 x).children s = x.children s := memcpy_front _ _ _ _ hs'
    simp only [this]
    exact h.child_ne _ hp
  · rw [hs]; exact h.keys_nodup
  · rw [hs]; exact h.sorted
  · unfold Layout; rw [ht']; simp only
    show x.n.num_children ≤ 16
    have := layout_4 h ht
    omega

theorem add_child4_spec (simd ord : Bool) (x : Inner) (c : Nat) (child : Node)
    (ht : x.n.type = NODE4) (h : Shape ord x) (hc : c < 256)
    (hnew : ∀ s, (c, s) ∉ slots x) (hch : child.isNull = false)
    (hord : OrdOk simd ord x c) :
    AddSpec ord x c child (add_child4 simd x c child) := by
  by_cases hn : x.n.num_children < 4
  · rw [add_child4_room simd x c child hn]
    have hle := scan_up_le (fun i => decide (c < x.keys i)) 0 x.n.num_children
    apply insert_at_spec ord x _ c child (Or.inl ht) h hc hnew hch (by omega)
    · exact ⟨fun _ => hn, fun h4 => by rw [ht] at h4; cases h4⟩
    · intro ho
      have hs := h.sorted ho
      rw [slots_fst_4 x ht, pairwise_map_range] at hs
      exact scan_position x c hs (fun s hs e => hnew s ((mem_slots_4 x ht c s).2 ⟨hs, e⟩))
  · rw [add_child4_full simd x c child hn]
    have ht' : (grow4 x).n.type = NODE16 := rfl
    have hnc : x.n.num_children = 4 := by have := layout_4 h ht; omega
    apply @AddSpec_of_copy ord x (grow4 x) _ c child
      (add_child16_spec simd ord (grow4 x) c child ht' (grow4_shape h ht) hc
      (fun s hs => hnew s (by rw [← grow4_slots x ht]; exact hs)) hch
      (by unfold OrdOk; rw [grow4_slots x ht]; exact hord))
      (fun e => by rw [grow4_entries x ht]) (by rw [grow4_slots x ht]) rfl
      (fun i h1 h2 => copy_header_bytes _ _ i h1 h2)
    rw [ht', grow4_slots x ht, slots_length_4 x ht, hnc]
    show 4 ≤ _
    omega

theorem add_child_spec (simd ord : Bool) (x : Inner) (c : Nat) (child : Node)
    (h : Shape ord x) (hc : c < 256)
    (hnew : ∀ s, (c, s) ∉ slots x) (hch : child.isNull = false)
    (hord : OrdOk simd ord x c) :
    AddSpec ord x c child (add_child simd x c child) := by
  unfold add_child
  rcases ht : x.n.type with _ | _ | _ | _
  · exact add_child4_spec simd ord x c child ht h hc hnew hch hord
  · exact add_child16_spec simd ord x c child ht h hc hnew hch hord
  · exact add_child48_spec ord x c child ht h hc hnew hch
  · exact add_child256_spec ord x c child ht h hc hnew hch

/-! ## Compaction loops of the shrinking conversions -/

theorem rank_zero (live : Nat → Bool) : rank live 0 = 0 := rfl

theorem rank_succ (live : Nat → Bool) (m : Nat) :
    rank live (m + 1) = rank live m + (if live m then 1 else 0) := by
  unfold rank
  rw [List.range_succ, List.filter_append, List.length_append]
  by_cases h : live m = true
  · simp [h]
  · simp [h]

theorem rank_mono (live : Nat → Bool) {a b : Nat} (h : a ≤ b) : rank live a ≤ rank live b := by
  induction b with
  | zero => have : a = 0 := by omega
            subst this; exact Nat.le_refl _
  | succ k ih =>
    by_cases e : a = k + 1
    · subst e; exact Nat.le_refl _
    · have := ih (by omega)
      rw [rank_succ]
      omega

theorem rank_lt (live : Nat → Bool) {a b : Nat} (h : a < b) (ha : live a = true) :
    rank live a < rank live b := by
  have h1 := rank_mono live (show a + 1 ≤ b by omega)
  rw [rank_succ, if_pos ha] at h1
  omega

theorem rank_le_self (live : Nat → Bool) (m : Nat) : rank live m ≤ m := by
  induction m with
  | zero => simp [rank_zero]
  | succ k ih => rw [rank_succ]; split <;> omega

theorem rank_inj (live : Nat → Bool) {a b : Nat} (ha : live a = true) (hb : live b = true)
    (h : rank live a = rank live b) : a = b := by
  rcases Nat.lt_trichotomy a b with h1 | h1 | h1
  · have := rank_lt live h1 ha; omega
  · exact h1
  · have := rank_lt live h1 hb; omega

theorem rank_surj (live : Nat → Bool) (m p : Nat) (h : p < rank live m) :
    ∃ b, b < m ∧ live b = true ∧ rank live b = p := by
  induction m with
  | zero => simp [rank_zero] at h
  | succ k ih =>
    rw [rank_succ] at h
    by_cases hp : p < rank live k
    · obtain ⟨b, h1, h2, h3⟩ := ih hp
      exact ⟨b, by omega, h2, h3⟩
    · by_cases hl : live k = true
      · rw [if_pos hl] at h
        exact ⟨k, by omega, hl, by omega⟩
      · rw [if_neg hl] at h
        omega

/-- The loop of `remove_child256` that fills a 48-way node. -/
theorem compact_by_index (live : Nat → Bool) (val : Nat → Node) (kz : Nat → Nat)
    (cz : Nat → Node) (m : Nat) :
    let R := (List.range m).foldl
      (fun (st : Nat × (Nat → Nat) × (Nat → Node)) i =>
        if live i = true then (st.1 + 1, upd st.2.1 i (st.1 + 1), upd st.2.2 st.1 (val i))
        else st) (0, kz, cz)
    R.1 = rank live m ∧
    (∀ b, R.2.1 b = if b < m ∧ live b = true then rank live b + 1 else kz b) ∧
    (∀ b, b < m → live b = true → R.2.2 (rank live b) = val b) ∧
    (∀ p, rank live m ≤ p → R.2.2 p = cz p) := by
  induction m with
  | zero => simp [rank_zero]
  | succ k ih =>
    simp only at ih ⊢
    rw [List.range_succ, List.foldl_append]
    simp only [List.foldl_cons, List.foldl_nil]
    generalize (List.range k).foldl
      (fun (st : Nat × (Nat → Nat) × (Nat → Node)) i =>
        if live i = true then (st.1 + 1, upd st.2.1 i (st.1 + 1), upd st.2.2 st.1 (val i))
        else st) (0, kz, cz) = R at ih ⊢
    obtain ⟨i1, i2, i3, i4⟩ := ih
    by_cases hl : live k = true
    · rw [if_pos hl, rank_succ, if_pos hl]
      refine ⟨by simp [i1], ?_, ?_, ?_⟩
      · intro b
        simp only
        by_cases e : b = k
        · subst e
          rw [upd_same, if_pos ⟨by omega, hl⟩, i1]
        · rw [upd_other _ _ _ _ e, i2 b]
          by_cases hb : b < k ∧ live b = true
          · rw [if_pos hb, if_pos ⟨by omega, hb.2⟩]
          · rw [if_neg hb, if_neg]
            rintro ⟨h1, h2⟩
            exact hb ⟨by omega, h2⟩
      · intro b hb hlb
        simp only
        by_cases e : b = k
        · subst e
          rw [i1, upd_same]
        · have hbk : b < k := by omega
          have := rank_lt live hbk hlb
          rw [upd_other _ _ _ _ (by omega)]
          exact i3 b hbk hlb
      · intro p hp
        simp only
        rw [upd_other _ _ _ _ (by omega)]
        exact i4 p (by omega)
    · rw [if_neg hl, rank_succ, if_neg hl]
      refine ⟨by simp [i1], ?_, ?_, ?_⟩
      · intro b
        rw [i2 b]
        by_cases hb : b < k ∧ live b = true
        · rw [if_pos hb, if_pos ⟨by omega, hb.2⟩]
        · rw [if_neg hb, if_neg]
          rintro ⟨h1, h2⟩
          by_cases e : b = k
          · subst e; exact hl h2
          · exact hb ⟨by omega, h2⟩
      · intro b hb hlb
        have hbk : b < k := by
          by_contra hge
          have : b = k := by omega
          subst this
          exact hl hlb
        exact i3 b hbk hlb
      · intro p hp
        exact i4 p (by omega)

/-- The loop of `remove_child48` that fills a 16-way node. -/
theorem compact_by_rank (live : Nat → Bool) (val : Nat → Node) (kz : Nat → Nat)
    (cz : Nat → Node) (m : Nat) :
    let R := (List.range m).foldl
      (fun (st : Nat × (Nat → Nat) × (Nat → Node)) i =>
        if live i = true then (st.1 + 1, upd st.2.1 st.1 i, upd st.2.2 st.1 (val i))
        else st) (0, kz, cz)
    R.1 = rank live m ∧
    (∀ b, b < m → live b = true → R.2.1 (rank live b) = b) ∧
    (∀ p, rank live m ≤ p → R.2.1 p = kz p) ∧
    (∀ b, b < m → live b = true → R.2.2 (rank live b) = val b) ∧
    (∀ p, rank live m ≤ p → R.2.2 p = cz p) := by
  induction m with
  | zero => simp [rank_zero]
  | succ k ih =>
    simp only at ih ⊢
    rw [List.range_succ, List.foldl_append]
    simp only [List.foldl_cons, List.foldl_nil]
    generalize (List.range k).foldl
      (fun (st : Nat × (Nat → Nat) × (Nat → Node)) i =>
        if live i = true then (st.1 + 1, upd st.2.1 st.1 i, upd st.2.2 st.1 (val i))
        else st) (0, kz, cz) = R at ih ⊢
    obtain ⟨i1, i2, i3, i4, i5⟩ := ih
    by_cases hl : live k = true
    · rw [if_pos hl, rank_succ, if_pos hl]
      refine ⟨by simp [i1], ?_, ?_, ?_, ?_⟩
      · intro b hb hlb
        simp only
        by_cases e : b = k
        · subst e
          rw [i1, upd_same]
        · have hbk : b < k := by omega
          have := rank_lt live hbk hlb
          rw [upd_other _ _ _ _ (by omega)]
          exact i2 b hbk hlb
      · intro p hp
        simp only
        rw [upd_other _ _ _ _ (by omega)]
        exact i3 p (by omega)
      · intro b hb hlb
        simp only
        by_cases e : b = k
        · subst e
          rw [i1, upd_same]
        · have hbk : b < k := by omega
          have := rank_lt live hbk hlb
          rw [upd_other _ _ _ _ (by omega)]
          exact i4 b hbk hlb
      · intro p hp
        simp only
        rw [upd_other _ _ _ _ (by omega)]
        exact i5 p (by omega)
    · rw [if_neg hl, rank_succ, if_neg hl]
      have hbk : ∀ b, b < k + 1 → live b = true → b < k := by
        intro b hb hlb
        by_contra hge
        have : b = k := by omega
        subst this
        exact hl hlb
      refine ⟨by simp [i1], ?_, ?_, ?_, ?_⟩
      · intro b hb hlb
        exact i2 b (hbk b hb hlb) hlb
      · intro p hp
        exact i3 p (by omega)
      · intro b hb hlb
        exact i4 b (hbk b hb hlb) hlb
      · intro p hp
        exact i5 p (by omega)

/-! ## What `remove_child` guarantees -/

theorem remove_child256_eq (x : Inner) (c : Nat) :
    remove_child256 x c =
      if (clear256 x c).n.num_children = 37 then (shrink256 (clear256 x c)).toNode
      else (clear256 x c).toNode := rfl

theorem remove_child48_eq (x : Inner) (c : Nat) :
    remove_child48 x c =
      if (clear48 x c).n.num_children = 12 then (shrink48 (clear48 x c)).toNode
      else (clear48 x c).toNode := rfl

theorem remove_child16_eq (x : Inner) (pos : Nat) :
    remove_child16 x pos =
      if (erase_at x pos).n.num_children = 3 then (shrink16 (erase_at x pos)).toNode
      else (erase_at x pos).toNode := rfl

theorem erase_at_keys (x : Inner) (pos i : Nat) (hi : i + 1 < x.n.num_children) :
    (erase_at x pos).keys i = if i < pos then x.keys i else x.keys (i + 1) := by
  show memcpy x.keys pos x.keys (pos + 1) (x.n.num_children - 1 - pos) i = _
  unfold memcpy
  by_cases h : i < pos
  · rw [if_neg (by omega), if_pos h]
  · rw [if_pos ⟨by omega, by omega⟩, if_neg h]
    congr 1
    omega

theorem erase_at_children (x : Inner) (pos i : Nat) (hi : i + 1 < x.n.num_children) :
    (erase_at x pos).children i = if i < pos then x.children i else x.children (i + 1) := by
  show memcpy x.children pos x.children (pos + 1) (x.n.num_children - 1 - pos) i = _
  unfold memcpy
  by_cases h : i < pos
  · rw [if_neg (by omega), if_pos h]
  · rw [if_pos ⟨by omega, by omega⟩, if_neg h]
    congr 1
    omega

theorem small_bound {ord : Bool} {x : Inner} (h : Shape ord x)
    (ht : x.n.type = NODE4 ∨ x.n.type = NODE16) : x.n.num_children ≤ 16 := by
  rcases ht with ht | ht
  · have := layout_4 h ht; omega
  · exact layout_16 h ht

theorem erase_at_spec (ord : Bool) (x : Inner) (c pos : Nat)
    (ht : x.n.type = NODE4 ∨ x.n.type = NODE16) (h : Shape ord x)
    (hm : (c, pos) ∈ slots x) : RemSpec ord x c (erase_at x pos) := by
  obtain ⟨hpos, hkp⟩ := (small_type_cases x ht c pos).1 hm
  have hb := small_bound h ht
  have ht' : (erase_at x pos).n.type = NODE4 ∨ (erase_at x pos).n.type = NODE16 := ht
  have htt : (erase_at x pos).n.type = x.n.type := rfl
  have hnc : (erase_at x pos).n.num_children + 1 = x.n.num_children := by
    show (x.n.num_children + 255) % 256 + 1 = _
    omega
  have hk := erase_at_keys x pos
  have hch' := erase_at_children x pos
  have hpl : (erase_at x pos).n.partial_len = x.n.partial_len := rfl
  have hpb : (erase_at x pos).n.partial_ = x.n.partial_ := rfl
  generalize erase_at x pos = x' at *
  have hinj := keys_inj_small h ht
  have hfst := slots_fst_small x' ht'
  have hlen : (slots x').length + 1 = (slots x).length := by
    rw [slots_length_small x' ht', slots_length_small x ht, hnc]
  have hmem : ∀ e, e ∈ entries x' ↔ e ∈ entries x ∧ e.1 ≠ c := by
    intro e
    rw [mem_entries_small x' ht', mem_entries_small x ht]
    constructor
    · rintro ⟨s, h1, h2⟩
      rw [hk s (by omega), hch' s (by omega)] at h2
      by_cases e2 : s < pos
      · rw [if_pos e2, if_pos e2] at h2
        refine ⟨⟨s, by omega, h2⟩, ?_⟩
        rw [h2]
        intro e3
        have := hinj s pos (by omega) hpos (by rw [hkp]; exact e3)
        omega
      · rw [if_neg e2, if_neg e2] at h2
        refine ⟨⟨s + 1, by omega, h2⟩, ?_⟩
        rw [h2]
        intro e3
        have := hinj (s + 1) pos (by omega) hpos (by rw [hkp]; exact e3)
        omega
    · rintro ⟨⟨s, h1, h2⟩, h3⟩
      have hsp : s ≠ pos := by
        rintro rfl
        rw [h2] at h3
        exact h3 hkp
      by_cases e2 : s < pos
      · refine ⟨s, by omega, ?_⟩
        rw [hk s (by omega), hch' s (by omega), if_pos e2, if_pos e2, h2]
      · refine ⟨s - 1, by omega, ?_⟩
        have e3 : ¬ s - 1 < pos := by omega
        have e4 : s - 1 + 1 = s := by omega
        rw [hk (s - 1) (by omega), hch' (s - 1) (by omega), if_neg e3, if_neg e3, e4, h2]
  refine ⟨⟨?_, ?_, ?_, ?_, ?_⟩, hmem, hlen, hpl, fun _ _ _ => by rw [hpb]⟩
  · rintro ⟨b, s⟩ hp
    obtain ⟨h1, h2⟩ := (small_type_cases x' ht' b s).1 hp
    rw [hk s (by omega)] at h2
    simp only
    rw [← h2]
    split
    · exact h.byte_lt (x.keys s, s) ((small_type_cases x ht _ s).2 ⟨by omega, rfl⟩)
    · exact h.byte_lt (x.keys (s + 1), s + 1) ((small_type_cases x ht _ _).2 ⟨by omega, rfl⟩)
  · rintro ⟨b, s⟩ hp
    obtain ⟨h1, h2⟩ := (small_type_cases x' ht' b s).1 hp
    simp only
    rw [hch' s (by omega)]
    split
    · exact h.child_ne (x.keys s, s) ((small_type_cases x ht _ s).2 ⟨by omega, rfl⟩)
    · exact h.child_ne (x.keys (s + 1), s + 1) ((small_type_cases x ht _ _).2 ⟨by omega, rfl⟩)
  · rw [hfst, nodup_map_range]
    intro i j hi hj e
    rw [hk i (by omega), hk j (by omega)] at e
    split at e <;> split at e
    · exact hinj i j (by omega) (by omega) e
    · have := hinj i (j + 1) (by omega) (by omega) e; omega
    · have := hinj (i + 1) j (by omega) (by omega) e; omega
    · have := hinj (i + 1) (j + 1) (by omega) (by omega) e; omega
  · intro ho
    have hs := h.sorted ho
    rw [slots_fst_small x ht, pairwise_map_range] at hs
    rw [hfst, pairwise_map_range]
    intro i j hij hj
    rw [hk i (by omega), hk j (by omega)]
    split <;> split
    · exact hs i j hij (by omega)
    · exact hs i (j + 1) (by omega) (by omega)
    · omega
    · exact hs (i + 1) (j + 1) (by omega) (by omega)
  · have hl := h.layout
    unfold Layout at hl ⊢
    rcases ht with ht | ht
    · rw [htt, ht]; rw [ht] at hl; simp only at hl ⊢
      omega
    · rw [htt, ht]; rw [ht] at hl; simp only at hl ⊢
      omega

/-- A conversion that copies a node `z` into a node `y` with the same children passes the
removal contract on. -/
theorem RemSpec_of_copy {ord : Bool} {x z y : Inner} {c : Nat} (h : RemSpec ord x c z)
    (hsh : Shape ord y) (hmem : ∀ e, e ∈ entries y ↔ e ∈ entries z)
    (hlen : (slots y).length = (slots z).length)
    (hpl : y.n.partial_len = z.n.partial_len)
    (hpb : ∀ i, i < MAX_PREFIX_LEN → i < z.n.partial_len → y.n.partial_ i = z.n.partial_ i) :
    RemSpec ord x c y where
  shape := hsh
  mem := fun e => by rw [hmem, h.mem]
  len := by rw [hlen, h.len]
  plen := by rw [hpl, h.plen]
  pbytes := fun i h1 h2 => by rw [hpb i h1 (by rw [h.plen]; exact h2), h.pbytes i h1 h2]

theorem shrink16_slots (z : Inner) (ht : z.n.type = NODE16) (hn : z.n.num_children ≤ 4) :
    slots (shrink16 z) = slots z := by
  have ht' : (shrink16 z).n.type = NODE4 := rfl
  unfold slots
  rw [ht, ht']
  simp only
  apply List.map_congr_left
  intro i hi
  have hi' : i < z.n.num_children := List.mem_range.1 hi
  have : (shrink16 z).keys i = z.keys i := memcpy_front _ _ _ _ (by omega)
  rw [this]

theorem shrink16_entries (z : Inner) (ht : z.n.type = NODE16) (hn : z.n.num_children ≤ 4) :
    entries (shrink16 z) = entries z := by
  unfold entries
  rw [shrink16_slots z ht hn]
  apply List.map_congr_left
  rintro ⟨b, s⟩ hp
  have hs := ((mem_slots_16 z ht b s).1 hp).1
  have : (shrink16 z).children s = z.children s := memcpy_front _ _ _ _ (by omega)
  simp only [this]

theorem shrink16_shape {ord : Bool} {z : Inner} (h : Shape ord z) (ht : z.n.type = NODE16)
    (hn : z.n.num_children ≤ 4) : Shape ord (shrink16 z) := by
  have ht' : (shrink16 z).n.type = NODE4 := rfl
  have hs := shrink16_slots z ht hn
  refine ⟨?_, ?_, ?_, ?_, ?_⟩
  · rw [hs]; exact h.byte_lt
  · rw [hs]
    rintro ⟨b, s⟩ hp
    have hs' := ((mem_slots_16 z ht b s).1 hp).1
    have : (shrink16 z).children s = z.children s := memcpy_front _ _ _ _ (by omega)
    simp only [this]
    exact h.child_ne _ hp
  · rw [hs]; exact h.keys_nodup
  · rw [hs]; exact h.sorted
  · unfold Layout; rw [ht']; simp only
    exact hn

/-- The result of `remove_child16` on a well-shaped node with at least four children. -/
theorem remove_child16_spec (ord : Bool) (x : Inner) (c pos : Nat)
    (ht : x.n.type = NODE16) (h : Shape ord x) (hbig : 4 ≤ (slots x).length)
    (hm : (c, pos) ∈ slots x) :
    ∃ x', remove_child16 x pos = x'.toNode ∧ RemSpec ord x c x' ∧
      min_children x'.n.type ≤ (slots x').length := by
  have hr := erase_at_spec ord x c pos (Or.inr ht) h hm
  have htz : (erase_at x pos).n.type = NODE16 := ht
  have hlz := slots_length_16 _ htz
  rw [remove_child16_eq]
  by_cases h3 : (erase_at x pos).n.num_children = 3
  · rw [if_pos h3]
    refine ⟨shrink16 (erase_at x pos), rfl, ?_, ?_⟩
    · exact RemSpec_of_copy hr (shrink16_shape hr.shape htz (by omega))
        (fun e => by rw [shrink16_entries _ htz (by omega)])
        (by rw [shrink16_slots _ htz (by omega)]) rfl
        (fun i h1 h2 => copy_header_bytes _ _ i h1 h2)
    · rw [shrink16_slots _ htz (by omega), hlz, h3]
      show 2 ≤ 3
      omega
  · rw [if_neg h3]
    refine ⟨erase_at x pos, rfl, hr, ?_⟩
    have := hr.len
    rw [htz]
    show 4 ≤ _
    omega

/-! ### `remove_child48` -/

theorem slots_length_48 (x : Inner) (ht : x.n.type = NODE48) :
    (slots x).length = rank (fun i => x.keys i != 0) 256 := by
  unfold slots rank; rw [ht]; simp

theorem slots_length_256 (x : Inner) (ht : x.n.type = NODE256) :
    (slots x).length = rank (fun i => !(x.children i).isNull) 256 := by
  unfold slots rank; rw [ht]; simp

theorem clear48_spec (ord : Bool) (x : Inner) (c s : Nat)
    (ht : x.n.type = NODE48) (h : Shape ord x) (hm : (c, s) ∈ slots x) :
    RemSpec ord x c (clear48 x c) := by
  obtain ⟨l1, l2, l3, l4, l5⟩ := layout_48 h ht
  obtain ⟨hc, hkc, hs⟩ := (mem_slots_48 x ht c s).1 hm
  have ht' : (clear48 x c).n.type = NODE48 := ht
  have hk' : ∀ b, (clear48 x c).keys b = if b = c then 0 else x.keys b := fun b => rfl
  have hc' : ∀ t, (clear48 x c).children t = if t = s then Node.null else x.children t := by
    intro t
    show upd x.children (x.keys c - 1) Node.null t = _
    rw [← hs]; rfl
  have hnc : (clear48 x c).n.num_children = (x.n.num_children + 255) % 256 := rfl
  have hpl : (clear48 x c).n.partial_len = x.n.partial_len := rfl
  have hpb : (clear48 x c).n.partial_ = x.n.partial_ := rfl
  generalize clear48 x c = z at *
  have hsl : ∀ b t, (b, t) ∈ slots z ↔ b ≠ c ∧ (b, t) ∈ slots x := by
    intro b t
    rw [mem_slots_48 _ ht', mem_slots_48 _ ht, hk']
    by_cases hb : b = c
    · simp [hb]
    · simp [hb]
  have hts : ∀ b t, b ≠ c → (b, t) ∈ slots x → t ≠ s := by
    intro b t hb hbt e
    obtain ⟨h1, h2, h3⟩ := (mem_slots_48 x ht b t).1 hbt
    exact hb (l4 b c h1 hc h2 (by omega))
  have hfst := slots_fst_48 _ ht'
  have hnd : ((slots z).map Prod.fst).Nodup := by
    rw [hfst]; exact range_filter_nodup _ _
  have hmem : ∀ e, e ∈ entries z ↔ e ∈ entries x ∧ e.1 ≠ c := by
    rintro ⟨b, ch⟩
    rw [mem_entries, mem_entries]
    constructor
    · rintro ⟨t, h1, h2⟩
      obtain ⟨h3, h4⟩ := (hsl b t).1 h1
      exact ⟨⟨t, h4, by rw [h2, hc', if_neg (hts b t h3 h4)]⟩, h3⟩
    · rintro ⟨⟨t, h1, h2⟩, h3⟩
      exact ⟨t, (hsl b t).2 ⟨h3, h1⟩, by rw [h2, hc', if_neg (hts b t h3 h1)]⟩
  have hlen : (slots z).length + 1 = (slots x).length := by
    symm
    apply length_of_mem_cons (List.Nodup.of_map _ hnd) (slots_nodup h) (a := (c, s))
    · intro hmz
      exact ((hsl c s).1 hmz).1 rfl
    · rintro ⟨b, t⟩
      rw [hsl]
      constructor
      · intro hx
        by_cases hb : b = c
        · subst hb
          left
          rw [slots_fst_unique h hx hm]
        · exact Or.inr ⟨hb, hx⟩
      · rintro (h1 | ⟨_, h2⟩)
        · rw [h1]; exact hm
        · exact h2
  have hlx : 1 ≤ (slots x).length := by omega
  refine ⟨⟨?_, ?_, hnd, ?_, ?_⟩, hmem, hlen, hpl, fun _ _ _ => by rw [hpb]⟩
  · rintro ⟨b, t⟩ hp
    exact ((mem_slots_48 _ ht' b t).1 hp).1
  · rintro ⟨b, t⟩ hp
    obtain ⟨h3, h4⟩ := (hsl b t).1 hp
    simp only
    rw [hc', if_neg (hts b t h3 h4)]
    exact h.child_ne _ h4
  · intro _
    rw [hfst]; exact range_filter_sorted _ _
  · unfold Layout; rw [ht']; simp only
    refine ⟨?_, ?_, ?_, ?_, ?_⟩
    · rw [hnc]; omega
    · rw [hnc]; omega
    · intro b hb
      rw [hk']
      split
      · omega
      · exact l3 b hb
    · intro b b' hb hb' hne heq
      rw [hk'] at hne heq
      rw [hk'] at heq
      by_cases e1 : b = c
      · rw [if_pos e1] at hne; exact absurd rfl hne
      · rw [if_neg e1] at hne heq
        by_cases e2 : b' = c
        · rw [if_pos e2] at heq; exact absurd heq hne
        · rw [if_neg e2] at heq
          exact l4 b b' hb hb' hne heq
    · intro p hp hnn
      rw [hc'] at hnn
      by_cases e : p = s
      · rw [if_pos e] at hnn; cases hnn
      · rw [if_neg e] at hnn
        obtain ⟨b, hb1, hb2⟩ := l5 p hp hnn
        refine ⟨b, hb1, ?_⟩
        rw [hk', if_neg]
        · exact hb2
        · rintro rfl
          omega

theorem shrink48_facts (z : Inner) :
    (shrink48 z).n.type = NODE16 ∧
    (shrink48 z).n.num_children = z.n.num_children ∧
    (shrink48 z).n.partial_len = z.n.partial_len ∧
    (∀ i, i < MAX_PREFIX_LEN → i < z.n.partial_len →
      (shrink48 z).n.partial_ i = z.n.partial_ i) ∧
    (∀ b, b < 256 → z.keys b ≠ 0 →
      (shrink48 z).keys (rank (fun i => z.keys i != 0) b) = b) ∧
    (∀ b, b < 256 → z.keys b ≠ 0 →
      (shrink48 z).children (rank (fun i => z.keys i != 0) b) = z.children (z.keys b - 1)) := by
  obtain ⟨_, c2, _, c4, _⟩ := compact_by_rank (fun i => z.keys i != 0)
    (fun i => z.children (z.keys i - 1)) (alloc_node NodeType.NODE16).keys
    (alloc_node NodeType.NODE16).children 256
  refine ⟨rfl, rfl, rfl, fun i h1 h2 => copy_header_bytes _ _ i h1 h2, ?_, ?_⟩
  · intro b hb hl
    exact c2 b hb (by simpa using hl)
  · intro b hb hl
    exact c4 b hb (by simpa using hl)

theorem shrink48_spec {ord : Bool} {z : Inner} (h : Shape ord z) (ht : z.n.type = NODE48)
    (hn : z.n.num_children ≤ 16) :
    Shape ord (shrink48 z) ∧ (∀ e, e ∈ entries (shrink48 z) ↔ e ∈ entries z) ∧
    (slots (shrink48 z)).length = (slots z).length := by
  obtain ⟨l1, l2, l3, l4, l5⟩ := layout_48 h ht
  obtain ⟨f1, f2, f3, f4, f5, f6⟩ := shrink48_facts z
  generalize shrink48 z = y at *
  have hrk := slots_length_48 z ht
  set live : Nat → Bool := fun i => z.keys i != 0 with hlive
  have hlv : ∀ b, live b = true ↔ z.keys b ≠ 0 := fun b => by simp [hlive]
  have hsl : ∀ b p, (b, p) ∈ slots y ↔ b < 256 ∧ z.keys b ≠ 0 ∧ rank live b = p := by
    intro b p
    rw [mem_slots_16 y f1, f2]
    constructor
    · rintro ⟨h1, h2⟩
      obtain ⟨b', hb1, hb2, hb3⟩ := rank_surj live 256 p (by omega)
      have := f5 b' hb1 ((hlv b').1 hb2)
      rw [hb3, h2] at this
      subst this
      exact ⟨hb1, (hlv _).1 hb2, hb3⟩
    · rintro ⟨h1, h2, h3⟩
      have := rank_lt live h1 ((hlv b).2 h2)
      refine ⟨by omega, ?_⟩
      rw [← h3]
      exact f5 b h1 h2
  have hmem : ∀ e, e ∈ entries y ↔ e ∈ entries z := by
    rintro ⟨b, ch⟩
    rw [mem_entries, mem_entries]
    constructor
    · rintro ⟨p, h1, h2⟩
      obtain ⟨h3, h4, h5⟩ := (hsl b p).1 h1
      refine ⟨z.keys b - 1, (mem_slots_48 z ht _ _).2 ⟨h3, h4, rfl⟩, ?_⟩
      rw [h2, ← h5]
      exact f6 b h3 h4
    · rintro ⟨t, h1, h2⟩
      obtain ⟨h3, h4, h5⟩ := (mem_slots_48 z ht _ _).1 h1
      refine ⟨rank live b, (hsl b _).2 ⟨h3, h4, rfl⟩, ?_⟩
      rw [h2, h5]
      exact (f6 b h3 h4).symm
  have hlen : (slots y).length = (slots z).length := by
    rw [slots_length_16 y f1, f2, l1]
  have hkeys : ∀ p, p < y.n.num_children → ∃ b, b < 256 ∧ z.keys b ≠ 0 ∧ rank live b = p ∧
      y.keys p = b := by
    intro p hp
    have := (hsl (y.keys p) p).1 ((mem_slots_16 y f1 _ _).2 ⟨hp, rfl⟩)
    exact ⟨y.keys p, this.1, this.2.1, this.2.2, rfl⟩
  have hsorted : ∀ i j, i < j → j < y.n.num_children → y.keys i < y.keys j := by
    intro i j hij hj
    obtain ⟨b, _, hb2, hb3, hb4⟩ := hkeys i (by omega)
    obtain ⟨b', _, hb2', hb3', hb4'⟩ := hkeys j hj
    rw [hb4, hb4']
    by_contra hge
    have := rank_mono live (show b' ≤ b by omega)
    omega
  refine ⟨⟨?_, ?_, ?_, ?_, ?_⟩, hmem, hlen⟩
  · rintro ⟨b, p⟩ hp
    exact ((hsl b p).1 hp).1
  · rintro ⟨b, p⟩ hp
    obtain ⟨h3, h4, h5⟩ := (hsl b p).1 hp
    simp only
    rw [← h5, f6 b h3 h4]
    exact h.child_ne (b, z.keys b - 1) ((mem_slots_48 z ht _ _).2 ⟨h3, h4, rfl⟩)
  · rw [slots_fst_16 y f1, nodup_map_range]
    intro i j hi hj e
    rcases Nat.lt_trichotomy i j with h1 | h1 | h1
    · have := hsorted i j h1 hj; omega
    · exact h1
    · have := hsorted j i h1 hi; omega
  · intro _
    rw [slots_fst_16 y f1, pairwise_map_range]
    exact hsorted
  · unfold Layout; rw [f1]; simp only
    rw [f2]; exact hn

/-- The result of `remove_child48` on a well-shaped node with at least 13 children. -/
theorem remove_child48_spec (ord : Bool) (x : Inner) (c s : Nat)
    (ht : x.n.type = NODE48) (h : Shape ord x) (hbig : 13 ≤ (slots x).length)
    (hm : (c, s) ∈ slots x) :
    ∃ x', remove_child48 x c = x'.toNode ∧ RemSpec ord x c x' ∧
      min_children x'.n.type ≤ (slots x').length := by
  have hr := clear48_spec ord x c s ht h hm
  have htz : (clear48 x c).n.type = NODE48 := ht
  obtain ⟨l1, _⟩ := layout_48 hr.shape htz
  rw [remove_child48_eq]
  by_cases h3 : (clear48 x c).n.num_children = 12
  · rw [if_pos h3]
    obtain ⟨s1, s2, s3⟩ := shrink48_spec hr.shape htz (by omega)
    obtain ⟨f1, f2, f3, f4, _⟩ := shrink48_facts (clear48 x c)
    refine ⟨shrink48 (clear48 x c), rfl, RemSpec_of_copy hr s1 s2 s3 f3 f4, ?_⟩
    rw [f1, s3, ← l1, h3]
    show 4 ≤ 12
    omega
  · rw [if_neg h3]
    refine ⟨clear48 x c, rfl, hr, ?_⟩
    have := hr.len
    rw [htz]
    show 13 ≤ _
    omega

/-! ### `remove_child256` -/

theorem layout_256 {ord : Bool} {x : Inner} (h : Shape ord x) (ht : x.n.type = NODE256) :
    x.n.num_children = (slots x).length % 256 := by
  have hl := h.layout
  unfold Layout at hl; rw [ht] at hl
  exact hl

theorem slots_length_le_256 (x : Inner) (ht : x.n.type = NODE256) :
    (slots x).length ≤ 256 := by
  rw [slots_length_256 x ht]
  exact rank_le_self _ 256

theorem clear256_spec (ord : Bool) (x : Inner) (c s : Nat)
    (ht : x.n.type = NODE256) (h : Shape ord x) (hm : (c, s) ∈ slots x) :
    RemSpec ord x c (clear256 x c) := by
  have l1 := layout_256 h ht
  obtain ⟨hc, hs, hcn⟩ := (mem_slots_256 x ht c s).1 hm
  have ht' : (clear256 x c).n.type = NODE256 := ht
  have hc' : ∀ t, (clear256 x c).children t = if t = c then Node.null else x.children t :=
    fun t => rfl
  have hnc : (clear256 x c).n.num_children = (x.n.num_children + 255) % 256 := rfl
  have hpl : (clear256 x c).n.partial_len = x.n.partial_len := rfl
  have hpb : (clear256 x c).n.partial_ = x.n.partial_ := rfl
  generalize clear256 x c = z at *
  have hsl : ∀ b t, (b, t) ∈ slots z ↔ b ≠ c ∧ (b, t) ∈ slots x := by
    intro b t
    rw [mem_slots_256 _ ht', mem_slots_256 _ ht, hc']
    by_cases hb : b = c
    · simp [hb, Node.isNull]
    · simp [hb]
  have hts : ∀ b t, b ≠ c → (b, t) ∈ slots x → t ≠ c := by
    intro b t hb hbt e
    obtain ⟨h1, h2, h3⟩ := (mem_slots_256 x ht b t).1 hbt
    omega
  have hfst := slots_fst_256 _ ht'
  have hnd : ((slots z).map Prod.fst).Nodup := by
    rw [hfst]; exact range_filter_nodup _ _
  have hmem : ∀ e, e ∈ entries z ↔ e ∈ entries x ∧ e.1 ≠ c := by
    rintro ⟨b, ch⟩
    rw [mem_entries, mem_entries]
    constructor
    · rintro ⟨t, h1, h2⟩
      obtain ⟨h3, h4⟩ := (hsl b t).1 h1
      exact ⟨⟨t, h4, by rw [h2, hc', if_neg (hts b t h3 h4)]⟩, h3⟩
    · rintro ⟨⟨t, h1, h2⟩, h3⟩
      exact ⟨t, (hsl b t).2 ⟨h3, h1⟩, by rw [h2, hc', if_neg (hts b t h3 h1)]⟩
  have hlen : (slots z).length + 1 = (slots x).length := by
    symm
    apply length_of_mem_cons (List.Nodup.of_map _ hnd) (slots_nodup h) (a := (c, s))
    · intro hmz
      exact ((hsl c s).1 hmz).1 rfl
    · rintro ⟨b, t⟩
      rw [hsl]
      constructor
      · intro hx
        by_cases hb : b = c
        · subst hb
          left
          rw [slots_fst_unique h hx hm]
        · exact Or.inr ⟨hb, hx⟩
      · rintro (h1 | ⟨_, h2⟩)
        · rw [h1]; exact hm
        · exact h2
  refine ⟨⟨?_, ?_, hnd, ?_, ?_⟩, hmem, hlen, hpl, fun _ _ _ => by rw [hpb]⟩
  · rintro ⟨b, t⟩ hp
    exact ((mem_slots_256 _ ht' b t).1 hp).1
  · rintro ⟨b, t⟩ hp
    have := (mem_slots_256 _ ht' b t).1 hp
    rw [this.2.1]; exact this.2.2
  · intro _
    rw [hfst]; exact range_filter_sorted _ _
  · unfold Layout; rw [ht']; simp only
    rw [hnc, l1]
    omega

theorem shrink256_facts (z : Inner) :
    (shrink256 z).n.type = NODE48 ∧
    (shrink256 z).n.num_children = z.n.num_children ∧
    (shrink256 z).n.partial_len = z.n.partial_len ∧
    (∀ i, i < MAX_PREFIX_LEN → i < z.n.partial_len →
      (shrink256 z).n.partial_ i = z.n.partial_ i) ∧
    (∀ b, (shrink256 z).keys b =
      if b < 256 ∧ (z.children b).isNull = false
      then rank (fun i => !(z.children i).isNull) b + 1 else 0) ∧
    (∀ b, b < 256 → (z.children b).isNull = false →
      (shrink256 z).children (rank (fun i => !(z.children i).isNull) b) = z.children b) ∧
    (∀ p, rank (fun i => !(z.children i).isNull) 256 ≤ p →
      (shrink256 z).children p = Node.null) := by
  obtain ⟨_, c2, c3, c4⟩ := compact_by_index (fun i => !(z.children i).isNull)
    (fun i => z.children i) (alloc_node NodeType.NODE48).keys
    (alloc_node NodeType.NODE48).children 256
  refine ⟨rfl, rfl, rfl, fun i h1 h2 => copy_header_bytes _ _ i h1 h2, ?_, ?_, ?_⟩
  · intro b
    refine (c2 b).trans ?_
    simp only [Bool.not_eq_true']
    rfl
  · intro b hb hl
    exact c3 b hb (by simpa using hl)
  · intro p hp
    exact c4 p hp

theorem shrink256_spec {ord : Bool} {z : Inner} (h : Shape ord z) (ht : z.n.type = NODE256)
    (hn : (slots z).length ≤ 48) (hnc : z.n.num_children = (slots z).length) :
    Shape ord (shrink256 z) ∧ (∀ e, e ∈ entries (shrink256 z) ↔ e ∈ entries z) ∧
    (slots (shrink256 z)).length = (slots z).length := by
  obtain ⟨f1, f2, f3, f4, f5, f6, f7⟩ := shrink256_facts z
  generalize shrink256 z = y at *
  have hrk := slots_length_256 z ht
  set live : Nat → Bool := fun i => !(z.children i).isNull with hlive
  have hlv : ∀ b, live b = true ↔ (z.children b).isNull = false := fun b => by simp [hlive]
  have hsl : ∀ b t, (b, t) ∈ slots y ↔ b < 256 ∧ (z.children b).isNull = false ∧ t = rank live b := by
    intro b t
    rw [mem_slots_48 y f1, f5]
    by_cases hb : b < 256 ∧ (z.children b).isNull = false
    · rw [if_pos hb]
      constructor
      · rintro ⟨_, _, h3⟩; exact ⟨hb.1, hb.2, by omega⟩
      · rintro ⟨_, _, h3⟩; exact ⟨hb.1, by omega, by omega⟩
    · rw [if_neg hb]
      constructor
      · rintro ⟨_, h2, _⟩; exact absurd rfl h2
      · rintro ⟨h1, h2, _⟩; exact absurd ⟨h1, h2⟩ hb
  have hfsteq : (slots y).map Prod.fst = (slots z).map Prod.fst := by
    rw [slots_fst_48 y f1, slots_fst_256 z ht]
    apply List.filter_congr
    intro b hb
    have hb' := List.mem_range.1 hb
    rw [f5]
    by_cases hl : (z.children b).isNull = false
    · rw [if_pos ⟨hb', hl⟩]; simp [hl]
    · rw [if_neg (fun hh => hl hh.2)]
      simp only [Bool.not_eq_false] at hl
      simp [hl]
  have hlen : (slots y).length = (slots z).length := by
    have := congrArg List.length hfsteq
    simpa using this
  have hmem : ∀ e, e ∈ entries y ↔ e ∈ entries z := by
    rintro ⟨b, ch⟩
    rw [mem_entries, mem_entries]
    constructor
    · rintro ⟨t, h1, h2⟩
      obtain ⟨h3, h4, h5⟩ := (hsl b t).1 h1
      refine ⟨b, (mem_slots_256 z ht _ _).2 ⟨h3, rfl, h4⟩, ?_⟩
      rw [h2, h5]
      exact f6 b h3 h4
    · rintro ⟨t, h1, h2⟩
      obtain ⟨h3, h4, h5⟩ := (mem_slots_256 z ht _ _).1 h1
      refine ⟨rank live b, (hsl b _).2 ⟨h3, h5, rfl⟩, ?_⟩
      rw [h2, h4]
      exact (f6 b h3 h5).symm
  refine ⟨⟨?_, ?_, ?_, ?_, ?_⟩, hmem, hlen⟩
  · rintro ⟨b, t⟩ hp
    exact ((hsl b t).1 hp).1
  · rintro ⟨b, t⟩ hp
    obtain ⟨h3, h4, h5⟩ := (hsl b t).1 hp
    simp only
    rw [h5, f6 b h3 h4]
    exact h4
  · rw [hfsteq]; exact h.keys_nodup
  · intro ho; rw [hfsteq]; exact h.sorted ho
  · unfold Layout; rw [f1]; simp only
    refine ⟨?_, ?_, ?_, ?_, ?_⟩
    · rw [f2, hlen, hnc]
    · rw [f2, hnc]; exact hn
    · intro b hb
      rw [f5]
      split
      · rename_i hbl
        have := rank_lt live hbl.1 ((hlv b).2 hbl.2)
        omega
      · omega
    · intro b b' hb hb' hne heq
      rw [f5] at hne heq
      rw [f5] at heq
      by_cases e1 : b < 256 ∧ (z.children b).isNull = false
      · rw [if_pos e1] at heq
        by_cases e2 : b' < 256 ∧ (z.children b').isNull = false
        · rw [if_pos e2] at heq
          exact rank_inj live ((hlv b).2 e1.2) ((hlv b').2 e2.2) (by omega)
        · rw [if_neg e2] at heq; omega
      · rw [if_neg e1] at hne; exact absurd rfl hne
    · intro p hp hnn
      have hpr : p < rank live 256 := by
        by_contra hge
        rw [f7 p (by omega)] at hnn
        cases hnn
      obtain ⟨b, hb1, hb2, hb3⟩ := rank_surj live 256 p hpr
      refine ⟨b, hb1, ?_⟩
      rw [f5, if_pos ⟨hb1, (hlv b).1 hb2⟩, hb3]

/-- The result of `remove_child256` on a well-shaped node with at least 38 children. -/
theorem remove_child256_spec (ord : Bool) (x : Inner) (c s : Nat)
    (ht : x.n.type = NODE256) (h : Shape ord x) (hbig : 38 ≤ (slots x).length)
    (hm : (c, s) ∈ slots x) :
    ∃ x', remove_child256 x c = x'.toNode ∧ RemSpec ord x c x' ∧
      min_children x'.n.type ≤ (slots x').length := by
  have hr := clear256_spec ord x c s ht h hm
  have htz : (clear256 x c).n.type = NODE256 := ht
  have l1 := layout_256 hr.shape htz
  have hle := slots_length_le_256 x ht
  have hlen := hr.len
  rw [remove_child256_eq]
  by_cases h3 : (clear256 x c).n.num_children = 37
  · rw [if_pos h3]
    have hz37 : (slots (clear256 x c)).length = 37 := by omega
    obtain ⟨s1, s2, s3⟩ := shrink256_spec hr.shape htz (by omega) (by omega)
    obtain ⟨f1, f2, f3, f4, _⟩ := shrink256_facts (clear256 x c)
    refine ⟨shrink256 (clear256 x c), rfl, RemSpec_of_copy hr s1 s2 s3 f3 f4, ?_⟩
    rw [f1, s3, hz37]
    show 13 ≤ 37
    omega
  · rw [if_neg h3]
    refine ⟨clear256 x c, rfl, hr, ?_⟩
    rw [htz]
    show 38 ≤ _
    omega

/-! ### `remove_child4` -/

theorem remove_child4_eq (x : Inner) (pos : Nat) :
    remove_child4 x pos =
      if (erase_at x pos).n.num_children = 1 then
        match (erase_at x pos).children 0 with
        | Node.inner cn ckeys cchildren =>
          Node.inner (collapse_header x.n ((erase_at x pos).keys 0) cn) ckeys cchildren
        | child => child
      else (erase_at x pos).toNode := rfl

theorem collapse_header_len (n : art_node) (k0 : Nat) (cn : art_node) :
    (collapse_header n k0 cn).partial_len = cn.partial_len + (n.partial_len + 1) := rfl

theorem collapse_header_type (n : art_node) (k0 : Nat) (cn : art_node) :
    (collapse_header n k0 cn).type = cn.type := rfl

theorem collapse_header_nc (n : art_node) (k0 : Nat) (cn : art_node) :
    (collapse_header n k0 cn).num_children = cn.num_children := rfl

theorem memcpy_in {α : Type} (d : Nat → α) (o : Nat) (s : Nat → α) (so len j : Nat)
    (h : o ≤ j ∧ j < o + len) : memcpy d o s so len j = s (so + (j - o)) := by
  unfold memcpy; rw [if_pos h]

theorem memcpy_out {α : Type} (d : Nat → α) (o : Nat) (s : Nat → α) (so len j : Nat)
    (h : ¬ (o ≤ j ∧ j < o + len)) : memcpy d o s so len j = d j := by
  unfold memcpy; rw [if_neg h]

/-- The cached bytes after a collapse are the first bytes of the parent's cached prefix,
the key byte and the child's cached prefix, in this order. -/
theorem collapse_header_bytes (n : art_node) (k0 : Nat) (cn : art_node) (i : Nat)
    (h1 : i < MAX_PREFIX_LEN) (h2 : i < cn.partial_len + (n.partial_len + 1)) :
    (collapse_header n k0 cn).partial_ i =
      if i < n.partial_len then n.partial_ i
      else if i = n.partial_len then k0 else cn.partial_ (i - n.partial_len - 1) := by
  unfold collapse_header MAX_PREFIX_LEN at *
  simp only
  have e0 : 0 + (i - 0) = i := by omega
  by_cases c1 : n.partial_len < 10
  · simp only [if_pos c1]
    by_cases c2 : n.partial_len + 1 < 10
    · simp only [if_pos c2]
      rw [memcpy_in _ _ _ _ _ _ (by omega), e0]
      by_cases c3 : i < n.partial_len
      · rw [if_pos c3, memcpy_out _ _ _ _ _ _ (by omega), upd_other _ _ _ _ (by omega)]
      · rw [if_neg c3]
        by_cases c4 : i = n.partial_len
        · rw [if_pos c4, memcpy_out _ _ _ _ _ _ (by omega), c4, upd_same]
        · rw [if_neg c4, memcpy_in _ _ _ _ _ _ (by omega)]
          congr 1
          omega
    · simp only [if_neg c2]
      rw [memcpy_in _ _ _ _ _ _ (by omega), e0]
      by_cases c3 : i < n.partial_len
      · rw [if_pos c3, upd_other _ _ _ _ (by omega)]
      · have c4 : i = n.partial_len := by omega
        rw [if_neg c3, if_pos c4, c4, upd_same]
  · simp only [if_neg c1]
    rw [memcpy_in _ _ _ _ _ _ (by omega), e0, if_pos (by omega)]

/-- The result of `remove_child4` on a well-shaped node with at least three children. -/
theorem remove_child4_spec (ord : Bool) (x : Inner) (c pos : Nat)
    (ht : x.n.type = NODE4) (h : Shape ord x) (hbig : 3 ≤ (slots x).length)
    (hm : (c, pos) ∈ slots x) :
    ∃ x', remove_child4 x pos = x'.toNode ∧ RemSpec ord x c x' ∧
      min_children x'.n.type ≤ (slots x').length := by
  have hr := erase_at_spec ord x c pos (Or.inl ht) h hm
  have htz : (erase_at x pos).n.type = NODE4 := ht
  have hlz := slots_length_4 _ htz
  have hlen := hr.len
  rw [remove_child4_eq, if_neg (by omega)]
  refine ⟨erase_at x pos, rfl, hr, ?_⟩
  rw [htz]
  show 2 ≤ _
  omega

/-- The result of `remove_child4` on a well-shaped node with two children: the other child,
with the prefixes concatenated when it is an inner node. -/
theorem remove_child4_collapse (ord : Bool) (x : Inner) (c pos : Nat)
    (ht : x.n.type = NODE4) (h : Shape ord x) (hbig : (slots x).length = 2)
    (hm : (c, pos) ∈ slots x) :
    ∃ b2 s2, (b2, s2) ∈ slots x ∧ b2 ≠ c ∧
      (∀ b s, (b, s) ∈ slots x → (b = c ∧ s = pos) ∨ (b = b2 ∧ s = s2)) ∧
      remove_child4 x pos =
        match x.children s2 with
        | Node.inner cn ckeys cchildren =>
          Node.inner (collapse_header x.n b2 cn) ckeys cchildren
        | child => child := by
  have hnc : x.n.num_children = 2 := by rw [← slots_length_4 x ht]; exact hbig
  obtain ⟨hpos, hkp⟩ := (mem_slots_4 x ht c pos).1 hm
  have hinj := keys_inj_small h (Or.inl ht)
  have hz1 : (erase_at x pos).n.num_children = 1 := by
    show (x.n.num_children + 255) % 256 = 1
    omega
  rw [remove_child4_eq, if_pos hz1]
  rw [erase_at_keys x pos 0 (by omega), erase_at_children x pos 0 (by omega)]
  by_cases hp0 : pos = 0
  · subst hp0
    refine ⟨x.keys 1, 1, (mem_slots_4 x ht _ _).2 ⟨by omega, rfl⟩, ?_, ?_, ?_⟩
    · intro e
      have := hinj 1 0 (by omega) (by omega) (by rw [e, hkp])
      omega
    · intro b s hbs
      obtain ⟨h1, h2⟩ := (mem_slots_4 x ht b s).1 hbs
      by_cases e : s = 0
      · left; subst e; exact ⟨by rw [← h2, hkp], rfl⟩
      · right
        have : s = 1 := by omega
        subst this
        exact ⟨h2.symm, rfl⟩
    · simp
  · have hp1 : pos = 1 := by omega
    subst hp1
    refine ⟨x.keys 0, 0, (mem_slots_4 x ht _ _).2 ⟨by omega, rfl⟩, ?_, ?_, ?_⟩
    · intro e
      have := hinj 0 1 (by omega) (by omega) (by rw [e, hkp])
      omega
    · intro b s hbs
      obtain ⟨h1, h2⟩ := (mem_slots_4 x ht b s).1 hbs
      by_cases e : s = 1
      · left; subst e; exact ⟨by rw [← h2, hkp], rfl⟩
      · right
        have : s = 0 := by omega
        subst this
        exact ⟨h2.symm, rfl⟩
    · simp

/-- The result of `remove_child`, when the node is not a 4-way node with two children. -/
theorem remove_child_spec (ord : Bool) (x : Inner) (c s : Nat) (h : Shape ord x)
    (hbig : min_children x.n.type ≤ (slots x).length) (hm : (c, s) ∈ slots x)
    (hnc : ¬ (x.n.type = NODE4 ∧ (slots x).length = 2)) :
    ∃ x', remove_child x c s = x'.toNode ∧ RemSpec ord x c x' ∧
      min_children x'.n.type ≤ (slots x').length := by
  unfold remove_child
  rcases ht : x.n.type with _ | _ | _ | _
  · rw [ht] at hbig
    have h2 : 2 ≤ (slots x).length := hbig
    have h3 : (slots x).length ≠ 2 := fun e => hnc ⟨ht, e⟩
    exact remove_child4_spec ord x c s ht h (by omega) hm
  · rw [ht] at hbig
    exact remove_child16_spec ord x c s ht h hbig hm
  · rw [ht] at hbig
    exact remove_child48_spec ord x c s ht h hbig hm
  · rw [ht] at hbig
    exact remove_child256_spec ord x c s ht h hbig hm

/-! ## Keys as byte lists -/

theorem getD_append_left (a b : List Nat) (i : Nat) (h : i < a.length) :
    (a ++ b).getD i 0 = a.getD i 0 := List.getD_append a b 0 i h

theorem getD_append_right (a b : List Nat) (i : Nat) (h : a.length ≤ i) :
    (a ++ b).getD i 0 = b.getD (i - a.length) 0 := List.getD_append_right a b 0 i h

theorem getD_singleton (b : Nat) : [b].getD 0 0 = b := rfl

theorem getD_of_ge (l : List Nat) (i : Nat) (h : l.length ≤ i) : l.getD i 0 = 0 := by
  rw [List.getD_eq_getElem?_getD, List.getElem?_eq_none h]
  rfl

theorem list_ext_getD (a b : List Nat) (hl : a.length = b.length)
    (h : ∀ i, i < a.length → a.getD i 0 = b.getD i 0) : a = b := by
  apply List.ext_getElem hl
  intro i h1 h2
  have := h i h1
  rw [List.getD_eq_getElem?_getD, List.getD_eq_getElem?_getD, List.getElem?_eq_getElem h1,
    List.getElem?_eq_getElem h2] at this
  simpa using this

theorem prefix_iff_getD (p k : List Nat) :
    p <+: k ↔ p.length ≤ k.length ∧ ∀ i, i < p.length → k.getD i 0 = p.getD i 0 := by
  constructor
  · rintro ⟨t, rfl⟩
    refine ⟨by simp, fun i hi => getD_append_left p t i hi⟩
  · rintro ⟨h1, h2⟩
    rw [List.prefix_iff_eq_take]
    apply list_ext_getD
    · simp; omega
    · intro i hi
      rw [← h2 i hi, List.getD_eq_getElem?_getD, List.getD_eq_getElem?_getD,
        List.getElem?_take_of_lt hi]

theorem key_bytes_length (key : Nat → Nat) (key_len : Nat) :
    (key_bytes key key_len).length = key_len := by
  unfold key_bytes; simp

theorem key_bytes_getD (key : Nat → Nat) (key_len i : Nat) (h : i < key_len) :
    (key_bytes key key_len).getD i 0 = key i := by
  unfold key_bytes
  rw [List.getD_eq_getElem?_getD, List.getElem?_map, List.getElem?_range h]
  rfl

theorem key_bytes_lt (key : Nat → Nat) (key_len : Nat) (hk : ∀ i, key i < 256) :
    ∀ b, b ∈ key_bytes key key_len → b < 256 := by
  intro b hb
  unfold key_bytes at hb
  obtain ⟨i, _, rfl⟩ := List.mem_map.1 hb
  exact hk i

theorem make_leaf_key (key : Nat → Nat) (key_len value : Nat) :
    (make_leaf key key_len value).key = key_bytes key key_len := rfl

theorem make_leaf_value (key : Nat → Nat) (key_len value : Nat) :
    (make_leaf key key_len value).value = value := rfl

/-- `leaf_matches` returns `0` exactly on the leaf that holds the key. -/
theorem leaf_matches_iff (l : art_leaf) (key : Nat → Nat) (key_len depth : Nat) :
    leaf_matches l key key_len depth = 0 ↔ l.key = key_bytes key key_len := by
  unfold leaf_matches art_leaf.key_len
  constructor
  · intro h
    split at h
    · cases h
    · rename_i hl
      have hl' : l.key.length = key_len := by simpa using hl
      split at h
      · rename_i hall
        apply list_ext_getD
        · rw [key_bytes_length]; exact hl'
        · intro i hi
          rw [key_bytes_getD key key_len i (by omega)]
          have := (List.all_eq_true.1 hall) i (List.mem_range.2 (by omega))
          simpa [art_leaf.byte] using this
      · cases h
  · intro h
    rw [if_neg (by rw [h, key_bytes_length]; simp)]
    rw [if_pos]
    apply List.all_eq_true.2
    intro i hi
    have hi' := List.mem_range.1 hi
    simp only [art_leaf.byte, beq_iff_eq]
    rw [h, key_bytes_getD key key_len i hi']

theorem leaf_matches_ne (l : art_leaf) (key : Nat → Nat) (key_len depth : Nat) :
    leaf_matches l key key_len depth ≠ 0 ↔ l.key ≠ key_bytes key key_len :=
  not_congr (leaf_matches_iff l key key_len depth)

/-- `leaf_prefix_matches` returns `0` exactly on a leaf whose key starts with the prefix. -/
theorem leaf_prefix_matches_iff (l : art_leaf) (key : Nat → Nat) (key_len : Nat) :
    leaf_prefix_matches l key key_len = 0 ↔ key_bytes key key_len <+: l.key := by
  unfold leaf_prefix_matches art_leaf.key_len
  rw [prefix_iff_getD, key_bytes_length]
  constructor
  · intro h
    split at h
    · cases h
    · rename_i hl
      split at h
      · rename_i hall
        refine ⟨by omega, fun i hi => ?_⟩
        rw [key_bytes_getD key key_len i hi]
        have := (List.all_eq_true.1 hall) i (List.mem_range.2 hi)
        simpa [art_leaf.byte] using this
      · cases h
  · rintro ⟨h1, h2⟩
    rw [if_neg (by omega), if_pos]
    apply List.all_eq_true.2
    intro i hi
    have hi' := List.mem_range.1 hi
    simp only [art_leaf.byte, beq_iff_eq]
    rw [h2 i hi', key_bytes_getD key key_len i hi']

/-! ## Leaves and iteration -/

theorem leaves_inner (n : art_node) (keys : Nat → Nat) (children : Nat → Node) :
    leaves (Node.inner n keys children) =
      (slots { n := n, keys := keys, children := children }).flatMap
        (fun p => leaves (children p.2)) := by
  rw [leaves]
  unfold slots
  rcases ht : n.type with _ | _ | _ | _
  · simp only [ht, List.flatMap_map]
  · simp only [ht, List.flatMap_map]
  · simp only [ht, List.flatMap_map]
    have := flatMap_ite (List.range 256) (fun c => keys c != 0)
      (fun i => leaves (children (keys i - 1)))
    rw [← this]
    apply List.flatMap_congr
    intro i _
    by_cases h : keys i = 0
    · simp [h]
    · simp [h]
  · simp only [ht, List.flatMap_map]
    have := flatMap_ite (List.range 256) (fun c => !(children c).isNull)
      (fun i => leaves (children i))
    rw [← this]
    apply List.flatMap_congr
    intro i _
    by_cases h : (children i).isNull = true
    · simp [h]
    · simp [h]

theorem leaves_toNode (x : Inner) :
    leaves x.toNode = (slots x).flatMap (fun p => leaves (x.children p.2)) :=
  leaves_inner x.n x.keys x.children

theorem leaves_entries (x : Inner) :
    leaves x.toNode = (entries x).flatMap (fun e => leaves e.2) := by
  rw [leaves_toNode]
  unfold entries
  rw [List.flatMap_map]

theorem mem_leaves_inner (x : Inner) (kv : List Nat × Nat) :
    kv ∈ leaves x.toNode ↔ ∃ b s, (b, s) ∈ slots x ∧ kv ∈ leaves (x.children s) := by
  rw [leaves_toNode, List.mem_flatMap]
  constructor
  · rintro ⟨⟨b, s⟩, h1, h2⟩; exact ⟨b, s, h1, h2⟩
  · rintro ⟨b, s, h1, h2⟩; exact ⟨(b, s), h1, h2⟩

theorem iter_for_collect (f : Nat → List (List Nat × Nat))
    (body : Nat → List (List Nat × Nat) → Int × List (List Nat × Nat))
    (hb : ∀ i d, body i d = (0, d ++ f i)) (i count : Nat) (d : List (List Nat × Nat)) :
    iter_for body i count d = (0, d ++ (List.range' i count).flatMap f) := by
  induction count generalizing i d with
  | zero => simp [iter_for]
  | succ k ih =>
    rw [iter_for]
    simp only [hb, ne_eq, not_true_eq_false, if_false]
    rw [ih, List.range'_succ, List.flatMap_cons, List.append_assoc]

/-- A full iteration with the recording visitor appends the leaves, in order. -/
theorem recursive_iter_collect (n : Node) (data : List (List Nat × Nat)) :
    recursive_iter collect n data = (0, data ++ leaves n) := by
  induction n generalizing data with
  | null => simp [recursive_iter, leaves]
  | leaf l => simp [recursive_iter, leaves, collect]
  | inner n keys children ih =>
    rw [recursive_iter, leaves]
    rcases ht : n.type with _ | _ | _ | _
    · simp only [ht]
      rw [iter_for_collect (fun i => leaves (children i)) _ (fun i d => ih i d),
        List.range_eq_range']
    · simp only [ht]
      rw [iter_for_collect (fun i => leaves (children i)) _ (fun i d => ih i d),
        List.range_eq_range']
    · simp only [ht]
      rw [iter_for_collect (fun i => if keys i = 0 then [] else leaves (children (keys i - 1))) _
        (fun i d => by
          by_cases h : keys i = 0
          · simp [h]
          · simp [h, ih]), List.range_eq_range']
    · simp only [ht]
      rw [iter_for_collect (fun i => if (children i).isNull then [] else leaves (children i)) _
        (fun i d => by
          by_cases h : (children i).isNull = true
          · simp [h]
          · simp [h, ih]), List.range_eq_range']

theorem art_pairs_eq (t : art_tree) : art_pairs t = leaves t.root := by
  unfold art_pairs art_iter
  rw [recursive_iter_collect]
  rfl

/-! ## Consequences of the subtree invariant -/

theorem WF_inner_iff (ord : Bool) (n : art_node) (keys : Nat → Nat) (children : Nat → Node)
    (path : List Nat) :
    WF ord (Node.inner n keys children) path ↔
    (Shape ord { n := n, keys := keys, children := children } ∧
    min_children n.type ≤ (slots { n := n, keys := keys, children := children }).length ∧
    ∃ P : List Nat, P.length = n.partial_len ∧
      (∀ i, i < MAX_PREFIX_LEN → i < P.length → n.partial_ i = P.getD i 0) ∧
      ∀ b s, (b, s) ∈ slots { n := n, keys := keys, children := children } →
        WF ord (children s) (path ++ P ++ [b])) := Iff.rfl

theorem WF_toNode_iff (ord : Bool) (x : Inner) (path : List Nat) :
    WF ord x.toNode path ↔
    (Shape ord x ∧ min_children x.n.type ≤ (slots x).length ∧
    ∃ P : List Nat, P.length = x.n.partial_len ∧
      (∀ i, i < MAX_PREFIX_LEN → i < P.length → x.n.partial_ i = P.getD i 0) ∧
      ∀ b s, (b, s) ∈ slots x → WF ord (x.children s) (path ++ P ++ [b])) := Iff.rfl

theorem WF_leaf_iff (ord : Bool) (l : art_leaf) (path : List Nat) :
    WF ord (Node.leaf l) path ↔ (path <+: ext l.key ∧ ∀ b, b ∈ l.key → b < 256) := Iff.rfl

theorem ext_length (k : List Nat) : (ext k).length = k.length + 1 := by
  unfold ext; simp

/-- Reading a key followed by a zero byte gives what reading the key gives. -/
theorem getD_ext (k : List Nat) (i : Nat) : (ext k).getD i 0 = k.getD i 0 := by
  unfold ext
  by_cases h : i < k.length
  · exact getD_append_left _ _ _ h
  · rw [getD_append_right _ _ _ (by omega), getD_of_ge k i (by omega)]
    by_cases h0 : i - k.length = 0
    · rw [h0]; rfl
    · exact getD_of_ge _ _ (by simp; omega)

theorem ext_inj {a b : List Nat} (h : ext a = ext b) : a = b := by
  unfold ext at h
  exact List.append_cancel_right h

theorem prefix_ext_self (k : List Nat) : k <+: ext k := ⟨[0], rfl⟩

theorem WF_not_null {ord : Bool} {n : Node} {path : List Nat} (h : WF ord n path) :
    n.isNull = false := by
  cases n with
  | null => exact absurd h (by simp [WF])
  | leaf l => rfl
  | inner n keys children => rfl

/-- Every leaf under a well-formed subtree has a key of bytes that, followed by a zero byte,
starts with the path. -/
theorem WF_leaves {ord : Bool} {n : Node} {path : List Nat} (h : WF ord n path) :
    ∀ kv, kv ∈ leaves n → path <+: ext kv.1 ∧ ∀ b, b ∈ kv.1 → b < 256 := by
  induction n generalizing path with
  | null => exact absurd h (by simp [WF])
  | leaf l =>
    intro kv hkv
    simp only [leaves, List.mem_singleton] at hkv
    subst hkv
    exact h
  | inner n keys children ih =>
    obtain ⟨_, _, P, _, _, hch⟩ := (WF_inner_iff ord n keys children path).1 h
    intro kv hkv
    rw [leaves_inner, List.mem_flatMap] at hkv
    obtain ⟨⟨b, s⟩, h1, h2⟩ := hkv
    obtain ⟨h3, h4⟩ := ih s (hch b s h1) kv h2
    refine ⟨?_, h4⟩
    exact List.IsPrefix.trans ⟨P ++ [b], by simp⟩ h3

theorem slots_ne_nil_of_big {x : Inner} (h : min_children x.n.type ≤ (slots x).length) :
    slots x ≠ [] := by
  intro e
  rw [e] at h
  cases ht : x.n.type <;> rw [ht] at h <;> simp [min_children] at h

/-- A well-formed subtree holds at least one leaf. -/
theorem WF_leaves_ne_nil {ord : Bool} {n : Node} {path : List Nat} (h : WF ord n path) :
    leaves n ≠ [] := by
  induction n generalizing path with
  | null => exact absurd h (by simp [WF])
  | leaf l => simp [leaves]
  | inner n keys children ih =>
    obtain ⟨_, hbig, P, _, _, hch⟩ := (WF_inner_iff ord n keys children path).1 h
    have hne := slots_ne_nil_of_big (x := { n := n, keys := keys, children := children }) hbig
    obtain ⟨⟨b, s⟩, hm⟩ := List.exists_mem_of_ne_nil _ hne
    have := ih s (hch b s hm)
    obtain ⟨kv, hkv⟩ := List.exists_mem_of_ne_nil _ this
    intro e
    have : kv ∈ leaves (Node.inner n keys children) := by
      rw [leaves_inner, List.mem_flatMap]
      exact ⟨(b, s), hm, hkv⟩
    rw [e] at this
    cases this

theorem prefix_snoc_getD {Q k : List Nat} {b : Nat} (h : Q ++ [b] <+: k) :
    Q.length < k.length ∧ k.getD Q.length 0 = b ∧ Q <+: k := by
  obtain ⟨h1, h2⟩ := (prefix_iff_getD _ _).1 h
  simp only [List.length_append, List.length_singleton] at h1 h2
  refine ⟨by omega, ?_, List.IsPrefix.trans ⟨[b], rfl⟩ h⟩
  rw [h2 Q.length (by omega), getD_append_right _ _ _ (Nat.le_refl _)]
  simp

theorem key_lt_of_getD (k k' : List Nat) (m : Nat) (h1 : m < k.length) (h2 : m < k'.length)
    (hs : ∀ i, i < m → k.getD i 0 = k'.getD i 0) (hlt : k.getD m 0 < k'.getD m 0) :
    key_lt k k' = true := by
  induction m generalizing k k' with
  | zero =>
    cases k with
    | nil => simp at h1
    | cons a t =>
      cases k' with
      | nil => simp at h2
      | cons a' t' =>
        simp only [List.getD_cons_zero] at hlt
        simp [key_lt, hlt]
  | succ j ih =>
    cases k with
    | nil => simp at h1
    | cons a t =>
      cases k' with
      | nil => simp at h2
      | cons a' t' =>
        have h0 := hs 0 (by omega)
        simp only [List.getD_cons_zero] at h0
        subst h0
        simp only [key_lt, beq_self_eq_true, Bool.true_and, Bool.or_eq_true, decide_eq_true_eq]
        right
        apply ih t t'
        · simpa using h1
        · simpa using h2
        · intro i hi
          have := hs (i + 1) (by omega)
          simpa using this
        · simpa using hlt

theorem key_lt_irrefl (k : List Nat) : key_lt k k = false := by
  induction k with
  | nil => rfl
  | cons a t ih => simp [key_lt, ih]

theorem key_lt_of_sibling {Q k k' : List Nat} {b b' : Nat} (h : Q ++ [b] <+: k)
    (h' : Q ++ [b'] <+: k') (hb : b < b') : key_lt k k' = true := by
  obtain ⟨a1, a2, a3⟩ := prefix_snoc_getD h
  obtain ⟨b1, b2, b3⟩ := prefix_snoc_getD h'
  apply key_lt_of_getD k k' Q.length a1 b1
  · intro i hi
    rw [((prefix_iff_getD _ _).1 a3).2 i hi, ((prefix_iff_getD _ _).1 b3).2 i hi]
  · rw [a2, b2]; exact hb

theorem prefix_free_of_sibling {Q k k' : List Nat} {b b' : Nat} (h : Q ++ [b] <+: k)
    (h' : Q ++ [b'] <+: k') (hb : b ≠ b') : k ≠ k' ∧ prefix_free k k' := by
  obtain ⟨a1, a2, a3⟩ := prefix_snoc_getD h
  obtain ⟨b1, b2, b3⟩ := prefix_snoc_getD h'
  have hne : k.getD Q.length 0 ≠ k'.getD Q.length 0 := by rw [a2, b2]; exact hb
  refine ⟨fun e => hne (by rw [e]), ?_, ?_⟩
  · intro hp
    exact absurd (((prefix_iff_getD _ _).1 hp).2 Q.length a1).symm hne
  · intro hp
    exact absurd (((prefix_iff_getD _ _).1 hp).2 Q.length b1) hne

theorem key_lt_of_proper_prefix (k k' : List Nat) (h1 : k.length < k'.length)
    (hs : ∀ i, i < k.length → k.getD i 0 = k'.getD i 0) : key_lt k k' = true := by
  induction k generalizing k' with
  | nil =>
    cases k' with
    | nil => simp at h1
    | cons a t => rfl
  | cons a t ih =>
    cases k' with
    | nil => simp at h1
    | cons a' t' =>
      have h0 := hs 0 (by simp)
      simp only [List.getD_cons_zero] at h0
      subst h0
      simp only [key_lt, beq_self_eq_true, Bool.true_and, Bool.or_eq_true, decide_eq_true_eq]
      right
      apply ih t'
      · simpa using h1
      · intro i hi
        have := hs (i + 1) (by simp; omega)
        simpa using this

/-- Keys filed under ascending key bytes of one node are in ascending order. -/
theorem key_lt_of_sibling_ext {Q k k' : List Nat} {b b' : Nat} (h : Q ++ [b] <+: ext k)
    (h' : Q ++ [b'] <+: ext k') (hb : b < b') : key_lt k k' = true := by
  obtain ⟨a1, a2, a3⟩ := prefix_snoc_getD h
  obtain ⟨b1, b2, b3⟩ := prefix_snoc_getD h'
  rw [ext_length] at a1 b1
  rw [getD_ext] at a2 b2
  have hs : ∀ i, i < Q.length → k.getD i 0 = k'.getD i 0 := by
    intro i hi
    rw [← getD_ext k, ← getD_ext k', ((prefix_iff_getD _ _).1 a3).2 i hi,
      ((prefix_iff_getD _ _).1 b3).2 i hi]
  have hq' : Q.length < k'.length := by
    by_contra hc
    rw [getD_of_ge k' _ (by omega)] at b2
    omega
  by_cases hq : Q.length < k.length
  · apply key_lt_of_getD k k' Q.length hq hq' hs
    rw [a2, b2]; exact hb
  · have e : k.length = Q.length := by omega
    exact key_lt_of_proper_prefix k k' (by omega) (fun i hi => hs i (by omega))

/-- A relation that holds between keys under different key bytes of a node holds between
all stored keys, taken in iteration order. -/
theorem WF_pairwise (ord : Bool) (R : List Nat → List Nat → Prop)
    (hR : ∀ (Q k k' : List Nat) (b b' : Nat), Q ++ [b] <+: ext k → Q ++ [b'] <+: ext k' →
      b ≠ b' → (ord = true → b < b') → R k k')
    {n : Node} {path : List Nat} (h : WF ord n path) :
    ((leaves n).map Prod.fst).Pairwise R := by
  induction n generalizing path with
  | null => exact absurd h (by simp [WF])
  | leaf l => simp [leaves]
  | inner n keys children ih =>
    obtain ⟨hsh, _, P, _, _, hch⟩ := (WF_inner_iff ord n keys children path).1 h
    rw [leaves_inner, List.map_flatMap, List.pairwise_flatMap]
    constructor
    · rintro ⟨b, s⟩ hm
      exact ih s (hch b s hm)
    · have hnd := hsh.keys_nodup
      have hso := hsh.sorted
      have hp : (slots { n := n, keys := keys, children := children }).Pairwise
          (fun p q => p.1 ≠ q.1 ∧ (ord = true → p.1 < q.1)) := by
        have h1 : ((slots { n := n, keys := keys, children := children }).map Prod.fst).Pairwise
            (fun a b => a ≠ b ∧ (ord = true → a < b)) := by
          cases ord with
          | false =>
            exact List.Pairwise.imp (fun hab => ⟨hab, fun e => by cases e⟩) hnd
          | true =>
            exact List.Pairwise.imp (fun hab => ⟨Nat.ne_of_lt hab, fun _ => hab⟩) (hso rfl)
        exact List.pairwise_map.1 h1
      refine List.Pairwise.imp_of_mem ?_ hp
      rintro ⟨b, s⟩ ⟨b', s'⟩ hm hm' ⟨hne, hlt⟩ k hk k' hk'
      obtain ⟨kv, hkv, rfl⟩ := List.mem_map.1 hk
      obtain ⟨kv', hkv', rfl⟩ := List.mem_map.1 hk'
      exact hR (path ++ P) kv.1 kv'.1 b b'
        ((WF_leaves (hch b s hm) kv hkv).1) ((WF_leaves (hch b' s' hm') kv' hkv').1) hne hlt

/-- The keys stored under a well-formed subtree are pairwise distinct. -/
theorem WF_keys_nodup {ord : Bool} {n : Node} {path : List Nat} (h : WF ord n path) :
    ((leaves n).map Prod.fst).Nodup :=
  WF_pairwise ord (fun k k' => k ≠ k')
    (fun _ _ _ _ _ h1 h2 hb _ e => (prefix_free_of_sibling h1 h2 hb).1 (by rw [e])) h

/-- No key stored under a well-formed subtree, followed by a zero byte, is a prefix of
another. -/
theorem WF_keys_term_free {ord : Bool} {n : Node} {path : List Nat} (h : WF ord n path) :
    ((leaves n).map Prod.fst).Pairwise term_free :=
  WF_pairwise ord term_free
    (fun _ _ _ _ _ h1 h2 hb _ => (prefix_free_of_sibling h1 h2 hb).2) h

/-- With ordered nodes, iteration yields the keys in strictly ascending order. -/
theorem WF_keys_sorted {n : Node} {path : List Nat} (h : WF true n path) :
    ((leaves n).map Prod.fst).Pairwise (fun k k' => key_lt k k' = true) :=
  WF_pairwise true (fun k k' => key_lt k k' = true)
    (fun _ _ _ _ _ h1 h2 _ hlt => key_lt_of_sibling_ext h1 h2 (hlt rfl)) h

/-! ## Search -/

/-- `art_search` only ever returns the value of a leaf that holds exactly the key. -/
theorem search_sound (simd : Bool) (key : Nat → Nat) (key_len : Nat) (hk : ∀ i, key i < 256)
    (n : Node) (depth : Nat) (h : art_search_loop simd key key_len n depth ≠ 0) :
    (key_bytes key key_len, art_search_loop simd key key_len n depth) ∈ leaves n := by
  induction n generalizing depth with
  | null => exact absurd rfl h
  | leaf l =>
    rw [art_search_loop] at h ⊢
    split at h
    · rename_i hm
      rw [if_pos hm, ← (leaf_matches_iff l key key_len depth).1 hm]
      simp [leaves]
    · exact absurd rfl h
  | inner n keys children ih =>
    rw [art_search_loop] at h ⊢
    split at h
    · exact absurd rfl h
    · rename_i hc
      rw [if_neg hc]
      simp only at h ⊢
      cases hf : find_child simd { n := n, keys := keys, children := children }
          (key (depth + n.partial_len)) with
      | none => rw [hf] at h; exact absurd rfl h
      | some slot =>
        rw [hf] at h
        simp only at h ⊢
        obtain ⟨b, hb⟩ := find_child_live simd _ _ (hk _) slot hf
        rw [leaves_inner, List.mem_flatMap]
        exact ⟨(b, slot), hb, ih slot _ h⟩

theorem check_prefix_full (n : art_node) (key : Nat → Nat) (key_len depth : Nat) (P : List Nat)
    (hP : P.length = n.partial_len)
    (hcache : ∀ i, i < MAX_PREFIX_LEN → i < P.length → n.partial_ i = P.getD i 0)
    (hagree : ∀ i, i < P.length → key (depth + i) = P.getD i 0)
    (hlen : depth + n.partial_len ≤ key_len) :
    check_prefix n key key_len depth = min MAX_PREFIX_LEN n.partial_len := by
  unfold check_prefix
  simp only
  apply scan_up_eq
  · exact Nat.zero_le _
  · rw [Nat.zero_add]
    simp only [Nat.le_min]
    refine ⟨⟨Nat.min_le_right _ _, Nat.min_le_left _ _⟩, ?_⟩
    have := Nat.min_le_right MAX_PREFIX_LEN n.partial_len
    omega
  · intro hlt
    exfalso
    have h1 := Nat.min_le_left MAX_PREFIX_LEN n.partial_len
    have h2 := Nat.min_le_right MAX_PREFIX_LEN n.partial_len
    have : min (min n.partial_len MAX_PREFIX_LEN) (key_len - depth)
        = min MAX_PREFIX_LEN n.partial_len := by
      rw [Nat.min_comm n.partial_len]
      apply Nat.min_eq_left
      omega
    omega
  · intro j _ hj
    have h1 := Nat.min_le_left MAX_PREFIX_LEN n.partial_len
    have h2 := Nat.min_le_right MAX_PREFIX_LEN n.partial_len
    have e1 := hcache j (by omega) (by omega)
    have e2 := hagree j (by omega)
    simp [e1, e2]

theorem prefix_of_ext {K k : List Nat} (h : K <+: ext k) (hl : K.length ≤ k.length) :
    K <+: k := by
  rw [prefix_iff_getD] at h ⊢
  refine ⟨hl, fun i hi => ?_⟩
  rw [← getD_ext k i]
  exact h.2 i hi

/-- An inner node of a well-formed subtree has two leaves with different keys below it. -/
theorem WF_inner_distinct {ord : Bool} {n : art_node} {keys : Nat → Nat}
    {children : Nat → Node} {path : List Nat}
    (h : WF ord (Node.inner n keys children) path) :
    ∃ a b, a ∈ leaves (Node.inner n keys children) ∧
      b ∈ leaves (Node.inner n keys children) ∧ a.1 ≠ b.1 := by
  obtain ⟨hsh, hbig, P, hP, hcache, hch⟩ := (WF_inner_iff ord n keys children path).1 h
  have h2 : 2 ≤ (slots { n := n, keys := keys, children := children }).length := by
    have : 2 ≤ min_children n.type := by cases n.type <;> simp [min_children]
    exact Nat.le_trans this hbig
  have hnd := hsh.keys_nodup
  match hs : slots { n := n, keys := keys, children := children }, h2 with
  | p :: q :: t, _ =>
    have hp : p ∈ slots { n := n, keys := keys, children := children } := by rw [hs]; simp
    have hq : q ∈ slots { n := n, keys := keys, children := children } := by rw [hs]; simp
    rw [hs] at hnd
    have hne : p.1 ≠ q.1 := by
      simp only [List.map_cons, List.nodup_cons, List.mem_cons, not_or] at hnd
      exact hnd.1.1
    obtain ⟨a, ha⟩ := List.exists_mem_of_ne_nil _ (WF_leaves_ne_nil (hch p.1 p.2 hp))
    obtain ⟨b, hb⟩ := List.exists_mem_of_ne_nil _ (WF_leaves_ne_nil (hch q.1 q.2 hq))
    refine ⟨a, b, ?_, ?_, ?_⟩
    · rw [leaves_inner, List.mem_flatMap]; exact ⟨p, hp, ha⟩
    · rw [leaves_inner, List.mem_flatMap]; exact ⟨q, hq, hb⟩
    · intro e
      have h1 := (WF_leaves (hch p.1 p.2 hp) a ha).1
      have h2 := (WF_leaves (hch q.1 q.2 hq) b hb).1
      rw [e] at h1
      exact (prefix_free_of_sibling h1 h2 hne).1 rfl

/-- When the key ends at an inner node, with every key below the node starting with it, the
buffer condition gives a zero byte behind the key. -/
theorem zero_behind_of_exhausted {ord : Bool} {n : art_node} {keys : Nat → Nat}
    {children : Nat → Node} {path : List Nat}
    (h : WF ord (Node.inner n keys children) path) (key : Nat → Nat) (key_len : Nat)
    (hall : ∀ kv, kv ∈ leaves (Node.inner n keys children) →
      key_bytes key key_len <+: kv.1)
    (hz : ZeroBehind key key_len (leaves (Node.inner n keys children))) :
    key key_len = 0 := by
  obtain ⟨a, b, ha, hb, hne⟩ := WF_inner_distinct h
  exact hz a b ha hb hne (hall a ha) (hall b hb)

theorem ZeroBehind_mono {key : Nat → Nat} {key_len : Nat} {l l' : List (List Nat × Nat)}
    (hz : ZeroBehind key key_len l) (hsub : ∀ kv, kv ∈ l' → kv ∈ l) :
    ZeroBehind key key_len l' :=
  fun a b ha hb hne h1 h2 => hz a b (hsub a ha) (hsub b hb) hne h1 h2

theorem ZeroBehind_child {key : Nat → Nat} {key_len : Nat} {n : art_node} {keys : Nat → Nat}
    {children : Nat → Node} (hz : ZeroBehind key key_len (leaves (Node.inner n keys children)))
    {b s : Nat} (hm : (b, s) ∈ slots { n := n, keys := keys, children := children }) :
    ZeroBehind key key_len (leaves (children s)) :=
  ZeroBehind_mono hz (fun kv hkv => by
    rw [leaves_inner, List.mem_flatMap]; exact ⟨(b, s), hm, hkv⟩)

/-- What the invariant says about a key that is filed below a child of an inner node: the
key has the node's prefix behind the path, and the byte the search reads next, in the key or
right behind it, is the key byte of the child. -/
theorem stored_below {ord : Bool} {n : art_node} {keys : Nat → Nat} {children : Nat → Node}
    {path P : List Nat} (hwf : WF ord (Node.inner n keys children) path)
    (hP : P.length = n.partial_len)
    (hch : ∀ b s, (b, s) ∈ slots { n := n, keys := keys, children := children } →
        WF ord (children s) (path ++ P ++ [b]))
    (key : Nat → Nat) (key_len : Nat)
    (hz : ZeroBehind key key_len (leaves (Node.inner n keys children)))
    {b s v : Nat} (hm : (b, s) ∈ slots { n := n, keys := keys, children := children })
    (hkv : (key_bytes key key_len, v) ∈ leaves (children s)) :
    path.length + n.partial_len ≤ key_len ∧
    (∀ i, i < P.length → key (path.length + i) = P.getD i 0) ∧
    key (path.length + n.partial_len) = b := by
  have hpre := (WF_leaves (hch b s hm) _ hkv).1
  simp only at hpre
  obtain ⟨a1, a2, a3⟩ := prefix_snoc_getD hpre
  rw [ext_length, key_bytes_length] at a1
  simp only [List.length_append] at a1 a2
  rw [getD_ext] at a2
  have hagree : ∀ i, i < P.length → key (path.length + i) = P.getD i 0 := by
    intro i hi
    have := ((prefix_iff_getD _ _).1 a3).2 (path.length + i) (by simp; omega)
    rw [getD_ext, key_bytes_getD key key_len _ (by omega),
      getD_append_right _ _ _ (by omega)] at this
    rw [this]
    congr 1
    omega
  refine ⟨by omega, hagree, ?_⟩
  rw [← hP]
  by_cases hlt : path.length + P.length < key_len
  · rw [key_bytes_getD key key_len _ hlt] at a2
    exact a2
  · have he : path.length + P.length = key_len := by omega
    rw [getD_of_ge _ _ (by rw [key_bytes_length]; omega)] at a2
    rw [he, ← a2]
    apply zero_behind_of_exhausted hwf key key_len _ hz
    intro kv hkv2
    rw [leaves_inner, List.mem_flatMap] at hkv2
    obtain ⟨⟨b2, s2⟩, hm2, hkv2⟩ := hkv2
    have hp2 := (WF_leaves (hch b2 s2 hm2) kv hkv2).1
    obtain ⟨c1, _, c3⟩ := prefix_snoc_getD hp2
    rw [ext_length] at c1
    simp only [List.length_append] at c1
    have e : key_bytes key key_len = path ++ P := by
      have h1 : path ++ P <+: key_bytes key key_len :=
        prefix_of_ext a3 (by rw [key_bytes_length]; simp; omega)
      exact (List.IsPrefix.eq_of_length h1
        (by rw [key_bytes_length]; simp; omega)).symm
    rw [e]
    exact prefix_of_ext c3 (by simp; omega)

/-- `art_search` finds every leaf of a well-formed subtree, from a buffer with a zero byte
behind the key when at least two stored keys start with the key. -/
theorem search_complete (simd ord : Bool) (key : Nat → Nat) (key_len : Nat)
    (n : Node) (path : List Nat) (h : WF ord n path) (v : Nat)
    (hv : (key_bytes key key_len, v) ∈ leaves n)
    (hz : ZeroBehind key key_len (leaves n)) :
    art_search_loop simd key key_len n path.length = v := by
  induction n generalizing path with
  | null => exact absurd h (by simp [WF])
  | leaf l =>
    simp only [leaves, List.mem_singleton, Prod.mk.injEq] at hv
    rw [art_search_loop, if_pos ((leaf_matches_iff l key key_len _).2 hv.1.symm)]
    exact hv.2.symm
  | inner n keys children ih =>
    obtain ⟨hsh, _, P, hP, hcache, hch⟩ := (WF_inner_iff ord n keys children path).1 h
    have hv0 := hv
    rw [leaves_inner, List.mem_flatMap] at hv
    obtain ⟨⟨b, s⟩, hm, hkv⟩ := hv
    obtain ⟨hlen, hagree, hedge⟩ := stored_below h hP hch key key_len hz hm hkv
    rw [art_search_loop]
    rw [if_neg (by
      rw [check_prefix_full n key key_len path.length P hP hcache hagree hlen]
      simp)]
    simp only
    rw [hedge, (find_child_iff simd ord _ hsh b (hsh.byte_lt _ hm) s).2 hm]
    simp only
    have := ih s (path ++ P ++ [b]) (hch b s hm) hkv (ZeroBehind_child hz hm)
    simp only [List.length_append, List.length_singleton, hP] at this
    exact this

/-! ## The leftmost and rightmost leaf -/

theorem range'_filter_head (p : Nat → Bool) (i count : Nat) :
    ((List.range' i count).filter p).head? =
      if scan_up p i count < i + count then some (scan_up p i count) else none := by
  induction count generalizing i with
  | zero => simp [scan_up]
  | succ k ih =>
    rw [List.range'_succ, List.filter_cons, scan_up]
    by_cases hp : p i = true
    · rw [if_pos hp, if_pos hp, if_pos (by omega)]
      rfl
    · rw [if_neg hp, if_neg hp, ih (i + 1)]
      have : i + 1 + k = i + (k + 1) := by omega
      rw [this]

theorem range_filter_head (p : Nat → Bool) (n : Nat) :
    ((List.range n).filter p).head? =
      if scan_up p 0 n < n then some (scan_up p 0 n) else none := by
  rw [List.range_eq_range', range'_filter_head]
  simp

theorem range_filter_getLast (p : Nat → Bool) (n : Nat) :
    ((List.range n).filter p).getLast? = scan_down p n := by
  induction n with
  | zero => simp [scan_down]
  | succ k ih =>
    rw [List.range_succ, List.filter_append, scan_down]
    by_cases hp : p k = true
    · rw [if_pos hp]
      simp [List.filter_cons, hp]
    · rw [if_neg hp]
      simp [List.filter_cons, hp, ih]

theorem head_flatMap_cons {α β : Type} (a : α) (t : List α) (f : α → List β) (h : f a ≠ []) :
    ((a :: t).flatMap f).head? = (f a).head? := by
  rw [List.flatMap_cons]
  cases hf : f a with
  | nil => exact absurd hf h
  | cons b u => rfl

theorem getLast_flatMap_snoc {α β : Type} (a : α) (t : List α) (f : α → List β) (h : f a ≠ []) :
    ((t ++ [a]).flatMap f).getLast? = (f a).getLast? := by
  rw [List.flatMap_append]
  simp only [List.flatMap_cons, List.flatMap_nil, List.append_nil]
  exact List.getLast?_append_of_ne_nil _ h

theorem slots_head (x : Inner) (hne : slots x ≠ []) :
    ∃ b, (slots x).head? = some (b, first_slot x) ∧
      (x.n.type = NODE48 → scan_up (fun i => x.keys i != 0) 0 256 < 256) ∧
      (x.n.type = NODE256 → scan_up (fun i => !(x.children i).isNull) 0 256 < 256) := by
  unfold slots first_slot at *
  rcases ht : x.n.type with _ | _ | _ | _
  · rw [ht] at hne
    simp only at hne ⊢
    cases hn : x.n.num_children with
    | zero => rw [hn] at hne; simp at hne
    | succ k =>
      refine ⟨x.keys 0, ?_, fun h => (by cases h), fun h => (by cases h)⟩
      rw [List.range_eq_range', List.range'_succ]
      rfl
  · rw [ht] at hne
    simp only at hne ⊢
    cases hn : x.n.num_children with
    | zero => rw [hn] at hne; simp at hne
    | succ k =>
      refine ⟨x.keys 0, ?_, fun h => (by cases h), fun h => (by cases h)⟩
      rw [List.range_eq_range', List.range'_succ]
      rfl
  · rw [ht] at hne
    simp only at hne ⊢
    have hh := range_filter_head (fun c => x.keys c != 0) 256
    by_cases hs : scan_up (fun i => x.keys i != 0) 0 256 < 256
    · rw [if_pos hs] at hh
      refine ⟨scan_up (fun i => x.keys i != 0) 0 256, ?_, fun _ => hs, fun h => (by cases h)⟩
      rw [List.head?_map, hh]
      rfl
    · rw [if_neg hs] at hh
      exfalso
      apply hne
      rw [List.head?_eq_none_iff] at hh
      rw [hh]
      rfl
  · rw [ht] at hne
    simp only at hne ⊢
    have hh := range_filter_head (fun c => !(x.children c).isNull) 256
    by_cases hs : scan_up (fun i => !(x.children i).isNull) 0 256 < 256
    · rw [if_pos hs] at hh
      refine ⟨scan_up (fun i => !(x.children i).isNull) 0 256, ?_, fun h => (by cases h), fun _ => hs⟩
      rw [List.head?_map, hh]
      rfl
    · rw [if_neg hs] at hh
      exfalso
      apply hne
      rw [List.head?_eq_none_iff] at hh
      rw [hh]
      rfl

/-- On a well-formed subtree `minimum` returns the first leaf of the iteration. -/
theorem minimum_eq_head {ord : Bool} {n : Node} {path : List Nat} (h : WF ord n path) :
    (minimum n).map (fun l => (l.key, l.value)) = (leaves n).head? := by
  induction n generalizing path with
  | null => exact absurd h (by simp [WF])
  | leaf l => simp [minimum, leaves]
  | inner n keys children ih =>
    obtain ⟨hsh, hbig, P, hP, hcache, hch⟩ := (WF_inner_iff ord n keys children path).1 h
    have hne := slots_ne_nil_of_big (x := { n := n, keys := keys, children := children }) hbig
    obtain ⟨b, hb, h48, h256⟩ := slots_head _ hne
    have hmin : minimum (Node.inner n keys children) =
        minimum (children (first_slot { n := n, keys := keys, children := children })) := by
      rw [minimum]
      unfold first_slot
      rcases ht : n.type with _ | _ | _ | _
      · simp only [ht]
      · simp only [ht]
      · simp only [ht]
        rw [if_pos (h48 ht)]
      · simp only [ht]
        rw [if_pos (h256 ht)]
    rw [hmin, leaves_inner]
    cases hs : slots { n := n, keys := keys, children := children } with
    | nil => exact absurd hs hne
    | cons p t =>
      rw [hs] at hb
      simp only [List.head?_cons, Option.some.injEq] at hb
      have hm : (b, first_slot { n := n, keys := keys, children := children }) ∈
          slots { n := n, keys := keys, children := children } := by rw [hs, hb]; simp
      rw [hb, head_flatMap_cons (b, first_slot { n := n, keys := keys, children := children }) t
        (fun p => leaves (children p.2)) (WF_leaves_ne_nil (hch _ _ hm))]
      exact ih _ (hch _ _ hm)

theorem minimum_mem {ord : Bool} {n : Node} {path : List Nat} (h : WF ord n path) :
    ∃ l, minimum n = some l ∧ (l.key, l.value) ∈ leaves n := by
  have h1 := minimum_eq_head h
  have h2 := WF_leaves_ne_nil h
  cases hl : leaves n with
  | nil => exact absurd hl h2
  | cons kv t =>
    rw [hl] at h1
    cases hm : minimum n with
    | none => rw [hm] at h1; cases h1
    | some l =>
      rw [hm] at h1
      simp only [Option.map_some', List.head?_cons, Option.some.injEq] at h1
      exact ⟨l, rfl, by rw [h1]; simp⟩

/-! ## Replacing the child in a live slot -/

theorem slots_snd_unique {ord : Bool} {x : Inner} (h : Shape ord x) {b b' s : Nat}
    (h1 : (b, s) ∈ slots x) (h2 : (b', s) ∈ slots x) : b = b' := by
  rcases ht : x.n.type with _ | _ | _ | _
  · rw [mem_slots_4 x ht] at h1 h2; rw [← h1.2, ← h2.2]
  · rw [mem_slots_16 x ht] at h1 h2; rw [← h1.2, ← h2.2]
  · obtain ⟨_, _, _, l4, _⟩ := layout_48 h ht
    rw [mem_slots_48 x ht] at h1 h2
    exact l4 b b' h1.1 h2.1 h1.2.1 (by omega)
  · rw [mem_slots_256 x ht] at h1 h2; omega

theorem slots_set_child {ord : Bool} {x : Inner} (h : Shape ord x) {b s : Nat}
    (hm : (b, s) ∈ slots x) (ch : Node) (hch : ch.isNull = false) :
    slots (set_child x s ch) = slots x := by
  unfold slots
  rcases ht : x.n.type with _ | _ | _ | _
  · have : (set_child x s ch).n.type = NODE4 := ht
    rw [this]; rfl
  · have : (set_child x s ch).n.type = NODE16 := ht
    rw [this]; rfl
  · have : (set_child x s ch).n.type = NODE48 := ht
    rw [this]; rfl
  · have : (set_child x s ch).n.type = NODE256 := ht
    rw [this]
    simp only
    congr 1
    apply List.filter_congr
    intro c _
    show (!(upd x.children s ch c).isNull) = _
    by_cases e : c = s
    · subst e
      have := h.child_ne _ hm
      simp only at this
      rw [upd_same, hch, this]
    · rw [upd_other _ _ _ _ e]

theorem shape_set_child {ord : Bool} {x : Inner} (h : Shape ord x) {b s : Nat}
    (hm : (b, s) ∈ slots x) (ch : Node) (hch : ch.isNull = false) :
    Shape ord (set_child x s ch) := by
  have hs := slots_set_child h hm ch hch
  refine ⟨?_, ?_, ?_, ?_, ?_⟩
  · rw [hs]; exact h.byte_lt
  · rw [hs]
    rintro ⟨b', s'⟩ hp
    show (upd x.children s ch s').isNull = false
    by_cases e : s' = s
    · rw [e, upd_same]; exact hch
    · rw [upd_other _ _ _ _ e]; exact h.child_ne _ hp
  · rw [hs]; exact h.keys_nodup
  · rw [hs]; exact h.sorted
  · have hl := h.layout
    unfold Layout at hl ⊢
    rcases ht : x.n.type with _ | _ | _ | _
    · have : (set_child x s ch).n.type = NODE4 := ht
      rw [this]; rw [ht] at hl; exact hl
    · have : (set_child x s ch).n.type = NODE16 := ht
      rw [this]; rw [ht] at hl; exact hl
    · have : (set_child x s ch).n.type = NODE48 := ht
      rw [this]; rw [ht] at hl
      simp only at hl ⊢
      obtain ⟨l1, l2, l3, l4, l5⟩ := hl
      refine ⟨by rw [hs]; exact l1, l2, l3, l4, ?_⟩
      intro p hp hnn
      by_cases e : p = s
      · obtain ⟨h1, h2, h3⟩ := (mem_slots_48 x ht b s).1 hm
        exact ⟨b, h1, by show x.keys b = p + 1; omega⟩
      · have : (set_child x s ch).children p = x.children p := upd_other _ _ _ _ e
        rw [this] at hnn
        exact l5 p hp hnn
    · have : (set_child x s ch).n.type = NODE256 := ht
      rw [this]; rw [ht] at hl
      simp only at hl ⊢
      rw [hs]; exact hl

/-- The leaves of a node split into those under one live slot and the rest, and the rest is
untouched when the content of that slot is replaced. -/
theorem leaves_split {ord : Bool} {x : Inner} (h : Shape ord x) {b s : Nat}
    (hm : (b, s) ∈ slots x) :
    ∃ rest : List (List Nat × Nat),
      (leaves x.toNode).Perm (leaves (x.children s) ++ rest) ∧
      (∀ ch, ch.isNull = false →
        (leaves (set_child x s ch).toNode).Perm (leaves ch ++ rest)) ∧
      (∀ kv, kv ∈ rest → ∃ b' s', (b', s') ∈ slots x ∧ b' ≠ b ∧ kv ∈ leaves (x.children s')) := by
  obtain ⟨l1, l2, hl⟩ := List.append_of_mem hm
  have hnd := slots_nodup h
  rw [hl] at hnd
  have hnd' := (List.perm_middle.nodup_iff).1 hnd
  have hnot : (b, s) ∉ l1 ++ l2 := (List.nodup_cons.1 hnd').1
  have hsub : ∀ p, p ∈ l1 ++ l2 → p ∈ slots x := by
    intro p hp
    rw [hl]
    rcases List.mem_append.1 hp with h1 | h1
    · exact List.mem_append.2 (Or.inl h1)
    · exact List.mem_append.2 (Or.inr (List.mem_cons_of_mem _ h1))
  refine ⟨(l1 ++ l2).flatMap (fun p => leaves (x.children p.2)), ?_, ?_, ?_⟩
  · rw [leaves_toNode, hl]
    have := List.Perm.flatMap_right (fun p => leaves (x.children p.2))
      (@List.perm_middle _ (b, s) l1 l2)
    rw [List.flatMap_cons] at this
    exact this
  · intro ch hch
    rw [leaves_toNode, slots_set_child h hm ch hch, hl]
    have := List.Perm.flatMap_right (fun p => leaves ((set_child x s ch).children p.2))
      (@List.perm_middle _ (b, s) l1 l2)
    rw [List.flatMap_cons] at this
    have e1 : (set_child x s ch).children s = ch := upd_same _ _ _
    simp only [e1] at this
    refine this.trans (List.Perm.append_left _ (List.Perm.of_eq ?_))
    apply List.flatMap_congr
    rintro ⟨b', s'⟩ hp
    have hp' : (b', s') ∈ slots x := hsub _ hp
    have hne : s' ≠ s := by
      rintro rfl
      have hb := slots_snd_unique h hp' hm
      subst hb
      exact hnot hp
    show leaves (upd x.children s ch s') = _
    rw [upd_other _ _ _ _ hne]
  · intro kv hkv
    rw [List.mem_flatMap] at hkv
    obtain ⟨⟨b', s'⟩, hp, hkv'⟩ := hkv
    have hp' : (b', s') ∈ slots x := hsub _ hp
    refine ⟨b', s', hp', ?_, hkv'⟩
    rintro rfl
    have := slots_fst_unique h hp' hm
    subst this
    exact hnot hp

/-! ## `prefix_mismatch` against the true prefix -/

theorem prefix_mismatch_spec (x : Inner) (key : Nat → Nat) (key_len depth : Nat)
    (P : List Nat) (L : art_leaf)
    (hmin : minimum x.toNode = some L)
    (hL : ∀ i, i < P.length → L.byte (depth + i) = P.getD i 0)
    (hLlen : depth + P.length ≤ L.key_len)
    (hP : P.length = x.n.partial_len)
    (hcache : ∀ i, i < MAX_PREFIX_LEN → i < P.length → x.n.partial_ i = P.getD i 0)
    (hd : depth ≤ key_len) :
    (∀ i, i < prefix_mismatch x key key_len depth → i < x.n.partial_len →
      depth + i < key_len ∧ key (depth + i) = P.getD i 0) ∧
    (prefix_mismatch x key key_len depth < x.n.partial_len →
      depth + prefix_mismatch x key key_len depth = key_len ∨
      (depth + prefix_mismatch x key key_len depth < key_len ∧
        key (depth + prefix_mismatch x key key_len depth)
          ≠ P.getD (prefix_mismatch x key key_len depth) 0)) := by
  unfold prefix_mismatch
  simp only [hmin]
  unfold MAX_PREFIX_LEN at *
  generalize hm1 : min (min 10 x.n.partial_len) (key_len - depth) = max1
  generalize hp1 : (fun idx => x.n.partial_ idx != key (depth + idx)) = p1
  have hp1v : ∀ i, p1 i = (x.n.partial_ i != key (depth + i)) := fun i => by rw [← hp1]
  have hle1 := scan_up_le p1 0 max1
  have hm1a : max1 ≤ 10 := by rw [← hm1]; omega
  have hm1b : max1 ≤ x.n.partial_len := by rw [← hm1]; omega
  have hm1c : max1 ≤ key_len - depth := by rw [← hm1]; omega
  have hm1d : max1 = 10 ∨ max1 = x.n.partial_len ∨ max1 = key_len - depth := by
    rw [← hm1]; omega
  have hbefore1 : ∀ i, i < scan_up p1 0 max1 → key (depth + i) = P.getD i 0 := by
    intro i hi
    have := scan_up_before p1 0 max1 i (Nat.zero_le _) hi
    rw [hp1v] at this
    have e : x.n.partial_ i = key (depth + i) := by simpa using this
    rw [← hcache i (by omega) (by omega), e]
  by_cases c1 : scan_up p1 0 max1 < max1
  · rw [if_pos c1]
    refine ⟨fun i hi _ => ⟨by omega, hbefore1 i hi⟩, fun _ => Or.inr ⟨by omega, ?_⟩⟩
    have := scan_up_hit p1 0 max1 (by omega)
    rw [hp1v] at this
    have hne : x.n.partial_ (scan_up p1 0 max1) ≠ key (depth + scan_up p1 0 max1) := by
      simpa using this
    rw [← hcache _ (by omega) (by omega)]
    exact fun e => hne e.symm
  · rw [if_neg c1]
    have hs1 : scan_up p1 0 max1 = max1 := by omega
    rw [hs1] at hbefore1 ⊢
    by_cases c2 : x.n.partial_len > 10
    · rw [if_pos c2]
      generalize hm2 : min L.key_len key_len - depth = max2
      generalize hp2 : (fun idx => L.byte (idx + depth) != key (depth + idx)) = p2
      have hp2v : ∀ i, p2 i = (L.byte (i + depth) != key (depth + i)) := fun i => by
        rw [← hp2]
      have hle2 := scan_up_le p2 max1 (max2 - max1)
      have hge2 := scan_up_ge p2 max1 (max2 - max1)
      have hbefore2 : ∀ i, i < scan_up p2 max1 (max2 - max1) → i < x.n.partial_len →
          depth + i < key_len ∧ key (depth + i) = P.getD i 0 := by
        intro i hi hipl
        by_cases e : i < max1
        · exact ⟨by omega, hbefore1 i e⟩
        · have := scan_up_before p2 max1 (max2 - max1) i (by omega) hi
          rw [hp2v] at this
          refine ⟨by omega, ?_⟩
          rw [← hL i (by omega)]
          have e2 : i + depth = depth + i := by omega
          rw [e2] at this
          have e : L.byte (depth + i) = key (depth + i) := by simpa using this
          rw [e]
      refine ⟨hbefore2, fun hlt => ?_⟩
      by_cases c3 : scan_up p2 max1 (max2 - max1) < max1 + (max2 - max1)
      · right
        refine ⟨by omega, ?_⟩
        have := scan_up_hit p2 max1 (max2 - max1) c3
        rw [hp2v] at this
        rw [← hL _ (by omega)]
        have e2 : scan_up p2 max1 (max2 - max1) + depth = depth + scan_up p2 max1 (max2 - max1) := by
          omega
        rw [e2] at this
        have hne : L.byte (depth + scan_up p2 max1 (max2 - max1))
            ≠ key (depth + scan_up p2 max1 (max2 - max1)) := by simpa using this
        exact fun e => hne e.symm
      · left
        omega
    · rw [if_neg c2]
      exact ⟨fun i hi _ => ⟨by omega, hbefore1 i hi⟩, fun _ => Or.inl (by omega)⟩

/-! ## Helpers for insertion -/

theorem prefix_length_le {p k : List Nat} (h : p <+: k) : p.length ≤ k.length :=
  ((prefix_iff_getD p k).1 h).1

theorem prefix_getD {p k : List Nat} (h : p <+: k) (i : Nat) (hi : i < p.length) :
    k.getD i 0 = p.getD i 0 := ((prefix_iff_getD p k).1 h).2 i hi

/-- A key that continues `path` with the bytes of `P` and then `b` has `path ++ P ++ [b]`
as a prefix. -/
theorem prefix_build (path P : List Nat) (b : Nat) (k : List Nat) (h1 : path <+: k)
    (h2 : path.length + P.length < k.length)
    (h3 : ∀ i, i < P.length → k.getD (path.length + i) 0 = P.getD i 0)
    (h4 : k.getD (path.length + P.length) 0 = b) : path ++ P ++ [b] <+: k := by
  rw [prefix_iff_getD]
  simp only [List.length_append, List.length_singleton]
  refine ⟨by omega, fun i hi => ?_⟩
  by_cases c1 : i < path.length
  · rw [List.append_assoc, getD_append_left _ _ _ c1]
    exact prefix_getD h1 i c1
  · by_cases c2 : i < path.length + P.length
    · rw [getD_append_left _ _ _ (by simp; omega), getD_append_right _ _ _ (by omega),
        ← h3 (i - path.length) (by omega)]
      congr 1
      omega
    · have : i = path.length + P.length := by omega
      subst this
      rw [getD_append_right _ _ _ (by simp), h4]
      simp

theorem prefix_of_agree (a b : List Nat) (hl : a.length ≤ b.length)
    (h : ∀ i, i < a.length → a.getD i 0 = b.getD i 0) : a <+: b := by
  rw [prefix_iff_getD]
  exact ⟨hl, fun i hi => (h i hi).symm⟩

/-- A path that both keys continue ends inside both of them, when the keys differ and
neither, followed by a zero byte, is a prefix of the other. -/
theorem path_inside {path k1 k2 : List Nat} (h1 : path <+: ext k1) (h2 : path <+: ext k2)
    (hpf : term_free k1 k2) (hne : k1 ≠ k2) : path.length ≤ k1.length := by
  by_contra hc
  have hl := prefix_length_le h1
  rw [ext_length] at hl
  have e : path = ext k1 := List.IsPrefix.eq_of_length h1 (by rw [ext_length]; omega)
  rw [e] at h2
  exact hne (ext_inj (hpf.1 h2))

theorem term_free_symm {a b : List Nat} (h : term_free a b) : term_free b a :=
  ⟨fun hp => (h.2 hp).symm, fun hp => (h.1 hp).symm⟩

/-- A key that agrees with a longer one on all its bytes is followed in it by a nonzero
byte, when neither key, followed by a zero byte, is a prefix of the other. -/
theorem next_byte_ne_zero {k1 k2 : List Nat} (hpf : term_free k1 k2)
    (hl : k1.length < k2.length) (hag : ∀ i, i < k1.length → k1.getD i 0 = k2.getD i 0) :
    k2.getD k1.length 0 ≠ 0 := by
  intro h0
  have hp : ext k1 <+: ext k2 := by
    rw [prefix_iff_getD, ext_length, ext_length]
    refine ⟨by omega, fun i hi => ?_⟩
    rw [getD_ext, getD_ext]
    by_cases c : i < k1.length
    · exact (hag i c).symm
    · have e : i = k1.length := by omega
      rw [e, h0, getD_of_ge k1 _ (Nat.le_refl _)]
  have := congrArg List.length (ext_inj (hpf.1 hp))
  omega

/-- Two different keys, neither of which followed by a zero byte is a prefix of the other,
that share `path`: the scan of `longest_common_prefix` stops at a position, in both keys or
right behind the shorter one, where the two leaves read different bytes. -/
theorem lcp_spec (l l2 : art_leaf) (path : List Nat) (h1 : path <+: ext l.key)
    (h2 : path <+: ext l2.key) (hpf : term_free l.key l2.key) (hne : l.key ≠ l2.key) :
    path.length + longest_common_prefix l l2 path.length ≤ l.key.length ∧
    path.length + longest_common_prefix l l2 path.length ≤ l2.key.length ∧
    l.byte (path.length + longest_common_prefix l l2 path.length)
      ≠ l2.byte (path.length + longest_common_prefix l l2 path.length) ∧
    ∀ i, i < longest_common_prefix l l2 path.length →
      l.byte (path.length + i) = l2.byte (path.length + i) := by
  have hl1 := path_inside h1 h2 hpf hne
  have hl2 := path_inside h2 h1 (term_free_symm hpf) (Ne.symm hne)
  unfold longest_common_prefix art_leaf.key_len
  simp only
  generalize hp : (fun idx => l.byte (path.length + idx) != l2.byte (path.length + idx)) = p
  have hpv : ∀ i, p i = (l.byte (path.length + i) != l2.byte (path.length + i)) :=
    fun i => by rw [← hp]
  generalize hmx : min l.key.length l2.key.length - path.length = mx
  have hle := scan_up_le p 0 mx
  have hbefore : ∀ i, i < scan_up p 0 mx → l.byte (path.length + i) = l2.byte (path.length + i) := by
    intro i hi
    have := scan_up_before p 0 mx i (Nat.zero_le _) hi
    rw [hpv] at this
    simpa using this
  refine ⟨by omega, by omega, ?_, hbefore⟩
  by_cases hlt : scan_up p 0 mx < mx
  · have := scan_up_hit p 0 mx (by omega)
    rw [hpv] at this
    simpa using this
  · have hs : scan_up p 0 mx = mx := by omega
    rw [hs] at hbefore ⊢
    have hag : ∀ i, i < min l.key.length l2.key.length → l.key.getD i 0 = l2.key.getD i 0 := by
      intro i hi
      by_cases c : i < path.length
      · rw [← getD_ext l.key, ← getD_ext l2.key, prefix_getD h1 i c, prefix_getD h2 i c]
      · have := hbefore (i - path.length) (by omega)
        have e : path.length + (i - path.length) = i := by omega
        rw [e] at this
        exact this
    unfold art_leaf.byte
    rcases Nat.lt_trichotomy l.key.length l2.key.length with c | c | c
    · have e : path.length + mx = l.key.length := by omega
      rw [e, getD_of_ge l.key _ (Nat.le_refl _)]
      exact fun h0 => next_byte_ne_zero hpf c (fun i hi => hag i (by omega)) h0.symm
    · exact absurd (list_ext_getD _ _ c (fun i hi => hag i (by omega))) hne
    · have e : path.length + mx = l2.key.length := by omega
      rw [e, getD_of_ge l2.key _ (Nat.le_refl _)]
      exact next_byte_ne_zero (term_free_symm hpf) c (fun i hi => (hag i (by omega)).symm)

theorem leaf_byte_lt (l : art_leaf) (B : Nat) (hB : 0 < B) (h : ∀ b, b ∈ l.key → b < B)
    (i : Nat) : l.byte i < B := by
  unfold art_leaf.byte
  by_cases c : i < l.key.length
  · rw [List.getD_eq_getElem?_getD, List.getElem?_eq_getElem c]
    exact h _ (List.getElem_mem c)
  · rw [getD_of_ge _ _ (by omega)]
    exact hB

theorem key_bytes_getD_lt (key : Nat → Nat) (key_len : Nat) (B : Nat) (hB : 0 < B)
    (hk : ∀ i, i < key_len → key i < B) (i : Nat) : (key_bytes key key_len).getD i 0 < B := by
  by_cases c : i < key_len
  · rw [key_bytes_getD key key_len i c]; exact hk i c
  · rw [getD_of_ge _ _ (by rw [key_bytes_length]; omega)]
    exact hB

theorem leaf_byte_mem (l : art_leaf) (i : Nat) (h : i < l.key.length) : l.byte i ∈ l.key := by
  unfold art_leaf.byte
  rw [List.getD_eq_getElem?_getD, List.getElem?_eq_getElem h]
  exact List.getElem_mem h

/-- The header of a node can change its prefix fields without touching the shape. -/
theorem shape_header {ord : Bool} {n n' : art_node} {keys : Nat → Nat} {children : Nat → Node}
    (h : Shape ord { n := n, keys := keys, children := children })
    (ht : n'.type = n.type) (hn : n'.num_children = n.num_children) :
    slots { n := n', keys := keys, children := children }
      = slots { n := n, keys := keys, children := children } ∧
    Shape ord { n := n', keys := keys, children := children } := by
  have hs : slots { n := n', keys := keys, children := children }
      = slots { n := n, keys := keys, children := children } := by
    unfold slots
    simp only [ht, hn]
  refine ⟨hs, ⟨?_, ?_, ?_, ?_, ?_⟩⟩
  · rw [hs]; exact h.byte_lt
  · rw [hs]; exact h.child_ne
  · rw [hs]; exact h.keys_nodup
  · rw [hs]; exact h.sorted
  · have hl := h.layout
    unfold Layout at hl ⊢
    simp only [ht, hn, hs] at hl ⊢
    exact hl

theorem leaves_header (n n' : art_node) (keys : Nat → Nat) (children : Nat → Node)
    (ht : n'.type = n.type) (hn : n'.num_children = n.num_children) :
    leaves (Node.inner n' keys children) = leaves (Node.inner n keys children) := by
  rw [leaves, leaves]
  simp only [ht, hn]

/-- The leaves of a node to which `add_child` added a child. -/
theorem leaves_add {ord : Bool} {x x' : Inner} {c : Nat} {child : Node}
    (h : Shape ord x) (hnew : ∀ s, (c, s) ∉ slots x) (ha : AddSpec ord x c child x') :
    (leaves x'.toNode).Perm (leaves child ++ leaves x.toNode) := by
  rw [leaves_entries, leaves_entries]
  have hp : (entries x').Perm ((c, child) :: entries x) := by
    rw [List.perm_ext_iff_of_nodup (entries_nodup ha.shape)]
    · intro e
      rw [ha.mem, List.mem_cons]
    · rw [List.nodup_cons]
      refine ⟨?_, entries_nodup h⟩
      intro hm
      obtain ⟨s, hs, _⟩ := (mem_entries x c child).1 hm
      exact hnew s hs
  have := List.Perm.flatMap_right (fun e : Nat × Node => leaves e.2) hp
  rw [List.flatMap_cons] at this
  exact this

theorem filter_eq_self_of_forall {α : Type} (l : List α) (q : α → Bool)
    (h : ∀ a, a ∈ l → q a = true) : l.filter q = l :=
  List.filter_eq_self.2 h

/-! ## Insertion preserves the invariant -/

theorem recursive_insert_leaf (simd : Bool) (key : Nat → Nat) (key_len value : Nat)
    (replace : Bool) (l : art_leaf) (depth : Nat) :
    recursive_insert simd key key_len value replace (Node.leaf l) depth =
      if leaf_matches l key key_len depth = 0 then
        (Node.leaf (if replace then { l with value := value } else l), l.value, true)
      else
        ((add_child4 simd
          (add_child4 simd
            (split_node ( longest_common_prefix l (make_leaf key key_len value) depth) key depth)
            (l.byte (depth + longest_common_prefix l (make_leaf key key_len value) depth))
            (Node.leaf l))
          ((make_leaf key key_len value).byte
            (depth + longest_common_prefix l (make_leaf key key_len value) depth))
          (Node.leaf (make_leaf key key_len value))).toNode, 0, false) := by
  rw [recursive_insert]
  rfl

theorem recursive_insert_inner (simd : Bool) (key : Nat → Nat) (key_len value : Nat)
    (replace : Bool) (n : art_node) (keys : Nat → Nat) (children : Nat → Node) (depth : Nat) :
    recursive_insert simd key key_len value replace (Node.inner n keys children) depth =
      if n.partial_len ≠ 0 ∧
          prefix_mismatch { n := n, keys := keys, children := children } key key_len depth
            < n.partial_len then
        ((add_child4 simd
          (if n.partial_len ≤ MAX_PREFIX_LEN then
            add_child4 simd
              (split_node (prefix_mismatch { n := n, keys := keys, children := children }
                key key_len depth) n.partial_ 0)
              (n.partial_ (prefix_mismatch { n := n, keys := keys, children := children }
                key key_len depth))
              (Node.inner (shortened n (prefix_mismatch { n := n, keys := keys, children := children }
                key key_len depth) n.partial_ (prefix_mismatch { n := n, keys := keys, children := children }
                key key_len depth + 1)) keys children)
          else
            match minimum (Node.inner n keys children) with
            | some l =>
              add_child4 simd
                (split_node (prefix_mismatch { n := n, keys := keys, children := children }
                  key key_len depth) n.partial_ 0)
                (l.byte (depth + prefix_mismatch { n := n, keys := keys, children := children }
                  key key_len depth))
                (Node.inner (shortened n (prefix_mismatch { n := n, keys := keys, children := children }
                  key key_len depth) l.byte (depth + prefix_mismatch { n := n, keys := keys, children := children }
                  key key_len depth + 1)) keys children)
            | none => split_node (prefix_mismatch { n := n, keys := keys, children := children }
                  key key_len depth) n.partial_ 0)
          (key (depth + prefix_mismatch { n := n, keys := keys, children := children }
            key key_len depth))
          (Node.leaf (make_leaf key key_len value))).toNode, 0, false)
      else
        match find_child simd { n := n, keys := keys, children := children }
            (key (depth + n.partial_len)) with
        | some slot =>
          (Node.inner n keys (upd children slot
            (recursive_insert simd key key_len value replace (children slot)
              (depth + n.partial_len + 1)).1),
           (recursive_insert simd key key_len value replace (children slot)
              (depth + n.partial_len + 1)).2)
        | none =>
          ((add_child simd { n := n, keys := keys, children := children }
            (key (depth + n.partial_len)) (Node.leaf (make_leaf key key_len value))).toNode,
            0, false) := by
  rw [recursive_insert]
  rfl

theorem split_node_slots (pl : Nat) (src : Nat → Nat) (soff : Nat) :
    slots (split_node pl src soff) = [] := rfl

theorem split_node_shape (ord : Bool) (pl : Nat) (src : Nat → Nat) (soff : Nat) :
    Shape ord (split_node pl src soff) := by
  refine ⟨?_, ?_, ?_, ?_, ?_⟩
  · intro p hp; rw [split_node_slots] at hp; cases hp
  · intro p hp; rw [split_node_slots] at hp; cases hp
  · rw [split_node_slots]; simp
  · intro _; rw [split_node_slots]; simp
  · show (0 : Nat) ≤ 4
    omega

theorem split_node_bytes (pl : Nat) (src : Nat → Nat) (soff i : Nat)
    (h1 : i < MAX_PREFIX_LEN) (h2 : i < pl) :
    (split_node pl src soff).n.partial_ i = src (soff + i) := by
  show memcpy _ 0 src soff (min MAX_PREFIX_LEN pl) i = _
  rw [memcpy_in _ _ _ _ _ _ (by omega)]
  simp

/-- A split node with its two children. -/
theorem split_two (simd ord : Bool) (pl : Nat)
    (src : Nat → Nat) (soff b1 b2 : Nat) (c1 c2 : Node) (hb1 : b1 < 256) (hb2 : b2 < 256)
    (hord : ord = true → simd = false ∨ (b1 < 128 ∧ b2 < 128))
    (hne : b1 ≠ b2) (hc1 : c1.isNull = false) (hc2 : c2.isNull = false) :
    Shape ord (add_child4 simd (add_child4 simd (split_node pl src soff) b1 c1) b2 c2) ∧
    min_children (add_child4 simd (add_child4 simd (split_node pl src soff) b1 c1) b2 c2).n.type
      ≤ (slots (add_child4 simd (add_child4 simd (split_node pl src soff) b1 c1) b2 c2)).length ∧
    (add_child4 simd (add_child4 simd (split_node pl src soff) b1 c1) b2 c2).n.partial_len = pl ∧
    (∀ i, i < MAX_PREFIX_LEN → i < pl →
      (add_child4 simd (add_child4 simd (split_node pl src soff) b1 c1) b2 c2).n.partial_ i
        = src (soff + i)) ∧
    (∀ e, e ∈ entries (add_child4 simd (add_child4 simd (split_node pl src soff) b1 c1) b2 c2)
      ↔ e = (b2, c2) ∨ e = (b1, c1)) ∧
    (leaves (add_child4 simd (add_child4 simd (split_node pl src soff) b1 c1) b2 c2).toNode).Perm
      (leaves c2 ++ leaves c1) := by
  have h0 := split_node_shape ord pl src soff
  have hs0 := split_node_slots pl src soff
  have he0 : entries (split_node pl src soff) = [] := rfl
  have A1 := add_child4_spec simd ord (split_node pl src soff) b1 c1 rfl h0 hb1
    (fun s hs => by rw [hs0] at hs; cases hs) hc1
    (fun ho => (hord ho).imp id (fun h7 => ⟨h7.1, fun p hp => by rw [hs0] at hp; cases hp⟩))
  have ht1 : (add_child4 simd (split_node pl src soff) b1 c1).n.type = NODE4 := by
    rw [add_child4_room simd _ b1 c1 (show (split_node pl src soff).n.num_children < 4 from
      (by show (0 : Nat) < 4; omega))]
    rfl
  have hnew2 : ∀ s, (b2, s) ∉ slots (add_child4 simd (split_node pl src soff) b1 c1) := by
    intro s hs
    have := (mem_entries _ b2 _).2 ⟨s, hs, rfl⟩
    rw [A1.mem, he0] at this
    rcases this with h1 | h1
    · exact hne (Prod.mk.inj h1).1.symm
    · cases h1
  have A2 := add_child4_spec simd ord _ b2 c2 ht1 A1.shape hb2 hnew2 hc2
    (fun ho => (hord ho).imp id (fun h7 => ⟨h7.2, fun p hp => by
      have := (mem_entries _ p.1 _).2 ⟨p.2, hp, rfl⟩
      rw [A1.mem, he0] at this
      rcases this with h1 | h1
      · rw [(Prod.mk.inj h1).1]; exact h7.1
      · cases h1⟩))
  have hl1 := A1.len
  rw [hs0] at hl1
  refine ⟨A2.shape, A2.big (by rw [ht1, hl1]; show 2 ≤ _; simp), ?_, ?_, ?_, ?_⟩
  · rw [A2.plen, A1.plen]; rfl
  · intro i h1 h2
    have e1 : (split_node pl src soff).n.partial_len = pl := rfl
    rw [A2.pbytes i h1 (by rw [A1.plen, e1]; exact h2), A1.pbytes i h1 (by rw [e1]; exact h2)]
    exact split_node_bytes pl src soff i h1 h2
  · intro e
    rw [A2.mem, A1.mem, he0]
    simp
  · have p2 := leaves_add A1.shape hnew2 A2
    have p1 := leaves_add h0 (fun s hs => by rw [hs0] at hs; cases hs) A1
    have e0 : leaves (split_node pl src soff).toNode = [] := by
      rw [leaves_toNode, hs0]; rfl
    rw [e0, List.append_nil] at p1
    exact p2.trans (List.Perm.append_left _ p1)

theorem insert_leaf (simd ord : Bool) (key : Nat → Nat)
    (key_len value : Nat) (replace : Bool) (hk : ∀ i, key i < 256)
    (l : art_leaf) (path : List Nat) (hwf : WF ord (Node.leaf l) path)
    (hord : AscOk simd ord key key_len (leaves (Node.leaf l)))
    (hpre : path <+: ext (key_bytes key key_len))
    (hpf : term_free l.key (key_bytes key key_len)) :
    InsertOk ord (Node.leaf l) path (key_bytes key key_len) value replace
      (recursive_insert simd key key_len value replace (Node.leaf l) path.length) := by
  rw [recursive_insert_leaf]
  obtain ⟨hw1, hw2⟩ := (WF_leaf_iff ord l path).1 hwf
  by_cases hm : leaf_matches l key key_len path.length = 0
  · rw [if_pos hm]
    have hK := (leaf_matches_iff l key key_len _).1 hm
    refine ⟨?_, ?_, ?_, ?_⟩
    · cases replace
      · exact hwf
      · exact hwf
    · cases replace
      · simp [leaves, hK]
      · simp [leaves, hK]
    · intro v hv
      simp only [leaves, List.mem_singleton, Prod.mk.injEq] at hv
      exact ⟨rfl, hv.2.symm⟩
    · intro h
      exact absurd (by simp [leaves, hK]) (h l.value)
  · rw [if_neg hm]
    have hne : l.key ≠ key_bytes key key_len := (leaf_matches_ne l key key_len _).1 hm
    obtain ⟨a1, a2, a3, a4⟩ := lcp_spec l (make_leaf key key_len value) path hw1 hpre hpf hne
    generalize longest_common_prefix l (make_leaf key key_len value) path.length = lcp at *
    rw [make_leaf_key, key_bytes_length] at a2
    have hb2 : (make_leaf key key_len value).byte (path.length + lcp)
        = (key_bytes key key_len).getD (path.length + lcp) 0 := rfl
    have hbi : ∀ i, i < lcp → l.byte (path.length + i) = key (path.length + i) := by
      intro i hi
      rw [a4 i hi]
      exact key_bytes_getD key key_len _ (by omega)
    rw [hb2] at a3 ⊢
    obtain ⟨s1, s2, s3, s4, s5, s6⟩ := split_two simd ord lcp key path.length
      (l.byte (path.length + lcp)) ((key_bytes key key_len).getD (path.length + lcp) 0)
      (Node.leaf l) (Node.leaf (make_leaf key key_len value))
      (leaf_byte_lt l 256 (by omega) hw2 _)
      (key_bytes_getD_lt key key_len 256 (by omega) (fun i _ => hk i) _)
      (fun ho => (hord ho).imp id (fun h7 =>
        ⟨leaf_byte_lt l 128 (by omega) (h7.2 (l.key, l.value) (by simp [leaves])) _,
         key_bytes_getD_lt key key_len 128 (by omega) h7.1 _⟩))
      a3 rfl rfl
    generalize add_child4 simd (add_child4 simd (split_node lcp key path.length)
      (l.byte (path.length + lcp)) (Node.leaf l))
      ((key_bytes key key_len).getD (path.length + lcp) 0)
      (Node.leaf (make_leaf key key_len value)) = x2 at *
    refine ⟨?_, ?_, ?_, ?_⟩
    · rw [WF_toNode_iff]
      refine ⟨s1, s2, (List.range lcp).map (fun i => key (path.length + i)), ?_, ?_, ?_⟩
      · rw [s3]; simp
      · intro i h1 h2
        simp only [List.length_map, List.length_range] at h2
        rw [s4 i h1 h2, List.getD_eq_getElem?_getD, List.getElem?_map, List.getElem?_range h2]
        rfl
      · intro b s hbs
        have hP : ∀ i, i < lcp →
            ((List.range lcp).map (fun i => key (path.length + i))).getD i 0
              = key (path.length + i) := by
          intro i hi
          rw [List.getD_eq_getElem?_getD, List.getElem?_map, List.getElem?_range hi]
          rfl
        have := (mem_entries x2 b _).2 ⟨s, hbs, rfl⟩
        rw [s5] at this
        rcases this with h1 | h1
        · obtain ⟨e1, e2⟩ := Prod.mk.inj h1
          rw [e2, e1, WF_leaf_iff]
          refine ⟨?_, key_bytes_lt key key_len hk⟩
          apply prefix_build _ _ _ _ hpre
          · simp only [List.length_map, List.length_range, make_leaf_key, ext_length,
              key_bytes_length]
            omega
          · intro i hi
            simp only [List.length_map, List.length_range] at hi
            rw [hP i hi, getD_ext]
            exact key_bytes_getD key key_len _ (by omega)
          · simp only [List.length_map, List.length_range, make_leaf_key]
            exact getD_ext _ _
        · obtain ⟨e1, e2⟩ := Prod.mk.inj h1
          rw [e2, e1, WF_leaf_iff]
          refine ⟨?_, hw2⟩
          apply prefix_build _ _ _ _ hw1
          · simp only [List.length_map, List.length_range, ext_length]
            omega
          · intro i hi
            simp only [List.length_map, List.length_range] at hi
            rw [hP i hi, getD_ext]
            exact hbi i hi
          · simp only [List.length_map, List.length_range]
            exact getD_ext _ _
    · simp only [Bool.false_and, Bool.false_eq_true, if_false]
      refine s6.trans ?_
      have : (leaves (Node.leaf l)).filter (fun kv => decide (kv.1 ≠ key_bytes key key_len))
          = leaves (Node.leaf l) := by
        simp [leaves, hne]
      rw [this]
      exact List.Perm.refl _
    · intro v hv
      simp only [leaves, List.mem_singleton, Prod.mk.injEq] at hv
      exact absurd hv.1.symm hne
    · intro _
      exact ⟨rfl, rfl⟩

theorem getD_take (P : List Nat) (m i : Nat) (h : i < m) : (P.take m).getD i 0 = P.getD i 0 := by
  rw [List.getD_eq_getElem?_getD, List.getD_eq_getElem?_getD, List.getElem?_take_of_lt h]

theorem getD_drop (P : List Nat) (m i : Nat) : (P.drop m).getD i 0 = P.getD (m + i) 0 := by
  rw [List.getD_eq_getElem?_getD, List.getD_eq_getElem?_getD, List.getElem?_drop]

theorem take_snoc_drop (P : List Nat) (m : Nat) (h : m < P.length) :
    P.take m ++ [P.getD m 0] ++ P.drop (m + 1) = P := by
  have e : P.getD m 0 = P[m] := by
    rw [List.getD_eq_getElem?_getD, List.getElem?_eq_getElem h]
    rfl
  rw [e, List.append_assoc, List.singleton_append, ← List.drop_eq_getElem_cons h,
    List.take_append_drop]

theorem getD_of_prefix_mid {path P k : List Nat} {b : Nat} (h : path ++ P ++ [b] <+: k)
    (i : Nat) (hi : i < P.length) : k.getD (path.length + i) 0 = P.getD i 0 := by
  rw [prefix_getD h (path.length + i) (by simp; omega),
    getD_append_left _ _ _ (by simp; omega), getD_append_right _ _ _ (by omega)]
  congr 1
  omega

theorem getD_of_prefix_front {path P k : List Nat} {b : Nat} (h : path ++ P ++ [b] <+: k) :
    path <+: k :=
  List.IsPrefix.trans ⟨P ++ [b], by simp⟩ h

/-- What the invariant says about the leftmost leaf of an inner node. -/
theorem min_leaf_facts {ord : Bool} {n : art_node} {keys : Nat → Nat} {children : Nat → Node}
    {path : List Nat} (hwf : WF ord (Node.inner n keys children) path) (P : List Nat)
    (hch : ∀ b s, (b, s) ∈ slots { n := n, keys := keys, children := children } →
        WF ord (children s) (path ++ P ++ [b])) :
    ∃ L, minimum (Node.inner n keys children) = some L ∧
      (L.key, L.value) ∈ leaves (Node.inner n keys children) ∧
      path.length + P.length ≤ L.key.length ∧ path <+: ext L.key ∧
      (∀ i, i < P.length → L.byte (path.length + i) = P.getD i 0) ∧
      (∀ b, b ∈ L.key → b < 256) := by
  obtain ⟨L, h1, h2⟩ := minimum_mem hwf
  refine ⟨L, h1, h2, ?_⟩
  rw [leaves_inner, List.mem_flatMap] at h2
  obtain ⟨⟨b, s⟩, hm, hkv⟩ := h2
  obtain ⟨h3, h4⟩ := WF_leaves (hch b s hm) _ hkv
  simp only at h3 h4
  have := prefix_length_le h3
  simp only [List.length_append, List.length_singleton, ext_length] at this
  refine ⟨by omega, getD_of_prefix_front h3, fun i hi => ?_, h4⟩
  have := getD_of_prefix_mid h3 i hi
  rw [getD_ext] at this
  exact this

/-- Every key below an inner node has the node's prefix behind the path. -/
theorem below_inner {ord : Bool} {n : art_node} {keys : Nat → Nat} {children : Nat → Node}
    {path P : List Nat}
    (hch : ∀ b s, (b, s) ∈ slots { n := n, keys := keys, children := children } →
        WF ord (children s) (path ++ P ++ [b]))
    {kv : List Nat × Nat} (hkv : kv ∈ leaves (Node.inner n keys children)) :
    path.length + P.length ≤ kv.1.length ∧ path <+: ext kv.1 ∧
    (∀ i, i < P.length → kv.1.getD (path.length + i) 0 = P.getD i 0) := by
  rw [leaves_inner, List.mem_flatMap] at hkv
  obtain ⟨⟨b, s⟩, hm, hkv⟩ := hkv
  have h3 := (WF_leaves (hch b s hm) _ hkv).1
  have := prefix_length_le h3
  simp only [List.length_append, List.length_singleton, ext_length] at this
  refine ⟨by omega, getD_of_prefix_front h3, fun i hi => ?_⟩
  have := getD_of_prefix_mid h3 i hi
  rw [getD_ext] at this
  exact this

/-- The path to an inner node ends inside a key that can be filed with the keys below. -/
theorem path_le_of_inner {ord : Bool} {n : art_node} {keys : Nat → Nat}
    {children : Nat → Node} {path : List Nat}
    (hwf : WF ord (Node.inner n keys children) path) (K : List Nat)
    (hpre : path <+: ext K)
    (hpf : ∀ kv, kv ∈ leaves (Node.inner n keys children) → term_free kv.1 K) :
    path.length ≤ K.length := by
  obtain ⟨a, b, ha, hb, hne⟩ := WF_inner_distinct hwf
  by_cases c : a.1 = K
  · have hb' : b.1 ≠ K := fun e => hne (c.trans e.symm)
    exact path_inside hpre (WF_leaves hwf b hb).1 (term_free_symm (hpf b hb)) (Ne.symm hb')
  · exact path_inside hpre (WF_leaves hwf a ha).1 (term_free_symm (hpf a ha)) (Ne.symm c)

theorem ext_key_bytes_getD (key : Nat → Nat) (key_len i : Nat) (h : i < key_len) :
    (ext (key_bytes key key_len)).getD i 0 = key i := by
  rw [getD_ext, key_bytes_getD key key_len i h]

theorem insert_inner_split (simd ord : Bool)
    (key : Nat → Nat) (key_len value : Nat) (replace : Bool) (hk : ∀ i, key i < 256)
    (n : art_node) (keys : Nat → Nat) (children : Nat → Node) (path : List Nat)
    (hwf : WF ord (Node.inner n keys children) path)
    (hord : AscOk simd ord key key_len (leaves (Node.inner n keys children)))
    (hpre : path <+: ext (key_bytes key key_len))
    (hpf : ∀ kv, kv ∈ leaves (Node.inner n keys children) →
      term_free kv.1 (key_bytes key key_len))
    (hz : ZeroBehind key key_len (leaves (Node.inner n keys children)))
    (hc : n.partial_len ≠ 0 ∧
      prefix_mismatch { n := n, keys := keys, children := children } key key_len path.length
        < n.partial_len) :
    InsertOk ord (Node.inner n keys children) path (key_bytes key key_len) value replace
      (recursive_insert simd key key_len value replace (Node.inner n keys children)
        path.length) := by
  obtain ⟨hsh, hbig, P, hP, hcache, hch⟩ := (WF_inner_iff ord n keys children path).1 hwf
  obtain ⟨L, hmin, hLmem, hLlen, hLpre, hL, hLb⟩ := min_leaf_facts hwf P hch
  have hd : path.length ≤ key_len := by
    have := path_le_of_inner hwf _ hpre hpf
    rw [key_bytes_length] at this
    exact this
  obtain ⟨pa, pb⟩ := prefix_mismatch_spec { n := n, keys := keys, children := children }
    key key_len path.length P L hmin hL hLlen hP hcache hd
  dsimp only at pa pb
  rw [recursive_insert_inner, if_pos hc]
  obtain ⟨hc1, hc2⟩ := hc
  generalize prefix_mismatch { n := n, keys := keys, children := children } key key_len
    path.length = pm at *
  have hpmP : pm < P.length := by omega
  -- the bytes of the key up to the mismatch are those of every key below the node
  have hagree : ∀ kv, kv ∈ leaves (Node.inner n keys children) →
      ∀ i, i < path.length + pm → kv.1.getD i 0 = (key_bytes key key_len).getD i 0 := by
    intro kv hkv i hi
    obtain ⟨_, b2, b3⟩ := below_inner hch hkv
    by_cases c : i < path.length
    · rw [← getD_ext kv.1, ← getD_ext (key_bytes key key_len), prefix_getD b2 i c,
        prefix_getD hpre i c]
    · have h1 := pa (i - path.length) (by omega) (by omega)
      have h2 := b3 (i - path.length) (by omega)
      have e3 : path.length + (i - path.length) = i := by omega
      rw [e3] at h1 h2
      rw [h2, key_bytes_getD key key_len i h1.1, h1.2]
  -- the byte `recursive_insert` files the new leaf under
  have hmis : path.length + pm ≤ key_len ∧ key (path.length + pm) ≠ P.getD pm 0 ∧
      key (path.length + pm) = (ext (key_bytes key key_len)).getD (path.length + pm) 0 := by
    rcases pb hc2 with e | e
    · have hall : ∀ kv, kv ∈ leaves (Node.inner n keys children) →
          key_bytes key key_len <+: kv.1 := by
        intro kv hkv
        obtain ⟨b1, _, _⟩ := below_inner hch hkv
        apply prefix_of_agree
        · rw [key_bytes_length]; omega
        · intro i hi
          rw [key_bytes_length] at hi
          exact (hagree kv hkv i (by omega)).symm
      have h0 : key key_len = 0 := zero_behind_of_exhausted hwf key key_len hall hz
      refine ⟨by omega, ?_, ?_⟩
      · rw [e, h0]
        intro h1
        obtain ⟨b1, _, b3⟩ := below_inner hch hLmem
        have hp : ext (key_bytes key key_len) <+: ext L.key := by
          rw [prefix_iff_getD, ext_length, ext_length, key_bytes_length]
          refine ⟨by omega, fun i hi => ?_⟩
          rw [getD_ext, getD_ext]
          by_cases c : i < key_len
          · exact hagree _ hLmem i (by omega)
          · have e4 : i = path.length + pm := by omega
            rw [e4, b3 pm hpmP, ← h1, getD_of_ge _ _ (by rw [key_bytes_length]; omega)]
        have := congrArg List.length (ext_inj ((hpf _ hLmem).2 hp))
        rw [key_bytes_length] at this
        simp only at b1 this
        rw [hP] at b1
        omega
      · rw [e, h0, getD_ext, getD_of_ge _ _ (by rw [key_bytes_length])]
    · exact ⟨by omega, e.2, (ext_key_bytes_getD key key_len _ e.1).symm⟩
  obtain ⟨hm1, hm2, hm3⟩ := hmis
  have hb1 : P.getD pm 0 < 256 := by
    rw [← hL pm hpmP]
    exact leaf_byte_lt L 256 (by omega) hLb _
  have hnotin : ∀ v, (key_bytes key key_len, v) ∉ leaves (Node.inner n keys children) := by
    intro v hv
    rw [leaves_inner, List.mem_flatMap] at hv
    obtain ⟨⟨b, s⟩, hbs, hkv⟩ := hv
    have h3 := (WF_leaves (hch b s hbs) _ hkv).1
    have := getD_of_prefix_mid h3 pm hpmP
    simp only at this
    rw [← hm3] at this
    exact hm2 this
  -- the old node with its shortened prefix, whatever the source of the cached bytes
  have main : ∀ n2 : art_node, n2.type = n.type → n2.num_children = n.num_children →
      n2.partial_len = n.partial_len - (pm + 1) →
      (∀ i, i < MAX_PREFIX_LEN → i < n.partial_len - (pm + 1) →
        n2.partial_ i = P.getD (pm + 1 + i) 0) →
      InsertOk ord (Node.inner n keys children) path (key_bytes key key_len) value replace
        ((add_child4 simd (add_child4 simd (split_node pm n.partial_ 0) (P.getD pm 0)
          (Node.inner n2 keys children)) (key (path.length + pm))
          (Node.leaf (make_leaf key key_len value))).toNode, 0, false) := by
    intro n2 t1 t2 t3 t4
    obtain ⟨s1, s2, s3, s4, s5, s6⟩ := split_two simd ord pm n.partial_ 0
      (P.getD pm 0) (key (path.length + pm)) (Node.inner n2 keys children)
      (Node.leaf (make_leaf key key_len value)) hb1 (hk _)
      (fun ho => (hord ho).imp id (fun h7 => by
        refine ⟨?_, ?_⟩
        · rw [← hL pm hpmP]
          exact leaf_byte_lt L 128 (by omega) (h7.2 _ hLmem) _
        · rw [hm3, getD_ext]
          exact key_bytes_getD_lt key key_len 128 (by omega) h7.1 _))
      (fun e => hm2 e.symm) rfl rfl
    generalize add_child4 simd (add_child4 simd (split_node pm n.partial_ 0) (P.getD pm 0)
      (Node.inner n2 keys children)) (key (path.length + pm))
      (Node.leaf (make_leaf key key_len value)) = x2 at *
    obtain ⟨hsl2, hsh2⟩ := @shape_header _ _ n2 _ _ hsh t1 t2
    refine ⟨?_, ?_, ?_, ?_⟩
    · rw [WF_toNode_iff]
      refine ⟨s1, s2, P.take pm, ?_, ?_, ?_⟩
      · rw [s3, List.length_take]; omega
      · intro i h1 h2
        rw [List.length_take] at h2
        rw [s4 i h1 (by omega), getD_take P pm i (by omega), Nat.zero_add]
        exact hcache i h1 (by omega)
      · intro b s hbs
        have := (mem_entries x2 b _).2 ⟨s, hbs, rfl⟩
        rw [s5] at this
        rcases this with h1 | h1
        · obtain ⟨e1, e2⟩ := Prod.mk.inj h1
          rw [e2, e1, WF_leaf_iff]
          refine ⟨?_, key_bytes_lt key key_len hk⟩
          apply prefix_build _ _ _ _ hpre
          · rw [List.length_take]
            show _ < (ext (key_bytes key key_len)).length
            rw [ext_length, key_bytes_length]
            omega
          · intro i hi
            rw [List.length_take] at hi
            rw [getD_take P pm i (by omega)]
            show (ext (key_bytes key key_len)).getD _ 0 = _
            rw [ext_key_bytes_getD key key_len _ (pa i (by omega) (by omega)).1]
            exact (pa i (by omega) (by omega)).2
          · rw [List.length_take]
            have e : min pm P.length = pm := by omega
            rw [e]
            exact hm3.symm
        · obtain ⟨e1, e2⟩ := Prod.mk.inj h1
          rw [e2, e1, WF_inner_iff]
          refine ⟨hsh2, by rw [hsl2, t1]; exact hbig, P.drop (pm + 1), ?_, ?_, ?_⟩
          · rw [t3, List.length_drop, hP]
          · intro i h1 h2
            rw [List.length_drop] at h2
            rw [getD_drop, t4 i h1 (by omega)]
          · intro b' s' hbs'
            rw [hsl2] at hbs'
            have := hch b' s' hbs'
            have e : path ++ P.take pm ++ [P.getD pm 0] ++ P.drop (pm + 1) = path ++ P := by
              rw [List.append_assoc, List.append_assoc, ← List.append_assoc (P.take pm),
                take_snoc_drop P pm hpmP]
            rw [e]
            exact this
    · simp only [Bool.false_and, Bool.false_eq_true, if_false]
      refine s6.trans ?_
      rw [filter_eq_self_of_forall]
      · rw [leaves_header n n2 keys children t1 t2]
        exact List.Perm.refl _
      · rintro ⟨k, v⟩ hkv
        simp only [decide_eq_true_eq]
        rintro rfl
        exact hnotin v hkv
    · intro v hv
      exact absurd hv (hnotin v)
    · intro _
      exact ⟨rfl, rfl⟩
  by_cases c10 : n.partial_len ≤ MAX_PREFIX_LEN
  · rw [if_pos c10, hcache pm (by omega) (by omega)]
    apply main (shortened n pm n.partial_ (pm + 1)) rfl rfl rfl
    intro i h1 h2
    show memcpy n.partial_ 0 n.partial_ (pm + 1) _ i = _
    rw [memcpy_in _ _ _ _ _ _ (by omega)]
    rw [hcache _ (by omega) (by omega)]
    congr 1
  · rw [if_neg c10, hmin]
    simp only
    rw [hL pm hpmP]
    apply main (shortened n pm L.byte (path.length + pm + 1)) rfl rfl rfl
    intro i h1 h2
    show memcpy n.partial_ 0 L.byte (path.length + pm + 1) _ i = _
    rw [memcpy_in _ _ _ _ _ _ (by omega)]
    have := hL (pm + 1 + i) (by omega)
    rw [← this]
    congr 1
    omega

theorem getD_lt_of_forall (k : List Nat) (B : Nat) (hB : 0 < B) (h : ∀ b, b ∈ k → b < B)
    (i : Nat) : k.getD i 0 < B := by
  by_cases c : i < k.length
  · rw [List.getD_eq_getElem?_getD, List.getElem?_eq_getElem c]
    exact h _ (List.getElem_mem c)
  · rw [getD_of_ge _ _ (by omega)]
    exact hB

/-- The key bytes of the children of an inner node are bytes of the keys below it, or the
zero byte behind one of them. -/
theorem slot_byte_lt {ord : Bool} {n : art_node} {keys : Nat → Nat} {children : Nat → Node}
    {path : List Nat} (hwf : WF ord (Node.inner n keys children) path) (B : Nat) (hB : 0 < B)
    (h : ∀ kv, kv ∈ leaves (Node.inner n keys children) → ∀ b, b ∈ kv.1 → b < B) :
    ∀ p, p ∈ slots { n := n, keys := keys, children := children } → p.1 < B := by
  obtain ⟨hsh, hbig, P, hP, hcache, hch⟩ := (WF_inner_iff ord n keys children path).1 hwf
  rintro ⟨b, s⟩ hm
  obtain ⟨kv, hkv⟩ := List.exists_mem_of_ne_nil _ (WF_leaves_ne_nil (hch b s hm))
  obtain ⟨_, a2, _⟩ := prefix_snoc_getD (WF_leaves (hch b s hm) kv hkv).1
  rw [getD_ext] at a2
  show b < B
  rw [← a2]
  apply getD_lt_of_forall _ B hB
  apply h kv
  rw [leaves_inner, List.mem_flatMap]
  exact ⟨(b, s), hm, hkv⟩

theorem AscOk_mono {simd ord : Bool} {key : Nat → Nat} {key_len : Nat}
    {l l' : List (List Nat × Nat)} (h : AscOk simd ord key key_len l)
    (hsub : ∀ kv, kv ∈ l' → kv ∈ l) : AscOk simd ord key key_len l' :=
  fun ho => (h ho).imp id (fun h7 => ⟨h7.1, fun kv hkv => h7.2 kv (hsub kv hkv)⟩)

theorem insert_inner_descend (simd ord : Bool)
    (key : Nat → Nat) (key_len value : Nat) (replace : Bool) (hk : ∀ i, key i < 256)
    (n : art_node) (keys : Nat → Nat) (children : Nat → Node) (path : List Nat)
    (ih : ∀ s path', WF ord (children s) path' →
      AscOk simd ord key key_len (leaves (children s)) →
      path' <+: ext (key_bytes key key_len) →
      (∀ kv, kv ∈ leaves (children s) → term_free kv.1 (key_bytes key key_len)) →
      ZeroBehind key key_len (leaves (children s)) →
      InsertOk ord (children s) path' (key_bytes key key_len) value replace
        (recursive_insert simd key key_len value replace (children s) path'.length))
    (hwf : WF ord (Node.inner n keys children) path)
    (hord : AscOk simd ord key key_len (leaves (Node.inner n keys children)))
    (hpre : path <+: ext (key_bytes key key_len))
    (hpf : ∀ kv, kv ∈ leaves (Node.inner n keys children) →
      term_free kv.1 (key_bytes key key_len))
    (hz : ZeroBehind key key_len (leaves (Node.inner n keys children)))
    (hc : ¬ (n.partial_len ≠ 0 ∧
      prefix_mismatch { n := n, keys := keys, children := children } key key_len path.length
        < n.partial_len)) :
    InsertOk ord (Node.inner n keys children) path (key_bytes key key_len) value replace
      (recursive_insert simd key key_len value replace (Node.inner n keys children)
        path.length) := by
  obtain ⟨hsh, hbig, P, hP, hcache, hch⟩ := (WF_inner_iff ord n keys children path).1 hwf
  obtain ⟨L, hmin, hLmem, hLlen, hLpre, hL, hLb⟩ := min_leaf_facts hwf P hch
  have hd : path.length ≤ key_len := by
    have := path_le_of_inner hwf _ hpre hpf
    rw [key_bytes_length] at this
    exact this
  obtain ⟨pa, _⟩ := prefix_mismatch_spec { n := n, keys := keys, children := children }
    key key_len path.length P L hmin hL hLlen hP hcache hd
  dsimp only at pa
  rw [recursive_insert_inner, if_neg hc]
  generalize prefix_mismatch { n := n, keys := keys, children := children } key key_len
    path.length = pm at *
  have hall : ∀ i, i < n.partial_len →
      path.length + i < key_len ∧ key (path.length + i) = P.getD i 0 := by
    intro i hi
    apply pa i _ hi
    by_contra hge
    exact hc ⟨by omega, by omega⟩
  have hle : path.length + n.partial_len ≤ key_len := by
    by_cases c0 : n.partial_len = 0
    · omega
    · have := (hall (n.partial_len - 1) (by omega)).1
      omega
  -- the byte read next is the byte of the key, or the zero byte behind it
  have hce : key (path.length + n.partial_len)
      = (ext (key_bytes key key_len)).getD (path.length + n.partial_len) 0 := by
    by_cases hlt : path.length + n.partial_len < key_len
    · exact (ext_key_bytes_getD key key_len _ hlt).symm
    · have he : path.length + n.partial_len = key_len := by omega
      rw [he, getD_ext, getD_of_ge _ _ (by rw [key_bytes_length])]
      apply zero_behind_of_exhausted hwf key key_len _ hz
      intro kv hkv
      obtain ⟨b1, b2, b3⟩ := below_inner hch hkv
      apply prefix_of_agree
      · rw [key_bytes_length]; omega
      · intro i hi
        rw [key_bytes_length] at hi
        by_cases c : i < path.length
        · rw [← getD_ext kv.1, ← getD_ext (key_bytes key key_len), prefix_getD b2 i c,
            prefix_getD hpre i c]
        · have h1 := hall (i - path.length) (by omega)
          have h2 := b3 (i - path.length) (by omega)
          have e3 : path.length + (i - path.length) = i := by omega
          rw [e3] at h1 h2
          rw [h2, key_bytes_getD key key_len i h1.1, h1.2]
  have hKpre : path ++ P ++ [key (path.length + n.partial_len)]
      <+: ext (key_bytes key key_len) := by
    apply prefix_build _ _ _ _ hpre
    · rw [ext_length, key_bytes_length, hP]; omega
    · intro i hi
      rw [ext_key_bytes_getD key key_len _ (hall i (by omega)).1]
      exact (hall i (by omega)).2
    · rw [hP]
      exact hce.symm
  -- a stored key equal to the new one sits under the key byte of the new one
  have hunder : ∀ b s v, (b, s) ∈ slots { n := n, keys := keys, children := children } →
      (key_bytes key key_len, v) ∈ leaves (children s) →
      b = key (path.length + n.partial_len) := by
    intro b s v hbs hkv
    have h3 := (WF_leaves (hch b s hbs) _ hkv).1
    obtain ⟨_, a2, _⟩ := prefix_snoc_getD h3
    simp only [List.length_append] at a2
    rw [hP, ← hce] at a2
    exact a2.symm
  have hc128 : ord = true → simd = false ∨
      (key (path.length + n.partial_len) < 128 ∧
        ∀ p, p ∈ slots { n := n, keys := keys, children := children } → p.1 < 128) :=
    fun ho => (hord ho).imp id (fun h7 => by
      refine ⟨?_, slot_byte_lt hwf 128 (by omega) h7.2⟩
      rw [hce, getD_ext]
      exact key_bytes_getD_lt key key_len 128 (by omega) h7.1 _)
  cases hf : find_child simd { n := n, keys := keys, children := children }
      (key (path.length + n.partial_len)) with
  | none =>
    simp only
    have hnew := (find_child_none simd ord _ hsh _ (hk _)).1 hf
    have A := add_child_spec simd ord { n := n, keys := keys, children := children }
      (key (path.length + n.partial_len)) (Node.leaf (make_leaf key key_len value))
      hsh (hk _) hnew rfl hc128
    have hlv := leaves_add hsh hnew A
    generalize add_child simd { n := n, keys := keys, children := children }
      (key (path.length + n.partial_len)) (Node.leaf (make_leaf key key_len value)) = x' at *
    have hnotin : ∀ v, (key_bytes key key_len, v) ∉ leaves (Node.inner n keys children) := by
      intro v hv
      rw [leaves_inner, List.mem_flatMap] at hv
      obtain ⟨⟨b, s⟩, hbs, hkv⟩ := hv
      have := hunder b s v hbs hkv
      subst this
      exact hnew s hbs
    refine ⟨?_, ?_, ?_, ?_⟩
    · rw [WF_toNode_iff]
      refine ⟨A.shape, A.big (Nat.le_succ_of_le hbig), P, ?_, ?_, ?_⟩
      · rw [A.plen]; exact hP
      · intro i h1 h2
        rw [A.pbytes i h1 (by rw [← hP]; exact h2)]
        exact hcache i h1 h2
      · intro b s hbs
        have := (mem_entries x' b _).2 ⟨s, hbs, rfl⟩
        rw [A.mem] at this
        rcases this with h1 | h1
        · obtain ⟨e1, e2⟩ := Prod.mk.inj h1
          rw [e2, e1, WF_leaf_iff]
          exact ⟨hKpre, key_bytes_lt key key_len hk⟩
        · obtain ⟨s', hs', e⟩ := (mem_entries _ b _).1 h1
          rw [e]
          exact hch b s' hs'
    · simp only [Bool.false_and, Bool.false_eq_true, if_false]
      refine hlv.trans ?_
      rw [filter_eq_self_of_forall]
      · exact List.Perm.refl _
      · rintro ⟨k, v⟩ hkv
        simp only [decide_eq_true_eq]
        rintro rfl
        exact hnotin v hkv
    · intro v hv
      exact absurd hv (hnotin v)
    · intro _
      exact ⟨rfl, rfl⟩
  | some slot =>
    simp only
    have hslot := (find_child_iff simd ord _ hsh _ (hk _) slot).1 hf
    have hlen : (path ++ P ++ [key (path.length + n.partial_len)]).length
        = path.length + n.partial_len + 1 := by
      simp only [List.length_append, List.length_singleton, hP]
    have hsub : ∀ kv, kv ∈ leaves (children slot) →
        kv ∈ leaves (Node.inner n keys children) := by
      intro kv hkv
      rw [leaves_inner, List.mem_flatMap]
      exact ⟨(_, slot), hslot, hkv⟩
    have IH := ih slot _ (hch _ slot hslot) (AscOk_mono hord hsub) hKpre
      (fun kv hkv => hpf kv (hsub kv hkv)) (ZeroBehind_mono hz hsub)
    rw [hlen] at IH
    generalize recursive_insert simd key key_len value replace (children slot)
      (path.length + n.partial_len + 1) = r at *
    obtain ⟨rest, p1, p2, p3⟩ := leaves_split hsh hslot
    have hrn := WF_not_null IH.wf
    have hrest : ∀ kv, kv ∈ rest → kv.1 ≠ key_bytes key key_len := by
      intro kv hkv
      obtain ⟨b', s', hbs', hne, hkv'⟩ := p3 kv hkv
      have h3 := (WF_leaves (hch b' s' hbs') _ hkv').1
      exact fun e => (prefix_free_of_sibling h3 hKpre hne).1 (by rw [e])
    refine ⟨?_, ?_, ?_, ?_⟩
    · show WF ord (set_child { n := n, keys := keys, children := children } slot r.1).toNode path
      rw [WF_toNode_iff]
      refine ⟨shape_set_child hsh hslot r.1 hrn, ?_, P, hP, hcache, ?_⟩
      · rw [slots_set_child hsh hslot r.1 hrn]; exact hbig
      · intro b s hbs
        rw [slots_set_child hsh hslot r.1 hrn] at hbs
        show WF ord (upd children slot r.1 s) _
        by_cases e : s = slot
        · subst e
          have := slots_snd_unique hsh hbs hslot
          subst this
          rw [upd_same]
          exact IH.wf
        · rw [upd_other _ _ _ _ e]
          exact hch b s hbs
    · show (leaves (set_child { n := n, keys := keys, children := children } slot r.1).toNode).Perm _
      refine (p2 r.1 hrn).trans ?_
      refine (List.Perm.append_right rest IH.perm).trans ?_
      rw [List.cons_append]
      apply List.Perm.cons
      have h1 := List.Perm.filter (fun kv : List Nat × Nat => decide (kv.1 ≠ key_bytes key key_len)) p1
      rw [List.filter_append, filter_eq_self_of_forall rest _
        (fun kv hkv => by simpa using hrest kv hkv)] at h1
      exact h1.symm
    · intro v hv
      have := (p1.mem_iff).1 hv
      rcases List.mem_append.1 this with h1 | h1
      · exact IH.old v h1
      · exact absurd rfl (hrest _ h1)
    · intro hv
      apply IH.fresh
      intro v hv'
      exact hv v ((p1.mem_iff).2 (List.mem_append.2 (Or.inl hv')))

/-- `recursive_insert` on a well-formed subtree, for a key that can be filed with the stored
keys (neither it nor a stored key, followed by a zero byte, is a prefix of the other), given
from a buffer with a zero byte behind the key when at least two stored keys start with the
key. -/
theorem insert_ok (simd ord : Bool)
    (key : Nat → Nat) (key_len value : Nat) (replace : Bool) (hk : ∀ i, key i < 256)
    (n : Node) (path : List Nat) (hwf : WF ord n path)
    (hord : AscOk simd ord key key_len (leaves n))
    (hpre : path <+: ext (key_bytes key key_len))
    (hpf : ∀ kv, kv ∈ leaves n → term_free kv.1 (key_bytes key key_len))
    (hz : ZeroBehind key key_len (leaves n)) :
    InsertOk ord n path (key_bytes key key_len) value replace
      (recursive_insert simd key key_len value replace n path.length) := by
  induction n generalizing path with
  | null => exact absurd hwf (by simp [WF])
  | leaf l =>
    exact insert_leaf simd ord key key_len value replace hk l path hwf hord hpre
      (hpf (l.key, l.value) (by simp [leaves]))
  | inner n keys children ih =>
    by_cases hc : n.partial_len ≠ 0 ∧
      prefix_mismatch { n := n, keys := keys, children := children } key key_len path.length
        < n.partial_len
    · exact insert_inner_split simd ord key key_len value replace hk n keys children
        path hwf hord hpre hpf hz hc
    · exact insert_inner_descend simd ord key key_len value replace hk n keys children
        path (fun s path' h1 h2 h3 h4 h5 => ih s path' h1 h2 h3 h4 h5) hwf hord hpre hpf hz hc

theorem recursive_delete_stop (simd : Bool) (key : Nat → Nat) (key_len : Nat)
    (n : art_node) (keys : Nat → Nat) (children : Nat → Node) (depth : Nat)
    (h : n.partial_len ≠ 0 ∧
      check_prefix n key key_len depth ≠ min MAX_PREFIX_LEN n.partial_len) :
    recursive_delete simd key key_len (Node.inner n keys children) depth
      = (Node.inner n keys children, none) := by
  rw [recursive_delete]
  simp only [if_pos h]

theorem recursive_delete_none (simd : Bool) (key : Nat → Nat) (key_len : Nat)
    (n : art_node) (keys : Nat → Nat) (children : Nat → Node) (depth : Nat)
    (h : ¬ (n.partial_len ≠ 0 ∧
      check_prefix n key key_len depth ≠ min MAX_PREFIX_LEN n.partial_len))
    (hf : find_child simd { n := n, keys := keys, children := children }
      (key (depth + n.partial_len)) = none) :
    recursive_delete simd key key_len (Node.inner n keys children) depth
      = (Node.inner n keys children, none) := by
  rw [recursive_delete]
  simp only [if_neg h, hf]

theorem recursive_delete_leaf (simd : Bool) (key : Nat → Nat) (key_len : Nat)
    (n : art_node) (keys : Nat → Nat) (children : Nat → Node) (depth slot : Nat)
    (l : art_leaf)
    (h : ¬ (n.partial_len ≠ 0 ∧
      check_prefix n key key_len depth ≠ min MAX_PREFIX_LEN n.partial_len))
    (hf : find_child simd { n := n, keys := keys, children := children }
      (key (depth + n.partial_len)) = some slot)
    (hl : children slot = Node.leaf l) :
    recursive_delete simd key key_len (Node.inner n keys children) depth
      = if leaf_matches l key key_len (depth + n.partial_len) = 0 then
          (remove_child { n := n, keys := keys, children := children }
            (key (depth + n.partial_len)) slot, some l)
        else (Node.inner n keys children, none) := by
  rw [recursive_delete]
  simp only [if_neg h, hf, hl]

theorem recursive_delete_rec (simd : Bool) (key : Nat → Nat) (key_len : Nat)
    (n : art_node) (keys : Nat → Nat) (children : Nat → Node) (depth slot : Nat)
    (h : ¬ (n.partial_len ≠ 0 ∧
      check_prefix n key key_len depth ≠ min MAX_PREFIX_LEN n.partial_len))
    (hf : find_child simd { n := n, keys := keys, children := children }
      (key (depth + n.partial_len)) = some slot)
    (hl : ∀ l, children slot ≠ Node.leaf l) :
    recursive_delete simd key key_len (Node.inner n keys children) depth
      = (Node.inner n keys (upd children slot
          (recursive_delete simd key key_len (children slot) (depth + n.partial_len + 1)).1),
         (recursive_delete simd key key_len (children slot) (depth + n.partial_len + 1)).2) := by
  rw [recursive_delete]
  simp only [if_neg h, hf]

/-- Deleting a key that no leaf of the subtree carries changes nothing, on every tree. -/
theorem delete_absent (simd : Bool) (key : Nat → Nat) (key_len : Nat) (hk : ∀ i, key i < 256)
    (n : Node) (depth : Nat) (h : ∀ v, (key_bytes key key_len, v) ∉ leaves n) :
    recursive_delete simd key key_len n depth = (n, none) := by
  induction n generalizing depth with
  | null => rfl
  | leaf l =>
    have hne : leaf_matches l key key_len depth ≠ 0 := by
      rw [leaf_matches_ne]
      intro e
      exact h l.value (by rw [← e]; simp [leaves])
    rw [recursive_delete, if_neg hne]
  | inner n keys children ih =>
    by_cases hc : n.partial_len ≠ 0 ∧
      check_prefix n key key_len depth ≠ min MAX_PREFIX_LEN n.partial_len
    · exact recursive_delete_stop simd key key_len n keys children depth hc
    · cases hf : find_child simd { n := n, keys := keys, children := children }
          (key (depth + n.partial_len)) with
      | none => exact recursive_delete_none simd key key_len n keys children depth hc hf
      | some slot =>
        obtain ⟨b, hb⟩ := find_child_live simd _ _ (hk _) slot hf
        have hsub : ∀ kv, kv ∈ leaves (children slot) →
            kv ∈ leaves (Node.inner n keys children) := by
          intro kv hkv
          rw [leaves_inner, List.mem_flatMap]
          exact ⟨(b, slot), hb, hkv⟩
        by_cases hl : ∃ l, children slot = Node.leaf l
        · obtain ⟨l, hl⟩ := hl
          rw [recursive_delete_leaf simd key key_len n keys children depth slot l hc hf hl]
          have hne : leaf_matches l key key_len (depth + n.partial_len) ≠ 0 := by
            rw [leaf_matches_ne]
            intro e
            apply h l.value
            apply hsub
            rw [hl, ← e]
            simp [leaves]
          rw [if_neg hne]
        · rw [recursive_delete_rec simd key key_len n keys children depth slot hc hf
            (fun l e => hl ⟨l, e⟩)]
          rw [ih slot (depth + n.partial_len + 1) (fun v hv => h v (hsub _ hv))]
          simp only [upd_self]

/-- The leaves of a node from which `remove_child` took the child under byte `c`. -/
theorem leaves_rem {ord : Bool} {x x' : Inner} {c s : Nat}
    (h : Shape ord x) (hm : (c, s) ∈ slots x) (hr : RemSpec ord x c x') :
    (leaves x.toNode).Perm (leaves (x.children s) ++ leaves x'.toNode) := by
  rw [leaves_entries, leaves_entries]
  have hp : (entries x).Perm ((c, x.children s) :: entries x') := by
    rw [List.perm_ext_iff_of_nodup (entries_nodup h)]
    · rintro ⟨b, ch⟩
      rw [List.mem_cons, hr.mem]
      constructor
      · intro he
        by_cases hb : b = c
        · left
          subst hb
          obtain ⟨s', hs', e⟩ := (mem_entries x b ch).1 he
          have := slots_fst_unique h hs' hm
          subst this
          rw [e]
        · exact Or.inr ⟨he, hb⟩
      · rintro (he | he)
        · rw [he]
          exact (mem_entries x c _).2 ⟨s, hm, rfl⟩
        · exact he.1
    · rw [List.nodup_cons]
      refine ⟨?_, entries_nodup hr.shape⟩
      intro hmem
      exact ((hr.mem _).1 hmem).2 rfl
  have := List.Perm.flatMap_right (fun e : Nat × Node => leaves e.2) hp
  rw [List.flatMap_cons] at this
  exact this

/-- Where a stored key sits below a well-formed inner node: under the byte read after the
node's prefix, which the key spells out in full. -/
theorem stored_path {ord : Bool} {n : art_node} {keys : Nat → Nat} {children : Nat → Node}
    {path P : List Nat} (hwf : WF ord (Node.inner n keys children) path)
    (key : Nat → Nat) (key_len : Nat) (hP : P.length = n.partial_len)
    (hch : ∀ b s, (b, s) ∈ slots { n := n, keys := keys, children := children } →
        WF ord (children s) (path ++ P ++ [b]))
    (hz : ZeroBehind key key_len (leaves (Node.inner n keys children)))
    {v : Nat} (hv : (key_bytes key key_len, v) ∈ leaves (Node.inner n keys children)) :
    ∃ s, (key (path.length + n.partial_len), s) ∈
        slots { n := n, keys := keys, children := children } ∧
      (key_bytes key key_len, v) ∈ leaves (children s) ∧
      path.length + n.partial_len ≤ key_len ∧
      (∀ i, i < P.length → key (path.length + i) = P.getD i 0) ∧
      path ++ P ++ [key (path.length + n.partial_len)] <+: ext (key_bytes key key_len) := by
  have hv0 := hv
  rw [leaves_inner, List.mem_flatMap] at hv
  obtain ⟨⟨b, s⟩, hbs, hkv⟩ := hv
  obtain ⟨h1, h2, h3⟩ := stored_below hwf hP hch key key_len hz hbs hkv
  have hpre := (WF_leaves (hch b s hbs) _ hkv).1
  rw [h3]
  exact ⟨s, hbs, hkv, h1, h2, hpre⟩

theorem remove_child_node4 (x : Inner) (c s : Nat) (ht : x.n.type = NODE4) :
    remove_child x c s = remove_child4 x s := by
  unfold remove_child
  rw [ht]

/-- A well-formed subtree stays well formed along a shorter path when it is a leaf. -/
theorem WF_leaf_shorter {ord : Bool} {l : art_leaf} {path Q : List Nat}
    (h : WF ord (Node.leaf l) (path ++ Q)) : WF ord (Node.leaf l) path :=
  ⟨(List.prefix_append path Q).trans h.1, h.2⟩

/-- The collapsed node: the single remaining child of a NODE4, with the parent's prefix and
the child's key byte put in front of its own prefix. -/
theorem WF_collapse {ord : Bool} {n cn : art_node} {ckeys : Nat → Nat}
    {cchildren : Nat → Node} {path P : List Nat} {b2 : Nat}
    (hP : P.length = n.partial_len)
    (hcache : ∀ i, i < MAX_PREFIX_LEN → i < P.length → n.partial_ i = P.getD i 0)
    (h : WF ord (Node.inner cn ckeys cchildren) (path ++ P ++ [b2])) :
    WF ord (Node.inner (collapse_header n b2 cn) ckeys cchildren) path := by
  obtain ⟨hsh, hbig, P2, hP2, hcache2, hch2⟩ := (WF_inner_iff ord _ _ _ _).1 h
  obtain ⟨hs, hsh'⟩ := shape_header hsh (collapse_header_type n b2 cn)
    (collapse_header_nc n b2 cn)
  rw [WF_inner_iff]
  refine ⟨hsh', ?_, P ++ [b2] ++ P2, ?_, ?_, ?_⟩
  · rw [hs]; exact hbig
  · rw [collapse_header_len]
    simp only [List.length_append, List.length_singleton, hP, hP2]
    omega
  · intro i h1 h2
    simp only [List.length_append, List.length_singleton, hP, hP2] at h2
    rw [collapse_header_bytes n b2 cn i h1 (by omega)]
    by_cases c1 : i < n.partial_len
    · rw [if_pos c1, hcache i h1 (by omega), List.append_assoc,
        getD_append_left _ _ i (by omega)]
    · rw [if_neg c1]
      by_cases c2 : i = n.partial_len
      · rw [if_pos c2, getD_append_left _ _ i (by simp [hP]; omega),
          getD_append_right _ _ i (by omega)]
        have : i - P.length = 0 := by omega
        rw [this]
        rfl
      · rw [if_neg c2, getD_append_right _ _ i (by simp [hP]; omega)]
        have e : (P ++ [b2]).length = n.partial_len + 1 := by simp [hP]
        rw [e]
        have e2 : i - n.partial_len - 1 = i - (n.partial_len + 1) := by omega
        rw [e2]
        apply hcache2
        · unfold MAX_PREFIX_LEN at *; omega
        · omega
  · intro b s hbs
    rw [hs] at hbs
    have := hch2 b s hbs
    simp only [List.append_assoc] at this ⊢
    exact this

theorem filter_eq_nil_of_forall {α : Type} (l : List α) (q : α → Bool)
    (h : ∀ a, a ∈ l → q a = false) : l.filter q = [] := by
  rw [List.filter_eq_nil_iff]
  intro a ha
  rw [h a ha]
  exact Bool.false_ne_true

/-- Removing a leaf child that holds the key. -/
theorem delete_leaf_child (ord : Bool) (key : Nat → Nat) (key_len : Nat)
    (n : art_node) (keys : Nat → Nat) (children : Nat → Node) (path : List Nat)
    (hwf : WF ord (Node.inner n keys children) path) (s : Nat) (l : art_leaf)
    (hs : (key (path.length + n.partial_len), s) ∈
      slots { n := n, keys := keys, children := children })
    (hl : children s = Node.leaf l) (hK : l.key = key_bytes key key_len) :
    DeleteOk ord (Node.inner n keys children) path (key_bytes key key_len) l.value
      (remove_child { n := n, keys := keys, children := children }
        (key (path.length + n.partial_len)) s, some l) := by
  obtain ⟨hsh, hbig, P, hP, hcache, hch⟩ := (WF_inner_iff ord n keys children path).1 hwf
  generalize key (path.length + n.partial_len) = c at *
  have hsib : ∀ b' s', (b', s') ∈ slots { n := n, keys := keys, children := children } →
      b' ≠ c → ∀ kv, kv ∈ leaves (children s') → kv.1 ≠ key_bytes key key_len := by
    intro b' s' hbs' hne kv hkv
    have h1 := (WF_leaves (hch b' s' hbs') _ hkv).1
    have h2 := (WF_leaves (hch c s hs) (l.key, l.value) (by rw [hl]; simp [leaves])).1
    rw [← hK]
    exact fun e => (prefix_free_of_sibling h1 h2 hne).1 (by rw [e])
  have hown : (leaves (children s)).filter
      (fun kv => decide (kv.1 ≠ key_bytes key key_len)) = [] := by
    rw [hl]
    simp [leaves, hK]
  by_cases hcol : n.type = NODE4 ∧
      (slots { n := n, keys := keys, children := children }).length = 2
  · -- the node collapses into its other child
    obtain ⟨b2, s2, hm2, hb2, hall, hres⟩ :=
      remove_child4_collapse ord { n := n, keys := keys, children := children } c s
        hcol.1 hsh hcol.2 hs
    rw [remove_child_node4 _ _ _ hcol.1, hres]
    have hperm : (slots { n := n, keys := keys, children := children }).Perm
        [(c, s), (b2, s2)] := by
      rw [List.perm_ext_iff_of_nodup (slots_nodup hsh)]
      · rintro ⟨b', s'⟩
        constructor
        · intro h'
          rcases hall b' s' h' with ⟨e1, e2⟩ | ⟨e1, e2⟩
          · subst e1; subst e2; simp
          · subst e1; subst e2; simp
        · intro h'
          simp only [List.mem_cons, Prod.mk.injEq, List.mem_singleton, List.not_mem_nil,
            or_false] at h'
          rcases h' with ⟨e1, e2⟩ | ⟨e1, e2⟩
          · subst e1; subst e2; exact hs
          · subst e1; subst e2; exact hm2
      · simp only [List.nodup_cons, List.mem_singleton, Prod.mk.injEq, not_and,
          List.not_mem_nil, not_false_eq_true, List.nodup_nil, and_true]
        intro e
        exact absurd e.symm hb2
    have hlv : (leaves (Node.inner n keys children)).Perm
        (leaves (children s) ++ leaves (children s2)) := by
      rw [leaves_inner]
      have := List.Perm.flatMap_right (fun p : Nat × Nat => leaves (children p.2)) hperm
      simpa using this
    have hfil : ((leaves (Node.inner n keys children)).filter
        (fun kv => decide (kv.1 ≠ key_bytes key key_len))).Perm (leaves (children s2)) := by
      have := List.Perm.filter (fun kv : List Nat × Nat =>
        decide (kv.1 ≠ key_bytes key key_len)) hlv
      rw [List.filter_append, hown, List.nil_append,
        filter_eq_self_of_forall (leaves (children s2)) _
        (fun kv hkv => by simpa using hsib b2 s2 hm2 hb2 kv hkv)] at this
      exact this
    have hw2 := hch b2 s2 hm2
    show DeleteOk ord _ path _ _ ((match children s2 with
      | Node.inner cn ckeys cchildren => Node.inner (collapse_header n b2 cn) ckeys cchildren
      | child => child), some l)
    cases hc2 : children s2 with
    | null => rw [hc2] at hw2; exact absurd hw2 (by simp [WF])
    | leaf l2 =>
      rw [hc2] at hw2 hfil
      refine ⟨⟨l, rfl, hK, rfl⟩, hfil.symm, fun _ => ?_⟩
      have : WF ord (Node.leaf l2) (path ++ (P ++ [b2])) := by
        rw [← List.append_assoc]; exact hw2
      exact WF_leaf_shorter this
    | inner cn ckeys cchildren =>
      rw [hc2] at hw2 hfil
      refine ⟨⟨l, rfl, hK, rfl⟩, ?_, fun _ => WF_collapse hP hcache hw2⟩
      simp only
      rw [leaves_header cn (collapse_header n b2 cn) ckeys cchildren
        (collapse_header_type n b2 cn) (collapse_header_nc n b2 cn)]
      exact hfil.symm
  · obtain ⟨x', hx', hrem, hbig'⟩ :=
      remove_child_spec ord { n := n, keys := keys, children := children } c s hsh hbig hs hcol
    rw [hx']
    have hlv := leaves_rem hsh hs hrem
    have hsub : ∀ b' s', (b', s') ∈ slots x' → b' ≠ c ∧
        ∃ s'', (b', s'') ∈ slots { n := n, keys := keys, children := children } ∧
          x'.children s' = children s'' := by
      intro b' s' hbs'
      have := (hrem.mem (b', x'.children s')).1 ((mem_entries x' b' _).2 ⟨s', hbs', rfl⟩)
      exact ⟨this.2, (mem_entries _ b' _).1 this.1⟩
    refine ⟨⟨l, rfl, hK, rfl⟩, ?_, fun _ => ?_⟩
    · have := List.Perm.filter (fun kv : List Nat × Nat =>
        decide (kv.1 ≠ key_bytes key key_len)) hlv
      rw [List.filter_append] at this
      have hown' : (leaves (Inner.children { n := n, keys := keys, children := children } s)).filter
          (fun kv => decide (kv.1 ≠ key_bytes key key_len)) = [] := hown
      rw [hown', List.nil_append, filter_eq_self_of_forall (leaves x'.toNode) _ (fun kv hkv => by
        obtain ⟨b', s', hbs', hkv'⟩ := (mem_leaves_inner x' kv).1 hkv
        obtain ⟨hne, s'', hs'', e⟩ := hsub b' s' hbs'
        rw [e] at hkv'
        simpa using hsib b' s'' hs'' hne kv hkv')] at this
      exact this.symm
    · rw [WF_toNode_iff]
      refine ⟨hrem.shape, hbig', P, ?_, ?_, ?_⟩
      · rw [hrem.plen]; exact hP
      · intro i h1 h2
        rw [hrem.pbytes i h1 (by rw [← hP]; exact h2)]
        exact hcache i h1 h2
      · intro b' s' hbs'
        obtain ⟨_, s'', hs'', e⟩ := hsub b' s' hbs'
        rw [e]
        exact hch b' s'' hs''

/-- `recursive_delete` on a well-formed subtree that stores the key. -/
theorem delete_ok (simd ord : Bool) (key : Nat → Nat) (key_len : Nat)
    (hk : ∀ i, key i < 256) (n : Node) (path : List Nat) (hwf : WF ord n path) (v : Nat)
    (hv : (key_bytes key key_len, v) ∈ leaves n)
    (hz : ZeroBehind key key_len (leaves n)) :
    DeleteOk ord n path (key_bytes key key_len) v
      (recursive_delete simd key key_len n path.length) := by
  induction n generalizing path with
  | null => exact absurd hwf (by simp [WF])
  | leaf l =>
    simp only [leaves, List.mem_singleton, Prod.mk.injEq] at hv
    have hm : leaf_matches l key key_len path.length = 0 :=
      (leaf_matches_iff l key key_len path.length).2 hv.1.symm
    rw [recursive_delete, if_pos hm]
    refine ⟨⟨l, rfl, hv.1.symm, hv.2.symm⟩, ?_, fun h => absurd rfl (h l)⟩
    simp [leaves, hv.1]
  | inner n keys children ih =>
    obtain ⟨hsh, hbig, P, hP, hcache, hch⟩ := (WF_inner_iff ord n keys children path).1 hwf
    obtain ⟨s, hs, hkv, hlt, hag, hpre⟩ := stored_path hwf key key_len hP hch hz hv
    have hcp : ¬ (n.partial_len ≠ 0 ∧
        check_prefix n key key_len path.length ≠ min MAX_PREFIX_LEN n.partial_len) := by
      rintro ⟨_, h2⟩
      exact h2 (check_prefix_full n key key_len path.length P hP hcache hag (by omega))
    have hf := (find_child_iff simd ord _ hsh _ (hk _) s).2 hs
    by_cases hl : ∃ l, children s = Node.leaf l
    · obtain ⟨l, hl⟩ := hl
      rw [hl] at hkv
      simp only [leaves, List.mem_singleton, Prod.mk.injEq] at hkv
      have hm : leaf_matches l key key_len (path.length + n.partial_len) = 0 :=
        (leaf_matches_iff l key key_len _).2 hkv.1.symm
      rw [recursive_delete_leaf simd key key_len n keys children path.length s l hcp hf hl,
        if_pos hm, hkv.2]
      exact delete_leaf_child ord key key_len n keys children path hwf s l hs hl hkv.1.symm
    · rw [recursive_delete_rec simd key key_len n keys children path.length s hcp hf
        (fun l e => hl ⟨l, e⟩)]
      have hlen : (path ++ P ++ [key (path.length + n.partial_len)]).length
          = path.length + n.partial_len + 1 := by
        simp only [List.length_append, List.length_singleton, hP]
      have IH := ih s _ (hch _ s hs) hkv (ZeroBehind_child hz hs)
      rw [hlen] at IH
      generalize recursive_delete simd key key_len (children s)
        (path.length + n.partial_len + 1) = r at *
      have hrwf := IH.wf (fun l e => hl ⟨l, e⟩)
      have hrn := WF_not_null hrwf
      obtain ⟨rest, p1, p2, p3⟩ := leaves_split hsh hs
      have hrest : ∀ kv, kv ∈ rest → kv.1 ≠ key_bytes key key_len := by
        intro kv hkv'
        obtain ⟨b', s', hbs', hne, hkv''⟩ := p3 kv hkv'
        have h3 := (WF_leaves (hch b' s' hbs') _ hkv'').1
        exact fun e => (prefix_free_of_sibling h3 hpre hne).1 (by rw [e])
      refine ⟨IH.found, ?_, fun _ => ?_⟩
      · show (leaves (set_child { n := n, keys := keys, children := children } s r.1).toNode).Perm _
        refine (p2 r.1 hrn).trans ?_
        refine (List.Perm.append_right rest IH.perm).trans ?_
        have h1 := List.Perm.filter
          (fun kv : List Nat × Nat => decide (kv.1 ≠ key_bytes key key_len)) p1
        rw [List.filter_append, filter_eq_self_of_forall rest _
          (fun kv hkv => by simpa using hrest kv hkv)] at h1
        exact h1.symm
      · show WF ord (set_child { n := n, keys := keys, children := children } s r.1).toNode path
        rw [WF_toNode_iff]
        refine ⟨shape_set_child hsh hs r.1 hrn, ?_, P, hP, hcache, ?_⟩
        · rw [slots_set_child hsh hs r.1 hrn]; exact hbig
        · intro b s' hbs
          rw [slots_set_child hsh hs r.1 hrn] at hbs
          show WF ord (upd children s r.1 s') _
          by_cases e : s' = s
          · subst e
            have := slots_snd_unique hsh hbs hs
            subst this
            rw [upd_same]
            exact hrwf
          · rw [upd_other _ _ _ _ e]
            exact hch b s' hbs

theorem getLast_snoc_of {α : Type} (l : List α) (a : α) (h : l.getLast? = some a) :
    ∃ t, l = t ++ [a] := by
  induction l with
  | nil => cases h
  | cons b u ih =>
    cases u with
    | nil =>
      simp only [List.getLast?_singleton, Option.some.injEq] at h
      exact ⟨[], by rw [h]; rfl⟩
    | cons c w =>
      rw [List.getLast?_cons_cons] at h
      obtain ⟨t, ht⟩ := ih h
      exact ⟨b :: t, by rw [ht]; rfl⟩

/-- The last live slot of a node is the one `maximum` descends into. -/
theorem slots_last (n : art_node) (keys : Nat → Nat) (children : Nat → Node)
    (hne : slots { n := n, keys := keys, children := children } ≠ []) :
    ∃ t b s, slots { n := n, keys := keys, children := children } = t ++ [(b, s)] ∧
      maximum (Node.inner n keys children) = maximum (children s) := by
  rw [maximum]
  unfold slots at *
  rcases ht : n.type with _ | _ | _ | _
  · simp only [ht] at hne ⊢
    cases hn : n.num_children with
    | zero => rw [hn] at hne; simp at hne
    | succ k =>
      refine ⟨(List.range k).map (fun i => (keys i, i)), keys k, k, ?_, rfl⟩
      rw [List.range_succ, List.map_append]
      rfl
  · simp only [ht] at hne ⊢
    cases hn : n.num_children with
    | zero => rw [hn] at hne; simp at hne
    | succ k =>
      refine ⟨(List.range k).map (fun i => (keys i, i)), keys k, k, ?_, rfl⟩
      rw [List.range_succ, List.map_append]
      rfl
  · simp only [ht] at hne ⊢
    have hh := range_filter_getLast (fun c => keys c != 0) 256
    cases hs : scan_down (fun i => keys i != 0) 256 with
    | none =>
      rw [hs, List.getLast?_eq_none_iff] at hh
      rw [hh] at hne
      exact absurd rfl hne
    | some idx =>
      rw [hs] at hh
      obtain ⟨t, e⟩ := getLast_snoc_of _ _ hh
      refine ⟨t.map (fun c => (c, keys c - 1)), idx, keys idx - 1, ?_, rfl⟩
      rw [e, List.map_append]
      rfl
  · simp only [ht] at hne ⊢
    have hh := range_filter_getLast (fun c => !(children c).isNull) 256
    cases hs : scan_down (fun i => !(children i).isNull) 256 with
    | none =>
      rw [hs, List.getLast?_eq_none_iff] at hh
      rw [hh] at hne
      exact absurd rfl hne
    | some idx =>
      rw [hs] at hh
      obtain ⟨t, e⟩ := getLast_snoc_of _ _ hh
      refine ⟨t.map (fun c => (c, c)), idx, idx, ?_, rfl⟩
      rw [e, List.map_append]
      rfl

/-- On a well-formed subtree `maximum` returns the last leaf of the iteration. -/
theorem maximum_eq_last {ord : Bool} {n : Node} {path : List Nat} (h : WF ord n path) :
    (maximum n).map (fun l => (l.key, l.value)) = (leaves n).getLast? := by
  induction n generalizing path with
  | null => exact absurd h (by simp [WF])
  | leaf l => simp [maximum, leaves]
  | inner n keys children ih =>
    obtain ⟨hsh, hbig, P, hP, hcache, hch⟩ := (WF_inner_iff ord n keys children path).1 h
    have hne := slots_ne_nil_of_big (x := { n := n, keys := keys, children := children }) hbig
    obtain ⟨t, b, s, hs, hmax⟩ := slots_last n keys children hne
    have hm : (b, s) ∈ slots { n := n, keys := keys, children := children } := by
      rw [hs]; simp
    rw [hmax, leaves_inner, hs, getLast_flatMap_snoc (b, s) t
      (fun p => leaves (children p.2)) (WF_leaves_ne_nil (hch _ _ hm))]
    exact ih _ (hch _ _ hm)

theorem iter_prefix_end (simd : Bool) (key : Nat → Nat) (key_len : Nat)
    (n : art_node) (keys : Nat → Nat) (children : Nat → Node) (depth : Nat)
    (data : List (List Nat × Nat)) (l : art_leaf)
    (hd : depth = key_len) (hmin : minimum (Node.inner n keys children) = some l) :
    art_iter_prefix_loop simd key key_len collect (Node.inner n keys children) depth data =
      if leaf_prefix_matches l key key_len = 0 then
        some (recursive_iter collect (Node.inner n keys children) data)
      else some (0, data) := by
  rw [art_iter_prefix_loop]
  simp only [if_pos hd]
  show (match minimum (Node.inner n keys children) with
    | some l => _
    | none => _) = _
  rw [hmin]
  rfl

theorem iter_prefix_stop (simd : Bool) (key : Nat → Nat) (key_len : Nat)
    (n : art_node) (keys : Nat → Nat) (children : Nat → Node) (depth : Nat)
    (data : List (List Nat × Nat)) (hd : depth ≠ key_len)
    (h : n.partial_len ≠ 0 ∧
      (if prefix_mismatch { n := n, keys := keys, children := children } key key_len depth
          > n.partial_len then n.partial_len
        else prefix_mismatch { n := n, keys := keys, children := children } key key_len depth)
        = 0) :
    art_iter_prefix_loop simd key key_len collect (Node.inner n keys children) depth data =
      some (0, data) := by
  rw [art_iter_prefix_loop]
  simp only [if_neg hd, if_pos h]

theorem iter_prefix_all (simd : Bool) (key : Nat → Nat) (key_len : Nat)
    (n : art_node) (keys : Nat → Nat) (children : Nat → Node) (depth : Nat)
    (data : List (List Nat × Nat)) (hd : depth ≠ key_len)
    (h : ¬ (n.partial_len ≠ 0 ∧
      (if prefix_mismatch { n := n, keys := keys, children := children } key key_len depth
          > n.partial_len then n.partial_len
        else prefix_mismatch { n := n, keys := keys, children := children } key key_len depth)
        = 0))
    (h2 : n.partial_len ≠ 0 ∧ depth +
      (if prefix_mismatch { n := n, keys := keys, children := children } key key_len depth
          > n.partial_len then n.partial_len
        else prefix_mismatch { n := n, keys := keys, children := children } key key_len depth)
        = key_len) :
    art_iter_prefix_loop simd key key_len collect (Node.inner n keys children) depth data =
      some (recursive_iter collect (Node.inner n keys children) data) := by
  rw [art_iter_prefix_loop]
  simp only [if_neg hd, if_neg h, if_pos h2]
  rfl

theorem iter_prefix_descend (simd : Bool) (key : Nat → Nat) (key_len : Nat)
    (n : art_node) (keys : Nat → Nat) (children : Nat → Node) (depth slot : Nat)
    (data : List (List Nat × Nat)) (hd : depth ≠ key_len)
    (h : ¬ (n.partial_len ≠ 0 ∧
      (if prefix_mismatch { n := n, keys := keys, children := children } key key_len depth
          > n.partial_len then n.partial_len
        else prefix_mismatch { n := n, keys := keys, children := children } key key_len depth)
        = 0))
    (h2 : ¬ (n.partial_len ≠ 0 ∧ depth +
      (if prefix_mismatch { n := n, keys := keys, children := children } key key_len depth
          > n.partial_len then n.partial_len
        else prefix_mismatch { n := n, keys := keys, children := children } key key_len depth)
        = key_len))
    (hf : find_child simd { n := n, keys := keys, children := children }
      (key (depth + n.partial_len)) = some slot) :
    art_iter_prefix_loop simd key key_len collect (Node.inner n keys children) depth data =
      art_iter_prefix_loop simd key key_len collect (children slot)
        (depth + n.partial_len + 1) data := by
  rw [art_iter_prefix_loop]
  simp only [if_neg hd, if_neg h, if_neg h2, hf]

theorem iter_prefix_miss (simd : Bool) (key : Nat → Nat) (key_len : Nat)
    (n : art_node) (keys : Nat → Nat) (children : Nat → Node) (depth : Nat)
    (data : List (List Nat × Nat)) (hd : depth ≠ key_len)
    (h : ¬ (n.partial_len ≠ 0 ∧
      (if prefix_mismatch { n := n, keys := keys, children := children } key key_len depth
          > n.partial_len then n.partial_len
        else prefix_mismatch { n := n, keys := keys, children := children } key key_len depth)
        = 0))
    (h2 : ¬ (n.partial_len ≠ 0 ∧ depth +
      (if prefix_mismatch { n := n, keys := keys, children := children } key key_len depth
          > n.partial_len then n.partial_len
        else prefix_mismatch { n := n, keys := keys, children := children } key key_len depth)
        = key_len))
    (hf : find_child simd { n := n, keys := keys, children := children }
      (key (depth + n.partial_len)) = none) :
    art_iter_prefix_loop simd key key_len collect (Node.inner n keys children) depth data =
      some (0, data) := by
  rw [art_iter_prefix_loop]
  simp only [if_neg hd, if_neg h, if_neg h2, hf]

theorem sublist_flatMap_of_mem {α β : Type} (f : α → List β) (l : List α) (a : α)
    (h : a ∈ l) : (f a).Sublist (l.flatMap f) := by
  induction l with
  | nil => cases h
  | cons b t ih =>
    rw [List.flatMap_cons]
    rcases List.mem_cons.1 h with e | e
    · subst e
      exact List.sublist_append_left _ _
    · exact (ih e).trans (List.sublist_append_right _ _)

/-- The bytes a key shares with the prefix it starts with, read off a leaf that both the
edge path and the prefix lead to. -/
theorem match_bytes {path P k : List Nat} {b : Nat} (key : Nat → Nat) (key_len : Nat)
    (hp : path ++ P ++ [b] <+: k) (hm : key_bytes key key_len <+: k) :
    (∀ i, i < P.length → path.length + i < key_len → key (path.length + i) = P.getD i 0) ∧
    (path.length + P.length < key_len → key (path.length + P.length) = b) := by
  constructor
  · intro i hi hlt
    have h1 := getD_of_prefix_mid hp i hi
    have h2 := prefix_getD hm (path.length + i) (by rw [key_bytes_length]; exact hlt)
    rw [key_bytes_getD key key_len _ hlt] at h2
    rw [← h2, h1]
  · intro hlt
    obtain ⟨_, h1, _⟩ := prefix_snoc_getD hp
    simp only [List.length_append] at h1
    have h2 := prefix_getD hm (path.length + P.length) (by rw [key_bytes_length]; exact hlt)
    rw [key_bytes_getD key key_len _ hlt] at h2
    rw [← h2, h1]

/-- What `art_iter_prefix` visits below a well-formed node: leaves of the node, in iteration
order, among them every leaf whose key starts with the prefix when the node was reached
along the prefix. -/
theorem iter_prefix_ok (simd ord : Bool) (key : Nat → Nat) (key_len : Nat)
    (hk : ∀ i, key i < 256) (n : Node) (path : List Nat) (depth : Nat)
    (data : List (List Nat × Nat)) (hwf : WF ord n path) :
    ∃ V, art_iter_prefix_loop simd key key_len collect n depth data = some (0, data ++ V) ∧
      V.Sublist (leaves n) ∧
      (depth = path.length → path <+: key_bytes key key_len →
        ∀ kv, kv ∈ leaves n → key_bytes key key_len <+: kv.1 → kv ∈ V) := by
  induction n generalizing path depth with
  | null => exact absurd hwf (by simp [WF])
  | leaf l =>
    rw [art_iter_prefix_loop]
    by_cases hm : leaf_prefix_matches l key key_len = 0
    · rw [if_pos hm]
      exact ⟨[(l.key, l.value)], rfl, by simp [leaves], fun _ _ kv hkv _ => by
        simpa [leaves] using hkv⟩
    · rw [if_neg hm]
      refine ⟨[], by simp, List.nil_sublist _, fun _ _ kv hkv hmatch => ?_⟩
      simp only [leaves, List.mem_singleton] at hkv
      rw [hkv] at hmatch
      exact absurd ((leaf_prefix_matches_iff l key key_len).2 hmatch) hm
  | inner n keys children ih =>
    obtain ⟨hsh, hbig, P, hP, hcache, hch⟩ := (WF_inner_iff ord n keys children path).1 hwf
    obtain ⟨L, hmin, hLmem, hLlen, hLpre, hL, hLb⟩ := min_leaf_facts hwf P hch
    have hunder : ∀ kv, kv ∈ leaves (Node.inner n keys children) →
        ∃ b s, (b, s) ∈ slots { n := n, keys := keys, children := children } ∧
          kv ∈ leaves (children s) ∧ path ++ P ++ [b] <+: ext kv.1 := by
      intro kv hkv
      rw [leaves_inner, List.mem_flatMap] at hkv
      obtain ⟨⟨b, s⟩, hbs, hkv'⟩ := hkv
      exact ⟨b, s, hbs, hkv', (WF_leaves (hch b s hbs) _ hkv').1⟩
    by_cases hd : depth = key_len
    · rw [iter_prefix_end simd key key_len n keys children depth data L hd hmin]
      by_cases hm : leaf_prefix_matches L key key_len = 0
      · rw [if_pos hm, recursive_iter_collect]
        exact ⟨_, rfl, List.Sublist.refl _, fun _ _ kv hkv _ => hkv⟩
      · rw [if_neg hm]
        refine ⟨[], by simp, List.nil_sublist _, fun hdp hpre kv hkv hmatch => ?_⟩
        exfalso
        apply hm
        rw [leaf_prefix_matches_iff]
        have : path = key_bytes key key_len :=
          List.IsPrefix.eq_of_length hpre (by rw [key_bytes_length, ← hdp, hd])
        rw [← this]
        exact prefix_of_ext hLpre (by omega)
    · generalize hpm : prefix_mismatch { n := n, keys := keys, children := children }
        key key_len depth = pm
      have hspec : depth = path.length → path <+: key_bytes key key_len →
          (∀ i, i < pm → i < n.partial_len →
            path.length + i < key_len ∧ key (path.length + i) = P.getD i 0) ∧
          (pm < n.partial_len → path.length + pm = key_len ∨
            (path.length + pm < key_len ∧ key (path.length + pm) ≠ P.getD pm 0)) ∧
          path.length < key_len := by
        intro hdp hpre
        have hd' : path.length ≤ key_len := by
          have := prefix_length_le hpre
          rw [key_bytes_length] at this
          exact this
        have := prefix_mismatch_spec { n := n, keys := keys, children := children }
          key key_len path.length P L hmin hL hLlen hP hcache hd'
        rw [← hdp, hpm] at this
        rw [← hdp]
        refine ⟨this.1, this.2, ?_⟩
        rw [← hdp] at hd'
        omega
      by_cases h1 : n.partial_len ≠ 0 ∧ (if pm > n.partial_len then n.partial_len else pm) = 0
      · rw [iter_prefix_stop simd key key_len n keys children depth data hd (by rw [hpm]; exact h1)]
        refine ⟨[], by simp, List.nil_sublist _, fun hdp hpre kv hkv hmatch => ?_⟩
        exfalso
        obtain ⟨pa, pb, hlt⟩ := hspec hdp hpre
        obtain ⟨b, s, hbs, _, hp⟩ := hunder kv hkv
        have hb := (match_bytes key key_len hp (hmatch.trans (prefix_ext_self _))).1
        have hpm0 : pm = 0 := by
          obtain ⟨h1a, h1b⟩ := h1
          split_ifs at h1b
          · exact absurd h1b h1a
          · exact h1b
        subst hpm0
        rcases pb (by omega) with e | ⟨_, e⟩
        · omega
        · exact e (hb 0 (by omega) (by omega))
      · by_cases h2 : n.partial_len ≠ 0 ∧
            depth + (if pm > n.partial_len then n.partial_len else pm) = key_len
        · rw [iter_prefix_all simd key key_len n keys children depth data hd
            (by rw [hpm]; exact h1) (by rw [hpm]; exact h2), recursive_iter_collect]
          exact ⟨_, rfl, List.Sublist.refl _, fun _ _ kv hkv _ => hkv⟩
        · -- the facts about a leaf that starts with the prefix, for a consistent path
          have hcons : depth = path.length → path <+: key_bytes key key_len →
              ∀ kv, kv ∈ leaves (Node.inner n keys children) →
              key_bytes key key_len <+: kv.1 →
              path.length + n.partial_len < key_len ∧
              path ++ P ++ [key (path.length + n.partial_len)] <+: key_bytes key key_len ∧
              ∃ s, (key (path.length + n.partial_len), s) ∈
                  slots { n := n, keys := keys, children := children } ∧
                kv ∈ leaves (children s) := by
            intro hdp hpre kv hkv hmatch
            obtain ⟨pa, pb, hlt⟩ := hspec hdp hpre
            obtain ⟨b, s, hbs, hkv', hp⟩ := hunder kv hkv
            obtain ⟨hb1, hb2⟩ := match_bytes key key_len hp
              (hmatch.trans (prefix_ext_self _))
            rw [hP] at hb2
            have hfull : n.partial_len = 0 ∨ n.partial_len ≤ pm := by
              by_contra hcon
              have hlt' : pm < n.partial_len := by omega
              rcases pb hlt' with e | ⟨e1, e2⟩
              · apply h2
                refine ⟨by omega, ?_⟩
                rw [if_neg (by omega), hdp]
                exact e
              · exact e2 (hb1 pm (by omega) e1)
            have hle : path.length + n.partial_len < key_len := by
              rcases Nat.eq_zero_or_pos n.partial_len with e0 | e0
              · omega
              · have hge : n.partial_len ≤ pm := by omega
                have h3 := (pa (n.partial_len - 1) (by omega) (by omega)).1
                have h4 : ¬ (depth + (if pm > n.partial_len then n.partial_len else pm)
                    = key_len) := fun e => h2 ⟨by omega, e⟩
                have h5 : (if pm > n.partial_len then n.partial_len else pm)
                    = n.partial_len := by
                  split_ifs
                  · rfl
                  · omega
                rw [h5, hdp] at h4
                omega
            have hbc := hb2 hle
            subst hbc
            refine ⟨hle, ?_, s, hbs, hkv'⟩
            apply prefix_build _ _ _ _ hpre
            · rw [key_bytes_length, hP]; exact hle
            · intro i hi
              rw [key_bytes_getD key key_len _ (by omega)]
              exact hb1 i hi (by omega)
            · rw [hP]
              exact key_bytes_getD key key_len _ hle
          cases hf : find_child simd { n := n, keys := keys, children := children }
              (key (depth + n.partial_len)) with
          | none =>
            rw [iter_prefix_miss simd key key_len n keys children depth data hd
              (by rw [hpm]; exact h1) (by rw [hpm]; exact h2) hf]
            refine ⟨[], by simp, List.nil_sublist _, fun hdp hpre kv hkv hmatch => ?_⟩
            exfalso
            obtain ⟨_, _, s, hs, _⟩ := hcons hdp hpre kv hkv hmatch
            rw [hdp] at hf
            exact (find_child_none simd ord _ hsh _ (hk _)).1 hf s hs
          | some slot =>
            rw [iter_prefix_descend simd key key_len n keys children depth slot data hd
              (by rw [hpm]; exact h1) (by rw [hpm]; exact h2) hf]
            have hslot := (find_child_iff simd ord _ hsh _ (hk _) slot).1 hf
            obtain ⟨V, hV, hsub, hcomp⟩ := ih slot (path ++ P ++ [key (depth + n.partial_len)])
              (depth + n.partial_len + 1) (hch _ slot hslot)
            refine ⟨V, hV, ?_, fun hdp hpre kv hkv hmatch => ?_⟩
            · rw [leaves_inner]
              exact hsub.trans (sublist_flatMap_of_mem (fun p => leaves (children p.2)) _
                (key (depth + n.partial_len), slot) hslot)
            · obtain ⟨_, hpk, s, hs, hkv'⟩ := hcons hdp hpre kv hkv hmatch
              rw [← hdp] at hs hpk
              have := slots_fst_unique hsh hs hslot
              subst this
              apply hcomp _ hpk kv hkv' hmatch
              simp only [List.length_append, List.length_singleton, hP, hdp]

/-! ## The stored pairs as the operations change them -/

/-- Without a leaf for the key, `recursive_insert` never looks at `replace`. -/
theorem insert_mode_irrelevant (simd : Bool) (key : Nat → Nat) (key_len value : Nat)
    (hk : ∀ i, key i < 256) (n : Node) (depth : Nat)
    (h : ∀ v, (key_bytes key key_len, v) ∉ leaves n) :
    recursive_insert simd key key_len value true n depth =
      recursive_insert simd key key_len value false n depth := by
  induction n generalizing depth with
  | null => rfl
  | leaf l =>
    have hne : leaf_matches l key key_len depth ≠ 0 := by
      rw [leaf_matches_ne]
      intro e
      exact h l.value (by rw [← e]; simp [leaves])
    rw [recursive_insert_leaf, recursive_insert_leaf, if_neg hne, if_neg hne]
  | inner n keys children ih =>
    rw [recursive_insert_inner, recursive_insert_inner]
    by_cases hc : n.partial_len ≠ 0 ∧
      prefix_mismatch { n := n, keys := keys, children := children } key key_len depth
        < n.partial_len
    · rw [if_pos hc, if_pos hc]
    · rw [if_neg hc, if_neg hc]
      cases hf : find_child simd { n := n, keys := keys, children := children }
          (key (depth + n.partial_len)) with
      | none => rfl
      | some slot =>
        obtain ⟨b, hb⟩ := find_child_live simd _ _ (hk _) slot hf
        have := ih slot (depth + n.partial_len + 1) (fun v hv => h v (by
          rw [leaves_inner, List.mem_flatMap]
          exact ⟨(b, slot), hb, hv⟩))
        simp only [this]

theorem filter_ne_length (l : List (List Nat × Nat)) (K : List Nat) (v : Nat)
    (hn : (l.map Prod.fst).Nodup) (hm : (K, v) ∈ l) :
    (l.filter (fun kv => decide (kv.1 ≠ K))).length + 1 = l.length := by
  induction l with
  | nil => cases hm
  | cons a t ih =>
    rw [List.map_cons, List.nodup_cons] at hn
    by_cases ha : a.1 = K
    · have hnot : ∀ kv, kv ∈ t → decide (kv.1 ≠ K) = true := by
        intro kv hkv
        simp only [decide_eq_true_eq]
        intro e
        apply hn.1
        rw [ha, ← e]
        exact List.mem_map_of_mem _ hkv
      rw [List.filter_cons, if_neg (by simp [ha]), filter_eq_self_of_forall t _ hnot]
      rfl
    · have hm' : (K, v) ∈ t := by
        rcases List.mem_cons.1 hm with e | e
        · exact absurd (by rw [← e]) ha
        · exact e
      rw [List.filter_cons, if_pos (by simp [ha]), List.length_cons, List.length_cons,
        ih hn.2 hm']

/-- The contract of `recursive_insert` at the root of a trie. -/
theorem insert_tree (simd ord : Bool)
    (key : Nat → Nat) (key_len value : Nat) (replace : Bool) (hk : ∀ i, key i < 256)
    (t : art_tree) (hwf : WFtree ord t)
    (hord : AscOk simd ord key key_len (leaves t.root))
    (hpf : ∀ kv, kv ∈ leaves t.root → term_free kv.1 (key_bytes key key_len))
    (hz : ZeroBehind key key_len (leaves t.root)) :
    WFtree ord { root := (recursive_insert simd key key_len value replace t.root 0).1,
                 size := if (recursive_insert simd key key_len value replace t.root 0).2.2
                   then t.size else t.size + 1 } ∧
    (leaves (recursive_insert simd key key_len value replace t.root 0).1).Perm
      ((key_bytes key key_len,
        if (recursive_insert simd key key_len value replace t.root 0).2.2 && !replace
        then (recursive_insert simd key key_len value replace t.root 0).2.1 else value) ::
        (leaves t.root).filter (fun kv => decide (kv.1 ≠ key_bytes key key_len))) ∧
    (∀ v, (key_bytes key key_len, v) ∈ leaves t.root →
      (recursive_insert simd key key_len value replace t.root 0).2.2 = true ∧
      (recursive_insert simd key key_len value replace t.root 0).2.1 = v) ∧
    ((∀ v, (key_bytes key key_len, v) ∉ leaves t.root) →
      (recursive_insert simd key key_len value replace t.root 0).2.2 = false ∧
      (recursive_insert simd key key_len value replace t.root 0).2.1 = 0) := by
  obtain ⟨hroot, hsize⟩ := hwf
  rcases hroot with hnull | hw
  · rw [hnull]
    refine ⟨⟨Or.inr ?_, ?_⟩, ?_, ?_, ?_⟩
    · show WF ord (Node.leaf (make_leaf key key_len value)) []
      rw [WF_leaf_iff]
      exact ⟨List.nil_prefix, key_bytes_lt key key_len hk⟩
    · show t.size + 1 = 1
      rw [hsize, hnull]
      rfl
    · exact List.Perm.refl _
    · intro v hv
      cases hv
    · intro _
      exact ⟨rfl, rfl⟩
  · have ok : InsertOk ord t.root [] (key_bytes key key_len) value replace
        (recursive_insert simd key key_len value replace t.root 0) :=
      insert_ok simd ord key key_len value replace hk t.root [] hw hord List.nil_prefix hpf hz
    generalize recursive_insert simd key key_len value replace t.root 0 = r at *
    refine ⟨⟨Or.inr ok.wf, ?_⟩, ok.perm, ok.old, ok.fresh⟩
    have hlen := ok.perm.length_eq
    rw [List.length_cons] at hlen
    show (if r.2.2 = true then t.size else t.size + 1) = (leaves r.1).length
    by_cases hst : ∃ v, (key_bytes key key_len, v) ∈ leaves t.root
    · obtain ⟨v, hv⟩ := hst
      rw [if_pos (ok.old v hv).1, hlen, filter_ne_length _ _ v (WF_keys_nodup hw) hv, hsize]
    · have hfr : ∀ v, (key_bytes key key_len, v) ∉ leaves t.root := fun v hv => hst ⟨v, hv⟩
      rw [if_neg (by rw [(ok.fresh hfr).1]; exact Bool.false_ne_true), hlen,
        filter_eq_self_of_forall _ _ (fun kv hkv => by
          simp only [decide_eq_true_eq]
          intro e
          exact hfr kv.2 (by rw [← e]; exact hkv)), hsize]

theorem art_delete_some (simd : Bool) (t : art_tree) (key : Nat → Nat) (key_len : Nat)
    (l : art_leaf) (h : (recursive_delete simd key key_len t.root 0).2 = some l) :
    art_delete simd t key key_len =
      ({ root := (recursive_delete simd key key_len t.root 0).1, size := t.size - 1 },
        l.value) := by
  unfold art_delete
  simp only [h]

theorem art_delete_none (simd : Bool) (t : art_tree) (key : Nat → Nat) (key_len : Nat)
    (h : (recursive_delete simd key key_len t.root 0).2 = none) :
    art_delete simd t key key_len =
      ({ root := (recursive_delete simd key key_len t.root 0).1, size := t.size }, 0) := by
  unfold art_delete
  simp only [h]

/-- Deleting a key that no leaf carries leaves the trie as it is, on every trie. -/
theorem art_delete_absent (simd : Bool) (t : art_tree) (key : Nat → Nat) (key_len : Nat)
    (hk : ∀ i, key i < 256) (h : ∀ v, (key_bytes key key_len, v) ∉ leaves t.root) :
    art_delete simd t key key_len = (t, 0) := by
  have := delete_absent simd key key_len hk t.root 0 h
  rw [art_delete_none simd t key key_len (by rw [this]), this]

/-- The contract of `art_delete` on a well-formed trie. -/
theorem delete_tree (simd ord : Bool) (key : Nat → Nat) (key_len : Nat)
    (hk : ∀ i, key i < 256) (t : art_tree) (hwf : WFtree ord t)
    (hz : ZeroBehind key key_len (leaves t.root)) :
    WFtree ord (art_delete simd t key key_len).1 ∧
    (leaves (art_delete simd t key key_len).1.root).Perm
      ((leaves t.root).filter (fun kv => decide (kv.1 ≠ key_bytes key key_len))) ∧
    (∀ v, (key_bytes key key_len, v) ∈ leaves t.root →
      (art_delete simd t key key_len).2 = v ∧
      (art_delete simd t key key_len).1.size + 1 = t.size) := by
  by_cases hst : ∃ v, (key_bytes key key_len, v) ∈ leaves t.root
  · obtain ⟨v, hv⟩ := hst
    obtain ⟨hroot, hsize⟩ := hwf
    have hw : WF ord t.root [] := by
      rcases hroot with hnull | hw
      · rw [hnull] at hv; cases hv
      · exact hw
    have ok : DeleteOk ord t.root [] (key_bytes key key_len) v
        (recursive_delete simd key key_len t.root 0) :=
      delete_ok simd ord key key_len hk t.root [] hw v hv hz
    obtain ⟨l, hl, hlk, hlv⟩ := ok.found
    rw [art_delete_some simd t key key_len l hl]
    have hlen := ok.perm.length_eq
    have hfl := filter_ne_length _ _ v (WF_keys_nodup hw) hv
    have hnodup := WF_keys_nodup hw
    refine ⟨⟨?_, ?_⟩, ok.perm, ?_⟩
    · show (recursive_delete simd key key_len t.root 0).1 = Node.null ∨
        WF ord (recursive_delete simd key key_len t.root 0).1 []
      by_cases hleaf : ∃ l', t.root = Node.leaf l'
      · obtain ⟨l', hl'⟩ := hleaf
        left
        rw [hl'] at hv ⊢
        simp only [leaves, List.mem_singleton, Prod.mk.injEq] at hv
        have hm : leaf_matches l' key key_len 0 = 0 :=
          (leaf_matches_iff l' key key_len 0).2 hv.1.symm
        rw [recursive_delete, if_pos hm]
      · exact Or.inr (ok.wf (fun l' e => hleaf ⟨l', e⟩))
    · show t.size - 1 = (leaves (recursive_delete simd key key_len t.root 0).1).length
      omega
    · intro v' hv'
      have hvv : v' = v := by
        have h1 := List.inj_on_of_nodup_map hnodup hv' hv rfl
        exact (Prod.mk.inj h1).2
      subst hvv
      refine ⟨hlv, ?_⟩
      show t.size - 1 + 1 = t.size
      omega
  · have hfr : ∀ v, (key_bytes key key_len, v) ∉ leaves t.root := fun v hv => hst ⟨v, hv⟩
    rw [art_delete_absent simd t key key_len hk hfr]
    refine ⟨hwf, ?_, fun v hv => absurd hv (hfr v)⟩
    rw [filter_eq_self_of_forall _ _ (fun kv hkv => by
      simp only [decide_eq_true_eq]
      intro e
      exact hfr kv.2 (by rw [← e]; exact hkv))]

theorem stored_of_mem (M : List (List Nat × Nat)) (K : List Nat) (v : Nat)
    (hn : (M.map Prod.fst).Nodup) (hm : (K, v) ∈ M) : stored M K = some v := by
  unfold stored
  induction M with
  | nil => cases hm
  | cons a t ih =>
    rw [List.map_cons, List.nodup_cons] at hn
    by_cases ha : a.1 = K
    · rw [List.find?_cons_of_pos _ (by simp [ha])]
      rcases List.mem_cons.1 hm with e | e
      · rw [← e]; rfl
      · exfalso
        apply hn.1
        rw [ha]
        exact List.mem_map_of_mem Prod.fst e
    · rw [List.find?_cons_of_neg _ (by simp [ha])]
      rcases List.mem_cons.1 hm with e | e
      · exact absurd (by rw [← e]) ha
      · exact ih hn.2 e

theorem stored_none (M : List (List Nat × Nat)) (K : List Nat)
    (h : ∀ v, (K, v) ∉ M) : stored M K = none := by
  unfold stored
  rw [Option.map_eq_none', List.find?_eq_none]
  intro kv hkv
  simp only [decide_eq_true_eq]
  intro e
  exact h kv.2 (by rw [← e]; exact hkv)

theorem ZeroBehind_perm {key : Nat → Nat} {key_len : Nat} {l l' : List (List Nat × Nat)}
    (hz : ZeroBehind key key_len l) (hp : l'.Perm l) : ZeroBehind key key_len l' :=
  ZeroBehind_mono hz (fun _ hkv => hp.mem_iff.1 hkv)

/-- The stored keys of a reachable trie have bytes below the bound of the inserted keys. -/
theorem reach_bytes {simd : Bool} {B : Nat} {t : art_tree} {M : List (List Nat × Nat)}
    (h : ReachT simd B t M) : ∀ kv, kv ∈ M → ∀ b, b ∈ kv.1 → b < B := by
  have hins : ∀ (M : List (List Nat × Nat)) (key : Nat → Nat) (key_len value : Nat)
      (replace : Bool), (∀ i, i < key_len → key i < B) →
      (∀ kv, kv ∈ M → ∀ b, b ∈ kv.1 → b < B) →
      ∀ kv, kv ∈ m_insert M (key_bytes key key_len) value replace →
        ∀ b, b ∈ kv.1 → b < B := by
    intro M key key_len value replace hB ih kv hkv b hb
    unfold m_insert at hkv
    rcases List.mem_cons.1 hkv with e | e
    · rw [e] at hb
      unfold key_bytes at hb
      obtain ⟨i, hi, rfl⟩ := List.mem_map.1 hb
      exact hB i (List.mem_range.1 hi)
    · exact ih kv (List.mem_filter.1 e).1 b hb
  induction h with
  | init => intro kv hkv; cases hkv
  | insert t M key key_len value _ _ hB _ _ ih => exact hins M key key_len value true hB ih
  | insert_no_replace t M key key_len value _ _ hB _ _ ih =>
    exact hins M key key_len value false hB ih
  | delete t M key key_len _ _ _ ih =>
    intro kv hkv
    exact ih kv (List.mem_filter.1 hkv).1

/-- Every reachable trie is well formed and holds exactly the pairs of its history; its
nodes have their key bytes in ascending order in the scalar build, and in the SSE2 build
when the inserted keys have bytes below 128. -/
theorem reach_inv (simd ord : Bool) {B : Nat} (hord : ord = true → simd = false ∨ B ≤ 128)
    {t : art_tree} {M : List (List Nat × Nat)} (h : ReachT simd B t M) :
    WFtree ord t ∧ (leaves t.root).Perm M := by
  have hasc : ∀ (t : art_tree) (M : List (List Nat × Nat)) (key : Nat → Nat) (key_len : Nat),
      ReachT simd B t M → (leaves t.root).Perm M → (∀ i, i < key_len → key i < B) →
      AscOk simd ord key key_len (leaves t.root) := by
    intro t M key key_len hr hperm hB ho
    refine (hord ho).imp id (fun hb => ⟨fun i hi => Nat.lt_of_lt_of_le (hB i hi) hb,
      fun kv hkv b hb2 => Nat.lt_of_lt_of_le (reach_bytes hr kv (hperm.mem_iff.1 hkv) b hb2) hb⟩)
  induction h with
  | init => exact ⟨⟨Or.inl rfl, rfl⟩, List.Perm.refl _⟩
  | insert t M key key_len value hr hk hB hpf hz ih =>
    obtain ⟨hwf, hperm⟩ := ih
    obtain ⟨h1, h2, _, _⟩ := insert_tree simd ord key key_len value true hk t hwf
      (hasc t M key key_len hr hperm hB)
      (fun kv hkv => hpf kv (hperm.mem_iff.1 hkv)) (ZeroBehind_perm hz hperm)
    refine ⟨h1, ?_⟩
    show (leaves (recursive_insert simd key key_len value true t.root 0).1).Perm _
    refine h2.trans ?_
    unfold m_insert
    simp only [Bool.not_true, Bool.and_false, Bool.false_eq_true, if_false, if_true]
    exact List.Perm.cons _ (List.Perm.filter _ hperm)
  | insert_no_replace t M key key_len value hr hk hB hpf hz ih =>
    obtain ⟨hwf, hperm⟩ := ih
    obtain ⟨h1, h2, h3, h4⟩ := insert_tree simd ord key key_len value false hk t hwf
      (hasc t M key key_len hr hperm hB)
      (fun kv hkv => hpf kv (hperm.mem_iff.1 hkv)) (ZeroBehind_perm hz hperm)
    refine ⟨h1, ?_⟩
    show (leaves (recursive_insert simd key key_len value false t.root 0).1).Perm _
    refine h2.trans ?_
    unfold m_insert
    have hval : (if ((recursive_insert simd key key_len value false t.root 0).2.2 && !false)
          = true
        then (recursive_insert simd key key_len value false t.root 0).2.1 else value)
        = (if false = true then value else (stored M (key_bytes key key_len)).getD value) := by
      by_cases hst : ∃ v, (key_bytes key key_len, v) ∈ leaves t.root
      · obtain ⟨v, hv⟩ := hst
        have hw : WF ord t.root [] := by
          rcases hwf.1 with hnull | hw
          · rw [hnull] at hv; cases hv
          · exact hw
        have hn : (M.map Prod.fst).Nodup :=
          (List.Perm.map Prod.fst hperm).nodup_iff.1 (WF_keys_nodup hw)
        rw [(h3 v hv).1, (h3 v hv).2, stored_of_mem M _ v hn (hperm.mem_iff.1 hv)]
        rfl
      · have hfr : ∀ v, (key_bytes key key_len, v) ∉ leaves t.root :=
          fun v hv => hst ⟨v, hv⟩
        rw [(h4 hfr).1, stored_none M _ (fun v hv => hfr v (hperm.mem_iff.2 hv))]
        rfl
    rw [hval]
    exact List.Perm.cons _ (List.Perm.filter _ hperm)
  | delete t M key key_len _ hk hz ih =>
    obtain ⟨hwf, hperm⟩ := ih
    obtain ⟨h1, h2, _⟩ := delete_tree simd ord key key_len hk t hwf (ZeroBehind_perm hz hperm)
    exact ⟨h1, h2.trans (List.Perm.filter _ hperm)⟩

/-! ## Consequences of reachability -/

theorem key_bytes_congr (key key' : Nat → Nat) (key_len : Nat)
    (h : ∀ i, i < key_len → key' i = key i) : key_bytes key' key_len = key_bytes key key_len := by
  unfold key_bytes
  apply List.map_congr_left
  intro i hi
  exact h i (List.mem_range.1 hi)

theorem buf_lt (l : List Nat) (h : ∀ b, b ∈ l → b < 256) : ∀ i, buf l i < 256 := by
  intro i
  unfold buf
  by_cases hi : i < l.length
  · rw [List.getD_eq_getElem _ _ hi]
    exact h _ (List.getElem_mem hi)
  · rw [getD_of_ge l i (by omega)]
    decide

theorem reach_root {simd ord : Bool} {B : Nat} (hord : ord = true → simd = false ∨ B ≤ 128)
    {t : art_tree} {M : List (List Nat × Nat)} (h : ReachT simd B t M) (hne : M ≠ []) :
    WF ord t.root [] := by
  obtain ⟨hwf, hperm⟩ := reach_inv simd ord hord h
  rcases hwf.1 with hnull | hw
  · rw [hnull] at hperm
    exact absurd hperm.symm.eq_nil hne
  · exact hw

theorem reach_nodup {simd : Bool} {B : Nat} {t : art_tree} {M : List (List Nat × Nat)}
    (h : ReachT simd B t M) : (M.map Prod.fst).Nodup := by
  by_cases hne : M = []
  · rw [hne]; exact List.nodup_nil
  · have hw := @reach_root _ false _ (by intro e; cases e) _ _ h hne
    obtain ⟨_, hperm⟩ := reach_inv simd false (by intro e; cases e) h
    exact (List.Perm.map Prod.fst hperm).nodup_iff.1 (WF_keys_nodup hw)

/-- Two stored pairs of a reachable trie with different keys have keys that can be filed
together. -/
theorem reach_term_free {simd : Bool} {B : Nat} {t : art_tree} {M : List (List Nat × Nat)}
    (h : ReachT simd B t M) (a b : List Nat × Nat) (ha : a ∈ M) (hb : b ∈ M)
    (hne : a.1 ≠ b.1) : term_free a.1 b.1 := by
  have hw := @reach_root _ false _ (by intro e; cases e) _ _ h (List.ne_nil_of_mem ha)
  obtain ⟨_, hperm⟩ := reach_inv simd false (by intro e; cases e) h
  have hp := WF_keys_term_free hw
  have hp2 : (leaves t.root).Pairwise (fun x y => term_free x.1 y.1) := List.pairwise_map.1 hp
  have hnd : (leaves t.root).Nodup :=
    List.Nodup.of_map Prod.fst (WF_keys_nodup hw)
  have ha2 := hperm.mem_iff.2 ha
  have hb2 := hperm.mem_iff.2 hb
  have hab : a ≠ b := fun e => hne (by rw [e])
  exact List.Pairwise.forall (fun _ _ hxy => term_free_symm hxy) hp2 ha2 hb2 hab

/-- A stored pair is found by `art_search`. -/
theorem reach_search {simd : Bool} {B : Nat} {t : art_tree} {M : List (List Nat × Nat)}
    (h : ReachT simd B t M) (key : Nat → Nat) (key_len v : Nat)
    (hm : (key_bytes key key_len, v) ∈ M) (hz : ZeroBehind key key_len M) :
    art_search simd t key key_len = v := by
  have hw := @reach_root _ false _ (by intro e; cases e) _ _ h (List.ne_nil_of_mem hm)
  obtain ⟨_, hperm⟩ := reach_inv simd false (by intro e; cases e) h
  exact search_complete simd false key key_len t.root [] hw v (hperm.mem_iff.2 hm)
    (ZeroBehind_perm hz hperm)

/-- A key that is not stored is not found. -/
theorem reach_search_absent {simd : Bool} {B : Nat} {t : art_tree}
    {M : List (List Nat × Nat)}
    (h : ReachT simd B t M) (key : Nat → Nat) (key_len : Nat) (hk : ∀ i, key i < 256)
    (hm : ∀ v, (key_bytes key key_len, v) ∉ M) : art_search simd t key key_len = 0 := by
  obtain ⟨_, hperm⟩ := reach_inv simd false (by intro e; cases e) h
  by_contra hne
  exact hm _ (hperm.mem_iff.1 (search_sound simd key key_len hk t.root 0 hne))

theorem m_insert_mem (M : List (List Nat × Nat)) (K : List Nat) (value : Nat) :
    (K, value) ∈ m_insert M K value true := by
  unfold m_insert
  simp

theorem m_delete_not_mem (M : List (List Nat × Nat)) (K : List Nat) (v : Nat) :
    (K, v) ∉ m_delete M K := by
  unfold m_delete
  simp

/-- The size of a reachable trie is the number of its leaves and of its stored pairs. -/
theorem reach_size {simd : Bool} {B : Nat} {t : art_tree} {M : List (List Nat × Nat)}
    (h : ReachT simd B t M) : t.size = (leaves t.root).length ∧ t.size = M.length := by
  obtain ⟨hwf, hperm⟩ := reach_inv simd false (by intro e; cases e) h
  exact ⟨hwf.2, by rw [hwf.2, hperm.length_eq]⟩

theorem ZeroBehind_zero {key : Nat → Nat} {key_len : Nat} {l : List (List Nat × Nat)}
    (h : key key_len = 0) : ZeroBehind key key_len l :=
  fun _ _ _ _ _ _ _ => h

theorem ZeroBehind_nil (key : Nat → Nat) (key_len : Nat) : ZeroBehind key key_len [] :=
  fun _ _ ha => by cases ha

theorem reach_mono {simd : Bool} {B B' : Nat} (hB : B ≤ B') {t : art_tree}
    {M : List (List Nat × Nat)} (h : ReachT simd B t M) : ReachT simd B' t M := by
  induction h with
  | init => exact ReachT.init
  | insert t M key key_len value _ hk hb hpf hz ih =>
    exact ReachT.insert t M key key_len value ih hk
      (fun i hi => Nat.lt_of_lt_of_le (hb i hi) hB) hpf hz
  | insert_no_replace t M key key_len value _ hk hb hpf hz ih =>
    exact ReachT.insert_no_replace t M key key_len value ih hk
      (fun i hi => Nat.lt_of_lt_of_le (hb i hi) hB) hpf hz
  | delete t M key key_len _ hk hz ih => exact ReachT.delete t M key key_len ih hk hz

/-! ### Keys none of which is a proper prefix of another -/

theorem term_free_of_prefix_free {a b : List Nat} (h : prefix_free a b) : term_free a b := by
  have key : ∀ x y : List Nat, (x <+: y → x = y) → ext x <+: ext y → ext x = ext y := by
    intro x y hxy hp
    have hl := hp.length_le
    simp only [ext_length] at hl
    by_cases hlen : x.length = y.length
    · exact hp.eq_of_length (by simp only [ext_length]; omega)
    · have h2 : ext x <+: y :=
        List.prefix_of_prefix_length_le hp (List.prefix_append y [0])
          (by simp only [ext_length]; omega)
      have h3 : x <+: y := (List.prefix_append x [0]).trans h2
      rw [hxy h3] at h2
      have := h2.length_le
      simp only [ext_length] at this
      omega
  exact ⟨key a b h.1, fun hp => (key b a (fun q => (h.2 q).symm) hp).symm⟩

theorem ZeroBehind_of_prefix_free {key : Nat → Nat} {key_len : Nat}
    {M : List (List Nat × Nat)}
    (h : ∀ kv, kv ∈ M → prefix_free kv.1 (key_bytes key key_len)) :
    ZeroBehind key key_len M := by
  intro a b ha hb hne hpa hpb
  exact absurd (((h a ha).2 hpa).trans ((h b hb).2 hpb).symm) hne

/-- A history of keys none of which is a proper prefix of a stored key, from any buffers, is
a history of keys that can be filed. -/
theorem reach_T {simd : Bool} {t : art_tree} {M : List (List Nat × Nat)}
    (h : Reach simd t M) :
    ReachT simd 256 t M ∧ ∀ a b, a ∈ M → b ∈ M → prefix_free a.1 b.1 := by
  have hins : ∀ (M : List (List Nat × Nat)) (K : List Nat) (value : Nat) (replace : Bool),
      (∀ kv, kv ∈ M → prefix_free kv.1 K) →
      (∀ a b, a ∈ M → b ∈ M → prefix_free a.1 b.1) →
      ∀ a b, a ∈ m_insert M K value replace → b ∈ m_insert M K value replace →
        prefix_free a.1 b.1 := by
    intro M K value replace hpf ih a b ha hb
    unfold m_insert at ha hb
    rcases List.mem_cons.1 ha with ea | ea <;> rcases List.mem_cons.1 hb with eb | eb
    · rw [ea, eb]; exact ⟨fun _ => rfl, fun _ => rfl⟩
    · rw [ea]
      have := hpf b (List.mem_filter.1 eb).1
      exact ⟨fun q => (this.2 q).symm, fun q => (this.1 q).symm⟩
    · rw [eb]; exact hpf a (List.mem_filter.1 ea).1
    · exact ih a b (List.mem_filter.1 ea).1 (List.mem_filter.1 eb).1
  induction h with
  | init => exact ⟨ReachT.init, fun a b ha => by cases ha⟩
  | insert t M key key_len value _ hk hpf ih =>
    exact ⟨ReachT.insert t M key key_len value ih.1 hk (fun i _ => hk i)
      (fun kv hkv => term_free_of_prefix_free (hpf kv hkv)) (ZeroBehind_of_prefix_free hpf),
      hins M _ value true hpf ih.2⟩
  | insert_no_replace t M key key_len value _ hk hpf ih =>
    exact ⟨ReachT.insert_no_replace t M key key_len value ih.1 hk (fun i _ => hk i)
      (fun kv hkv => term_free_of_prefix_free (hpf kv hkv)) (ZeroBehind_of_prefix_free hpf),
      hins M _ value false hpf ih.2⟩
  | delete t M key key_len _ hk ih =>
    refine ⟨?_, fun a b ha hb => ih.2 a b (List.mem_filter.1 ha).1 (List.mem_filter.1 hb).1⟩
    by_cases hz : ZeroBehind key key_len M
    · exact ReachT.delete t M key key_len ih.1 hk hz
    · have hab : ∀ v, (key_bytes key key_len, v) ∉ M := by
        intro v hv
        apply hz
        intro a b ha hb hne hpa hpb
        exact absurd (((ih.2 a _ ha hv).2 hpa).trans ((ih.2 b _ hb hv).2 hpb).symm) hne
      obtain ⟨hwf, hperm⟩ := reach_inv simd false (by intro e; cases e) ih.1
      have e1 : (art_delete simd t key key_len).1 = t :=
        congrArg Prod.fst (art_delete_absent simd t key key_len hk
          (fun v hv => hab v (hperm.mem_iff.1 hv)))
      have e2 : m_delete M (key_bytes key key_len) = M := by
        unfold m_delete
        apply filter_eq_self_of_forall
        intro kv hkv
        apply decide_eq_true
        intro e
        exact hab kv.2 (by rw [← e]; exact hkv)
      rw [e1, e2]
      exact ih.1

/-! ## Example tries -/

/-! ## The example tries are reachable -/

theorem reach_abc : ReachT false 256 trie_abc [([97, 98, 99], 1)] :=
  ReachT.insert art_tree_init [] (buf [97, 98, 99]) 3 1 ReachT.init
    (buf_lt _ (by decide)) (fun i _ => buf_lt _ (by decide) i) (by decide)
    (ZeroBehind_zero rfl)

theorem reach_abd : ReachT false 256 trie_abd [([97, 98, 100], 2), ([97, 98, 99], 1)] :=
  ReachT.insert trie_abc [([97, 98, 99], 1)] (buf [97, 98, 100]) 3 2 reach_abc
    (buf_lt _ (by decide)) (fun i _ => buf_lt _ (by decide) i) (by decide)
    (ZeroBehind_zero rfl)

/-! ## Round trips -/

/-- C1 (amended): in a trie reached by calls with keys that can be filed (at an insert
neither the key nor a stored key, followed by a zero byte, is a prefix of the other; at
every call the byte behind the key in the buffer is zero when at least two stored keys start
with the key), after `art_insert(K, V)` of such a key `art_search(K)` returns `V`.  The key
may be a proper prefix or a proper extension of stored keys and may hold zero bytes. -/
theorem C1_insert_then_search (simd : Bool) (t : art_tree) (M : List (List Nat × Nat))
    (key key' : Nat → Nat) (key_len value : Nat) (hr : ReachT simd 256 t M)
    (hk : ∀ i, key i < 256)
    (hpf : ∀ kv, kv ∈ M → term_free kv.1 (key_bytes key key_len))
    (hz : ZeroBehind key key_len M)
    (hk' : ∀ i, i < key_len → key' i = key i)
    (hz' : ZeroBehind key' key_len (m_insert M (key_bytes key key_len) value true)) :
    art_search simd (art_insert simd t key key_len value).1 key' key_len = value := by
  have hr' := ReachT.insert t M key key_len value hr hk (fun i _ => hk i) hpf hz
  apply reach_search hr' key' key_len value _ hz'
  rw [key_bytes_congr key key' key_len hk']
  exact m_insert_mem M _ value

/-- C1 at a concrete input: with "abc" ↦ 1 stored, inserting its proper prefix "ab" ↦ 7 from
a zero-terminated buffer and searching "ab" gives 7. -/
theorem C1_insert_then_search_witness :
    art_search false (art_insert false trie_abc (buf [97, 98]) 2 7).1 (buf [97, 98]) 2 = 7 :=
  C1_insert_then_search false trie_abc [([97, 98, 99], 1)] (buf [97, 98]) (buf [97, 98]) 2 7
    (ReachT.insert art_tree_init [] (buf [97, 98, 99]) 3 1 ReachT.init
      (buf_lt _ (by decide)) (fun i _ => buf_lt _ (by decide) i) (by decide)
      (ZeroBehind_zero rfl))
    (buf_lt _ (by decide)) (by decide) (ZeroBehind_zero rfl) (fun _ _ => rfl)
    (ZeroBehind_zero rfl)

/-- C1 (as written) fails in two ways.  With "abc" stored, `art_insert` of the key "ab",
given as the first two bytes of the buffer "abc", with value 7 is followed by an
`art_search` of the same key in the same buffer that returns absent: the byte behind the
key is not zero.  With "a" stored, `art_insert` of the key "a" followed by a zero byte, with
value 2, is followed by an `art_search` of that key that returns absent: the key continues
a stored key with a zero byte. -/
theorem C1_prefix_key_not_found :
    art_search false
      (art_insert false (art_insert false art_tree_init (buf [97, 98, 99]) 3 1).1
        (buf [97, 98, 99]) 2 7).1
      (buf [97, 98, 99]) 2 = 0 ∧
    art_search false
      (art_insert false (art_insert false art_tree_init (buf [97]) 1 1).1
        (buf [97, 0]) 2 2).1
      (buf [97, 0]) 2 = 0 := by decide

/-- C2 (amended): in a trie reached by calls with keys that can be filed, after
`art_insert(K, V)` of such a key `art_delete(K)` returns `V` and a following
`art_search(K)` returns absent. -/
theorem C2_insert_then_delete (simd : Bool) (t : art_tree) (M : List (List Nat × Nat))
    (key key' : Nat → Nat) (key_len value : Nat) (hr : ReachT simd 256 t M)
    (hk : ∀ i, key i < 256)
    (hpf : ∀ kv, kv ∈ M → term_free kv.1 (key_bytes key key_len))
    (hz : ZeroBehind key key_len M)
    (hb : ∀ i, key' i < 256) (hk' : ∀ i, i < key_len → key' i = key i)
    (hz' : ZeroBehind key' key_len (m_insert M (key_bytes key key_len) value true)) :
    (art_delete simd (art_insert simd t key key_len value).1 key' key_len).2 = value ∧
    art_search simd (art_delete simd (art_insert simd t key key_len value).1 key' key_len).1
      key' key_len = 0 := by
  have hr' := ReachT.insert t M key key_len value hr hk (fun i _ => hk i) hpf hz
  have hr'' := ReachT.delete _ _ key' key_len hr' hb hz'
  obtain ⟨hwf, hperm⟩ := reach_inv simd false (by intro e; cases e) hr'
  have hkb := key_bytes_congr key key' key_len hk'
  constructor
  · refine ((delete_tree simd false key' key_len hb _ hwf (ZeroBehind_perm hz' hperm)).2.2
      value ?_).1
    rw [hkb]
    exact hperm.mem_iff.2 (m_insert_mem M _ value)
  · exact reach_search_absent hr'' key' key_len hb (fun v => m_delete_not_mem _ _ v)

/-- C2 at a concrete input: with "abc" ↦ 1 and "abd" ↦ 2 stored, inserting their proper
prefix "ab" ↦ 3 from a zero-terminated buffer and deleting "ab" gives 3, and "ab" is absent
afterwards. -/
theorem C2_insert_then_delete_witness :
    (art_delete false (art_insert false trie_abd (buf [97, 98]) 2 3).1
      (buf [97, 98]) 2).2 = 3 ∧
    art_search false (art_delete false (art_insert false trie_abd (buf [97, 98]) 2 3).1
      (buf [97, 98]) 2).1 (buf [97, 98]) 2 = 0 :=
  C2_insert_then_delete false trie_abd [([97, 98, 100], 2), ([97, 98, 99], 1)]
    (buf [97, 98]) (buf [97, 98]) 2 3
    (ReachT.insert trie_abc [([97, 98, 99], 1)] (buf [97, 98, 100]) 3 2
      (ReachT.insert art_tree_init [] (buf [97, 98, 99]) 3 1 ReachT.init
        (buf_lt _ (by decide)) (fun i _ => buf_lt _ (by decide) i) (by decide)
        (ZeroBehind_zero rfl))
      (buf_lt _ (by decide)) (fun i _ => buf_lt _ (by decide) i) (by decide)
      (ZeroBehind_zero rfl))
    (buf_lt _ (by decide)) (by decide) (ZeroBehind_zero rfl) (buf_lt _ (by decide))
    (fun _ _ => rfl) (ZeroBehind_zero rfl)

/-- C2 (as written) fails in two ways.  With "abc" stored, after `art_insert` of the key
"ab", given as the first two bytes of the buffer "abc", with value 7, `art_delete` of the
same key in the same buffer returns absent: the byte behind the key is not zero.  With "a"
stored, after `art_insert` of the key "a" followed by a zero byte, with value 2,
`art_delete` of that key returns absent: the key continues a stored key with a zero
byte. -/
theorem C2_prefix_key_not_deleted :
    (art_delete false
      (art_insert false (art_insert false art_tree_init (buf [97, 98, 99]) 3 1).1
        (buf [97, 98, 99]) 2 7).1
      (buf [97, 98, 99]) 2).2 = 0 ∧
    (art_delete false
      (art_insert false (art_insert false art_tree_init (buf [97]) 1 1).1
        (buf [97, 0]) 2 2).1
      (buf [97, 0]) 2).2 = 0 := by decide

/-- What an insert in either mode does to a reachable trie. -/
theorem reach_insert_facts {simd : Bool} {B : Nat} {t : art_tree}
    {M : List (List Nat × Nat)}
    (hr : ReachT simd B t M) (key : Nat → Nat) (key_len value : Nat) (replace : Bool)
    (hk : ∀ i, key i < 256)
    (hpf : ∀ kv, kv ∈ M → term_free kv.1 (key_bytes key key_len))
    (hz : ZeroBehind key key_len M) :
    (∀ v, (key_bytes key key_len, v) ∈ M →
      (recursive_insert simd key key_len value replace t.root 0).2.2 = true ∧
      (recursive_insert simd key key_len value replace t.root 0).2.1 = v) ∧
    ((∀ v, (key_bytes key key_len, v) ∉ M) →
      (recursive_insert simd key key_len value replace t.root 0).2.2 = false ∧
      (recursive_insert simd key key_len value replace t.root 0).2.1 = 0) := by
  obtain ⟨hwf, hperm⟩ := reach_inv simd false (by intro e; cases e) hr
  obtain ⟨_, _, h3, h4⟩ := insert_tree simd false key key_len value
    replace hk t hwf (by intro e; cases e) (fun kv hkv => hpf kv (hperm.mem_iff.1 hkv))
    (ZeroBehind_perm hz hperm)
  exact ⟨fun v hv => h3 v (hperm.mem_iff.2 hv),
    fun h => h4 (fun v hv => h v (hperm.mem_iff.1 hv))⟩

/-- An insert of a stored key leaves the condition on the byte behind the key as it is. -/
theorem ZeroBehind_insert_stored {key : Nat → Nat} {key_len : Nat}
    {M : List (List Nat × Nat)} (hz : ZeroBehind key key_len M) (V1 value : Nat)
    (replace : Bool) (hs : (key_bytes key key_len, V1) ∈ M) :
    ZeroBehind key key_len (m_insert M (key_bytes key key_len) value replace) := by
  have hm : ∀ a, a ∈ m_insert M (key_bytes key key_len) value replace →
      ∃ a', a' ∈ M ∧ a'.1 = a.1 := by
    intro a ha
    unfold m_insert at ha
    rcases List.mem_cons.1 ha with e | e
    · exact ⟨_, hs, by rw [e]⟩
    · exact ⟨a, (List.mem_filter.1 e).1, rfl⟩
  intro a b ha hb hne hpa hpb
  obtain ⟨a', ha', ea⟩ := hm a ha
  obtain ⟨b', hb', eb⟩ := hm b hb
  exact hz a' b' ha' hb' (by rw [ea, eb]; exact hne) (by rw [ea]; exact hpa)
    (by rw [eb]; exact hpb)

/-- C3 (amended): in a trie reached by calls with keys that can be filed (at an insert
neither the key nor a stored key, followed by a zero byte, is a prefix of the other; at
every call the byte behind the key in the buffer is zero when at least two stored keys start
with the key), `art_insert(K, V2)` of such a key returns the stored value `V1` when `K` is
stored, `art_search(K)` then returns `V2` and the size is unchanged; when `K` is not stored
it returns absent and the size grows by exactly 1. -/
theorem C3_insert_replaces (simd : Bool) (t : art_tree) (M : List (List Nat × Nat))
    (key : Nat → Nat) (key_len V2 : Nat) (hr : ReachT simd 256 t M) (hk : ∀ i, key i < 256)
    (hpf : ∀ kv, kv ∈ M → term_free kv.1 (key_bytes key key_len))
    (hz : ZeroBehind key key_len M) :
    (∀ V1, (key_bytes key key_len, V1) ∈ M →
      (art_insert simd t key key_len V2).2 = V1 ∧
      art_search simd (art_insert simd t key key_len V2).1 key key_len = V2 ∧
      art_size (art_insert simd t key key_len V2).1 = art_size t) ∧
    ((∀ v, (key_bytes key key_len, v) ∉ M) →
      (art_insert simd t key key_len V2).2 = 0 ∧
      art_size (art_insert simd t key key_len V2).1 = art_size t + 1) := by
  obtain ⟨h3, h4⟩ := reach_insert_facts hr key key_len V2 true hk hpf hz
  have hr' := ReachT.insert t M key key_len V2 hr hk (fun i _ => hk i) hpf hz
  constructor
  · intro V1 hV1
    refine ⟨(h3 V1 hV1).2, reach_search hr' key key_len V2 (m_insert_mem M _ V2)
      (ZeroBehind_insert_stored hz V1 V2 true hV1), ?_⟩
    show (if (recursive_insert simd key key_len V2 true t.root 0).2.2 = true then t.size
      else t.size + 1) = t.size
    rw [if_pos (h3 V1 hV1).1]
  · intro hno
    refine ⟨(h4 hno).2, ?_⟩
    show (if (recursive_insert simd key key_len V2 true t.root 0).2.2 = true then t.size
      else t.size + 1) = t.size + 1
    rw [if_neg (by rw [(h4 hno).1]; exact Bool.false_ne_true)]

/-- C3 at a concrete input: with "abc" ↦ 1, "abd" ↦ 2 and their proper prefix "ab" ↦ 3
stored, `art_insert("ab", 9)` returns 3, a search of "ab" then gives 9, and the size
stays 3. -/
theorem C3_insert_replaces_witness :
    (art_insert false (art_insert false trie_abd (buf [97, 98]) 2 3).1 (buf [97, 98]) 2 9).2
      = 3 ∧
    art_search false
      (art_insert false (art_insert false trie_abd (buf [97, 98]) 2 3).1 (buf [97, 98]) 2 9).1
      (buf [97, 98]) 2 = 9 ∧
    art_size
      (art_insert false (art_insert false trie_abd (buf [97, 98]) 2 3).1 (buf [97, 98]) 2 9).1
      = art_size (art_insert false trie_abd (buf [97, 98]) 2 3).1 :=
  (C3_insert_replaces false (art_insert false trie_abd (buf [97, 98]) 2 3).1
    (m_insert [([97, 98, 100], 2), ([97, 98, 99], 1)] (key_bytes (buf [97, 98]) 2) 3 true)
    (buf [97, 98]) 2 9
    (ReachT.insert trie_abd _ (buf [97, 98]) 2 3 reach_abd (buf_lt _ (by decide))
      (fun i _ => buf_lt _ (by decide) i) (by decide) (ZeroBehind_zero rfl))
    (buf_lt _ (by decide)) (by decide) (ZeroBehind_zero rfl)).1 3 (by decide)

/-- C3 (as written) fails in two ways.  With "abc" stored, the call `art_insert` of the key
"ab", given as the first two bytes of the buffer "abc", made twice (values 7 and 9) returns
absent the second time although "ab" ↦ 7 is stored, and the size grows from 2 to 3: the
byte behind the key is not zero.  With "a" stored, the call `art_insert` of the key "a"
followed by a zero byte, made twice (values 2 and 9), returns absent the second time
although that key is stored with 2, and the size grows from 2 to 3. -/
theorem C3_stored_prefix_key_not_replaced :
    (([97, 98], 7) ∈ art_pairs trie_abc_ab ∧
     (art_insert false trie_abc_ab (buf [97, 98, 99]) 2 9).2 = 0 ∧
     art_size trie_abc_ab = 2 ∧
     art_size (art_insert false trie_abc_ab (buf [97, 98, 99]) 2 9).1 = 3) ∧
    (([97, 0], 2) ∈ art_pairs trie_a_a0 ∧
     (art_insert false trie_a_a0 (buf [97, 0]) 2 9).2 = 0 ∧
     art_size trie_a_a0 = 2 ∧
     art_size (art_insert false trie_a_a0 (buf [97, 0]) 2 9).1 = 3) := by decide

/-- C4 (amended): in a trie reached by calls with keys that can be filed,
`art_insert_no_replace(K, V2)` of such a key returns the stored value `V1` when `K` is
stored, `art_search(K)` still returns `V1` and the size is unchanged; when `K` is not stored
the call gives the same trie and result as `art_insert(K, V2)`: it returns absent, the size
grows by 1, and `art_search(K)` returns `V2` (the byte behind the key being zero when two
keys stored afterwards start with it). -/
theorem C4_insert_no_replace_keeps (simd : Bool) (t : art_tree) (M : List (List Nat × Nat))
    (key : Nat → Nat) (key_len V2 : Nat) (hr : ReachT simd 256 t M) (hk : ∀ i, key i < 256)
    (hpf : ∀ kv, kv ∈ M → term_free kv.1 (key_bytes key key_len))
    (hz : ZeroBehind key key_len M) :
    (∀ V1, (key_bytes key key_len, V1) ∈ M →
      (art_insert_no_replace simd t key key_len V2).2 = V1 ∧
      art_search simd (art_insert_no_replace simd t key key_len V2).1 key key_len = V1 ∧
      art_size (art_insert_no_replace simd t key key_len V2).1 = art_size t) ∧
    ((∀ v, (key_bytes key key_len, v) ∉ M) →
      art_insert_no_replace simd t key key_len V2 = art_insert simd t key key_len V2 ∧
      (art_insert_no_replace simd t key key_len V2).2 = 0 ∧
      (ZeroBehind key key_len (m_insert M (key_bytes key key_len) V2 false) →
        art_search simd (art_insert_no_replace simd t key key_len V2).1 key key_len = V2) ∧
      art_size (art_insert_no_replace simd t key key_len V2).1 = art_size t + 1) := by
  obtain ⟨h3, h4⟩ := reach_insert_facts hr key key_len V2 false hk hpf hz
  have hr' := ReachT.insert_no_replace t M key key_len V2 hr hk (fun i _ => hk i) hpf hz
  have hnd := reach_nodup hr
  constructor
  · intro V1 hV1
    refine ⟨(h3 V1 hV1).2, reach_search hr' key key_len V1 ?_
      (ZeroBehind_insert_stored hz V1 V2 false hV1), ?_⟩
    · unfold m_insert
      rw [stored_of_mem M _ V1 hnd hV1]
      simp
    · show (if (recursive_insert simd key key_len V2 false t.root 0).2.2 = true then t.size
        else t.size + 1) = t.size
      rw [if_pos (h3 V1 hV1).1]
  · intro hno
    obtain ⟨_, hperm⟩ := reach_inv simd false (by intro e; cases e) hr
    have heq : recursive_insert simd key key_len V2 false t.root 0 =
        recursive_insert simd key key_len V2 true t.root 0 :=
      (insert_mode_irrelevant simd key key_len V2 hk t.root 0
        (fun v hv => hno v (hperm.mem_iff.1 hv))).symm
    refine ⟨?_, (h4 hno).2, fun hz' => reach_search hr' key key_len V2 ?_ hz', ?_⟩
    · unfold art_insert_no_replace art_insert
      rw [heq]
    · unfold m_insert
      rw [stored_none M _ hno]
      simp
    · show (if (recursive_insert simd key key_len V2 false t.root 0).2.2 = true then t.size
        else t.size + 1) = t.size + 1
      rw [if_neg (by rw [(h4 hno).1]; exact Bool.false_ne_true)]

/-- C4 at a concrete input: with "abc" ↦ 1, "abd" ↦ 2 and their proper prefix "ab" ↦ 3
stored, `art_insert_no_replace("ab", 9)` returns 3, a search of "ab" still gives 3, and the
size stays 3. -/
theorem C4_insert_no_replace_keeps_witness :
    (art_insert_no_replace false (art_insert false trie_abd (buf [97, 98]) 2 3).1
      (buf [97, 98]) 2 9).2 = 3 ∧
    art_search false
      (art_insert_no_replace false (art_insert false trie_abd (buf [97, 98]) 2 3).1
        (buf [97, 98]) 2 9).1 (buf [97, 98]) 2 = 3 ∧
    art_size
      (art_insert_no_replace false (art_insert false trie_abd (buf [97, 98]) 2 3).1
        (buf [97, 98]) 2 9).1
      = art_size (art_insert false trie_abd (buf [97, 98]) 2 3).1 :=
  (C4_insert_no_replace_keeps false (art_insert false trie_abd (buf [97, 98]) 2 3).1
    (m_insert [([97, 98, 100], 2), ([97, 98, 99], 1)] (key_bytes (buf [97, 98]) 2) 3 true)
    (buf [97, 98]) 2 9
    (ReachT.insert trie_abd _ (buf [97, 98]) 2 3 reach_abd (buf_lt _ (by decide))
      (fun i _ => buf_lt _ (by decide) i) (by decide) (ZeroBehind_zero rfl))
    (buf_lt _ (by decide)) (by decide) (ZeroBehind_zero rfl)).1 3 (by decide)

/-- C4 (as written) fails in two ways.  With "abc" stored, the call `art_insert_no_replace`
of the key "ab", given as the first two bytes of the buffer "abc", made twice (values 7 and
9) returns absent the second time although "ab" ↦ 7 is stored, and the size grows to 3: the
byte behind the key is not zero.  With "a" stored, the call `art_insert_no_replace` of the
key "a" followed by a zero byte, made twice (values 2 and 9), returns absent the second time
although that key is stored with 2, and the size grows to 3. -/
theorem C4_stored_prefix_key_inserted_again :
    (([97, 98], 7) ∈
       art_pairs (art_insert_no_replace false trie_abc (buf [97, 98, 99]) 2 7).1 ∧
     (art_insert_no_replace false
       (art_insert_no_replace false trie_abc (buf [97, 98, 99]) 2 7).1
       (buf [97, 98, 99]) 2 9).2 = 0 ∧
     art_size (art_insert_no_replace false
       (art_insert_no_replace false trie_abc (buf [97, 98, 99]) 2 7).1
       (buf [97, 98, 99]) 2 9).1 = 3) ∧
    (([97, 0], 2) ∈
       art_pairs (art_insert_no_replace false
         (art_insert_no_replace false art_tree_init (buf [97]) 1 1).1 (buf [97, 0]) 2 2).1 ∧
     (art_insert_no_replace false
       (art_insert_no_replace false
         (art_insert_no_replace false art_tree_init (buf [97]) 1 1).1 (buf [97, 0]) 2 2).1
       (buf [97, 0]) 2 9).2 = 0 ∧
     art_size (art_insert_no_replace false
       (art_insert_no_replace false
         (art_insert_no_replace false art_tree_init (buf [97]) 1 1).1 (buf [97, 0]) 2 2).1
       (buf [97, 0]) 2 9).1 = 3) := by decide

/-- C5: on every trie, reachable or not, `art_delete(K)` of a key that no leaf of the trie
carries returns absent and leaves the trie exactly as it was: the same root, the same
size, hence the same result of every later operation. -/
theorem C5_delete_absent_is_noop (simd : Bool) (t : art_tree) (key : Nat → Nat)
    (key_len : Nat) (hk : ∀ i, key i < 256) (h : key_bytes key key_len ∉ art_keys t) :
    art_delete simd t key key_len = (t, 0) := by
  apply art_delete_absent simd t key key_len hk
  intro v hv
  apply h
  unfold art_keys
  rw [art_pairs_eq]
  exact List.mem_map_of_mem Prod.fst hv

/-- C5 at a concrete input: with "abc" and "abd" stored, deleting "abe" returns absent and
gives back the same trie. -/
theorem C5_delete_absent_is_noop_witness :
    art_delete false trie_abd (buf [97, 98, 101]) 3 = (trie_abd, 0) :=
  C5_delete_absent_is_noop false trie_abd (buf [97, 98, 101]) 3 (buf_lt _ (by decide))
    (by decide)

/-- C6 (amended): in a trie reached by calls with keys that can be filed (at an insert
neither the key nor a stored key, followed by a zero byte, is a prefix of the other; at
every call the byte behind the key in the buffer is zero when at least two stored keys start
with the key), `art_size` is the number of leaves reachable from the root, which is the
number of stored pairs, whose keys are distinct; an insert (in either mode) of such a key
leaves the size as it is when the key is stored and adds one when it is not, and a delete
subtracts one when the key is stored and changes nothing when it is not. -/
theorem C6_size_counts_leaves (simd : Bool) (t : art_tree) (M : List (List Nat × Nat))
    (hr : ReachT simd 256 t M) :
    art_size t = (leaves t.root).length ∧ art_size t = M.length ∧
    (M.map Prod.fst).Nodup ∧
    (∀ (key : Nat → Nat) (key_len value : Nat), (∀ i, key i < 256) →
      (∀ kv, kv ∈ M → term_free kv.1 (key_bytes key key_len)) →
      ZeroBehind key key_len M →
      ((∃ v, (key_bytes key key_len, v) ∈ M) →
        art_size (art_insert simd t key key_len value).1 = art_size t ∧
        art_size (art_insert_no_replace simd t key key_len value).1 = art_size t) ∧
      ((∀ v, (key_bytes key key_len, v) ∉ M) →
        art_size (art_insert simd t key key_len value).1 = art_size t + 1 ∧
        art_size (art_insert_no_replace simd t key key_len value).1 = art_size t + 1)) ∧
    (∀ (key : Nat → Nat) (key_len : Nat), (∀ i, key i < 256) →
      ((∃ v, (key_bytes key key_len, v) ∈ M) → ZeroBehind key key_len M →
        art_size (art_delete simd t key key_len).1 + 1 = art_size t) ∧
      ((∀ v, (key_bytes key key_len, v) ∉ M) →
        art_size (art_delete simd t key key_len).1 = art_size t)) := by
  obtain ⟨hwf, hperm⟩ := reach_inv simd false (by intro e; cases e) hr
  refine ⟨(reach_size hr).1, (reach_size hr).2, reach_nodup hr, ?_, ?_⟩
  · intro key key_len value hk hpf hz
    obtain ⟨a3, a4⟩ := reach_insert_facts hr key key_len value true hk hpf hz
    obtain ⟨b3, b4⟩ := reach_insert_facts hr key key_len value false hk hpf hz
    constructor
    · rintro ⟨v, hv⟩
      constructor
      · show (if (recursive_insert simd key key_len value true t.root 0).2.2 = true
          then t.size else t.size + 1) = t.size
        rw [if_pos (a3 v hv).1]
      · show (if (recursive_insert simd key key_len value false t.root 0).2.2 = true
          then t.size else t.size + 1) = t.size
        rw [if_pos (b3 v hv).1]
    · intro hno
      constructor
      · show (if (recursive_insert simd key key_len value true t.root 0).2.2 = true
          then t.size else t.size + 1) = t.size + 1
        rw [if_neg (by rw [(a4 hno).1]; exact Bool.false_ne_true)]
      · show (if (recursive_insert simd key key_len value false t.root 0).2.2 = true
          then t.size else t.size + 1) = t.size + 1
        rw [if_neg (by rw [(b4 hno).1]; exact Bool.false_ne_true)]
  · intro key key_len hk
    constructor
    · rintro ⟨v, hv⟩ hz
      exact ((delete_tree simd false key key_len hk t hwf (ZeroBehind_perm hz hperm)).2.2 v
        (hperm.mem_iff.2 hv)).2
    · intro hno
      rw [art_delete_absent simd t key key_len hk (fun v hv => hno v (hperm.mem_iff.1 hv))]

/-- C6 at a concrete input: the trie with "abc" and "abd" has size 2, two leaves and two
stored pairs. -/
theorem C6_size_counts_leaves_witness :
    art_size trie_abd = (leaves trie_abd.root).length ∧ art_size trie_abd = 2 :=
  ⟨(C6_size_counts_leaves false trie_abd [([97, 98, 100], 2), ([97, 98, 99], 1)]
      reach_abd).1,
    (C6_size_counts_leaves false trie_abd [([97, 98, 100], 2), ([97, 98, 99], 1)]
      reach_abd).2.1⟩

/-- The full iteration of a reachable trie: it returns 0, yields the stored pairs, each key
once, and in ascending key order in the build without SSE2 and, in the build with SSE2,
when the key bytes are below 128. -/
theorem iteration_facts (simd : Bool) (B : Nat) (t : art_tree) (M : List (List Nat × Nat))
    (hr : ReachT simd B t M) :
    (art_iter t collect []).1 = 0 ∧ (art_pairs t).Perm M ∧ (art_keys t).Nodup ∧
    (simd = false ∨ B ≤ 128 → (art_keys t).Pairwise (fun a b => key_lt a b = true)) := by
  obtain ⟨hwf, hperm⟩ := reach_inv simd false (by intro e; cases e) hr
  refine ⟨?_, ?_, ?_, ?_⟩
  · unfold art_iter
    rw [recursive_iter_collect]
  · rw [art_pairs_eq]; exact hperm
  · unfold art_keys
    rw [art_pairs_eq]
    exact (List.Perm.map Prod.fst hperm).nodup_iff.2 (reach_nodup hr)
  · intro hs
    unfold art_keys
    rw [art_pairs_eq]
    obtain ⟨hwf', _⟩ := reach_inv simd true (fun _ => hs) hr
    rcases hwf'.1 with hnull | hw
    · rw [hnull]; exact List.Pairwise.nil
    · exact WF_keys_sorted hw

/-- C7 (amended): in a trie reached by calls with keys that can be filed (at an insert
neither the key nor a stored key, followed by a zero byte, is a prefix of the other; at
every call the byte behind the key in the buffer is zero when at least two stored keys start
with the key), `art_iter` with the always-zero collecting callback returns 0 and visits
exactly the stored pairs, each key once; the keys come in strictly ascending unsigned-byte
lexicographic order in the build without SSE2, and in the build with SSE2 when all bytes
of the inserted keys are below 128. -/
theorem C7_iteration_is_ordered (simd : Bool) (B : Nat) (t : art_tree)
    (M : List (List Nat × Nat)) (hr : ReachT simd B t M) :
    (art_iter t collect []).1 = 0 ∧ (art_pairs t).Perm M ∧ (art_keys t).Nodup ∧
    (simd = false ∨ B ≤ 128 → (art_keys t).Pairwise (fun a b => key_lt a b = true)) :=
  iteration_facts simd B t M hr

/-- C7 at a concrete input: the trie with "abc" ↦ 1, "abd" ↦ 2 and their proper prefix
"ab" ↦ 3 is iterated in ascending order. -/
theorem C7_iteration_is_ordered_witness :
    (art_keys (art_insert false trie_abd (buf [97, 98]) 2 3).1).Pairwise
      (fun a b => key_lt a b = true) :=
  (C7_iteration_is_ordered false 256 (art_insert false trie_abd (buf [97, 98]) 2 3).1 _
    (ReachT.insert trie_abd _ (buf [97, 98]) 2 3 reach_abd (buf_lt _ (by decide))
      (fun i _ => buf_lt _ (by decide) i) (by decide) (ZeroBehind_zero rfl))).2.2.2
    (Or.inl rfl)

set_option smartUnfolding false in
set_option maxRecDepth 1000000 in
/-- C7 (as written) fails in three ways.  With "abcX" and "abcY" stored, after `art_insert`
of the key "ab", given as the first two bytes of the buffer "abx", the iteration yields
"abcX", "abcY", "ab": the byte behind the key is not zero.  After the inserts of the key
"a" followed by a zero byte and of the key "a", the iteration yields the longer key first.
In the build with SSE2, after the inserts of the one-byte keys 1, 2, 200, 201 and 100 the
iteration yields 100 last. -/
theorem C7_prefix_key_iterated_last :
    (art_keys trie_XY_ab = [[97, 98, 99, 88], [97, 98, 99, 89], [97, 98]] ∧
     key_lt [97, 98, 99, 89] [97, 98] = false) ∧
    (art_keys (art_insert false (art_insert false art_tree_init (buf [97, 0]) 2 1).1
       (buf [97]) 1 2).1 = [[97, 0], [97]] ∧
     key_lt [97, 0] [97] = false) ∧
    (art_keys (art_insert true (art_insert true (art_insert true
       (art_insert true (art_insert true art_tree_init (buf [1]) 1 1).1 (buf [2]) 1 2).1
       (buf [200]) 1 3).1 (buf [201]) 1 4).1 (buf [100]) 1 5).1
       = [[1], [2], [200], [201], [100]] ∧
     key_lt [201] [100] = false) := by
  refine ⟨?_, ?_, ?_⟩ <;> decide

/-- C8 (amended): in a trie reached by calls with keys that can be filed (at an insert
neither the key nor a stored key, followed by a zero byte, is a prefix of the other; at
every call the byte behind the key in the buffer is zero when at least two stored keys start
with the key), `art_iter_prefix(P)` with the always-zero collecting callback returns 0 and
visits every stored pair whose key starts with `P`; what it visits is a subsequence of the
full iteration, so each key is visited at most once, and the visited keys are strictly
ascending in the build without SSE2, and in the build with SSE2 when all bytes of the
inserted keys are below 128. -/
theorem C8_prefix_iteration_complete (simd : Bool) (B : Nat) (t : art_tree)
    (M : List (List Nat × Nat)) (key : Nat → Nat) (key_len : Nat) (hr : ReachT simd B t M)
    (hk : ∀ i, key i < 256) :
    ∃ V, art_iter_prefix simd t key key_len collect [] = some (0, V) ∧
      (∀ kv, kv ∈ M → key_bytes key key_len <+: kv.1 → kv ∈ V) ∧
      V.Sublist (art_pairs t) ∧ (V.map Prod.fst).Nodup ∧
      (simd = false ∨ B ≤ 128 → (V.map Prod.fst).Pairwise (fun a b => key_lt a b = true)) := by
  obtain ⟨hwf, hperm⟩ := reach_inv simd false (by intro e; cases e) hr
  obtain ⟨_, _, hnd, hsorted⟩ := iteration_facts simd B t M hr
  rcases hwf.1 with hnull | hw
  · refine ⟨[], ?_, ?_, List.nil_sublist _, List.nodup_nil, fun _ => List.Pairwise.nil⟩
    · unfold art_iter_prefix
      rw [hnull]
      rfl
    · rw [hnull] at hperm
      have hM : M = [] := hperm.symm.eq_nil
      subst hM
      exact fun kv hkv => absurd hkv (List.not_mem_nil _)
  · obtain ⟨V, hV, hsub, hcomp⟩ := iter_prefix_ok simd false key key_len hk t.root [] 0 []
      hw
    have hsub' : V.Sublist (art_pairs t) := by rw [art_pairs_eq]; exact hsub
    refine ⟨V, ?_, fun kv hkv hm => hcomp rfl List.nil_prefix kv (hperm.mem_iff.2 hkv) hm,
      hsub', ?_, fun hs => ?_⟩
    · unfold art_iter_prefix
      rw [hV]
      rfl
    · exact List.Nodup.sublist (List.Sublist.map Prod.fst hsub') hnd
    · exact List.Pairwise.sublist (List.Sublist.map Prod.fst hsub') (hsorted hs)

/-- C8 at a concrete input: with "abc" ↦ 1, "abd" ↦ 2 and their proper prefix "ab" ↦ 3
stored, the prefix "ab" visits all three pairs. -/
theorem C8_prefix_iteration_complete_witness :
    ∃ V, art_iter_prefix false (art_insert false trie_abd (buf [97, 98]) 2 3).1
        (buf [97, 98]) 2 collect [] = some (0, V) ∧
      ([97, 98, 99], 1) ∈ V ∧ ([97, 98, 100], 2) ∈ V ∧ ([97, 98], 3) ∈ V := by
  obtain ⟨V, h1, h2, _⟩ :=
    C8_prefix_iteration_complete false 256 (art_insert false trie_abd (buf [97, 98]) 2 3).1
      (m_insert [([97, 98, 100], 2), ([97, 98, 99], 1)] (key_bytes (buf [97, 98]) 2) 3 true)
      (buf [97, 98]) 2
      (ReachT.insert trie_abd _ (buf [97, 98]) 2 3 reach_abd (buf_lt _ (by decide))
        (fun i _ => buf_lt _ (by decide) i) (by decide) (ZeroBehind_zero rfl))
      (buf_lt _ (by decide))
  exact ⟨V, h1, h2 _ (by decide) (by decide), h2 _ (by decide) (by decide),
    h2 _ (by decide) (by decide)⟩

set_option smartUnfolding false in
set_option maxRecDepth 1000000 in
/-- C8 (as written) fails in three ways.  With "abcX" and "abcY" stored, after `art_insert`
of the key "ab", given as the first two bytes of the buffer "abx", the prefix "ab" visits
"abcX", "abcY", "ab": the smallest comes last, the byte behind the inserted key was not
zero.  After the inserts of the key "a" followed by a zero byte and of the key "a", the
prefix "a" visits the longer key first.  In the build with SSE2, after the inserts of the
one-byte keys 1, 2, 200, 201 and 100 the empty prefix visits 100 last. -/
theorem C8_prefix_key_visited_last :
    (( art_iter_prefix false trie_XY_ab (buf [97, 98]) 2 collect []).map
        (fun r => r.2.map Prod.fst)
      = some [[97, 98, 99, 88], [97, 98, 99, 89], [97, 98]] ∧
     key_lt [97, 98, 99, 89] [97, 98] = false) ∧
    (( art_iter_prefix false
        (art_insert false (art_insert false art_tree_init (buf [97, 0]) 2 1).1
          (buf [97]) 1 2).1 (buf [97]) 1 collect []).map (fun r => r.2.map Prod.fst)
      = some [[97, 0], [97]] ∧
     key_lt [97, 0] [97] = false) ∧
    (( art_iter_prefix true
        (art_insert true (art_insert true (art_insert true
          (art_insert true (art_insert true art_tree_init (buf [1]) 1 1).1 (buf [2]) 1 2).1
          (buf [200]) 1 3).1 (buf [201]) 1 4).1 (buf [100]) 1 5).1
        (buf []) 0 collect []).map (fun r => r.2.map Prod.fst)
      = some [[1], [2], [200], [201], [100]] ∧
     key_lt [201] [100] = false) := by
  refine ⟨?_, ?_, ?_⟩ <;> decide

/-- C9 (code bug): with "abcdeX12p", "abcdeX12q" and "abcdeYzz" stored, `art_iter_prefix`
of the prefix "abZdeX12" invokes the callback on "abcdeX12p" and "abcdeX12q", neither of
which starts with the prefix: after the mismatch at the third byte of the root's compressed
prefix "abcde" the traversal descends to the child under 'X' instead of stopping. -/
theorem C9_visits_keys_without_the_prefix :
    art_iter_prefix false trie_deep (buf [97, 98, 90, 100, 101, 88, 49, 50]) 8 collect []
      = some (0, [([97, 98, 99, 100, 101, 88, 49, 50, 112], 1),
         ([97, 98, 99, 100, 101, 88, 49, 50, 113], 2)]) ∧
    ¬ ([97, 98, 90, 100, 101, 88, 49, 50] <+: [97, 98, 99, 100, 101, 88, 49, 50, 112]) ∧
    ¬ ([97, 98, 90, 100, 101, 88, 49, 50] <+: [97, 98, 99, 100, 101, 88, 49, 50, 113]) := by
  decide

theorem head_of_pairwise {α : Type} (R : α → α → Prop) (l : List α) (a : α)
    (hp : l.Pairwise R) (hh : l.head? = some a) : ∀ b, b ∈ l → b = a ∨ R a b := by
  cases l with
  | nil => cases hh
  | cons c t =>
    simp only [List.head?_cons, Option.some.injEq] at hh
    subst hh
    intro b hb
    rcases List.mem_cons.1 hb with e | e
    · exact Or.inl e
    · exact Or.inr (List.rel_of_pairwise_cons hp e)

theorem last_of_pairwise {α : Type} (R : α → α → Prop) (l : List α) (a : α)
    (hp : l.Pairwise R) (hh : l.getLast? = some a) : ∀ b, b ∈ l → b = a ∨ R b a := by
  obtain ⟨t, ht⟩ := getLast_snoc_of l a hh
  subst ht
  intro b hb
  rcases List.mem_append.1 hb with e | e
  · exact Or.inr ((List.pairwise_append.1 hp).2.2 b e a (by simp))
  · exact Or.inl (by simpa using e)

/-- C10 (amended): in a non-empty trie reached by calls with keys that can be filed (at an
insert neither the key nor a stored key, followed by a zero byte, is a prefix of the other;
at every call the byte behind the key in the buffer is zero when at least two stored keys
start with the key), `art_minimum` and `art_maximum` return the leaves of the first and the
last pair of a full iteration, which are stored pairs; their keys are the smallest and the
largest stored key in the build without SSE2, and in the build with SSE2 when all bytes of
the inserted keys are below 128. -/
theorem C10_minimum_maximum (simd : Bool) (B : Nat) (t : art_tree)
    (M : List (List Nat × Nat)) (hr : ReachT simd B t M) (hne : M ≠ []) :
    ∃ lmin lmax, art_minimum t = some lmin ∧ art_maximum t = some lmax ∧
      (art_pairs t).head? = some (lmin.key, lmin.value) ∧
      (art_pairs t).getLast? = some (lmax.key, lmax.value) ∧
      (lmin.key, lmin.value) ∈ M ∧ (lmax.key, lmax.value) ∈ M ∧
      (simd = false ∨ B ≤ 128 →
        ∀ kv, kv ∈ M → kv.1 = lmin.key ∨ key_lt lmin.key kv.1 = true) ∧
      (simd = false ∨ B ≤ 128 →
        ∀ kv, kv ∈ M → kv.1 = lmax.key ∨ key_lt kv.1 lmax.key = true) := by
  have hw := @reach_root _ false _ (by intro e; cases e) _ _ hr hne
  obtain ⟨_, hperm⟩ := reach_inv simd false (by intro e; cases e) hr
  obtain ⟨_, _, _, hsorted⟩ := iteration_facts simd B t M hr
  have h1 := minimum_eq_head hw
  have h2 := maximum_eq_last hw
  have hnil := WF_leaves_ne_nil hw
  cases hmin : minimum t.root with
  | none =>
    rw [hmin] at h1
    exact absurd (List.head?_eq_none_iff.1 h1.symm) hnil
  | some lmin =>
    cases hmax : maximum t.root with
    | none =>
      rw [hmax] at h2
      exact absurd (List.getLast?_eq_none_iff.1 h2.symm) hnil
    | some lmax =>
      rw [hmin] at h1
      rw [hmax] at h2
      simp only [Option.map_some'] at h1 h2
      have e1 : (art_pairs t).head? = some (lmin.key, lmin.value) := by
        rw [art_pairs_eq]; exact h1.symm
      have e2 : (art_pairs t).getLast? = some (lmax.key, lmax.value) := by
        rw [art_pairs_eq]; exact h2.symm
      have m1 : (lmin.key, lmin.value) ∈ leaves t.root := List.mem_of_mem_head? h1.symm
      have m2 : (lmax.key, lmax.value) ∈ leaves t.root := List.mem_of_mem_getLast? h2.symm
      refine ⟨lmin, lmax, hmin, hmax, e1, e2, hperm.mem_iff.1 m1, hperm.mem_iff.1 m2,
        fun hs kv hkv => ?_, fun hs kv hkv => ?_⟩
      · have hk1 : (art_keys t).head? = some lmin.key := by
          unfold art_keys
          rw [List.head?_map, e1]
          rfl
        have hin : kv.1 ∈ art_keys t := by
          unfold art_keys
          rw [art_pairs_eq]
          exact List.mem_map_of_mem Prod.fst (hperm.mem_iff.2 hkv)
        exact head_of_pairwise _ _ _ (hsorted hs) hk1 kv.1 hin
      · have hk2 : (art_keys t).getLast? = some lmax.key := by
          unfold art_keys
          rw [List.getLast?_map, e2]
          rfl
        have hin : kv.1 ∈ art_keys t := by
          unfold art_keys
          rw [art_pairs_eq]
          exact List.mem_map_of_mem Prod.fst (hperm.mem_iff.2 hkv)
        exact last_of_pairwise _ _ _ (hsorted hs) hk2 kv.1 hin

/-- C10 at a concrete input: in the trie with "abc" ↦ 1, "abd" ↦ 2 and their proper prefix
"ab" ↦ 3 the minimum is the leaf of "ab", the smallest stored key, and the minimum and the
maximum are the first and the last pair of the iteration. -/
theorem C10_minimum_maximum_witness :
    ∃ lmin lmax, art_minimum (art_insert false trie_abd (buf [97, 98]) 2 3).1 = some lmin ∧
      art_maximum (art_insert false trie_abd (buf [97, 98]) 2 3).1 = some lmax ∧
      (art_pairs (art_insert false trie_abd (buf [97, 98]) 2 3).1).head?
        = some (lmin.key, lmin.value) ∧
      (art_pairs (art_insert false trie_abd (buf [97, 98]) 2 3).1).getLast?
        = some (lmax.key, lmax.value) ∧
      ([97, 98] = lmin.key ∨ key_lt lmin.key [97, 98] = true) := by
  obtain ⟨lmin, lmax, h1, h2, h3, h4, _, _, h7, _⟩ :=
    C10_minimum_maximum false 256 (art_insert false trie_abd (buf [97, 98]) 2 3).1
      (m_insert [([97, 98, 100], 2), ([97, 98, 99], 1)] (key_bytes (buf [97, 98]) 2) 3 true)
      (ReachT.insert trie_abd _ (buf [97, 98]) 2 3 reach_abd (buf_lt _ (by decide))
        (fun i _ => buf_lt _ (by decide) i) (by decide) (ZeroBehind_zero rfl))
      (by decide)
  exact ⟨lmin, lmax, h1, h2, h3, h4, h7 (Or.inl rfl) ([97, 98], 3) (by decide)⟩

set_option smartUnfolding false in
set_option maxRecDepth 1000000 in
/-- C10 (as written) fails in three ways.  With "abcX" and "abcY" stored, after `art_insert`
of the key "ab", given as the first two bytes of the buffer "abx", `art_minimum` returns the
leaf of "abcX" although the stored key "ab" is smaller: the byte behind the inserted key was
not zero.  After the inserts of the key "a" followed by a zero byte and of the key "a",
`art_minimum` returns the leaf of the longer key.  In the build with SSE2, after the inserts
of the one-byte keys 1, 2, 200, 201 and 100, `art_maximum` returns the leaf of 100 although
the stored key 201 is larger. -/
theorem C10_minimum_is_not_smallest :
    ((art_minimum trie_XY_ab).map (fun l => l.key) = some [97, 98, 99, 88] ∧
     [97, 98] ∈ art_keys trie_XY_ab ∧
     key_lt [97, 98] [97, 98, 99, 88] = true) ∧
    ((art_minimum (art_insert false (art_insert false art_tree_init (buf [97, 0]) 2 1).1
        (buf [97]) 1 2).1).map (fun l => l.key) = some [97, 0] ∧
     [97] ∈ art_keys (art_insert false (art_insert false art_tree_init (buf [97, 0]) 2 1).1
        (buf [97]) 1 2).1 ∧
     key_lt [97] [97, 0] = true) ∧
    ((art_maximum (art_insert true (art_insert true (art_insert true
        (art_insert true (art_insert true art_tree_init (buf [1]) 1 1).1 (buf [2]) 1 2).1
        (buf [200]) 1 3).1 (buf [201]) 1 4).1 (buf [100]) 1 5).1).map (fun l => l.key)
        = some [100] ∧
     [201] ∈ art_keys (art_insert true (art_insert true (art_insert true
        (art_insert true (art_insert true art_tree_init (buf [1]) 1 1).1 (buf [2]) 1 2).1
        (buf [200]) 1 3).1 (buf [201]) 1 4).1 (buf [100]) 1 5).1 ∧
     key_lt [100] [201] = true) := by
  refine ⟨?_, ?_, ?_⟩ <;> decide

/-! ## Footprint, node lists and call sequences -/

/-! ## Iteration with an arbitrary callback -/

theorem iter_prefix_end_cb (simd : Bool) (key : Nat → Nat) (key_len : Nat)
    (n : art_node) (keys : Nat → Nat) (children : Nat → Node) (depth : Nat)
    {σ : Type} (cb : art_callback σ) (data : σ) (l : art_leaf)
    (hd : depth = key_len) (hmin : minimum (Node.inner n keys children) = some l) :
    art_iter_prefix_loop simd key key_len cb (Node.inner n keys children) depth data =
      if leaf_prefix_matches l key key_len = 0 then
        some (recursive_iter cb (Node.inner n keys children) data)
      else some (0, data) := by
  rw [art_iter_prefix_loop]
  simp only [if_pos hd]
  show (match minimum (Node.inner n keys children) with
    | some l => _
    | none => _) = _
  rw [hmin]
  rfl

theorem key_bytes_buf (k : List Nat) : key_bytes (buf k) k.length = k := by
  apply list_ext_getD
  · rw [key_bytes_length]
  · intro i hi
    rw [key_bytes_length] at hi
    rw [key_bytes_getD _ _ _ hi]
    rfl

theorem buf_behind (k : List Nat) : buf k k.length = 0 := by
  unfold buf
  exact getD_of_ge k k.length (Nat.le_refl _)

theorem reach_empty {simd : Bool} {B : Nat} {t : art_tree} (h : ReachT simd B t []) :
    t = art_tree_init := by
  obtain ⟨hwf, hperm⟩ := reach_inv simd false (by intro e; cases e) h
  have hl : leaves t.root = [] := hperm.eq_nil
  have hroot : t.root = Node.null := by
    rcases hwf.1 with hnull | hw
    · exact hnull
    · exact absurd hl (WF_leaves_ne_nil hw)
  have hsize : t.size = 0 := by rw [hwf.2, hl]; rfl
  cases t
  simp only at hroot hsize
  rw [hroot, hsize]
  rfl

theorem reach_delete_all {simd : Bool} (ks : List (List Nat))
    (hb : ∀ k, k ∈ ks → ∀ b, b ∈ k → b < 256) {B : Nat} {t : art_tree}
    {M : List (List Nat × Nat)} (h : ReachT simd B t M) :
    ReachT simd B (delete_all simd t ks) (M.filter (fun kv => decide (kv.1 ∉ ks))) := by
  induction ks generalizing t M with
  | nil =>
    have e : M.filter (fun kv => decide (kv.1 ∉ ([] : List (List Nat)))) = M := by simp
    rw [e]
    exact h
  | cons k rest ih =>
    have h1 := ReachT.delete t M (buf k) k.length h
      (buf_lt k (hb k (List.mem_cons_self _ _))) (ZeroBehind_zero (buf_behind k))
    rw [key_bytes_buf] at h1
    have h2 := ih (fun k' hk' => hb k' (List.mem_cons_of_mem _ hk')) h1
    have e : (m_delete M k).filter (fun kv => decide (kv.1 ∉ rest))
        = M.filter (fun kv => decide (kv.1 ∉ k :: rest)) := by
      unfold m_delete
      rw [List.filter_filter]
      apply List.filter_congr
      intro kv _
      simp only [List.mem_cons, not_or, Bool.decide_and, Bool.and_comm]
    rw [e] at h2
    exact h2

/-- A list of pairs with a single key has nothing to ask of the byte behind a key. -/
theorem ZeroBehind_single (key : Nat → Nat) (key_len : Nat) (kv : List Nat × Nat) :
    ZeroBehind key key_len [kv] := by
  intro a b ha hb hne
  rw [List.mem_singleton] at ha hb
  rw [ha, hb] at hne
  exact absurd rfl hne

/-- C12 (amended): in a trie reached by calls with keys that can be filed (at an insert
neither the key nor a stored key, followed by a zero byte, is a prefix of the other; at
every call the byte behind the key in the buffer is zero when at least two stored keys start
with the key), `art_delete` of the only stored key returns its value and gives the freshly
initialised trie (root null, size 0), and deleting every stored key from zero-terminated
buffers, in any order and with any other keys in between, gives the freshly initialised
trie. -/
theorem C12_deleting_all_keys_empties (simd : Bool) (t : art_tree)
    (M : List (List Nat × Nat)) (hr : ReachT simd 256 t M) :
    (∀ (key : Nat → Nat) (key_len v : Nat), (∀ i, key i < 256) →
      M = [(key_bytes key key_len, v)] →
      art_delete simd t key key_len = (art_tree_init, v)) ∧
    (∀ ks : List (List Nat), (∀ k, k ∈ ks → ∀ b, b ∈ k → b < 256) →
      (∀ kv, kv ∈ M → kv.1 ∈ ks) → delete_all simd t ks = art_tree_init) := by
  constructor
  · intro key key_len v hk hM
    have hz : ZeroBehind key key_len M := by
      rw [hM]
      exact ZeroBehind_single key key_len _
    have h1 := ReachT.delete t M key key_len hr hk hz
    have e : m_delete M (key_bytes key key_len) = [] := by
      rw [hM]
      unfold m_delete
      simp
    rw [e] at h1
    obtain ⟨hwf, hperm⟩ := reach_inv simd false (by intro e; cases e) hr
    have h2 := ((delete_tree simd false key key_len hk t hwf (ZeroBehind_perm hz hperm)).2.2 v
      (hperm.mem_iff.2 (by rw [hM]; simp))).1
    exact Prod.ext (reach_empty h1) h2
  · intro ks hb hall
    have h1 := reach_delete_all ks hb hr
    have e : M.filter (fun kv => decide (kv.1 ∉ ks)) = [] := by
      apply filter_eq_nil_of_forall
      intro kv hkv
      simp only [decide_not, Bool.not_eq_false', decide_eq_true_eq]
      exact hall kv hkv
    rw [e] at h1
    exact reach_empty h1

/-- C12 at a concrete input: deleting "abd", "ab" and then "abc" from the trie holding
"abc", "abd" and their proper prefix "ab" gives the freshly initialised trie. -/
theorem C12_deleting_all_keys_empties_witness :
    delete_all false (art_insert false trie_abd (buf [97, 98]) 2 3).1
      [[97, 98, 100], [97, 98], [97, 98, 99]] = art_tree_init :=
  (C12_deleting_all_keys_empties false (art_insert false trie_abd (buf [97, 98]) 2 3).1
    (m_insert [([97, 98, 100], 2), ([97, 98, 99], 1)] (key_bytes (buf [97, 98]) 2) 3 true)
    (ReachT.insert trie_abd _ (buf [97, 98]) 2 3 reach_abd (buf_lt _ (by decide))
      (fun i _ => buf_lt _ (by decide) i) (by decide) (ZeroBehind_zero rfl))).2
    [[97, 98, 100], [97, 98], [97, 98, 99]] (by decide) (by decide)

/-- C12 (as written) fails in two ways.  In the trie holding "abc" and the key "ab" inserted
as the first two bytes of the buffer "abc", `art_delete` of "ab" from the same buffer and
then of "abc" leaves a trie of size 1 that still holds "ab": the byte behind the key is not
zero.  In the trie made by the inserts of "a" and of "a" followed by a zero byte,
`art_delete` of the longer key and then of "a" leaves a trie of size 1 that still holds the
longer key. -/
theorem C12_stored_key_survives_deletes :
    (art_keys trie_abc_ab = [[97, 98], [97, 98, 99]] ∧
     art_pairs (art_delete false (art_delete false trie_abc_ab (buf [97, 98, 99]) 2).1
       (buf [97, 98, 99]) 3).1 = [([97, 98], 7)] ∧
     art_size (art_delete false (art_delete false trie_abc_ab (buf [97, 98, 99]) 2).1
       (buf [97, 98, 99]) 3).1 = 1) ∧
    (art_keys trie_a_a0 = [[97], [97, 0]] ∧
     art_pairs (art_delete false (art_delete false trie_a_a0 (buf [97, 0]) 2).1
       (buf [97]) 1).1 = [([97, 0], 2)] ∧
     art_size (art_delete false (art_delete false trie_a_a0 (buf [97, 0]) 2).1
       (buf [97]) 1).1 = 1) := by decide

/-! ## The trie as a finite map -/

theorem stored_cases (M : List (List Nat × Nat)) (K : List Nat)
    (hn : (M.map Prod.fst).Nodup) :
    (∃ v, (K, v) ∈ M ∧ stored M K = some v) ∨ ((∀ v, (K, v) ∉ M) ∧ stored M K = none) := by
  by_cases h : ∃ v, (K, v) ∈ M
  · obtain ⟨v, hv⟩ := h
    exact Or.inl ⟨v, hv, stored_of_mem M K v hn hv⟩
  · have h' : ∀ v, (K, v) ∉ M := fun v hv => h ⟨v, hv⟩
    exact Or.inr ⟨h', stored_none M K h'⟩

/-- With stored keys none of which is a proper prefix of another, a stored key asks nothing
of the byte behind it. -/
theorem ZeroBehind_of_stored {simd : Bool} {t : art_tree} {M : List (List Nat × Nat)}
    (hr : Reach simd t M) (key : Nat → Nat) (key_len v : Nat)
    (hv : (key_bytes key key_len, v) ∈ M) : ZeroBehind key key_len M :=
  ZeroBehind_of_prefix_free (fun kv hkv => (reach_T hr).2 kv _ hkv hv)

/-- `art_search` returns what the stored pairs hold under the key. -/
theorem reach_search_eq {simd : Bool} {t : art_tree} {M : List (List Nat × Nat)}
    (hr : Reach simd t M) (key : Nat → Nat) (key_len : Nat) (hk : ∀ i, key i < 256) :
    art_search simd t key key_len = (stored M (key_bytes key key_len)).getD 0 := by
  have hT := (reach_T hr).1
  rcases stored_cases M (key_bytes key key_len) (reach_nodup hT) with ⟨v, hv, e⟩ | ⟨hno, e⟩
  · rw [e, reach_search hT key key_len v hv (ZeroBehind_of_stored hr key key_len v hv)]; rfl
  · rw [e, reach_search_absent hT key key_len hk hno]; rfl

/-- `art_delete` returns what the stored pairs hold under the key. -/
theorem reach_delete_ret {simd : Bool} {t : art_tree} {M : List (List Nat × Nat)}
    (hr : Reach simd t M) (key : Nat → Nat) (key_len : Nat) (hk : ∀ i, key i < 256) :
    (art_delete simd t key key_len).2 = (stored M (key_bytes key key_len)).getD 0 := by
  have hT := (reach_T hr).1
  obtain ⟨hwf, hperm⟩ := reach_inv simd false (by intro e; cases e) hT
  rcases stored_cases M (key_bytes key key_len) (reach_nodup hT) with ⟨v, hv, e⟩ | ⟨hno, e⟩
  · rw [e, ((delete_tree simd false key key_len hk t hwf
      (ZeroBehind_perm (ZeroBehind_of_stored hr key key_len v hv) hperm)).2.2 v
      (hperm.mem_iff.2 hv)).1]
    rfl
  · rw [e, art_delete_absent simd t key key_len hk
      (fun v hv => hno v (hperm.mem_iff.1 hv))]
    rfl

/-- An insert in either mode returns what the stored pairs hold under the key. -/
theorem reach_insert_ret {simd : Bool} {t : art_tree} {M : List (List Nat × Nat)}
    (hr : Reach simd t M) (key : Nat → Nat) (key_len value : Nat) (replace : Bool)
    (hk : ∀ i, key i < 256)
    (hpf : ∀ kv, kv ∈ M → prefix_free kv.1 (key_bytes key key_len)) :
    (recursive_insert simd key key_len value replace t.root 0).2.1
      = (stored M (key_bytes key key_len)).getD 0 := by
  have hT := (reach_T hr).1
  obtain ⟨h3, h4⟩ := reach_insert_facts hT key key_len value replace hk
    (fun kv hkv => term_free_of_prefix_free (hpf kv hkv)) (ZeroBehind_of_prefix_free hpf)
  rcases stored_cases M (key_bytes key key_len) (reach_nodup hT) with ⟨v, hv, e⟩ | ⟨hno, e⟩
  · rw [e, (h3 v hv).2]; rfl
  · rw [e, (h4 hno).2]; rfl

theorem prefix_free_symm {a b : List Nat} (h : prefix_free a b) : prefix_free b a :=
  ⟨fun hp => (h.2 hp).symm, fun hp => (h.1 hp).symm⟩

theorem prefix_free_self (a : List Nat) : prefix_free a a :=
  ⟨fun _ => rfl, fun _ => rfl⟩

/-- When the keys stay free of proper prefixes after an insert, the inserted key is neither
a proper prefix nor a proper extension of a key stored before. -/
theorem prefix_free_of_after (M : List (List Nat × Nat)) (K : List Nat) (value : Nat)
    (replace : Bool) (h : ((m_insert M K value replace).map Prod.fst).Pairwise prefix_free) :
    ∀ kv, kv ∈ M → prefix_free kv.1 K := by
  intro kv hkv
  by_cases e : kv.1 = K
  · rw [e]; exact prefix_free_self K
  · unfold m_insert at h
    rw [List.map_cons, List.pairwise_cons] at h
    apply prefix_free_symm
    apply h.1
    apply List.mem_map_of_mem
    rw [List.mem_filter]
    exact ⟨hkv, by simpa using e⟩

/-- One call on a reachable trie refines the call on the map. -/
theorem step_refines {simd : Bool} {t : art_tree} {M : List (List Nat × Nat)}
    (hr : Reach simd t M) (op : Op) (hb : op.bytes)
    (hpf : ((m_step M op).1.map Prod.fst).Pairwise prefix_free) :
    Reach simd (step simd t op).1 (m_step M op).1 ∧ (step simd t op).2 = (m_step M op).2 := by
  cases op with
  | insert key key_len value =>
    have h := prefix_free_of_after M _ value true hpf
    exact ⟨Reach.insert t M key key_len value hr hb h,
      reach_insert_ret hr key key_len value true hb h⟩
  | insert_no_replace key key_len value =>
    have h := prefix_free_of_after M _ value false hpf
    exact ⟨Reach.insert_no_replace t M key key_len value hr hb h,
      reach_insert_ret hr key key_len value false hb h⟩
  | delete key key_len =>
    exact ⟨Reach.delete t M key key_len hr hb, reach_delete_ret hr key key_len hb⟩

theorem run_refines (simd : Bool) (ops : List Op) (t : art_tree)
    (M : List (List Nat × Nat)) (rs : List Nat) (hr : Reach simd t M)
    (hb : ∀ op, op ∈ ops → op.bytes) (hpf : PrefixFreeRun M ops) :
    Reach simd
      (ops.foldl (fun s op => ((step simd s.1 op).1, s.2 ++ [(step simd s.1 op).2]))
        (t, rs)).1
      (ops.foldl (fun s op => ((m_step s.1 op).1, s.2 ++ [(m_step s.1 op).2])) (M, rs)).1 ∧
    (ops.foldl (fun s op => ((step simd s.1 op).1, s.2 ++ [(step simd s.1 op).2]))
        (t, rs)).2
      = (ops.foldl (fun s op => ((m_step s.1 op).1, s.2 ++ [(m_step s.1 op).2])) (M, rs)).2 := by
  induction ops generalizing t M rs with
  | nil => exact ⟨hr, rfl⟩
  | cons op rest ih =>
    obtain ⟨h1, h2⟩ := step_refines hr op (hb op (List.mem_cons_self _ _)) hpf.1
    rw [List.foldl_cons, List.foldl_cons]
    simp only
    rw [h2]
    exact ih _ _ _ h1 (fun o ho => hb o (List.mem_cons_of_mem _ ho)) hpf.2

/-- C15: for every sequence of `art_insert`, `art_insert_no_replace` and `art_delete` calls
from the empty trie after each of which no stored key is a proper prefix of another, the
trie simulates the finite map: each call returns what the map operation returns (the
previous or removed value, absent otherwise), `art_size` is the number of pairs of the map,
and `art_search` returns the value of the map under the key, absent when there is none, for
every key. -/
theorem C15_finite_map_refinement (simd : Bool) (ops : List Op)
    (hb : ∀ op, op ∈ ops → op.bytes) (hpf : PrefixFreeRun [] ops) :
    (run simd ops).2 = (m_run ops).2 ∧
    art_size (run simd ops).1 = (m_run ops).1.length ∧
    ((m_run ops).1.map Prod.fst).Nodup ∧
    (∀ (key : Nat → Nat) (key_len : Nat), (∀ i, key i < 256) →
      art_search simd (run simd ops).1 key key_len
        = (stored (m_run ops).1 (key_bytes key key_len)).getD 0) := by
  obtain ⟨h1, h2⟩ := run_refines simd ops art_tree_init [] [] Reach.init hb hpf
  exact ⟨h2, (reach_size (reach_T h1).1).2, reach_nodup (reach_T h1).1,
    fun key key_len hk => reach_search_eq h1 key key_len hk⟩

/-- C15 at a concrete input: the calls insert("abc", 1), insert_no_replace("abd", 2),
insert("abc", 5), delete("abc"), delete("zz") return absent, absent, 1, 5, absent, as the
map does. -/
theorem C15_finite_map_refinement_witness :
    (run false ops_example).2 = [0, 0, 1, 5, 0] ∧
    art_size (run false ops_example).1 = 1 := by
  have h := C15_finite_map_refinement false ops_example
    (by
      intro op hop
      simp only [ops_example, List.mem_cons, List.mem_singleton, List.not_mem_nil,
        or_false] at hop
      rcases hop with e | e | e | e | e <;> subst e <;> exact buf_lt _ (by decide))
    ⟨by decide, by decide, by decide, by decide, by decide, trivial⟩
  have e1 : (m_run ops_example).2 = [0, 0, 1, 5, 0] := by decide
  have e2 : (m_run ops_example).1.length = 1 := by decide
  exact ⟨h.1.trans e1, h.2.1.trans e2⟩

/-- C13 (code bug): the operations read the caller's buffer at the index `key_len`.  With
"abcX" ↦ 1, "abcY" ↦ 2 and "abc" ↦ 3 stored, `art_search` and `art_delete` of the key
"abc" of length 3 find nothing when the byte behind the key in the buffer is 'X' and find 3
when it is zero; and with "abcX" and "abcY" stored, `art_insert` of the key "ab" of length 2
files the new leaf last when the byte behind the key is 'x' and first when it is zero. -/
theorem C13_byte_behind_the_key_is_read :
    art_search false trie_XY_abc (buf [97, 98, 99, 88]) 3 = 0 ∧
    art_search false trie_XY_abc (buf [97, 98, 99]) 3 = 3 ∧
    (art_delete false trie_XY_abc (buf [97, 98, 99, 88]) 3).2 = 0 ∧
    (art_delete false trie_XY_abc (buf [97, 98, 99]) 3).2 = 3 ∧
    key_bytes (buf [97, 98, 99, 88]) 3 = key_bytes (buf [97, 98, 99]) 3 ∧
    art_keys (art_insert false trie_XY (buf [97, 98, 120]) 2 3).1
      = [[97, 98, 99, 88], [97, 98, 99, 89], [97, 98]] ∧
    art_keys (art_insert false trie_XY (buf [97, 98]) 2 3).1
      = [[97, 98], [97, 98, 99, 88], [97, 98, 99, 89]] ∧
    key_bytes (buf [97, 98, 120]) 2 = key_bytes (buf [97, 98]) 2 := by decide

/-- The condition on the byte behind a key looks at the stored keys only. -/
theorem ZeroBehind_keys {key : Nat → Nat} {key_len : Nat} {l l' : List (List Nat × Nat)}
    (hz : ZeroBehind key key_len l) (h : ∀ a, a ∈ l' → ∃ a', a' ∈ l ∧ a'.1 = a.1) :
    ZeroBehind key key_len l' := by
  intro a b ha hb hne hpa hpb
  obtain ⟨a', ha', ea⟩ := h a ha
  obtain ⟨b', hb', eb⟩ := h b hb
  exact hz a' b' ha' hb' (by rw [ea, eb]; exact hne) (by rw [ea]; exact hpa)
    (by rw [eb]; exact hpb)

/-- C16 (amended): in a trie reached by calls with keys that can be filed (at an insert
neither the key nor a stored key, followed by a zero byte, is a prefix of the other; at
every call the byte behind the key in the buffer is zero when at least two stored keys start
with the key), for such a key `K` and every stored key `K'` other than `K`, `art_search(K')`
returns the same value before and after `art_insert(K, V)`, `art_insert_no_replace(K, V)`
and `art_delete(K)`.  Stored keys none of which is a proper prefix of another, and a key
`K` that keeps them so, meet the conditions on `K` and `K'` with any buffers. -/
theorem C16_other_keys_undisturbed (simd : Bool) (t : art_tree) (M : List (List Nat × Nat))
    (key key' : Nat → Nat) (key_len key_len' value v' : Nat) (hr : ReachT simd 256 t M)
    (hk : ∀ i, key i < 256)
    (hpf : ∀ kv, kv ∈ M → term_free kv.1 (key_bytes key key_len))
    (hz : ZeroBehind key key_len M)
    (hm : (key_bytes key' key_len', v') ∈ M)
    (hne : key_bytes key' key_len' ≠ key_bytes key key_len)
    (hz' : ZeroBehind key' key_len' ((key_bytes key key_len, value) :: M)) :
    art_search simd t key' key_len' = v' ∧
    art_search simd (art_insert simd t key key_len value).1 key' key_len' = v' ∧
    art_search simd (art_insert_no_replace simd t key key_len value).1 key' key_len' = v' ∧
    art_search simd (art_delete simd t key key_len).1 key' key_len' = v' := by
  have hfil : (key_bytes key' key_len', v') ∈
      M.filter (fun kv => decide (kv.1 ≠ key_bytes key key_len)) := by
    rw [List.mem_filter]
    exact ⟨hm, by simpa using hne⟩
  have hzM : ZeroBehind key' key_len' M :=
    ZeroBehind_mono hz' (fun kv hkv => List.mem_cons_of_mem _ hkv)
  have hzi : ∀ replace, ZeroBehind key' key_len'
      (m_insert M (key_bytes key key_len) value replace) := by
    intro replace
    apply ZeroBehind_keys hz'
    intro a ha
    unfold m_insert at ha
    rcases List.mem_cons.1 ha with e | e
    · exact ⟨_, List.mem_cons_self _ _, by rw [e]⟩
    · exact ⟨a, List.mem_cons_of_mem _ (List.mem_filter.1 e).1, rfl⟩
  have hzd : ZeroBehind key' key_len' (m_delete M (key_bytes key key_len)) :=
    ZeroBehind_mono hzM (fun kv hkv => (List.mem_filter.1 hkv).1)
  refine ⟨reach_search hr key' key_len' v' hm hzM, ?_, ?_, ?_⟩
  · exact reach_search (ReachT.insert t M key key_len value hr hk (fun i _ => hk i) hpf hz)
      key' key_len' v' (List.mem_cons_of_mem _ hfil) (hzi true)
  · exact reach_search
      (ReachT.insert_no_replace t M key key_len value hr hk (fun i _ => hk i) hpf hz) key'
      key_len' v' (List.mem_cons_of_mem _ hfil) (hzi false)
  · exact reach_search (ReachT.delete t M key key_len hr hk hz) key' key_len' v' hfil hzd

/-- C16 at a concrete input: in the trie holding "abc" ↦ 1 and "abd" ↦ 2, a search of "abc"
gives 1 before and after the insert and the delete of "abe". -/
theorem C16_other_keys_undisturbed_witness :
    art_search false trie_abd (buf [97, 98, 99]) 3 = 1 ∧
    art_search false (art_insert false trie_abd (buf [97, 98, 101]) 3 9).1
      (buf [97, 98, 99]) 3 = 1 ∧
    art_search false (art_insert_no_replace false trie_abd (buf [97, 98, 101]) 3 9).1
      (buf [97, 98, 99]) 3 = 1 ∧
    art_search false (art_delete false trie_abd (buf [97, 98, 101]) 3).1
      (buf [97, 98, 99]) 3 = 1 :=
  C16_other_keys_undisturbed false trie_abd [([97, 98, 100], 2), ([97, 98, 99], 1)]
    (buf [97, 98, 101]) (buf [97, 98, 99]) 3 3 9 1 reach_abd (buf_lt _ (by decide))
    (by decide) (ZeroBehind_zero rfl) (by decide) (by decide) (ZeroBehind_zero rfl)

set_option smartUnfolding false in
set_option maxRecDepth 1000000 in
/-- C16 (as written) fails when a stored key has been continued by a zero byte.  After the
inserts of "a", "a\0\0" ↦ 2, "a\0\x01" and the delete of "a" the two stored keys are
free of proper prefixes, `art_search` of "a\0\0" returns absent, and after `art_delete` of
"a\0\x01" it returns 2.  After the inserts of "a", "a\0" ↦ 2, "a\x01", ..., "a\x0f", the
deletes of "a", "a\x01", ..., "a\x05" and the inserts of "a\x20", ..., "a\x23" the fifteen
stored keys are free of proper prefixes, `art_search` of "a\0" returns 2, and after
`art_insert` of "a\x30" it returns absent. -/
theorem C16_search_of_another_key_changes :
    (art_keys trie_zero_pair = [[97, 0, 1], [97, 0, 0]] ∧
     (art_keys trie_zero_pair).Pairwise prefix_free ∧
     art_search false trie_zero_pair (buf [97, 0, 0]) 3 = 0 ∧
     art_search false (art_delete false trie_zero_pair (buf [97, 0, 1]) 3).1
       (buf [97, 0, 0]) 3 = 2) ∧
    ((art_keys trie_fifteen).length = 15 ∧
     (art_keys trie_fifteen).Pairwise prefix_free ∧
     (∀ k, k ∈ art_keys trie_fifteen → prefix_free k [97, 48]) ∧
     art_search false trie_fifteen (buf [97, 0]) 2 = 2 ∧
     art_search false (art_insert false trie_fifteen (buf [97, 48]) 2 99).1
       (buf [97, 0]) 2 = 0) := by
  refine ⟨?_, ?_⟩ <;> decide

/-! ## The inner nodes of a trie -/

theorem inner_nodes_inner (n : art_node) (keys : Nat → Nat) (children : Nat → Node) :
    inner_nodes (Node.inner n keys children) =
      { n := n, keys := keys, children := children } ::
        (slots { n := n, keys := keys, children := children }).flatMap
          (fun p => inner_nodes (children p.2)) := by
  rw [inner_nodes]
  congr 1
  unfold slots
  rcases ht : n.type with _ | _ | _ | _
  · simp only [ht, List.flatMap_map]
  · simp only [ht, List.flatMap_map]
  · simp only [ht, List.flatMap_map]
    have := flatMap_ite (List.range 256) (fun c => keys c != 0)
      (fun i => inner_nodes (children (keys i - 1)))
    rw [← this]
    apply List.flatMap_congr
    intro i _
    by_cases h : keys i = 0
    · simp [h]
    · simp [h]
  · simp only [ht, List.flatMap_map]
    have := flatMap_ite (List.range 256) (fun c => !(children c).isNull)
      (fun i => inner_nodes (children i))
    rw [← this]
    apply List.flatMap_congr
    intro i _
    by_cases h : (children i).isNull = true
    · simp [h]
    · simp [h]

/-- Every inner node of a well-formed subtree is well shaped and has at least the minimum
number of children of its type. -/
theorem WF_inner_nodes {ord : Bool} {n : Node} {path : List Nat} (h : WF ord n path) :
    ∀ x, x ∈ inner_nodes n → Shape ord x ∧ min_children x.n.type ≤ (slots x).length := by
  induction n generalizing path with
  | null => exact absurd h (by simp [WF])
  | leaf l => intro x hx; simp [inner_nodes] at hx
  | inner n keys children ih =>
    obtain ⟨hsh, hbig, P, hP, hcache, hch⟩ := (WF_inner_iff ord n keys children path).1 h
    intro x hx
    rw [inner_nodes_inner, List.mem_cons, List.mem_flatMap] at hx
    rcases hx with e | ⟨⟨b, s⟩, hbs, hx'⟩
    · rw [e]; exact ⟨hsh, hbig⟩
    · exact ih s (hch b s hbs) x hx'

theorem reach_inner_nodes {simd ord : Bool} {B : Nat}
    (hord : ord = true → simd = false ∨ B ≤ 128)
    {t : art_tree} {M : List (List Nat × Nat)} (hr : ReachT simd B t M) :
    ∀ x, x ∈ inner_nodes t.root → Shape ord x ∧ min_children x.n.type ≤ (slots x).length := by
  obtain ⟨hwf, _⟩ := reach_inv simd ord hord hr
  rcases hwf.1 with hnull | hw
  · rw [hnull]; intro x hx; simp [inner_nodes] at hx
  · exact WF_inner_nodes hw

theorem two_le_min_children (ty : NodeType) : 2 ≤ min_children ty := by
  cases ty <;> simp [min_children]

/-- The `num_children` field of a well-shaped node with enough children is at least 2,
unless the node is a 256-way node with all slots occupied. -/
theorem num_children_ge {ord : Bool} {x : Inner} (h : Shape ord x)
    (hbig : min_children x.n.type ≤ (slots x).length) (hlt : (slots x).length < 256) :
    2 ≤ x.n.num_children := by
  rcases ht : x.n.type with _ | _ | _ | _
  · rw [ht] at hbig
    rw [slots_length_4 x ht] at hbig
    exact hbig
  · rw [ht] at hbig
    rw [slots_length_16 x ht] at hbig
    have : 4 ≤ x.n.num_children := hbig
    omega
  · rw [ht] at hbig
    rw [(layout_48 h ht).1]
    have : 13 ≤ (slots x).length := hbig
    omega
  · rw [ht] at hbig
    rw [layout_256 h ht, Nat.mod_eq_of_lt hlt]
    have : 38 ≤ (slots x).length := hbig
    omega

theorem length_flatMap_ge {α β : Type} (l : List α) (f : α → List β)
    (h : ∀ a, a ∈ l → f a ≠ []) : l.length ≤ (l.flatMap f).length := by
  induction l with
  | nil => simp
  | cons a t ih =>
    rw [List.flatMap_cons, List.length_append, List.length_cons]
    have h1 : 1 ≤ (f a).length := by
      have := h a (List.mem_cons_self _ _)
      cases hf : f a with
      | nil => exact absurd hf this
      | cons b u => simp
    have h2 := ih (fun b hb => h b (List.mem_cons_of_mem _ hb))
    omega

/-- A well-formed inner node stores at least two keys. -/
theorem WF_inner_two_leaves {ord : Bool} {n : art_node} {keys : Nat → Nat}
    {children : Nat → Node} {path : List Nat}
    (h : WF ord (Node.inner n keys children) path) :
    2 ≤ (slots { n := n, keys := keys, children := children }).length ∧
    2 ≤ (leaves (Node.inner n keys children)).length := by
  obtain ⟨hsh, hbig, P, hP, hcache, hch⟩ := (WF_inner_iff ord n keys children path).1 h
  have h2 : 2 ≤ (slots { n := n, keys := keys, children := children }).length :=
    (two_le_min_children n.type).trans hbig
  refine ⟨h2, ?_⟩
  rw [leaves_inner]
  refine h2.trans (length_flatMap_ge _ _ ?_)
  rintro ⟨b, s⟩ hbs
  exact WF_leaves_ne_nil (hch b s hbs)

theorem shape_node_ok {ord : Bool} {x : Inner} (h : Shape ord x) : node_ok ord x := by
  unfold node_ok
  rcases ht : x.n.type with _ | _ | _ | _
  · simp only
    refine ⟨layout_4 h ht, fun ho i j hij hj => ?_, fun i hi => ?_⟩
    · have hs := h.sorted ho
      have e : (slots x).map Prod.fst = (List.range x.n.num_children).map x.keys := by
        unfold slots
        simp only [ht, List.map_map]
        rfl
      rw [e, pairwise_map_range] at hs
      exact hs i j hij hj
    · exact h.child_ne (x.keys i, i) ((mem_slots_4 x ht _ _).2 ⟨hi, rfl⟩)
  · simp only
    refine ⟨layout_16 h ht, fun ho i j hij hj => ?_, fun i hi => ?_⟩
    · have hs := h.sorted ho
      have e : (slots x).map Prod.fst = (List.range x.n.num_children).map x.keys := by
        unfold slots
        simp only [ht, List.map_map]
        rfl
      rw [e, pairwise_map_range] at hs
      exact hs i j hij hj
    · exact h.child_ne (x.keys i, i) ((mem_slots_16 x ht _ _).2 ⟨hi, rfl⟩)
  · simp only
    obtain ⟨l1, l2, l3, l4, l5⟩ := layout_48 h ht
    refine ⟨l2, ?_, fun c hc hne => ⟨Nat.one_le_iff_ne_zero.2 hne, l3 c hc⟩, l4,
      fun p hp => ⟨l5 p hp, ?_⟩⟩
    · rw [l1, slots_length_48 x ht]
      rfl
    · rintro ⟨c, hc, e⟩
      have hm : (c, x.keys c - 1) ∈ slots x :=
        (mem_slots_48 x ht _ _).2 ⟨hc, by omega, rfl⟩
      have := h.child_ne _ hm
      simp only [e, Nat.add_sub_cancel] at this
      exact this
  · trivial

/-- C17 (amended): in a trie reached by calls with keys that can be filed (at an insert
neither the key nor a stored key, followed by a zero byte, is a prefix of the other; at
every call the byte behind the key in the buffer is zero when at least two stored keys start
with the key), every inner node satisfies the node conditions of the specification
(capacity of N4, N16 and N48, children present, the occupancy of an N48 consistent with its
256-byte index); the keys of N4 and N16 nodes are strictly ascending (`asc`) in the build
without SSE2, and in the build with SSE2 when all bytes of the inserted keys are below
128. -/
theorem C17_nodes_well_formed (simd asc : Bool) (B : Nat) (t : art_tree)
    (M : List (List Nat × Nat)) (hr : ReachT simd B t M)
    (hasc : asc = true → simd = false ∨ B ≤ 128) :
    ∀ x, x ∈ inner_nodes t.root → node_ok asc x := by
  intro x hx
  exact shape_node_ok (@reach_inner_nodes simd asc B hasc t M hr x hx).1

/-- C17 at a concrete input: the inner nodes of the trie holding "abc", "abd" and their
proper prefix "ab" satisfy the node conditions, keys ascending. -/
theorem C17_nodes_well_formed_witness :
    (inner_nodes (art_insert false trie_abd (buf [97, 98]) 2 3).1.root).length = 1 ∧
    ∀ x, x ∈ inner_nodes (art_insert false trie_abd (buf [97, 98]) 2 3).1.root →
      node_ok true x :=
  ⟨by decide,
    C17_nodes_well_formed false true 256 (art_insert false trie_abd (buf [97, 98]) 2 3).1 _
      (ReachT.insert trie_abd _ (buf [97, 98]) 2 3 reach_abd (buf_lt _ (by decide))
        (fun i _ => buf_lt _ (by decide) i) (by decide) (ZeroBehind_zero rfl))
      (fun _ => Or.inl rfl)⟩

set_option smartUnfolding false in
set_option maxRecDepth 1000000 in
/-- C17 (as written) fails in three ways.  With "abX" and "abY" stored, after `art_insert`
of the key "a", given as the first byte of the buffer "ab", the root is an N4 whose two keys
are both 'b'.  After `art_insert` of "a" and of "a\0" the root is an N4 whose two keys are
both 0.  In the build with SSE2, after the inserts of the one-byte keys 1, 2, 200, 201 and
100 the root is an N16 with the keys 1, 2, 200, 201, 100. -/
theorem C17_equal_keys_in_node4 :
    ((inner_nodes trie_dup.root).head?.map
      (fun x => (x.n.type, x.n.num_children, x.keys 0, x.keys 1))
      = some (NODE4, 2, 98, 98)) ∧
    ((inner_nodes (trie_of false [[97], [97, 0]]).root).map
      (fun x => (x.n.type, x.n.num_children, x.keys 0, x.keys 1))
      = [(NODE4, 2, 0, 0)]) ∧
    ((inner_nodes (trie_of true [[1], [2], [200], [201], [100]]).root).map
      (fun x => (x.n.type, (List.range x.n.num_children).map x.keys))
      = [(NODE16, [1, 2, 200, 201, 100])]) := by
  refine ⟨?_, ?_, ?_⟩ <;> decide

/-- C18 (amended): in a trie reached by calls with keys that can be filed (at an insert
neither the key nor a stored key, followed by a zero byte, is a prefix of the other; at
every call the byte behind the key in the buffer is zero when at least two stored keys start
with the key), an N256 node has between 38 and 256 non-null entries in `children[256]`, and
its `num_children` field holds that number modulo 256: the number itself up to 255, and 0
when all 256 slots are occupied. -/
theorem C18_node256_count (simd : Bool) (t : art_tree) (M : List (List Nat × Nat))
    (hr : ReachT simd 256 t M) :
    ∀ x, x ∈ inner_nodes t.root → x.n.type = NODE256 →
      38 ≤ occupied256 x ∧ occupied256 x ≤ 256 ∧
      x.n.num_children = occupied256 x % 256 ∧
      (occupied256 x < 256 → x.n.num_children = occupied256 x) := by
  intro x hx ht
  obtain ⟨hsh, hbig⟩ := @reach_inner_nodes simd false 256 (by intro e; cases e) t M hr x hx
  have e : occupied256 x = (slots x).length := by
    rw [slots_length_256 x ht]
    rfl
  rw [e]
  rw [ht] at hbig
  refine ⟨hbig, slots_length_le_256 x ht, layout_256 hsh ht, fun hlt => ?_⟩
  rw [layout_256 hsh ht, Nat.mod_eq_of_lt hlt]

set_option smartUnfolding false in
set_option maxRecDepth 1000000 in
/-- C18 (as written) fails in three ways.  At full occupancy: in the trie holding the 256
one-byte keys the root is an N256 with 256 non-null children and `num_children = 0`.  After
the inserts of "abX", "abY", of the key "a" given as the first byte of the buffer "ab", and
of "a\x01", ..., "a\x2f" the root is an N256 with `num_children = 49` and 48 non-null
children.  After the inserts of "a", "a\0", "a\x01", ..., "a\x2f" the root is an N256 with
`num_children = 49` and 48 non-null children. -/
theorem C18_full_node256_counts_zero :
    ((inner_nodes trie_full.root).map
      (fun x => (x.n.type, x.n.num_children, occupied256 x)) = [(NODE256, 0, 256)]) ∧
    ((inner_nodes trie_dup_256.root).map
      (fun x => (x.n.type, x.n.num_children, occupied256 x)) = [(NODE256, 49, 48)]) ∧
    ((inner_nodes trie_zero_256.root).map
      (fun x => (x.n.type, x.n.num_children, occupied256 x)) = [(NODE256, 49, 48)]) := by
  refine ⟨?_, ?_, ?_⟩ <;> decide

theorem pairwise_getD {R : List Nat → List Nat → Prop} {keys : List (List Nat)}
    (h : keys.Pairwise R) (i j : Nat) (hij : i < j) (hj : j < keys.length) :
    R (keys.getD i []) (keys.getD j []) := by
  rw [List.getD_eq_getElem _ _ (by omega), List.getD_eq_getElem _ _ hj]
  exact List.pairwise_iff_getElem.1 h i j (by omega) hj hij

/-- The trie built by `trie_of` from keys none of which, followed by a zero byte, is a
prefix of another is reachable. -/
theorem reach_trie_of (simd : Bool) (keys : List (List Nat))
    (hb : ∀ k, k ∈ keys → ∀ b, b ∈ k → b < 256) (hpf : keys.Pairwise term_free) :
    ∃ M, ReachT simd 256 (trie_of simd keys) M := by
  have main : ∀ n, n ≤ keys.length →
      ∃ M, ReachT simd 256 ((List.range n).foldl
        (fun t i => (art_insert simd t (buf (keys.getD i [])) (keys.getD i []).length
          (i + 1)).1) art_tree_init) M ∧
        ∀ kv, kv ∈ M → ∃ j, j < n ∧ kv.1 = keys.getD j [] := by
    intro n
    induction n with
    | zero => exact fun _ => ⟨[], ReachT.init, fun kv hkv => absurd hkv (List.not_mem_nil _)⟩
    | succ n ih =>
      intro hn
      obtain ⟨M, hM, hkeys⟩ := ih (by omega)
      have hin : keys.getD n [] ∈ keys := by
        rw [List.getD_eq_getElem _ _ (by omega)]
        exact List.getElem_mem _
      have h1 := ReachT.insert _ M (buf (keys.getD n [])) (keys.getD n []).length (n + 1) hM
        (buf_lt _ (hb _ hin)) (fun i _ => buf_lt _ (hb _ hin) i) (by
          rw [key_bytes_buf]
          intro kv hkv
          obtain ⟨j, hj, e⟩ := hkeys kv hkv
          rw [e]
          exact pairwise_getD hpf j n hj (by omega)) (ZeroBehind_zero (buf_behind _))
      rw [key_bytes_buf] at h1
      refine ⟨_, by rw [List.range_succ, List.foldl_append]; exact h1, ?_⟩
      intro kv hkv
      unfold m_insert at hkv
      rcases List.mem_cons.1 hkv with e | e
      · exact ⟨n, by omega, by rw [e]⟩
      · obtain ⟨j, hj, e'⟩ := hkeys kv (List.mem_filter.1 e).1
        exact ⟨j, by omega, e'⟩
  obtain ⟨M, hM, _⟩ := main keys.length (Nat.le_refl _)
  exact ⟨M, hM⟩

/-- Two keys without zero bytes can be filed together, also when one is a proper prefix of
the other. -/
theorem term_free_of_no_zero {k1 k2 : List Nat} (h1 : ∀ b, b ∈ k1 → b ≠ 0)
    (h2 : ∀ b, b ∈ k2 → b ≠ 0) : term_free k1 k2 := by
  have key : ∀ a c : List Nat, (∀ b, b ∈ c → b ≠ 0) → ext a <+: ext c → ext a = ext c := by
    intro a c hc hp
    have hl := hp.length_le
    simp only [ext_length] at hl
    by_cases hlen : a.length = c.length
    · exact hp.eq_of_length (by simp only [ext_length]; omega)
    · have h3 : ext a <+: c :=
        List.prefix_of_prefix_length_le hp (List.prefix_append c [0])
          (by simp only [ext_length]; omega)
      have h4 : (0 : Nat) ∈ c := h3.subset (by unfold ext; simp)
      exact absurd rfl (hc 0 h4)
  exact ⟨key k1 k2 h2, fun hp => (key k2 k1 h1 hp).symm⟩

/-- The inserts of zero-terminated keys without zero bytes, in any order and with proper
prefixes and repetitions among them, give a reachable trie. -/
theorem reach_trie_of_no_zero (simd : Bool) (keys : List (List Nat))
    (hb : ∀ k, k ∈ keys → ∀ b, b ∈ k → b ≠ 0 ∧ b < 256) :
    ∃ M, ReachT simd 256 (trie_of simd keys) M := by
  refine reach_trie_of simd keys (fun k hk b hb2 => (hb k hk b hb2).2) ?_
  rw [List.pairwise_iff_getElem]
  intro i j hi hj _
  exact term_free_of_no_zero (fun b hb2 => (hb _ (List.getElem_mem hi) b hb2).1)
    (fun b hb2 => (hb _ (List.getElem_mem hj) b hb2).1)

set_option smartUnfolding false in
set_option maxRecDepth 1000000 in
/-- C18 at a concrete input: the root of the trie holding the sixty one-byte keys 0, ..., 59
is an N256 with `num_children = 60` and sixty non-null children. -/
theorem C18_node256_count_witness :
    (inner_nodes trie_sixty.root).map (fun x => (x.n.type, x.n.num_children))
      = [(NODE256, 60)] ∧
    ∀ x, x ∈ inner_nodes trie_sixty.root → x.n.type = NODE256 →
      38 ≤ occupied256 x ∧ occupied256 x ≤ 256 ∧
      x.n.num_children = occupied256 x % 256 ∧
      (occupied256 x < 256 → x.n.num_children = occupied256 x) := by
  obtain ⟨M, hM⟩ := reach_trie_of false ((List.range 60).map (fun i => [i])) (by decide)
    (by decide)
  exact ⟨by decide, C18_node256_count false trie_sixty M hM⟩

/-- C19 (amended): in a trie reached by calls with keys that can be filed (at an insert
neither the key nor a stored key, followed by a zero byte, is a prefix of the other; at
every call the byte behind the key in the buffer is zero when at least two stored keys start
with the key), the root is null exactly when no key is stored, a leaf exactly when one key
is stored, and otherwise an inner node with at least two occupied child slots, whose
`num_children` field is at least 2 unless all 256 slots are occupied. -/
theorem C19_root_shape (simd : Bool) (t : art_tree) (M : List (List Nat × Nat))
    (hr : ReachT simd 256 t M) :
    (t.root = Node.null ↔ M = []) ∧
    ((∃ l, t.root = Node.leaf l) ↔ M.length = 1) ∧
    (∀ n keys children, t.root = Node.inner n keys children →
      2 ≤ M.length ∧
      2 ≤ (slots { n := n, keys := keys, children := children }).length ∧
      ((slots { n := n, keys := keys, children := children }).length < 256 →
        2 ≤ n.num_children)) := by
  obtain ⟨hwf, hperm⟩ := reach_inv simd false (by intro e; cases e) hr
  have hlen := hperm.length_eq
  have hinner : ∀ n keys children, t.root = Node.inner n keys children →
      2 ≤ M.length ∧
      2 ≤ (slots { n := n, keys := keys, children := children }).length ∧
      ((slots { n := n, keys := keys, children := children }).length < 256 →
        2 ≤ n.num_children) := by
    intro n keys children e
    have hw : WF false (Node.inner n keys children) [] := by
      rcases hwf.1 with hnull | hw
      · rw [e] at hnull; cases hnull
      · rw [e] at hw; exact hw
    obtain ⟨h1, h2⟩ := WF_inner_two_leaves hw
    rw [e] at hlen
    obtain ⟨hsh, hbig, _⟩ := (WF_inner_iff false n keys children []).1 hw
    exact ⟨by omega, h1, fun hlt => num_children_ge hsh hbig hlt⟩
  refine ⟨⟨fun e => ?_, fun e => ?_⟩, ⟨fun h => ?_, fun h => ?_⟩, hinner⟩
  · rw [e] at hperm
    exact hperm.symm.eq_nil
  · subst e
    rw [reach_empty hr]
    rfl
  · obtain ⟨l, e⟩ := h
    rw [e] at hlen
    exact hlen.symm
  · cases e : t.root with
    | null =>
      rw [e] at hlen
      simp only [leaves, List.length_nil] at hlen
      omega
    | leaf l => exact ⟨l, rfl⟩
    | inner n keys children =>
      have := (hinner n keys children e).1
      omega

/-- C19 at a concrete input: the root of the trie holding "abc" and "abd" is neither null nor
a leaf. -/
theorem C19_root_shape_witness :
    ¬ (trie_abd.root = Node.null) ∧ ¬ (∃ l, trie_abd.root = Node.leaf l) := by
  obtain ⟨h1, h2, _⟩ := C19_root_shape false trie_abd
    [([97, 98, 100], 2), ([97, 98, 99], 1)] reach_abd
  exact ⟨fun e => absurd (h1.1 e) (by decide), fun e => absurd (h2.1 e) (by decide)⟩

set_option smartUnfolding false in
set_option maxRecDepth 1000000 in
/-- C19 (as written) fails in three ways.  The root of the trie holding the 256 one-byte
keys is an inner node whose `num_children` field is 0.  The trie `trie_one_slot`, made with
the key "a" and the key "a\0", holds one key, and its root is an inner node.  The trie
`trie_twice`, made with two inserts of the key "ab" from the buffers "abx" and "aby", holds
the key "ab" only, in two leaves, and its root is an inner node. -/
theorem C19_root_num_children_zero :
    ((inner_nodes trie_full.root).map (fun x => x.n.num_children) = [0] ∧
     art_size trie_full = 256) ∧
    (art_pairs trie_one_slot = [([97, 0], 2)] ∧
     (inner_nodes trie_one_slot.root).length = 1) ∧
    (art_pairs trie_twice = [([97, 98], 3), ([97, 98], 4)] ∧
     (inner_nodes trie_twice.root).length = 1) := by
  refine ⟨?_, ?_, ?_⟩ <;> decide

theorem add_child4_header (simd : Bool) (x : Inner) (c : Nat) (child : Node)
    (hn : x.n.num_children < 4) :
    (add_child4 simd x c child).n.num_children = x.n.num_children + 1 ∧
    (add_child4 simd x c child).n.type = x.n.type := by
  rw [add_child4_room simd x c child hn]
  exact ⟨rfl, rfl⟩

/-- Two `add_child4` calls on the fresh node of a split give an N4 with two children. -/
theorem split_header (simd : Bool) (x : Inner) (b1 b2 : Nat) (c1 c2 : Node)
    (ht : x.n.type = NODE4) (hn : x.n.num_children = 0) :
    (add_child4 simd (add_child4 simd x b1 c1) b2 c2).n.type = NODE4 ∧
    (add_child4 simd (add_child4 simd x b1 c1) b2 c2).n.num_children = 2 := by
  obtain ⟨h1, h2⟩ := add_child4_header simd x b1 c1 (by omega)
  obtain ⟨h3, h4⟩ := add_child4_header simd (add_child4 simd x b1 c1) b2 c2 (by omega)
  exact ⟨by rw [h4, h2, ht], by rw [h3, h1, hn]⟩

/-- C20 (amended): in a trie reached by calls with keys that can be filed (at an insert
neither the key nor a stored key, followed by a zero byte, is a prefix of the other; at
every call the byte behind the key in the buffer is zero when at least two stored keys start
with the key), every inner node has at least two child slots, all of them occupied; a leaf
split and a prefix split put an N4 with exactly two children in the place of the split
node; and removing a child from an N4 with two children puts the other child in the place
of the N4, with the merged prefix when it is an inner node. -/
theorem C20_no_single_child_nodes (simd : Bool) (t : art_tree) (M : List (List Nat × Nat))
    (hr : ReachT simd 256 t M) :
    (∀ x, x ∈ inner_nodes t.root →
      2 ≤ (slots x).length ∧ ∀ p, p ∈ slots x → (x.children p.2).isNull = false) ∧
    (∀ (key : Nat → Nat) (key_len value : Nat) (replace : Bool) (l : art_leaf) (depth : Nat),
      leaf_matches l key key_len depth ≠ 0 →
      ∃ n keys children,
        (recursive_insert simd key key_len value replace (Node.leaf l) depth).1
          = Node.inner n keys children ∧ n.type = NODE4 ∧ n.num_children = 2) ∧
    (∀ (key : Nat → Nat) (key_len value : Nat) (replace : Bool) (n : art_node)
      (keys : Nat → Nat) (children : Nat → Node) (path : List Nat),
      WF false (Node.inner n keys children) path →
      (n.partial_len ≠ 0 ∧
        prefix_mismatch { n := n, keys := keys, children := children } key key_len
          path.length < n.partial_len) →
      ∃ n' keys' children',
        (recursive_insert simd key key_len value replace (Node.inner n keys children)
          path.length).1 = Node.inner n' keys' children' ∧
        n'.type = NODE4 ∧ n'.num_children = 2) ∧
    (∀ (x : Inner) (c pos : Nat), Shape false x → x.n.type = NODE4 →
      (slots x).length = 2 → (c, pos) ∈ slots x →
      ∃ b2 s2, (b2, s2) ∈ slots x ∧ b2 ≠ c ∧
        (∀ l, x.children s2 = Node.leaf l → remove_child x c pos = Node.leaf l) ∧
        (∀ cn ckeys cchildren, x.children s2 = Node.inner cn ckeys cchildren →
          remove_child x c pos = Node.inner (collapse_header x.n b2 cn) ckeys cchildren)) := by
  refine ⟨fun x hx => ?_, ?_, ?_, ?_⟩
  · obtain ⟨hsh, hbig⟩ := @reach_inner_nodes simd false 256 (by intro e; cases e) t M hr x hx
    exact ⟨(two_le_min_children _).trans hbig, hsh.child_ne⟩
  · intro key key_len value replace l depth hne
    rw [recursive_insert_leaf, if_neg hne]
    obtain ⟨h1, h2⟩ := split_header simd
      (split_node ( longest_common_prefix l (make_leaf key key_len value) depth) key depth)
      (l.byte (depth + longest_common_prefix l (make_leaf key key_len value) depth))
      ((make_leaf key key_len value).byte
        (depth + longest_common_prefix l (make_leaf key key_len value) depth))
      (Node.leaf l) (Node.leaf (make_leaf key key_len value)) rfl rfl
    exact ⟨_, _, _, rfl, h1, h2⟩
  · intro key key_len value replace n keys children path hw hc
    obtain ⟨hsh, hbig, P, hP, hcache, hch⟩ := (WF_inner_iff false n keys children path).1 hw
    obtain ⟨L, hmin, _⟩ := min_leaf_facts hw P hch
    rw [recursive_insert_inner, if_pos hc]
    generalize prefix_mismatch { n := n, keys := keys, children := children } key key_len
      path.length = pm
    by_cases c10 : n.partial_len ≤ MAX_PREFIX_LEN
    · rw [if_pos c10]
      obtain ⟨h1, h2⟩ := split_header simd (split_node pm n.partial_ 0) (n.partial_ pm)
        (key (path.length + pm))
        (Node.inner (shortened n pm n.partial_ (pm + 1)) keys children)
        (Node.leaf (make_leaf key key_len value)) rfl rfl
      exact ⟨_, _, _, rfl, h1, h2⟩
    · rw [if_neg c10, hmin]
      simp only
      obtain ⟨h1, h2⟩ := split_header simd (split_node pm n.partial_ 0)
        (L.byte (path.length + pm)) (key (path.length + pm))
        (Node.inner (shortened n pm L.byte (path.length + pm + 1)) keys children)
        (Node.leaf (make_leaf key key_len value)) rfl rfl
      exact ⟨_, _, _, rfl, h1, h2⟩
  · intro x c pos hsh ht hlen hm
    obtain ⟨b2, s2, hm2, hb2, _, hres⟩ := remove_child4_collapse false x c pos ht hsh hlen hm
    rw [remove_child_node4 _ _ _ ht, hres]
    refine ⟨b2, s2, hm2, hb2, fun l e => ?_, fun cn ckeys cchildren e => ?_⟩
    · rw [e]
    · rw [e]

/-- C20 at a concrete input: the only inner node of the trie holding "abc" and "abd" has two
occupied child slots. -/
theorem C20_no_single_child_nodes_witness :
    (inner_nodes trie_abd.root).length = 1 ∧
    ∀ x, x ∈ inner_nodes trie_abd.root →
      2 ≤ (slots x).length ∧ ∀ p, p ∈ slots x → (x.children p.2).isNull = false :=
  ⟨by decide, (C20_no_single_child_nodes false trie_abd
    [([97, 98, 100], 2), ([97, 98, 99], 1)] reach_abd).1⟩

set_option smartUnfolding false in
set_option maxRecDepth 1000000 in
/-- C20 (as written) fails in two ways.  After the inserts of "a", "a\0", "a\x01", ...,
"a\x0f" and the deletes of "a\x01", ..., "a\x0f" the root is an N4 with
`num_children = 2` whose second child is null: a single occupied child slot.  The same
holds after the inserts of "abX", "abY", of the key "a" given as the first byte of the
buffer "ab", and of "a\x01", ..., "a\x0f", and the deletes of "a\x01", ..., "a\x0f". -/
theorem C20_single_occupied_slot :
    ((inner_nodes trie_one_slot.root).map
      (fun x => (x.n.type, x.n.num_children, (List.range 4).map (fun i => (x.children i).isNull)))
      = [(NODE4, 2, [false, true, true, true])]) ∧
    ((inner_nodes trie_dup_one_slot.root).map
      (fun x => (x.n.type, x.n.num_children, (List.range 4).map (fun i => (x.children i).isNull)))
      = [(NODE4, 2, [false, true, true, true])]) := by
  refine ⟨?_, ?_⟩ <;> decide

/-! ## The footprint walk -/

theorem foldl_add_size (l : List Nat) (f : Nat → Option Nat) (g : Nat → Nat) (a : Nat)
    (h : ∀ i, i ∈ l → f i = some (g i)) :
    l.foldl (fun size i => add_size size (f i)) (some a) = some (a + (l.map g).sum) := by
  induction l generalizing a with
  | nil => simp
  | cons b t ih =>
    rw [List.foldl_cons, h b (List.mem_cons_self _ _)]
    show List.foldl _ (some (a + g b)) t = _
    rw [ih _ (fun i hi => h i (List.mem_cons_of_mem _ hi)), List.map_cons, List.sum_cons]
    congr 1
    omega

theorem foldl_add_size_ite (l : List Nat) (p : Nat → Bool) (f : Nat → Option Nat)
    (g : Nat → Nat) (a : Nat) (h : ∀ i, i ∈ l → p i = true → f i = some (g i)) :
    l.foldl (fun size i => if p i = true then add_size size (f i) else size) (some a)
      = some (a + ((l.filter p).map g).sum) := by
  induction l generalizing a with
  | nil => simp
  | cons b t ih =>
    rw [List.foldl_cons, List.filter_cons]
    by_cases hb : p b = true
    · rw [if_pos hb, if_pos hb, h b (List.mem_cons_self _ _) hb]
      show List.foldl _ (some (a + g b)) t = _
      rw [ih _ (fun i hi => h i (List.mem_cons_of_mem _ hi)), List.map_cons, List.sum_cons]
      congr 1
      omega
    · rw [if_neg hb, if_neg hb]
      exact ih _ (fun i hi => h i (List.mem_cons_of_mem _ hi))

/-- The footprint of an inner node whose occupied child slots hold subtrees with a
footprint. -/
theorem art_size_in_bytes_at_inner (sz : Sizes) (n : art_node) (keys : Nat → Nat)
    (children : Nat → Node) (g : Nat → Nat)
    (hg : ∀ p, p ∈ slots { n := n, keys := keys, children := children } →
      art_size_in_bytes_at sz (children p.2) = some (g p.2)) :
    art_size_in_bytes_at sz (Node.inner n keys children) =
      some (node_size sz n.type +
        ((slots { n := n, keys := keys, children := children }).map (fun p => g p.2)).sum) := by
  rw [art_size_in_bytes_at]
  rcases ht : n.type with _ | _ | _ | _
  · have hs : slots { n := n, keys := keys, children := children }
        = (List.range n.num_children).map (fun i => (keys i, i)) := by
      unfold slots
      simp only [ht]
    simp only [hs, List.map_map, node_size]
    refine foldl_add_size _ (fun i => art_size_in_bytes_at sz (children i)) g _ (fun i hi => ?_)
    exact hg (keys i, i) (by rw [hs]; exact List.mem_map_of_mem _ hi)
  · have hs : slots { n := n, keys := keys, children := children }
        = (List.range n.num_children).map (fun i => (keys i, i)) := by
      unfold slots
      simp only [ht]
    simp only [hs, List.map_map, node_size]
    refine foldl_add_size _ (fun i => art_size_in_bytes_at sz (children i)) g _ (fun i hi => ?_)
    exact hg (keys i, i) (by rw [hs]; exact List.mem_map_of_mem _ hi)
  · have hs : slots { n := n, keys := keys, children := children }
        = ((List.range 256).filter (fun c => keys c != 0)).map (fun c => (c, keys c - 1)) := by
      unfold slots
      simp only [ht]
    simp only [hs, List.map_map, node_size]
    have e := foldl_add_size_ite (List.range 256) (fun c => keys c != 0)
      (fun c => art_size_in_bytes_at sz (children (keys c - 1))) (fun c => g (keys c - 1))
      sz.n48 (fun i hi hp => hg (i, keys i - 1) (by
        rw [hs]
        exact List.mem_map_of_mem _ (List.mem_filter.2 ⟨hi, hp⟩)))
    refine Eq.trans ?_ e
    congr 1
    funext size i
    by_cases h : keys i = 0
    · simp [h]
    · simp [h]
  · have hs : slots { n := n, keys := keys, children := children }
        = ((List.range 256).filter (fun c => !(children c).isNull)).map (fun c => (c, c)) := by
      unfold slots
      simp only [ht]
    simp only [hs, List.map_map, node_size]
    have e := foldl_add_size_ite (List.range 256) (fun c => !(children c).isNull)
      (fun c => art_size_in_bytes_at sz (children c)) g
      sz.n256 (fun i hi hp => hg (i, i) (by
        rw [hs]
        exact List.mem_map_of_mem _ (List.mem_filter.2 ⟨hi, hp⟩)))
    refine Eq.trans ?_ e
    congr 1
    funext size i
    by_cases h : (children i).isNull = true
    · simp [h]
    · simp [h]

theorem sum_over_slots (l : List (Nat × Nat)) (F : Nat × Nat → Nat)
    (A : Nat × Nat → List (List Nat × Nat)) (B : Nat × Nat → List Inner) (w : Inner → Nat)
    (c : Nat) (h : ∀ p, p ∈ l → F p = (A p).length * c + ((B p).map w).sum) :
    (l.map F).sum = (l.flatMap A).length * c + ((l.flatMap B).map w).sum := by
  induction l with
  | nil => simp
  | cons p t ih =>
    rw [List.map_cons, List.sum_cons, List.flatMap_cons, List.flatMap_cons,
      List.length_append, List.map_append, List.sum_append, h p (List.mem_cons_self _ _),
      ih (fun q hq => h q (List.mem_cons_of_mem _ hq)), Nat.add_mul]
    omega

/-- The footprint of a well-formed subtree: one leaf header per leaf and one record per
inner node. -/
theorem art_size_in_bytes_at_eq (sz : Sizes) {ord : Bool} {n : Node} {path : List Nat}
    (h : WF ord n path) :
    art_size_in_bytes_at sz n =
      some ((leaves n).length * sz.leaf +
        ((inner_nodes n).map (fun x => node_size sz x.n.type)).sum) := by
  induction n generalizing path with
  | null => exact absurd h (by simp [WF])
  | leaf l => simp [art_size_in_bytes_at, leaves, inner_nodes]
  | inner n keys children ih =>
    obtain ⟨hsh, hbig, P, hP, hcache, hch⟩ := (WF_inner_iff ord n keys children path).1 h
    rw [art_size_in_bytes_at_inner sz n keys children
      (fun s => (leaves (children s)).length * sz.leaf +
        ((inner_nodes (children s)).map (fun x => node_size sz x.n.type)).sum)
      (fun p hp => ih p.2 (hch p.1 p.2 hp)),
      leaves_inner, inner_nodes_inner, List.map_cons, List.sum_cons,
      sum_over_slots _ (fun p => (leaves (children p.2)).length * sz.leaf +
          ((inner_nodes (children p.2)).map (fun x => node_size sz x.n.type)).sum)
        (fun p => leaves (children p.2)) (fun p => inner_nodes (children p.2))
        (fun x => node_size sz x.n.type) sz.leaf (fun p _ => rfl)]
    simp only
    congr 1
    omega

/-- C14 (amended): in a trie reached by calls with keys that can be filed (at an insert
neither the key nor a stored key, followed by a zero byte, is a prefix of the other; at
every call the byte behind the key in the buffer is zero when at least two stored keys start
with the key), `art_size_in_bytes` returns the size of the trie handle plus `art_size` times
the size of the leaf header plus the record sizes of the reachable inner nodes; the empty
trie reports the size of the handle; key lengths and values do not enter. -/
theorem C14_footprint (simd : Bool) (sz : Sizes) (t : art_tree) (M : List (List Nat × Nat))
    (hr : ReachT simd 256 t M) :
    art_size_in_bytes sz t = some (sz.tree + art_size t * sz.leaf +
      ((inner_nodes t.root).map (fun x => node_size sz x.n.type)).sum) ∧
    art_size_in_bytes sz art_tree_init = some sz.tree := by
  refine ⟨?_, rfl⟩
  have hs := (reach_size hr).1
  obtain ⟨hwf, _⟩ := reach_inv simd false (by intro e; cases e) hr
  unfold art_size_in_bytes art_size
  rw [hs]
  rcases hwf.1 with hnull | hw
  · rw [hnull]
    simp [Node.isNull, leaves, inner_nodes]
  · have hnn : t.root.isNull = false := by
      cases e : t.root with
      | null => rw [e] at hw; exact absurd hw (by simp [WF])
      | leaf l => rfl
      | inner n keys children => rfl
    rw [hnn, art_size_in_bytes_at_eq sz hw]
    simp only [Bool.false_eq_true, if_false, add_size]
    congr 1
    omega

/-- C14 at a concrete input: the trie holding "abc", "abd" and their proper prefix "ab"
takes the handle, three leaf headers and one N4 record: 16 + 3 * 16 + 56 bytes on an LP64
target. -/
theorem C14_footprint_witness :
    art_size_in_bytes sizes_lp64 (art_insert false trie_abd (buf [97, 98]) 2 3).1
      = some 120 := by
  have h := (C14_footprint false sizes_lp64 (art_insert false trie_abd (buf [97, 98]) 2 3).1
    _ (ReachT.insert trie_abd _ (buf [97, 98]) 2 3 reach_abd (buf_lt _ (by decide))
      (fun i _ => buf_lt _ (by decide) i) (by decide) (ZeroBehind_zero rfl))).1
  have e : sizes_lp64.tree + art_size (art_insert false trie_abd (buf [97, 98]) 2 3).1
        * sizes_lp64.leaf +
      ((inner_nodes (art_insert false trie_abd (buf [97, 98]) 2 3).1.root).map
        (fun x => node_size sizes_lp64 x.n.type)).sum
      = 120 := by decide
  rw [e] at h
  exact h

set_option smartUnfolding false in
set_option maxRecDepth 1000000 in
/-- C14 (as written) fails in two ways.  After the inserts of "a", "a\0", "a\x01", ...,
"a\x0f" the size is 17 and the only inner node is an N48, but the walk reaches sixteen
leaves and reports 16 + 16 * 16 + 656 = 928 bytes instead of 16 + 17 * 16 + 656 = 944.
After the inserts of "abX", "abY", of the key "a" given as the first byte of the buffer
"ab", and of "a\x01", ..., "a\x0f" the size is 18 and the walk reports 928 bytes as
well. -/
theorem C14_footprint_misses_a_leaf :
    (art_size (trie_of false keys_a) = 17 ∧
     (inner_nodes (trie_of false keys_a).root).map (fun x => x.n.type) = [NODE48] ∧
     art_size_in_bytes sizes_lp64 (trie_of false keys_a) = some 928 ∧
     sizes_lp64.tree + 17 * sizes_lp64.leaf + sizes_lp64.n48 = 944) ∧
    (art_size trie_dup_48 = 18 ∧
     (inner_nodes trie_dup_48.root).map (fun x => x.n.type) = [NODE48] ∧
     art_size_in_bytes sizes_lp64 trie_dup_48 = some 928) := by
  refine ⟨?_, ?_⟩ <;> decide

/-! ## The byte-to-child mapping of a node -/

/-! ## Growth of a node -/

theorem child_at_mem {ord : Bool} {x : Inner} (simd : Bool) (h : Shape ord x) {b s : Nat}
    (hb : b < 256) (hm : (b, s) ∈ slots x) : child_at simd x b = x.children s := by
  unfold child_at
  rw [(find_child_iff simd ord x h b hb s).2 hm]

theorem child_at_none {ord : Bool} {x : Inner} (simd : Bool) (h : Shape ord x) {b : Nat}
    (hb : b < 256) (hm : ∀ s, (b, s) ∉ slots x) : child_at simd x b = Node.null := by
  unfold child_at
  rw [(find_child_none simd ord x h b hb).2 hm]

theorem child_at_entry {ord : Bool} {x : Inner} (simd : Bool) (h : Shape ord x) {b : Nat}
    {ch : Node} (hb : b < 256) (hm : (b, ch) ∈ entries x) : child_at simd x b = ch := by
  obtain ⟨s, hs, e⟩ := (mem_entries x b ch).1 hm
  rw [child_at_mem simd h hb hs, e]

theorem add_child_type (simd : Bool) (x : Inner) (c : Nat) (child : Node) (h : Shape false x) :
    (add_child simd x c child).n.type =
      (if x.n.type = NODE4 ∧ x.n.num_children = 4 then NODE16
       else if x.n.type = NODE16 ∧ x.n.num_children = 16 then NODE48
       else if x.n.type = NODE48 ∧ x.n.num_children = 48 then NODE256
       else x.n.type) ∧
    (add_child simd x c child).n.num_children =
      (if x.n.type = NODE256 then (x.n.num_children + 1) % 256 else x.n.num_children + 1) := by
  unfold add_child
  rcases ht : x.n.type with _ | _ | _ | _
  · have hl := layout_4 h ht
    by_cases hn : x.n.num_children < 4
    · simp only [add_child4_room simd x c child hn]
      rw [if_neg (by omega)]
      simp only [reduceCtorEq, false_and, if_false]
      exact ⟨ht, rfl⟩
    · simp only [add_child4_full simd x c child hn]
      have h4 : x.n.num_children = 4 := by omega
      have hg : (grow4 x).n.num_children < 16 := by
        show x.n.num_children < 16
        omega
      rw [add_child16_room simd (grow4 x) c child hg]
      simp only [h4, and_self, if_true, reduceCtorEq, if_false]
      exact ⟨rfl, congrArg (· + 1) h4⟩
  · have hl := layout_16 h ht
    by_cases hn : x.n.num_children < 16
    · simp only [add_child16_room simd x c child hn]
      simp only [reduceCtorEq, false_and, if_false, true_and]
      rw [if_neg (show ¬ x.n.num_children = 16 by omega)]
      exact ⟨ht, rfl⟩
    · simp only [add_child16_full simd x c child hn]
      have h4 : x.n.num_children = 16 := by omega
      have hg : (grow16 x).n.num_children < 48 := by
        show x.n.num_children < 48
        omega
      simp only [h4, and_self, if_true, reduceCtorEq, if_false, false_and]
      unfold add_child48
      rw [if_pos hg]
      exact ⟨rfl, congrArg (· + 1) h4⟩
  · obtain ⟨_, hl, _⟩ := layout_48 h ht
    by_cases hn : x.n.num_children < 48
    · simp only [reduceCtorEq, false_and, if_false, true_and]
      rw [if_neg (by omega)]
      unfold add_child48
      rw [if_pos hn]
      exact ⟨ht, rfl⟩
    · have h4 : x.n.num_children = 48 := by omega
      rw [add_child48_full x c child hn]
      simp only [h4, and_self, if_true, reduceCtorEq, if_false, false_and]
      exact ⟨rfl, congrArg (fun k => (k + 1) % 256) h4⟩
  · simp only [reduceCtorEq, false_and, if_false, if_true]
    exact ⟨ht, rfl⟩

/-- C21 (amended): `add_child` of a non-null child under a byte `c` that a well-formed node
(distinct key bytes, non-null children, the layout of its variant) does not hold keeps the
variant below capacity and moves to the next variant at exactly 4, 16 and 48 children; the
result has the same `partial_len` and cached prefix bytes, `num_children` is one more
(modulo 256 in a 256-way node, whose counter is one byte), and `find_child` gives `child`
for `c` and the old child for every other byte. This holds for both builds of the 16-way
insert. -/
theorem C21_growth_thresholds (simd : Bool) (x : Inner) (c : Nat) (child : Node)
    (h : Shape false x) (hc : c < 256) (hnew : ∀ s, (c, s) ∉ slots x)
    (hch : child.isNull = false) :
    (add_child simd x c child).n.type =
      (if x.n.type = NODE4 ∧ x.n.num_children = 4 then NODE16
       else if x.n.type = NODE16 ∧ x.n.num_children = 16 then NODE48
       else if x.n.type = NODE48 ∧ x.n.num_children = 48 then NODE256
       else x.n.type) ∧
    (add_child simd x c child).n.num_children =
      (if x.n.type = NODE256 then (x.n.num_children + 1) % 256 else x.n.num_children + 1) ∧
    (add_child simd x c child).n.partial_len = x.n.partial_len ∧
    (∀ i, i < MAX_PREFIX_LEN → i < x.n.partial_len →
      (add_child simd x c child).n.partial_ i = x.n.partial_ i) ∧
    (∀ b, b < 256 →
      child_at simd (add_child simd x c child) b = if b = c then child else child_at simd x b) := by
  have A := add_child_spec simd false x c child h hc hnew hch (by intro e; cases e)
  obtain ⟨t1, t2⟩ := add_child_type simd x c child h
  refine ⟨t1, t2, A.plen, A.pbytes, ?_⟩
  intro b hb
  by_cases hbc : b = c
  · rw [if_pos hbc, hbc]
    exact child_at_entry simd A.shape hc ((A.mem _).2 (Or.inl rfl))
  · rw [if_neg hbc]
    by_cases hs : ∃ s, (b, s) ∈ slots x
    · obtain ⟨s, hs⟩ := hs
      rw [child_at_mem simd h hb hs]
      exact child_at_entry simd A.shape hb
        ((A.mem _).2 (Or.inr ((mem_entries x b _).2 ⟨s, hs, rfl⟩)))
    · have hs' : ∀ s, (b, s) ∉ slots x := fun s hs1 => hs ⟨s, hs1⟩
      rw [child_at_none simd h hb hs']
      apply child_at_none simd A.shape hb
      intro s hs1
      rcases (A.mem _).1 ((mem_entries _ b _).2 ⟨s, hs1, rfl⟩) with e | e
      · exact hbc (Prod.mk.inj e).1
      · obtain ⟨s2, hs2, _⟩ := (mem_entries x b _).1 e
        exact hs' s2 hs2

theorem node_abcd_shape : Shape false node_abcd where
  byte_lt := by decide
  child_ne := by decide
  keys_nodup := by decide
  sorted := fun e => Bool.noConfusion e
  layout := by
    show node_abcd.n.num_children ≤ 4
    decide

theorem node_abcd_new : ∀ s, (101, s) ∉ slots node_abcd := by
  intro s hs
  have h1 : (101 : Nat) ∈ (slots node_abcd).map Prod.fst := List.mem_map.2 ⟨_, hs, rfl⟩
  rw [show (slots node_abcd).map Prod.fst = [97, 98, 99, 100] by decide] at h1
  revert h1
  decide

set_option smartUnfolding false in
set_option maxRecDepth 1000000 in
/-- C21 at a concrete input: adding the byte "e" to the full 4-way root of the trie holding
"a", "b", "c", "d" gives a 16-way node with five children that maps "e" to the new leaf and
every other byte as before; and after the inserts of "a" to "f" the root is a 16-way node. -/
theorem C21_growth_thresholds_witness :
    (node_abcd.n.type = NODE4 ∧ node_abcd.n.num_children = 4) ∧
    (add_child true node_abcd 101 (Node.leaf (make_leaf (buf [101]) 1 5))).n.type = NODE16 ∧
    (add_child true node_abcd 101 (Node.leaf (make_leaf (buf [101]) 1 5))).n.num_children = 5 ∧
    (∀ b, b < 256 →
      child_at true (add_child true node_abcd 101 (Node.leaf (make_leaf (buf [101]) 1 5))) b =
        if b = 101 then Node.leaf (make_leaf (buf [101]) 1 5) else child_at true node_abcd b) ∧
    (inner_nodes (trie_of false [[97], [98], [99], [100], [101], [102]]).root).map
      (fun x => (x.n.type, x.n.num_children)) = [(NODE16, 6)] :=
  have h := C21_growth_thresholds true node_abcd 101 (Node.leaf (make_leaf (buf [101]) 1 5))
    node_abcd_shape (by decide) node_abcd_new rfl
  ⟨by decide, h.1.trans (by decide), h.2.1.trans (by decide), h.2.2.2.2, by decide⟩

set_option smartUnfolding false in
set_option maxRecDepth 1000000 in
/-- C21 (as written) fails on a node with a key byte held twice: after the inserts of "a",
"a\0", "a\x01", ..., "a\x0e" the root is a full 16-way node with the key bytes 0, 0, 1,
..., 14, in which `find_child` gives the leaf of "a" for the byte 0; `add_child` of the
byte 15, which the node does not hold, gives a 48-way node in which `find_child` gives the
leaf of "a\0" for the byte 0. -/
theorem C21_growth_remaps_another_byte :
    (node16_zero_twice.n.type, node16_zero_twice.n.num_children,
      (List.range 16).map node16_zero_twice.keys)
      = (NODE16, 16, [0, 0, 1, 2, 3, 4, 5, 6, 7, 8, 9, 10, 11, 12, 13, 14]) ∧
    find_child false node16_zero_twice 15 = none ∧
    leaves (child_at false node16_zero_twice 0) = [([97], 1)] ∧
    (add_child false node16_zero_twice 15 (Node.leaf (make_leaf (buf [97, 15]) 2 17))).n.type
      = NODE48 ∧
    leaves (child_at false
      (add_child false node16_zero_twice 15 (Node.leaf (make_leaf (buf [97, 15]) 2 17))) 0)
      = [([97, 0], 2)] := by
  refine ⟨?_, ?_, ?_, ?_, ?_⟩ <;> decide

/-! ## Shrinking of a node -/

theorem toNode_inj {x y : Inner} (h : x.toNode = y.toNode) : x = y := by
  cases x; cases y
  unfold Inner.toNode at h
  simp only [Node.inner.injEq] at h
  obtain ⟨h1, h2, h3⟩ := h
  subst h1 h2 h3
  rfl

theorem remove_child_type {ord : Bool} (x : Inner) (c s : Nat) (h : Shape ord x)
    (hbig : min_children x.n.type ≤ (slots x).length)
    (hnc : ¬ (x.n.type = NODE4 ∧ (slots x).length = 2)) :
    ∃ x' : Inner, remove_child x c s = x'.toNode ∧
      x'.n.type =
        (if x.n.type = NODE256 ∧ x.n.num_children = 38 then NODE48
         else if x.n.type = NODE48 ∧ x.n.num_children = 13 then NODE16
         else if x.n.type = NODE16 ∧ x.n.num_children = 4 then NODE4
         else x.n.type) := by
  unfold remove_child
  rcases ht : x.n.type with _ | _ | _ | _
  · have hl := layout_4 h ht
    have hlen := slots_length_4 x ht
    rw [ht] at hbig
    have h2 : 2 ≤ (slots x).length := hbig
    have h3 : (slots x).length ≠ 2 := fun e => hnc ⟨ht, e⟩
    have hz : ¬ (erase_at x s).n.num_children = 1 := by
      show ¬ (x.n.num_children + 255) % 256 = 1
      omega
    simp only [remove_child4_eq, if_neg hz, reduceCtorEq, false_and, if_false]
    exact ⟨_, rfl, ht⟩
  · have hl := layout_16 h ht
    simp only [remove_child16_eq, reduceCtorEq, false_and, if_false, true_and]
    by_cases hz : x.n.num_children = 4
    · have hz' : (erase_at x s).n.num_children = 3 := by
        show (x.n.num_children + 255) % 256 = 3
        omega
      rw [if_pos hz', if_pos hz]
      exact ⟨_, rfl, rfl⟩
    · have hz' : ¬ (erase_at x s).n.num_children = 3 := by
        show ¬ (x.n.num_children + 255) % 256 = 3
        omega
      rw [if_neg hz', if_neg hz]
      exact ⟨_, rfl, ht⟩
  · obtain ⟨_, hl, _⟩ := layout_48 h ht
    simp only [remove_child48_eq, reduceCtorEq, false_and, if_false, true_and]
    by_cases hz : x.n.num_children = 13
    · have hz' : (clear48 x c).n.num_children = 12 := by
        show (x.n.num_children + 255) % 256 = 12
        omega
      rw [if_pos hz', if_pos hz]
      exact ⟨_, rfl, (shrink48_facts _).1⟩
    · have hz' : ¬ (clear48 x c).n.num_children = 12 := by
        show ¬ (x.n.num_children + 255) % 256 = 12
        omega
      rw [if_neg hz', if_neg hz]
      exact ⟨_, rfl, ht⟩
  · have hl := layout_256 h ht
    simp only [remove_child256_eq, reduceCtorEq, false_and, if_false, true_and]
    by_cases hz : x.n.num_children = 38
    · have hz' : (clear256 x c).n.num_children = 37 := by
        show (x.n.num_children + 255) % 256 = 37
        omega
      rw [if_pos hz', if_pos hz]
      exact ⟨_, rfl, (shrink256_facts _).1⟩
    · have hz' : ¬ (clear256 x c).n.num_children = 37 := by
        show ¬ (x.n.num_children + 255) % 256 = 37
        omega
      rw [if_neg hz', if_neg hz]
      exact ⟨_, rfl, ht⟩

/-- C22: `remove_child` of the child under byte `c` of a well-formed node (with more than
the two children at which a 4-way node is collapsed) gives a node of the same variant,
except that a 256-way node whose count falls to 37, a 48-way node whose count falls to 12
and a 16-way node whose count falls to 3 are replaced by the next smaller variant; the
result has one child less, the same `partial_len` and cached prefix bytes, `find_child`
gives nothing for `c` and the old child for every other byte, and the `keys` of a 4-way
or 16-way result are in ascending order. -/
theorem C22_shrink_thresholds (simd : Bool) (x : Inner) (c s : Nat) (h : Shape true x)
    (hbig : min_children x.n.type ≤ (slots x).length) (hm : (c, s) ∈ slots x)
    (hnc : ¬ (x.n.type = NODE4 ∧ (slots x).length = 2)) :
    ∃ x', remove_child x c s = x'.toNode ∧
      x'.n.type =
        (if x.n.type = NODE256 ∧ x.n.num_children = 38 then NODE48
         else if x.n.type = NODE48 ∧ x.n.num_children = 13 then NODE16
         else if x.n.type = NODE16 ∧ x.n.num_children = 4 then NODE4
         else x.n.type) ∧
      (slots x').length + 1 = (slots x).length ∧
      x'.n.partial_len = x.n.partial_len ∧
      (∀ i, i < MAX_PREFIX_LEN → i < x.n.partial_len → x'.n.partial_ i = x.n.partial_ i) ∧
      (∀ b, b < 256 → child_at simd x' b = if b = c then Node.null else child_at simd x b) ∧
      (x'.n.type = NODE4 ∨ x'.n.type = NODE16 →
        ∀ i j, i < j → j < x'.n.num_children → x'.keys i < x'.keys j) := by
  obtain ⟨x', e1, R, _⟩ := remove_child_spec true x c s h hbig hm hnc
  obtain ⟨x2, e2, t2⟩ := remove_child_type x c s h hbig hnc
  have e : x2 = x' := toNode_inj (e2.symm.trans e1)
  subst e
  refine ⟨x2, e1, t2, R.len, R.plen, R.pbytes, ?_, ?_⟩
  · intro b hb
    by_cases hbc : b = c
    · rw [if_pos hbc]
      apply child_at_none simd R.shape hb
      intro s1 hs1
      exact ((R.mem _).1 ((mem_entries _ b _).2 ⟨s1, hs1, rfl⟩)).2 hbc
    · rw [if_neg hbc]
      by_cases hs : ∃ s1, (b, s1) ∈ slots x
      · obtain ⟨s1, hs1⟩ := hs
        rw [child_at_mem simd h hb hs1]
        exact child_at_entry simd R.shape hb
          ((R.mem _).2 ⟨(mem_entries x b _).2 ⟨s1, hs1, rfl⟩, hbc⟩)
      · have hs' : ∀ s1, (b, s1) ∉ slots x := fun s1 hs1 => hs ⟨s1, hs1⟩
        rw [child_at_none simd h hb hs']
        apply child_at_none simd R.shape hb
        intro s1 hs1
        obtain ⟨s2, hs2, _⟩ := (mem_entries x b _).1
          ((R.mem _).1 ((mem_entries _ b _).2 ⟨s1, hs1, rfl⟩)).1
        exact hs' s2 hs2
  · intro ht i j hij hj
    have hs := R.shape.sorted rfl
    rw [slots_fst_small x2 ht, pairwise_map_range] at hs
    exact hs i j hij hj

set_option smartUnfolding false in
set_option maxRecDepth 1000000 in
theorem node16_abcd_shape : Shape true node16_abcd where
  byte_lt := by decide
  child_ne := by decide
  keys_nodup := by decide
  sorted := fun _ => by decide
  layout := by
    show node16_abcd.n.num_children ≤ 16
    decide

set_option smartUnfolding false in
set_option maxRecDepth 1000000 in
/-- C22 at a concrete input: removing "a" from the 16-way root with the four children "a",
"b", "c", "d" gives a 4-way node with three children. -/
theorem C22_shrink_thresholds_witness :
    (node16_abcd.n.type = NODE16 ∧ node16_abcd.n.num_children = 4) ∧
    ∃ x' : Inner, remove_child node16_abcd 97 0 = x'.toNode ∧ x'.n.type = NODE4 ∧
      (slots x').length + 1 = 4 ∧
      (∀ b, b < 256 →
        child_at true x' b = if b = 97 then Node.null else child_at true node16_abcd b) ∧
      (x'.n.type = NODE4 ∨ x'.n.type = NODE16 →
        ∀ i j, i < j → j < x'.n.num_children → x'.keys i < x'.keys j) :=
  ⟨by decide,
   (C22_shrink_thresholds true node16_abcd 97 0 node16_abcd_shape (by decide) (by decide)
      (by decide)).imp
    (fun _ h => ⟨h.1, h.2.1.trans (by decide), h.2.2.1.trans (by decide),
      h.2.2.2.2.2.1, h.2.2.2.2.2.2⟩)⟩

/-! ## The collapse of a 4-way node -/

/-- C23: `remove_child4` on a 4-way node with two children, with true prefix `P`, puts the
remaining child, reached by the key byte `e`, in the place of the node: a leaf unchanged,
an inner child with true prefix `P2` with `partial_len = child.partial_len + n.partial_len
+ 1` and with the first `min(10, partial_len)` bytes of `P ++ [e] ++ P2` as its cached
prefix, whatever the lengths of `P` and `P2`. -/
theorem C23_collapse_concatenates (x : Inner) (c pos : Nat) (P : List Nat)
    (ht : x.n.type = NODE4) (h : Shape false x) (hbig : (slots x).length = 2)
    (hm : (c, pos) ∈ slots x) (hP : P.length = x.n.partial_len)
    (hcache : ∀ i, i < MAX_PREFIX_LEN → i < x.n.partial_len → x.n.partial_ i = P.getD i 0) :
    ∃ e s2, (e, s2) ∈ slots x ∧ e ≠ c ∧
      (∀ l, x.children s2 = Node.leaf l → remove_child4 x pos = Node.leaf l) ∧
      (∀ cn ckeys cchildren P2, x.children s2 = Node.inner cn ckeys cchildren →
        P2.length = cn.partial_len →
        (∀ i, i < MAX_PREFIX_LEN → i < cn.partial_len → cn.partial_ i = P2.getD i 0) →
        ∃ n', remove_child4 x pos = Node.inner n' ckeys cchildren ∧
          n'.type = cn.type ∧ n'.num_children = cn.num_children ∧
          n'.partial_len = cn.partial_len + x.n.partial_len + 1 ∧
          ∀ i, i < min MAX_PREFIX_LEN n'.partial_len →
            n'.partial_ i = (P ++ [e] ++ P2).getD i 0) := by
  obtain ⟨e, s2, hes, hne, _, hres⟩ := remove_child4_collapse false x c pos ht h hbig hm
  refine ⟨e, s2, hes, hne, ?_, ?_⟩
  · intro l hl
    rw [hres, hl]
  · intro cn ckeys cchildren P2 hc hP2 hcache2
    refine ⟨collapse_header x.n e cn, ?_, rfl, rfl, ?_, ?_⟩
    · rw [hres, hc]
    · rw [collapse_header_len]; omega
    · intro i hi
      rw [collapse_header_len] at hi
      have hi1 : i < MAX_PREFIX_LEN := by omega
      rw [collapse_header_bytes x.n e cn i hi1 (by omega)]
      by_cases c1 : i < x.n.partial_len
      · rw [if_pos c1, hcache i hi1 c1, List.append_assoc,
          getD_append_left _ _ _ (by omega)]
      · rw [if_neg c1]
        by_cases c2 : i = x.n.partial_len
        · rw [if_pos c2, getD_append_left _ _ _ (by simp; omega),
            getD_append_right _ _ _ (by omega)]
          have e0 : i - P.length = 0 := by omega
          rw [e0]
          rfl
        · rw [if_neg c2, getD_append_right _ _ _ (by simp; omega)]
          unfold MAX_PREFIX_LEN at *
          rw [hcache2 (i - x.n.partial_len - 1) (by omega) (by omega)]
          congr 1
          simp only [List.length_append, List.length_singleton]
          omega

theorem node_long_shape : Shape false node_long where
  byte_lt := by decide
  child_ne := by decide
  keys_nodup := by decide
  sorted := fun e => Bool.noConfusion e
  layout := by
    show node_long.n.num_children ≤ 4
    decide

/-- C23 at a concrete input: a 4-way node with a prefix of 12 bytes whose child under the
byte 1 is an inner node with a prefix of 11 bytes; removing the leaf under the byte 2
leaves that child with `partial_len = 24` and the first ten of the 12 bytes as its cached
prefix. -/
theorem C23_collapse_concatenates_witness :
    ((slots node_long).map Prod.fst = [1, 2] ∧ node_long.n.partial_len = 12 ∧
      (inner_nodes (node_long.children 0)).map (fun x => x.n.partial_len) = [11]) ∧
    (inner_nodes (remove_child4 node_long 1)).map
      (fun x => (x.n.partial_len, (List.range 10).map x.n.partial_))
      = [(24, [1, 2, 3, 4, 5, 6, 7, 8, 9, 10])] ∧
    ∃ e s2, (e, s2) ∈ slots node_long ∧ e ≠ 2 ∧
      (∀ l, node_long.children s2 = Node.leaf l → remove_child4 node_long 1 = Node.leaf l) ∧
      (∀ cn ckeys cchildren P2, node_long.children s2 = Node.inner cn ckeys cchildren →
        P2.length = cn.partial_len →
        (∀ i, i < MAX_PREFIX_LEN → i < cn.partial_len → cn.partial_ i = P2.getD i 0) →
        ∃ n', remove_child4 node_long 1 = Node.inner n' ckeys cchildren ∧
          n'.type = cn.type ∧ n'.num_children = cn.num_children ∧
          n'.partial_len = cn.partial_len + node_long.n.partial_len + 1 ∧
          ∀ i, i < min MAX_PREFIX_LEN n'.partial_len →
            n'.partial_ i = (bytes12 ++ [e] ++ P2).getD i 0) :=
  ⟨by decide, by decide,
   C23_collapse_concatenates node_long 2 1 bytes12 (by decide) node_long_shape (by decide)
    (by decide) (by decide) (by decide)⟩

/-! ## Path consistency -/

theorem PathOk_inner_iff (n : art_node) (keys : Nat → Nat) (children : Nat → Node) (d : Nat) :
    PathOk (Node.inner n keys children) d ↔
    ((∀ p, p ∈ slots { n := n, keys := keys, children := children } →
      ∀ kv, kv ∈ leaves (children p.2) →
        d + n.partial_len < kv.1.length ∧
        (∀ i, i < min n.partial_len MAX_PREFIX_LEN → kv.1.getD (d + i) 0 = n.partial_ i) ∧
        kv.1.getD (d + n.partial_len) 0 = p.1) ∧
    (∀ kv kv2, kv ∈ leaves (Node.inner n keys children) →
      kv2 ∈ leaves (Node.inner n keys children) →
      ∀ i, i < n.partial_len → kv.1.getD (d + i) 0 = kv2.1.getD (d + i) 0) ∧
    ∀ p, p ∈ slots { n := n, keys := keys, children := children } →
      PathOk (children p.2) (d + n.partial_len + 1)) := Iff.rfl

theorem other_key {l : List (List Nat × Nat)} (hlen : 2 ≤ l.length)
    (hnd : (l.map Prod.fst).Nodup) (k : List Nat) : ∃ kv, kv ∈ l ∧ kv.1 ≠ k := by
  match l, hlen, hnd with
  | a :: b :: rest, _, hnd =>
    simp only [List.map_cons, List.nodup_cons, List.mem_cons, not_or] at hnd
    by_cases e : a.1 = k
    · exact ⟨b, by simp, fun e2 => hnd.1.1 (e.trans e2.symm)⟩
    · exact ⟨a, by simp, e⟩

/-- With stored keys none of which is a proper prefix of another, a well-formed subtree is
path consistent: no leaf ends at the depth of the child slots of a node above it. -/
theorem WF_PathOk {ord : Bool} {n : Node} {path : List Nat} (h : WF ord n path)
    (hpf : ∀ a b, a ∈ leaves n → b ∈ leaves n → prefix_free a.1 b.1) :
    PathOk n path.length := by
  induction n generalizing path with
  | null => exact absurd h (by simp [WF])
  | leaf l => trivial
  | inner n keys children ih =>
    obtain ⟨hsh, hbig, P, hP, hcache, hch⟩ := (WF_inner_iff ord n keys children path).1 h
    have hmem : ∀ b s, (b, s) ∈ slots { n := n, keys := keys, children := children } →
        ∀ kv, kv ∈ leaves (children s) → kv ∈ leaves (Node.inner n keys children) := by
      intro b s hbs kv hkv
      rw [leaves_inner, List.mem_flatMap]
      exact ⟨(b, s), hbs, hkv⟩
    have hle : ∀ kv, kv ∈ leaves (Node.inner n keys children) →
        path ++ P <+: ext kv.1 ∧ path.length + n.partial_len ≤ kv.1.length := by
      intro kv hkv
      rw [leaves_inner, List.mem_flatMap] at hkv
      obtain ⟨⟨b, s⟩, hbs, hkv⟩ := hkv
      have hpre := (WF_leaves (hch b s hbs) kv hkv).1
      obtain ⟨h1, _, h3⟩ := prefix_snoc_getD hpre
      simp only [List.length_append, ext_length, hP] at h1
      exact ⟨h3, by omega⟩
    have key : ∀ kv, kv ∈ leaves (Node.inner n keys children) →
        ∀ i, i < n.partial_len → kv.1.getD (path.length + i) 0 = P.getD i 0 := by
      intro kv hkv i hi
      rw [leaves_inner, List.mem_flatMap] at hkv
      obtain ⟨⟨b, s⟩, hbs, hkv⟩ := hkv
      rw [← getD_ext]
      exact getD_of_prefix_mid (WF_leaves (hch b s hbs) kv hkv).1 i (by omega)
    have hlt : ∀ kv, kv ∈ leaves (Node.inner n keys children) →
        path.length + n.partial_len < kv.1.length := by
      intro kv hkv
      obtain ⟨hp1, hl1⟩ := hle kv hkv
      by_contra hcon
      have hlen : (path ++ P).length = kv.1.length := by
        simp only [List.length_append, hP]
        omega
      have e1 : path ++ P = kv.1 :=
        (prefix_of_ext hp1 (Nat.le_of_eq hlen)).eq_of_length hlen
      obtain ⟨kv', hkv', hne⟩ := other_key (WF_inner_two_leaves h).2 (WF_keys_nodup h) kv.1
      obtain ⟨hp2, hl2⟩ := hle kv' hkv'
      have hp3 : kv.1 <+: kv'.1 := by
        rw [← e1]
        exact prefix_of_ext hp2 (by simp only [List.length_append, hP]; omega)
      exact hne ((hpf kv kv' hkv hkv').1 hp3).symm
    rw [PathOk_inner_iff]
    refine ⟨?_, ?_, ?_⟩
    · rintro ⟨b, s⟩ hp kv hkv
      have hpre := (WF_leaves (hch b s hp) kv hkv).1
      obtain ⟨_, h2, _⟩ := prefix_snoc_getD hpre
      simp only [List.length_append] at h2
      rw [hP, getD_ext] at h2
      refine ⟨hlt kv (hmem b s hp kv hkv), ?_, h2⟩
      intro i hi
      rw [key kv (hmem b s hp kv hkv) i (by omega), hcache i (by omega) (by omega)]
    · intro kv kv2 h1 h2 i hi
      rw [key kv h1 i hi, key kv2 h2 i hi]
    · rintro ⟨b, s⟩ hp
      have := ih s (hch b s hp)
        (fun a c ha hc => hpf a c (hmem b s hp a ha) (hmem b s hp c hc))
      simp only [List.length_append, List.length_singleton, hP] at this
      exact this

/-- C24 (amended): in a trie reached by inserts of keys none of which is a proper prefix or
a proper extension of a stored key, and by deletes, every inner node at depth `d` with
prefix length `p` and every leaf `L` below it through the key byte `b` satisfy
`L.key_len > d + p`, `L.key[d + i] = partial[i]` for `i < min(p, 10)`, `L.key[d + p] = b`,
and all leaves below the node agree on `key[d .. d + p)`. -/
theorem C24_path_consistency (simd : Bool) (t : art_tree) (M : List (List Nat × Nat))
    (hr : Reach simd t M) : PathOk t.root 0 := by
  obtain ⟨hT, hpf⟩ := reach_T hr
  obtain ⟨hwf, hperm⟩ := reach_inv simd false (by intro e; cases e) hT
  rcases hwf.1 with hnull | hw
  · rw [hnull]; trivial
  · exact WF_PathOk hw
      (fun a b ha hb => hpf a b (hperm.mem_iff.1 ha) (hperm.mem_iff.1 hb))

/-- C24 at a concrete input: the trie holding "abc" and "abd". -/
theorem C24_path_consistency_witness : PathOk trie_abd.root 0 :=
  C24_path_consistency false trie_abd [([97, 98, 100], 2), ([97, 98, 99], 1)]
    (Reach.insert trie_abc [([97, 98, 99], 1)] (buf [97, 98, 100]) 3 2
      (Reach.insert art_tree_init [] (buf [97, 98, 99]) 3 1 Reach.init
        (buf_lt _ (by decide)) (by decide))
      (buf_lt _ (by decide)) (by decide))

theorem PathOk_lengths (n : art_node) (keys : Nat → Nat) (children : Nat → Node) (d : Nat)
    (h : PathOk (Node.inner n keys children) d) :
    ∀ kv, kv ∈ leaves (Node.inner n keys children) → d + n.partial_len < kv.1.length := by
  intro kv hkv
  rw [leaves_inner, List.mem_flatMap] at hkv
  obtain ⟨p, hp, hkv⟩ := hkv
  exact (((PathOk_inner_iff n keys children d).1 h).1 p hp kv hkv).1

/-- C24 (as written) fails: after the inserts of "abc" and of its prefix "ab" the root is an
inner node at depth 0 with prefix length 2, and the leaf "ab" below it has only 2 key
bytes. -/
theorem C24_leaf_ends_inside_the_prefix :
    (inner_nodes trie_abc_ab.root).map
      (fun x => (x.n.partial_len,
        (entries x).map (fun e => (e.1, (leaves e.2).map (fun kv => kv.1))))) =
      [(2, [(0, [[97, 98]]), (99, [[97, 98, 99]])])] ∧
    ¬ PathOk trie_abc_ab.root 0 := by
  refine ⟨by decide, fun h => ?_⟩
  have h2 : (inner_nodes trie_abc_ab.root).map (fun x => x.n.partial_len) = [2] := by decide
  have h3 : ([97, 98], 7) ∈ leaves trie_abc_ab.root := by decide
  cases hroot : trie_abc_ab.root with
  | null => rw [hroot] at h3; simp [leaves] at h3
  | leaf l => rw [hroot] at h2; simp [inner_nodes] at h2
  | inner n keys children =>
    rw [hroot] at h h2 h3
    have h1 := PathOk_lengths n keys children 0 h _ h3
    rw [inner_nodes_inner] at h2
    simp only [List.map_cons, List.cons.injEq] at h2
    rw [h2.1] at h1
    simp at h1

/-! ## The prefix split -/

/-- The two children of the 4-way node of a split, in slot order. -/
theorem split_entries (simd : Bool) (pl : Nat) (src : Nat → Nat) (soff b1 b2 : Nat)
    (c1 c2 : Node) :
    entries (add_child4 simd (add_child4 simd (split_node pl src soff) b1 c1) b2 c2) =
      if b2 < b1 then [(b2, c2), (b1, c1)] else [(b1, c1), (b2, c2)] := by
  have h0 : (split_node pl src soff).n.num_children < 4 := by
    show (0 : Nat) < 4
    omega
  have e1 := add_child4_room simd (split_node pl src soff) b1 c1 h0
  have h1 : (add_child4 simd (split_node pl src soff) b1 c1).n.num_children < 4 := by
    rw [e1]
    show (0 : Nat) + 1 < 4
    omega
  rw [add_child4_room simd _ b2 c2 h1, e1]
  have hn : (insert_at (split_node pl src soff)
      (scan_up (fun i => decide (b1 < (split_node pl src soff).keys i)) 0
        (split_node pl src soff).n.num_children) b1 c1).n.num_children = 1 := rfl
  have hk : (insert_at (split_node pl src soff)
      (scan_up (fun i => decide (b1 < (split_node pl src soff).keys i)) 0
        (split_node pl src soff).n.num_children) b1 c1).keys 0 = b1 := rfl
  have hk0 : (insert_at (split_node pl src soff) 0 b1 c1).keys 0 = b1 := rfl
  rw [hn]
  by_cases c : b2 < b1
  · have hs : scan_up (fun i => decide (b2 < (insert_at (split_node pl src soff)
        (scan_up (fun i => decide (b1 < (split_node pl src soff).keys i)) 0
          (split_node pl src soff).n.num_children) b1 c1).keys i)) 0 1 = 0 := by
      simp only [scan_up, hk0, c, decide_True, if_true]
    rw [hs, if_pos c]
    rfl
  · have hs : scan_up (fun i => decide (b2 < (insert_at (split_node pl src soff)
        (scan_up (fun i => decide (b1 < (split_node pl src soff).keys i)) 0
          (split_node pl src soff).n.num_children) b1 c1).keys i)) 0 1 = 1 := by
      simp only [scan_up, hk0, c, decide_False, Bool.false_eq_true, if_false]
    rw [hs, if_neg c]
    rfl

theorem split_prefix (simd : Bool) (pl : Nat) (src : Nat → Nat) (soff b1 b2 : Nat)
    (c1 c2 : Node) :
    (add_child4 simd (add_child4 simd (split_node pl src soff) b1 c1) b2 c2).n.partial_len = pl ∧
    ∀ i, i < MAX_PREFIX_LEN → i < pl →
      (add_child4 simd (add_child4 simd (split_node pl src soff) b1 c1) b2 c2).n.partial_ i
        = src (soff + i) := by
  have h0 : (split_node pl src soff).n.num_children < 4 := by
    show (0 : Nat) < 4
    omega
  have e1 := add_child4_room simd (split_node pl src soff) b1 c1 h0
  have h1 : (add_child4 simd (split_node pl src soff) b1 c1).n.num_children < 4 := by
    rw [e1]
    show (0 : Nat) + 1 < 4
    omega
  rw [add_child4_room simd _ b2 c2 h1, e1]
  exact ⟨rfl, fun i hi1 hi2 => split_node_bytes pl src soff i hi1 hi2⟩

/-- C25: when `recursive_insert` meets, at depth `depth`, an inner node with true prefix `P`
(of length `partial_len`, cached in `partial` up to 10 bytes and carried by the leftmost leaf
below the node) and `prefix_mismatch` gives `d < partial_len`, the node is replaced by a new
4-way node with `partial_len = d`, the first `min(d, 10)` bytes of `P` as cached prefix and
exactly two children: the old node under the key byte `P[d]` and the new leaf under
`key[depth + d]`. The old node keeps its children, its `partial_len` is decreased by
`d + 1`, and its cached prefix is the first `min(10, partial_len)` bytes of `P[d+1 ..]`,
whether the old `partial_len` was at most 10 or larger. -/
theorem C25_prefix_split (simd : Bool) (key : Nat → Nat) (key_len value : Nat)
    (replace : Bool) (n : art_node) (keys : Nat → Nat) (children : Nat → Node)
    (depth d : Nat) (P : List Nat) (L : art_leaf)
    (hP : P.length = n.partial_len)
    (hcache : ∀ i, i < MAX_PREFIX_LEN → i < P.length → n.partial_ i = P.getD i 0)
    (hmin : minimum (Node.inner n keys children) = some L)
    (hL : ∀ i, i < P.length → L.byte (depth + i) = P.getD i 0)
    (hdef : prefix_mismatch { n := n, keys := keys, children := children } key key_len
      depth = d)
    (hd : d < n.partial_len) :
    ∃ (x' : Inner) (n2 : art_node),
      (recursive_insert simd key key_len value replace (Node.inner n keys children)
        depth).1 = x'.toNode ∧
      x'.n.type = NODE4 ∧ x'.n.num_children = 2 ∧ x'.n.partial_len = d ∧
      (∀ i, i < min d MAX_PREFIX_LEN → x'.n.partial_ i = P.getD i 0) ∧
      entries x' =
        (if key (depth + d) < P.getD d 0 then
          [(key (depth + d), Node.leaf (make_leaf key key_len value)),
           (P.getD d 0, Node.inner n2 keys children)]
        else
          [(P.getD d 0, Node.inner n2 keys children),
           (key (depth + d), Node.leaf (make_leaf key key_len value))]) ∧
      n2.type = n.type ∧ n2.num_children = n.num_children ∧
      n2.partial_len = n.partial_len - (d + 1) ∧
      ∀ i, i < min MAX_PREFIX_LEN n2.partial_len → n2.partial_ i = P.getD (d + 1 + i) 0 := by
  have hc : n.partial_len ≠ 0 ∧
      prefix_mismatch { n := n, keys := keys, children := children } key key_len depth
        < n.partial_len := ⟨by omega, by rw [hdef]; exact hd⟩
  rw [recursive_insert_inner, if_pos hc, hdef]
  have main : ∀ (n2 : art_node) (src : Nat → Nat) (soff : Nat),
      (∀ i, i < MAX_PREFIX_LEN → i < d → src (soff + i) = P.getD i 0) →
      n2.type = n.type → n2.num_children = n.num_children →
      n2.partial_len = n.partial_len - (d + 1) →
      (∀ i, i < min MAX_PREFIX_LEN n2.partial_len → n2.partial_ i = P.getD (d + 1 + i) 0) →
      ∃ (x' : Inner) (n2' : art_node),
        ((add_child4 simd (add_child4 simd (split_node d src soff) (P.getD d 0)
            (Node.inner n2 keys children)) (key (depth + d))
            (Node.leaf (make_leaf key key_len value))).toNode, (0 : Nat), false).1 = x'.toNode ∧
        x'.n.type = NODE4 ∧ x'.n.num_children = 2 ∧ x'.n.partial_len = d ∧
        (∀ i, i < min d MAX_PREFIX_LEN → x'.n.partial_ i = P.getD i 0) ∧
        entries x' =
          (if key (depth + d) < P.getD d 0 then
            [(key (depth + d), Node.leaf (make_leaf key key_len value)),
             (P.getD d 0, Node.inner n2' keys children)]
          else
            [(P.getD d 0, Node.inner n2' keys children),
             (key (depth + d), Node.leaf (make_leaf key key_len value))]) ∧
        n2'.type = n.type ∧ n2'.num_children = n.num_children ∧
        n2'.partial_len = n.partial_len - (d + 1) ∧
        ∀ i, i < min MAX_PREFIX_LEN n2'.partial_len →
          n2'.partial_ i = P.getD (d + 1 + i) 0 := by
    intro n2 src soff hsrc t1 t2 t3 t4
    obtain ⟨s1, s2⟩ := split_header simd (split_node d src soff) (P.getD d 0)
      (key (depth + d)) (Node.inner n2 keys children)
      (Node.leaf (make_leaf key key_len value)) rfl rfl
    obtain ⟨s3, s4⟩ := split_prefix simd d src soff (P.getD d 0) (key (depth + d))
      (Node.inner n2 keys children) (Node.leaf (make_leaf key key_len value))
    refine ⟨_, n2, rfl, s1, s2, s3, ?_, split_entries simd d src soff _ _ _ _, t1, t2, t3, t4⟩
    intro i hi
    rw [s4 i (by omega) (by omega), hsrc i (by omega) (by omega)]
  by_cases c10 : n.partial_len ≤ MAX_PREFIX_LEN
  · rw [if_pos c10, hcache d (by omega) (by omega)]
    apply main (shortened n d n.partial_ (d + 1)) n.partial_ 0 _ rfl rfl rfl
    · intro i hi
      have hi2 : i < n.partial_len - (d + 1) := by
        have : (shortened n d n.partial_ (d + 1)).partial_len = n.partial_len - (d + 1) := rfl
        omega
      show memcpy n.partial_ 0 n.partial_ (d + 1) _ i = _
      rw [memcpy_in _ _ _ _ _ _ (by omega)]
      rw [hcache _ (by omega) (by omega)]
      congr 1
    · intro i h1 h2
      rw [Nat.zero_add]
      exact hcache i h1 (by omega)
  · rw [if_neg c10, hmin]
    simp only
    rw [hL d (by omega)]
    apply main (shortened n d L.byte (depth + d + 1)) n.partial_ 0 _ rfl rfl rfl
    · intro i hi
      have hi2 : i < n.partial_len - (d + 1) := by
        have : (shortened n d L.byte (depth + d + 1)).partial_len
          = n.partial_len - (d + 1) := rfl
        omega
      show memcpy n.partial_ 0 L.byte (depth + d + 1) _ i = _
      rw [memcpy_in _ _ _ _ _ _ (by omega)]
      have := hL (d + 1 + i) (by omega)
      rw [← this]
      congr 1
      omega
    · intro i h1 h2
      rw [Nat.zero_add]
      exact hcache i h1 (by omega)

theorem inner_nodes_headD (r : Node) (dflt : Inner) (h : (inner_nodes r).length ≠ 0) :
    ((inner_nodes r).headD dflt).toNode = r := by
  cases r with
  | null => exact absurd rfl h
  | leaf l => exact absurd rfl h
  | inner n keys children => rw [inner_nodes_inner]; rfl

/-- C25 at a concrete input: the root of the trie holding three keys that start with the
twelve bytes 1, ..., 12, and a key that leaves this prefix at index 11, beyond the cached
bytes: the new 4-way node has `partial_len = 11` and ten cached bytes, the old node
`partial_len = 0`. -/
theorem C25_prefix_split_witness :
    (inner_nodes (recursive_insert false (buf [1, 2, 3, 4, 5, 6, 7, 8, 9, 10, 11, 99]) 12 9
        true (Node.inner node_long.n node_long.keys node_long.children) 0).1).map
      (fun x => (x.n.type, x.n.num_children, x.n.partial_len,
        (List.range (min 10 x.n.partial_len)).map x.n.partial_,
        (entries x).map Prod.fst)) =
      [(NODE4, 2, 11, [1, 2, 3, 4, 5, 6, 7, 8, 9, 10], [12, 99]),
       (NODE4, 2, 0, [], [1, 2]),
       (NODE4, 2, 11, [21, 22, 23, 24, 25, 26, 27, 28, 29, 30], [1, 2])] ∧
    ∃ (x' : Inner) (n2 : art_node),
      (recursive_insert false (buf [1, 2, 3, 4, 5, 6, 7, 8, 9, 10, 11, 99]) 12 9 true
        (Node.inner node_long.n node_long.keys node_long.children) 0).1 = x'.toNode ∧
      x'.n.type = NODE4 ∧ x'.n.num_children = 2 ∧ x'.n.partial_len = 11 ∧
      (∀ i, i < min 11 MAX_PREFIX_LEN → x'.n.partial_ i = bytes12.getD i 0) ∧
      n2.partial_len = 0 :=
  ⟨by decide,
   (C25_prefix_split false (buf [1, 2, 3, 4, 5, 6, 7, 8, 9, 10, 11, 99]) 12 9 true
      node_long.n node_long.keys node_long.children 0 11 bytes12
      ⟨1, bytes12 ++ [1] ++ bytes11 ++ [1]⟩ (by decide) (by decide) (by decide) (by decide)
      (by decide) (by decide)).imp
    (fun _ h2 => h2.imp (fun _ h3 =>
      ⟨h3.1, h3.2.1, h3.2.2.1, h3.2.2.2.1, h3.2.2.2.2.1,
        h3.2.2.2.2.2.2.2.2.1.trans (by decide)⟩))⟩

/-! ## `minimum` and `maximum` on the nodes of a trie -/

theorem WF_of_inner_nodes {ord : Bool} {n : Node} {path : List Nat} (h : WF ord n path) :
    ∀ x, x ∈ inner_nodes n → ∃ path2, WF ord x.toNode path2 := by
  induction n generalizing path with
  | null => exact absurd h (by simp [WF])
  | leaf l => intro x hx; simp [inner_nodes] at hx
  | inner n keys children ih =>
    obtain ⟨hsh, hbig, P, hP, hcache, hch⟩ := (WF_inner_iff ord n keys children path).1 h
    intro x hx
    rw [inner_nodes_inner, List.mem_cons, List.mem_flatMap] at hx
    rcases hx with e | ⟨⟨b, s⟩, hbs, hx2⟩
    · rw [e]; exact ⟨path, h⟩
    · exact ih s (hch b s hbs) x hx2

theorem maximum_some {ord : Bool} {n : Node} {path : List Nat} (h : WF ord n path) :
    ∃ l, maximum n = some l := by
  have h1 := maximum_eq_last h
  have h2 := WF_leaves_ne_nil h
  cases hm : maximum n with
  | some l => exact ⟨l, rfl⟩
  | none =>
    rw [hm] at h1
    simp only [Option.map_none'] at h1
    exact absurd (List.getLast?_eq_none_iff.1 h1.symm) h2

/-- The slot `maximum` selects in a node with at least one child holds a child. -/
theorem last_slot_live {ord : Bool} {x : Inner} (h : Shape ord x) (hne : slots x ≠ []) :
    ∃ s, last_slot x = some s ∧ (x.children s).isNull = false ∧
      (x.n.type = NODE48 → ∃ idx, scan_down (fun i => x.keys i != 0) 256 = some idx ∧
        idx < 256) ∧
      (x.n.type = NODE256 → ∃ idx, scan_down (fun i => !(x.children i).isNull) 256 = some idx ∧
        idx < 256) := by
  obtain ⟨⟨b0, s0⟩, hp⟩ := List.exists_mem_of_ne_nil _ hne
  unfold last_slot
  rcases ht : x.n.type with _ | _ | _ | _
  · obtain ⟨h1, _⟩ := (mem_slots_4 x ht b0 s0).1 hp
    have hm : (x.keys (x.n.num_children - 1), x.n.num_children - 1) ∈ slots x :=
      (mem_slots_4 x ht _ _).2 ⟨by omega, rfl⟩
    exact ⟨_, rfl, h.child_ne _ hm, fun e => (by cases e), fun e => (by cases e)⟩
  · obtain ⟨h1, _⟩ := (mem_slots_16 x ht b0 s0).1 hp
    have hm : (x.keys (x.n.num_children - 1), x.n.num_children - 1) ∈ slots x :=
      (mem_slots_16 x ht _ _).2 ⟨by omega, rfl⟩
    exact ⟨_, rfl, h.child_ne _ hm, fun e => (by cases e), fun e => (by cases e)⟩
  · obtain ⟨h1, h2, _⟩ := (mem_slots_48 x ht b0 s0).1 hp
    cases hs : scan_down (fun i => x.keys i != 0) 256 with
    | none =>
      have := (scan_down_none _ 256).1 hs b0 h1
      simp only [bne_eq_false_iff_eq] at this
      exact absurd this h2
    | some idx =>
      obtain ⟨i1, i2, _⟩ := (scan_down_some _ 256 idx).1 hs
      simp only [bne_iff_ne] at i2
      have hm : (idx, x.keys idx - 1) ∈ slots x := (mem_slots_48 x ht _ _).2 ⟨i1, i2, rfl⟩
      exact ⟨_, rfl, h.child_ne _ hm, fun _ => ⟨idx, rfl, i1⟩, fun e => (by cases e)⟩
  · obtain ⟨h1, h2, h3⟩ := (mem_slots_256 x ht b0 s0).1 hp
    cases hs : scan_down (fun i => !(x.children i).isNull) 256 with
    | none =>
      have := (scan_down_none _ 256).1 hs b0 h1
      simp only [Bool.not_eq_false'] at this
      rw [h3] at this
      cases this
    | some idx =>
      obtain ⟨i1, i2, _⟩ := (scan_down_some _ 256 idx).1 hs
      simp only [Bool.not_eq_true'] at i2
      have hm : (idx, idx) ∈ slots x := (mem_slots_256 x ht _ _).2 ⟨i1, rfl, i2⟩
      exact ⟨_, rfl, h.child_ne _ hm, fun e => (by cases e), fun _ => ⟨idx, rfl, i1⟩⟩

/-- C26 (amended): in a trie reached by calls with keys that can be filed (at an insert
neither the key nor a stored key, followed by a zero byte, is a prefix of the other; at
every call the byte behind the key in the buffer is zero when at least two stored keys start
with the key), `art_minimum` and `art_maximum` return null exactly when the trie is empty;
in every inner node the upward and downward scans of a 48-way or 256-way node find an entry
below 256, the child that `minimum` and the child that `maximum` select are not null, and
both functions return a leaf. -/
theorem C26_minimum_maximum_defined (simd : Bool) (t : art_tree) (M : List (List Nat × Nat))
    (hr : ReachT simd 256 t M) :
    ((art_minimum t = none ↔ M = []) ∧ (art_maximum t = none ↔ M = [])) ∧
    ∀ x, x ∈ inner_nodes t.root →
      (x.n.type = NODE48 → scan_up (fun i => x.keys i != 0) 0 256 < 256 ∧
        ∃ idx, scan_down (fun i => x.keys i != 0) 256 = some idx ∧ idx < 256) ∧
      (x.n.type = NODE256 → scan_up (fun i => !(x.children i).isNull) 0 256 < 256 ∧
        ∃ idx, scan_down (fun i => !(x.children i).isNull) 256 = some idx ∧ idx < 256) ∧
      (x.children (first_slot x)).isNull = false ∧
      (∃ s, last_slot x = some s ∧ (x.children s).isNull = false) ∧
      (∃ l, minimum x.toNode = some l) ∧ (∃ l, maximum x.toNode = some l) := by
  have hord : false = true → simd = false ∨ 256 ≤ 128 := by intro e; cases e
  obtain ⟨hwf, hperm⟩ := reach_inv simd false hord hr
  refine ⟨⟨⟨fun h => ?_, fun h => ?_⟩, ⟨fun h => ?_, fun h => ?_⟩⟩, ?_⟩
  · by_contra hne
    obtain ⟨l, hl, _⟩ := minimum_mem (reach_root hord hr hne)
    unfold art_minimum at h
    rw [hl] at h
    cases h
  · subst h
    rw [reach_empty hr]
    rfl
  · by_contra hne
    obtain ⟨l, hl⟩ := maximum_some (reach_root hord hr hne)
    unfold art_maximum at h
    rw [hl] at h
    cases h
  · subst h
    rw [reach_empty hr]
    rfl
  · intro x hx
    rcases hwf.1 with hnull | hw
    · rw [hnull] at hx
      simp [inner_nodes] at hx
    · obtain ⟨hsh, hbig⟩ := WF_inner_nodes hw x hx
      obtain ⟨path2, hw2⟩ := WF_of_inner_nodes hw x hx
      have hne := slots_ne_nil_of_big hbig
      obtain ⟨b, hb, h48, h256⟩ := slots_head x hne
      obtain ⟨s, hs1, hs2, l48, l256⟩ := last_slot_live hsh hne
      have hm : (b, first_slot x) ∈ slots x := List.mem_of_mem_head? hb
      obtain ⟨l, hl, _⟩ := minimum_mem hw2
      exact ⟨fun e => ⟨h48 e, l48 e⟩, fun e => ⟨h256 e, l256 e⟩, hsh.child_ne _ hm,
        ⟨s, hs1, hs2⟩, ⟨l, hl⟩, maximum_some hw2⟩

set_option smartUnfolding false in
set_option maxRecDepth 1000000 in
/-- C26 at a concrete input: the trie holding the sixty one-byte keys 0, ..., 59, whose root
is a 256-way node. -/
theorem C26_minimum_maximum_defined_witness :
    ((art_minimum trie_sixty).map (fun l => l.key) = some [0] ∧
      (art_maximum trie_sixty).map (fun l => l.key) = some [59]) ∧
    ∀ x, x ∈ inner_nodes trie_sixty.root →
      (x.n.type = NODE48 → scan_up (fun i => x.keys i != 0) 0 256 < 256 ∧
        ∃ idx, scan_down (fun i => x.keys i != 0) 256 = some idx ∧ idx < 256) ∧
      (x.n.type = NODE256 → scan_up (fun i => !(x.children i).isNull) 0 256 < 256 ∧
        ∃ idx, scan_down (fun i => !(x.children i).isNull) 256 = some idx ∧ idx < 256) ∧
      (x.children (first_slot x)).isNull = false ∧
      (∃ s, last_slot x = some s ∧ (x.children s).isNull = false) ∧
      (∃ l, minimum x.toNode = some l) ∧ (∃ l, maximum x.toNode = some l) := by
  obtain ⟨M, hM⟩ := reach_trie_of false ((List.range 60).map (fun i => [i])) (by decide)
    (by decide)
  exact ⟨by decide, (C26_minimum_maximum_defined false trie_sixty M hM).2⟩

set_option smartUnfolding false in
set_option maxRecDepth 1000000 in
/-- C26 (as written) fails in two ways.  After the inserts of "a", "a\0", "a\x01", ...,
"a\x0f" and the deletes of "a\x01", ..., "a\x0f" the trie holds the key "a\0",
`art_minimum` returns its leaf, and `art_maximum` returns null: the last live child of the
root is null.  After the inserts of "abX", "abY", of the key "a" given as the first byte of
the buffer "ab", and of "a\x01", ..., "a\x0f", and the deletes of "a\x01", ..., "a\x0f",
`art_iter` visits the key "a" and `art_maximum` returns null. -/
theorem C26_maximum_null_on_nonempty_trie :
    (art_pairs trie_one_slot = [([97, 0], 2)] ∧
     (art_minimum trie_one_slot).map (fun l => l.key) = some [97, 0] ∧
     (art_maximum trie_one_slot).map (fun l => l.key) = none) ∧
    (art_pairs trie_dup_one_slot = [([97], 3)] ∧
     (art_minimum trie_dup_one_slot).map (fun l => l.key) = some [97] ∧
     (art_maximum trie_dup_one_slot).map (fun l => l.key) = none) := by
  refine ⟨?_, ?_⟩ <;> decide

/-! ## Iteration over the empty prefix -/

theorem leaf_prefix_matches_zero (l : art_leaf) (key : Nat → Nat) :
    leaf_prefix_matches l key 0 = 0 := by
  unfold leaf_prefix_matches
  simp

theorem reach_minimum {simd : Bool} {B : Nat} {t : art_tree} {M : List (List Nat × Nat)}
    (hr : ReachT simd B t M) : t.root = Node.null ∨ ∃ l, minimum t.root = some l := by
  rcases (reach_inv simd false (by intro e; cases e) hr).1.1 with h | h
  · exact Or.inl h
  · obtain ⟨l, hl, _⟩ := minimum_mem h
    exact Or.inr ⟨l, hl⟩

/-- C27 (amended): `art_iter_prefix` with a prefix of length 0 returns, with the same
callback sequence and the same result as `art_iter`, for every callback, on every trie
reached by calls with keys that can be filed (at an insert neither the key nor a stored key,
followed by a zero byte, is a prefix of the other; at every call the byte behind the key in
the buffer is zero when at least two stored keys start with the key), and on every trie
whose root is null or has a leftmost leaf (`minimum` finds a leaf under it). -/
theorem C27_empty_prefix_iterates_all (simd : Bool) (t : art_tree) (key : Nat → Nat)
    (σ : Type) (cb : art_callback σ) (data : σ)
    (h : (∃ M, ReachT simd 256 t M) ∨ t.root = Node.null ∨ ∃ l, minimum t.root = some l) :
    art_iter_prefix simd t key 0 cb data = some (art_iter t cb data) := by
  have h2 : t.root = Node.null ∨ ∃ l, minimum t.root = some l := by
    rcases h with ⟨M, hr⟩ | h
    · exact reach_minimum hr
    · exact h
  unfold art_iter_prefix art_iter
  cases hroot : t.root with
  | null => simp [art_iter_prefix_loop, recursive_iter]
  | leaf l =>
    rw [art_iter_prefix_loop, if_pos (leaf_prefix_matches_zero l key), recursive_iter]
  | inner n keys children =>
    rw [hroot] at h2
    rcases h2 with h2 | ⟨l, hl⟩
    · cases h2
    · rw [iter_prefix_end_cb simd key 0 n keys children 0 cb data l rfl hl,
        if_pos (leaf_prefix_matches_zero l key)]

/-- C27 at a concrete input: the trie holding "abc" and "abd". -/
theorem C27_empty_prefix_iterates_all_witness :
    art_iter_prefix false trie_abd (buf []) 0 collect []
      = some (art_iter trie_abd collect []) ∧
    (art_iter trie_abd collect []).2 = [([97, 98, 99], 1), ([97, 98, 100], 2)] :=
  ⟨C27_empty_prefix_iterates_all false trie_abd (buf []) _ collect []
    (Or.inl ⟨_, reach_abd⟩), by decide⟩

set_option smartUnfolding false in
set_option maxRecDepth 1000000 in
/-- C27 (as written) fails: after the inserts of "a", "a\0", "a\x01", ..., "a\x0f", the
deletes of "a\x01", ..., "a\x0f", the insert of "ab" and the delete of "a\0", the root is a
4-way node whose first child is null. `art_iter` returns 0 after visiting "ab";
`art_iter_prefix` with the empty prefix asks `minimum` for the leftmost leaf, gets null,
and does not return: it reads the key of that leaf. -/
theorem C27_empty_prefix_visits_nothing :
    (inner_nodes trie_null_first.root).map
      (fun x => (x.n.type, x.n.num_children, (List.range 2).map (fun i => (x.children i).isNull)))
      = [(NODE4, 2, [true, false])] ∧
    art_iter trie_null_first collect [] = (0, [([97, 98], 40)]) ∧
    (art_minimum trie_null_first).map (fun l => l.key) = none ∧
    art_iter_prefix false trie_null_first (buf []) 0 collect [] = none := by
  decide

/-! ## The two builds of the 16-way node -/

theorem find_child_builds_agree {ord : Bool} (x : Inner) (h : Shape ord x) (c : Nat)
    (hc : c < 256) : find_child true x c = find_child false x c := by
  cases hf : find_child false x c with
  | none =>
    exact (find_child_none true ord x h c hc).2 ((find_child_none false ord x h c hc).1 hf)
  | some s =>
    exact (find_child_iff true ord x h c hc s).2 ((find_child_iff false ord x h c hc s).1 hf)

set_option smartUnfolding false in
set_option maxRecDepth 1000000 in
/-- C28 fails on the code: the two builds of `find_child` agree on every well-formed node,
but on the 16-way node with the ascending keys 1, 2, 3, 200, 201 and the new byte 100 the
scalar `add_child16` inserts at index 3 and keeps the keys ascending, while the SSE2 build,
whose comparison is signed, finds no larger key and appends at index 5. The same happens
through `art_insert` of the keys 1, 2, 200, 201, 100. -/
theorem C28_simd_insert_index_differs :
    (∀ (x : Inner) (c : Nat), Shape true x → c < 256 →
      find_child true x c = find_child false x c) ∧
    (node16_high.n.type, node16_high.n.num_children,
      (List.range 5).map node16_high.keys) = (NODE16, 5, [1, 2, 3, 200, 201]) ∧
    (List.range 6).map
      (add_child16 false node16_high 100 (Node.leaf (make_leaf (buf [100]) 1 6))).keys
      = [1, 2, 3, 100, 200, 201] ∧
    (List.range 6).map
      (add_child16 true node16_high 100 (Node.leaf (make_leaf (buf [100]) 1 6))).keys
      = [1, 2, 3, 200, 201, 100] ∧
    (inner_nodes (trie_of false [[1], [2], [200], [201], [100]]).root).map
      (fun x => (x.n.type, (List.range x.n.num_children).map x.keys))
      = [(NODE16, [1, 2, 100, 200, 201])] ∧
    (inner_nodes (trie_of true [[1], [2], [200], [201], [100]]).root).map
      (fun x => (x.n.type, (List.range x.n.num_children).map x.keys))
      = [(NODE16, [1, 2, 200, 201, 100])] := by
  refine ⟨fun x c h hc => find_child_builds_agree x h c hc, ?_, ?_, ?_, ?_, ?_⟩ <;> decide

/-! ## `prefix_mismatch` beyond the cached bytes -/

/-- C29 (amended): for an inner node at depth `depth` that has a leftmost leaf (`minimum`
finds a leaf below it) and whose true prefix is `P` (of length `partial_len`, cached in
`partial` up to 10 bytes and carried by that leaf at `key[depth ..]`), if the key and `P`
first differ at an index `i < partial_len` with `depth + i < key_len`, then
`prefix_mismatch` returns `i`, whether `i` is below 10 or not; and if the key has all of `P`
at `depth`, the result is at least `partial_len`. -/
theorem C29_prefix_mismatch_beyond_cache (x : Inner) (key : Nat → Nat) (key_len depth : Nat)
    (P : List Nat) (L : art_leaf)
    (hP : P.length = x.n.partial_len)
    (hcache : ∀ i, i < MAX_PREFIX_LEN → i < P.length → x.n.partial_ i = P.getD i 0)
    (hmin : minimum x.toNode = some L)
    (hLlen : depth + P.length ≤ L.key_len)
    (hL : ∀ i, i < P.length → L.byte (depth + i) = P.getD i 0) :
    (∀ i, i < x.n.partial_len → depth + i < key_len →
      (∀ j, j < i → key (depth + j) = P.getD j 0) → key (depth + i) ≠ P.getD i 0 →
      prefix_mismatch x key key_len depth = i) ∧
    (depth + x.n.partial_len ≤ key_len →
      (∀ j, j < x.n.partial_len → key (depth + j) = P.getD j 0) →
      x.n.partial_len ≤ prefix_mismatch x key key_len depth) := by
  constructor
  · intro i hi hik hbefore hne
    obtain ⟨pa, pb⟩ := prefix_mismatch_spec x key key_len depth P L hmin hL hLlen hP hcache
      (by omega)
    rcases Nat.lt_trichotomy (prefix_mismatch x key key_len depth) i with c | c | c
    · rcases pb (by omega) with e | ⟨_, e⟩
      · omega
      · exact absurd (hbefore _ c) e
    · exact c
    · exact absurd (pa i c hi).2 hne
  · intro hlen hall
    obtain ⟨_, pb⟩ := prefix_mismatch_spec x key key_len depth P L hmin hL hLlen hP hcache
      (by omega)
    by_contra hlt
    rcases pb (by omega) with e | ⟨_, e⟩
    · omega
    · exact absurd (hall _ (by omega)) e

/-- C29 at a concrete input: the node with the prefix 1, ..., 12; a key that has 99 at
index 11 gives 11, beyond the ten cached bytes, and a key that starts with the twelve bytes
gives at least 12. -/
theorem C29_prefix_mismatch_beyond_cache_witness :
    node_long.n.partial_len = 12 ∧
    prefix_mismatch node_long (buf [1, 2, 3, 4, 5, 6, 7, 8, 9, 10, 11, 99]) 12 0 = 11 ∧
    node_long.n.partial_len ≤ prefix_mismatch node_long (buf (bytes12 ++ [7])) 13 0 :=
  ⟨by decide,
   (C29_prefix_mismatch_beyond_cache node_long (buf [1, 2, 3, 4, 5, 6, 7, 8, 9, 10, 11, 99]) 12 0
      bytes12 ⟨1, bytes12 ++ [1] ++ bytes11 ++ [1]⟩ (by decide) (by decide) (by decide)
      (by decide) (by decide)).1 11 (by decide) (by decide) (by decide) (by decide),
   (C29_prefix_mismatch_beyond_cache node_long (buf (bytes12 ++ [7])) 13 0
      bytes12 ⟨1, bytes12 ++ [1] ++ bytes11 ++ [1]⟩ (by decide) (by decide) (by decide)
      (by decide) (by decide)).2 (by decide) (by decide)⟩

set_option smartUnfolding false in
set_option maxRecDepth 1000000 in
/-- C29 (as written) fails on a node without a leftmost leaf.  The root of `trie_null_long`
is a 4-way node at depth 0 with `partial_len = 12` whose first child is null, so that
`minimum` returns null; its only leaf carries the prefix `P = bytes_q ++ "a"`, of which the
node caches the first ten bytes.  The key `bytes_q ++ "c"` of length 12 has the ten cached
bytes and first differs from `P` at index 11: `prefix_mismatch` finds no mismatch in the
cache and has no leaf to read the bytes behind it from. -/
theorem C29_no_leaf_behind_the_cache :
    (node_null_long.n.type, node_null_long.n.num_children, node_null_long.n.partial_len)
      = (NODE4, 2, 12) ∧
    (node_null_long.children 0).isNull = true ∧
    (minimum node_null_long.toNode).map (fun l => l.key) = none ∧
    leaves node_null_long.toNode = [(bytes_q ++ [97, 98], 40)] ∧
    (List.range 10).map node_null_long.n.partial_ = (bytes_q ++ [97]).take 10 ∧
    (bytes_q ++ [99]).take 11 = (bytes_q ++ [97]).take 11 ∧
    (bytes_q ++ [99]).getD 11 0 ≠ (bytes_q ++ [97]).getD 11 0 := by
  refine ⟨?_, ?_, ?_, ?_, ?_, ?_, ?_⟩ <;> decide

/-! ## Counting inserted keys and deletes -/

/-- C6 (as written) fails in three ways.  After the insert of "a", its delete and its insert
again the size is 1, while one distinct key has been inserted and one delete has succeeded.
After `art_insert` of "abc" and then twice of the key "ab", given as the first two bytes of
the buffer "abc", with no delete, two distinct keys have been inserted and the size is 3.
After `art_insert` of "a" and then twice of the key "a" followed by a zero byte, two
distinct keys have been inserted and the size is 3. -/
theorem C6_size_exceeds_distinct_keys :
    (art_size (run false [Op.insert (buf [97]) 1 1, Op.delete (buf [97]) 1,
        Op.insert (buf [97]) 1 1]).1 = 1 ∧
     (inserted_keys [Op.insert (buf [97]) 1 1, Op.delete (buf [97]) 1,
        Op.insert (buf [97]) 1 1]).length = 1 ∧
     successful_deletes false [Op.insert (buf [97]) 1 1, Op.delete (buf [97]) 1,
        Op.insert (buf [97]) 1 1] = 1) ∧
    (art_size (run false [Op.insert (buf [97, 98, 99]) 3 1, Op.insert (buf [97, 98, 99]) 2 7,
        Op.insert (buf [97, 98, 99]) 2 9]).1 = 3 ∧
     (inserted_keys [Op.insert (buf [97, 98, 99]) 3 1, Op.insert (buf [97, 98, 99]) 2 7,
        Op.insert (buf [97, 98, 99]) 2 9]).length = 2 ∧
     successful_deletes false [Op.insert (buf [97, 98, 99]) 3 1,
        Op.insert (buf [97, 98, 99]) 2 7, Op.insert (buf [97, 98, 99]) 2 9] = 0) ∧
    (art_size (run false [Op.insert (buf [97]) 1 1, Op.insert (buf [97, 0]) 2 2,
        Op.insert (buf [97, 0]) 2 9]).1 = 3 ∧
     (inserted_keys [Op.insert (buf [97]) 1 1, Op.insert (buf [97, 0]) 2 2,
        Op.insert (buf [97, 0]) 2 9]).length = 2 ∧
     successful_deletes false [Op.insert (buf [97]) 1 1, Op.insert (buf [97, 0]) 2 2,
        Op.insert (buf [97, 0]) 2 9] = 0) := by
  refine ⟨?_, ?_, ?_⟩ <;> decide

end Art
